import Mathlib

/-! # A verification development for `class_SuffixTree26.cpp`

The C++ class `SuffixTree26` builds a compressed trie of all suffixes of a
text over `'a'..'z'` with a McCreight style construction (slow scan
`proceed`, edge split and leaf attachment `insert`, rescan through suffix
links `proceed_suf`) and answers suffix queries with `find_suffix`.

The embedding is shallow.  The heap of `node_t` objects is a list, a
pointer is an index into it, a nullable pointer is an `Option Nat`, and the
C++ `int`s are integers.  Every array access and every dereference is
checked: an execution that would leave defined behaviour yields a `Fault`.
-/

/-- The ways an execution can go wrong.  `nullDeref` and `outOfRange` are
undefined behaviour of the C++ program, `fuel` says that a loop of the model
was cut off before the program's loop ended. -/
inductive Fault where
  | nullDeref
  | outOfRange
  | fuel
  deriving DecidableEq, Repr

/-- The node record `node_t`.  `childs` stands for `array<node_t*, 26>`; the
range of an index is checked by `slot` before every access. -/
structure node_t where
  l : Int
  r : Int
  childs : Nat → Option Nat
  dep : Int
  parent : Option Nat
  cnt : Int
  suf : Option Nat

instance : Inhabited node_t := ⟨⟨0, 0, fun _ => none, 0, none, 0, none⟩⟩

/-- The object state of the class together with the heap of its nodes. -/
structure SuffixTree26 where
  n : Int
  s : List Char
  root : Nat
  sufnodes : List (Option Nat)
  heap : List node_t

namespace SuffixTree26

/-- The text character `s[i]`; an index outside `0..n-1` is a fault. -/
def charAt (s : List Char) (i : Int) : Except Fault Char :=
  if 0 ≤ i then
    match s[i.toNat]? with
    | some c => .ok c
    | none => .error .outOfRange
  else .error .outOfRange

/-- The child index `c - base` with `base = 'a'`; a value outside `0..25`
is a fault. -/
def slot (c : Char) : Except Fault Nat :=
  if 97 ≤ c.toNat ∧ c.toNat < 123 then .ok (c.toNat - 97) else .error .outOfRange

/-- Dereference of a pointer. -/
def deref (T : SuffixTree26) (p : Option Nat) : Except Fault node_t :=
  match p with
  | none => .error .nullDeref
  | some a =>
    match T.heap[a]? with
    | some x => .ok x
    | none => .error .nullDeref

/-- Assignment through a pointer: the node at `a` becomes `f` of itself. -/
def modify (T : SuffixTree26) (a : Nat) (f : node_t → node_t) : Except Fault SuffixTree26 :=
  match T.heap[a]? with
  | some x => .ok { T with heap := T.heap.set a (f x) }
  | none => .error .nullDeref

/-- The expression `new node_t{...}`: the new node is put at the end of the heap. -/
def alloc (T : SuffixTree26) (x : node_t) : SuffixTree26 × Nat :=
  ({ T with heap := T.heap ++ [x] }, T.heap.length)

/-- The assignment `sufnodes[d] = p`. -/
def setSufnode (T : SuffixTree26) (d : Int) (p : Nat) : Except Fault SuffixTree26 :=
  if 0 ≤ d ∧ d.toNat < T.sufnodes.length then
    .ok { T with sufnodes := T.sufnodes.set d.toNat (some p) }
  else .error .outOfRange

/-- Writes `w` into entry `x` of a child array. -/
def setChild (x : Nat) (w : Nat) (v : node_t) : node_t :=
  { v with childs := fun y => if y = x then some w else v.childs y }

/-- The slow scan `proceed(cur, k, i)`; the result is the returned node with
the final values of the reference parameters `k` and `i`.  The recursion of
the source is bounded by the first argument. -/
def proceed (T : SuffixTree26) : Nat → Nat → Int → Int → Except Fault (Nat × Int × Int)
  | 0, _, _, _ => .error .fuel
  | fuel + 1, cur, k, i =>
    if i = T.n then .ok (cur, k, i)
    else do
      let c ← T.deref (some cur)
      if k = c.r - c.l then do
        let x ← slot (← charAt T.s i)
        match c.childs x with
        | none => .ok (cur, k, i)
        | some w => proceed T fuel w 1 (i + 1)
      else do
        let a ← charAt T.s (c.l + k)
        let b ← charAt T.s i
        if a ≠ b then .ok (cur, k, i)
        else proceed T fuel cur (k + 1) (i + 1)

/-- The first half of `insert`: when `k` lies inside the edge of `cur` the
edge is split by a new node `branch`, which becomes the current node. -/
def split (T : SuffixTree26) (cur : Nat) (k : Int) : Except Fault (SuffixTree26 × Nat) := do
  let c ← T.deref (some cur)
  if k < c.r - c.l then do
    let p ← T.deref c.parent
    let (T1, branch) :=
      T.alloc { l := c.l, r := c.l + k, childs := fun _ => none, dep := p.dep + k,
                parent := c.parent, cnt := 0, suf := none }
    let x ← slot (← charAt T.s (c.l + k))
    let T2 ← T1.modify branch (setChild x cur)
    let b ← T2.deref (some branch)
    let bp ← match b.parent with
      | some q => pure q
      | none => .error .nullDeref
    let c1 ← T2.deref (some cur)
    let y ← slot (← charAt T.s c1.l)
    let T3 ← T2.modify bp (setChild y branch)
    let T4 ← T3.modify cur (fun v => { v with l := v.l + k })
    let T5 ← T4.modify cur (fun v => { v with parent := some branch })
    pure (T5, branch)
  else pure (T, cur)

/-- The second half of `insert`: a new leaf for the rest of the text, or one
more occurrence counted at the current node when no text is left. -/
def attach (T : SuffixTree26) (cur : Nat) (i : Int) : Except Fault SuffixTree26 := do
  if i < T.n then do
    let c ← T.deref (some cur)
    let (T1, leaf) :=
      T.alloc { l := i, r := T.n, childs := fun _ => none, dep := c.dep + T.n - i,
                parent := some cur, cnt := 1, suf := none }
    let x ← slot (← charAt T.s i)
    let T2 ← T1.modify cur (setChild x leaf)
    let lf ← T2.deref (some leaf)
    T2.setSufnode lf.dep leaf
  else do
    let T1 ← T.modify cur (fun v => { v with cnt := v.cnt + 1 })
    let c ← T1.deref (some cur)
    T1.setSufnode c.dep cur

/-- The function `insert(cur, k, i)`; it returns the node the suffix was
inserted at. -/
def insert (T : SuffixTree26) (cur : Nat) (k i : Int) : Except Fault (SuffixTree26 × Nat) := do
  let (T1, cur1) ← T.split cur k
  let T2 ← T1.attach cur1 i
  pure (T2, cur1)

/-- The `while` loop of `proceed_suf`, bounded by the first argument. -/
def proceed_suf_loop (T : SuffixTree26) (pre : node_t) :
    Nat → Nat → Int → Int → Except Fault (Nat × Int)
  | 0, _, _, _ => .error .fuel
  | fuel + 1, cur, k, j =>
    if j < pre.r - pre.l then do
      let c ← T.deref (some cur)
      let x ← slot (← charAt T.s (pre.l + j))
      match c.childs x with
      | none => .error .nullDeref
      | some cur1 => do
        let w ← T.deref (some cur1)
        let k1 := pre.r - pre.l - j
        if k1 > w.r - w.l then proceed_suf_loop T pre fuel cur1 k1 (j + (w.r - w.l))
        else .ok (cur1, k1)
    else .ok (cur, k)

/-- The rescan `proceed_suf(pre, k)`; the result is the returned node with
the final value of the reference parameter `k`. -/
def proceed_suf (T : SuffixTree26) (fuel : Nat) (pre : Nat) (k : Int) :
    Except Fault (Nat × Int) :=
  if pre = T.root then .ok (T.root, k)
  else do
    let p ← T.deref (some pre)
    let (cur, j) ←
      if p.parent = some T.root then pure (T.root, (1 : Int))
      else do
        let pp ← T.deref p.parent
        match pp.suf with
        | some q => pure (q, (0 : Int))
        | none => .error .nullDeref
    let c ← T.deref (some cur)
    proceed_suf_loop T p fuel cur (c.r - c.l) j

/-- The local variables of `construct`. -/
structure Vars where
  cur : Nat
  pre : Option Nat
  k : Int
  i : Int

/-- The loop condition `i != n || cur != root` of `construct`. -/
def cond (T : SuffixTree26) (v : Vars) : Bool :=
  decide (v.i ≠ T.n) || decide (v.cur ≠ T.root)

/-- One execution of the body of the `while` loop of `construct`. -/
def body (T : SuffixTree26) (v : Vars) : Except Fault (SuffixTree26 × Vars) := do
  let (cur1, k1, i1) ← T.proceed (T.s.length + 1) v.cur v.k v.i
  let (T1, cur2) ← T.insert cur1 k1 i1
  let T2 ← match v.pre with
    | some p => T1.modify p (fun x => { x with suf := some cur2 })
    | none => pure T1
  let pre := cur2
  let i2 := if pre = T2.root then i1 + 1 else i1
  let (cur3, k3) ← T2.proceed_suf (T.s.length + 1) pre k1
  let c ← T2.deref (some cur3)
  if k3 = c.r - c.l then do
    let T3 ← T2.modify pre (fun x => { x with suf := some cur3 })
    pure (T3, { cur := cur3, pre := none, k := k3, i := i2 })
  else pure (T2, { cur := cur3, pre := some pre, k := k3, i := i2 })

/-- The body of the loop executed `j` times in a row. -/
def steps : Nat → SuffixTree26 × Vars → Except Fault (SuffixTree26 × Vars)
  | 0, st => .ok st
  | j + 1, st => do
    let st1 ← steps j st
    body st1.1 st1.2

/-- The `while` loop of `construct`, bounded by the first argument. -/
def loop : Nat → SuffixTree26 × Vars → Except Fault (SuffixTree26 × Vars)
  | 0, st => if cond st.1 st.2 then .error .fuel else .ok st
  | fuel + 1, st =>
    if cond st.1 st.2 then do
      let st1 ← body st.1 st.2
      loop fuel st1
    else .ok st

/-- The state of `construct` when its loop is entered: `root->suf = root`
and `sufnodes[0] = root` have been executed. -/
def enter (T : SuffixTree26) : Except Fault (SuffixTree26 × Vars) := do
  let T1 ← T.modify T.root (fun x => { x with suf := some T.root })
  let T2 ← T1.setSufnode 0 T1.root
  pure (T2, { cur := T.root, pre := none, k := 0, i := 0 })

/-- The function `construct()`. -/
def construct (T : SuffixTree26) : Except Fault SuffixTree26 := do
  let st ← T.enter
  let st1 ← loop T.s.length st
  pure st1.1

/-- The object before `construct` is called: a root node with `cnt = 1` and
`n + 1` null entries in `sufnodes`. -/
def fresh (s : List Char) : SuffixTree26 :=
  { n := s.length, s := s, root := 0,
    sufnodes := List.replicate (s.length + 1) none,
    heap := [{ l := 0, r := 0, childs := fun _ => none, dep := 0, parent := none,
               cnt := 1, suf := none }] }

/-- The constructor `SuffixTree26(const string &s)`. -/
def new (s : List Char) : Except Fault SuffixTree26 :=
  (fresh s).construct

/-- Modelled from the spec: the macro `Loop(i, t.length())`, whose definition
is not in the source file.  The query "walks from the root, consuming `t` one
character at a time", so the body runs once for each character of `t`, in
order; the body either goes on with a new state or returns a value. -/
def Loop {σ β : Type} (body : Char → σ → Except Fault (σ ⊕ β)) :
    List Char → σ → Except Fault (σ ⊕ β)
  | [], st => .ok (.inl st)
  | c :: t, st =>
    match body c st with
    | .error e => .error e
    | .ok (.inr b) => .ok (.inr b)
    | .ok (.inl st1) => Loop body t st1

/-- The body of the loop of `find_suffix` for the character `t[i] = c`; the
state is the pair of the locals `a` and `k`. -/
def find_suffix_body (T : SuffixTree26) (c : Char) (st : Nat × Int) :
    Except Fault ((Nat × Int) ⊕ Bool) := do
  let A ← T.deref (some st.1)
  if st.2 = A.r - A.l then do
    let x ← slot c
    match A.childs x with
    | none => pure (.inr false)
    | some a1 =>
      let A1 ← T.deref (some a1)
      let d ← charAt T.s (A1.l + 0)
      if c = d then pure (.inl (a1, 0 + 1)) else pure (.inr false)
  else do
    let d ← charAt T.s (A.l + st.2)
    if c = d then pure (.inl (st.1, st.2 + 1)) else pure (.inr false)

/-- The query `find_suffix(t)`. -/
def find_suffix (T : SuffixTree26) (t : List Char) : Except Fault Bool := do
  match ← Loop T.find_suffix_body t (T.root, (0 : Int)) with
  | .inr b => pure b
  | .inl (a, k) =>
    let A ← T.deref (some a)
    if k = A.r - A.l then pure (decide (A.cnt ≠ 0)) else pure false

/-! ## Total accessors and the invariants of the construction -/

/-- The node at index `v` of the heap. -/
def nd (T : SuffixTree26) (v : Nat) : node_t := T.heap.getD v default

/-- The character of the text at position `x`. -/
def tc (s : List Char) (x : Int) : Char := s.getD x.toNat default

/-- The child index of a character. -/
def sl (c : Char) : Nat := c.toNat - 97

/-- A character of the alphabet `'a'..'z'`. -/
def lower (c : Char) : Prop := 97 ≤ c.toNat ∧ c.toNat < 123

instance (c : Char) : Decidable (lower c) := by unfold lower; infer_instance

/-- The pieces `s[a, a+d)` and `s[b, b+d)` of the text are equal. -/
def Agree (s : List Char) (a b d : Int) : Prop :=
  ∀ t : Int, 0 ≤ t → t < d → tc s (a + t) = tc s (b + t)

/-- The node `u` is `v` or lies on the parent chain of `v`. -/
inductive Anc (T : SuffixTree26) (u : Nat) : Nat → Prop
  | refl : Anc T u u
  | step {v p : Nat} : (nd T v).parent = some p → Anc T u p → Anc T u v

/-- What the invariant says about a node `v` other than the root and its parent `p`. -/
structure NodeOK (T : SuffixTree26) (j : Int) (v p : Nat) : Prop where
  par : (nd T v).parent = some p
  p_lt : p < T.heap.length
  l_nonneg : 0 ≤ (nd T v).l
  l_lt_r : (nd T v).l < (nd T v).r
  r_le : (nd T v).r ≤ T.n
  dep_eq : (nd T v).dep = (nd T p).dep + ((nd T v).r - (nd T v).l)
  reg : (nd T p).childs (sl (tc T.s (nd T v).l)) = some v
  agree : Agree T.s ((nd T v).r - (nd T v).dep) ((nd T p).r - (nd T p).dep) (nd T p).dep
  start_lt : (nd T v).r - (nd T v).dep < j
  start_nonneg : 0 ≤ (nd T v).r - (nd T v).dep

/-- What the invariant says about the node `e` that ends the suffix `s[m, n)`. -/
structure EndOK (T : SuffixTree26) (m : Int) (e : Nat) : Prop where
  recd : T.sufnodes[(T.n - m).toNat]? = some (some e)
  e_lt : e < T.heap.length
  dep_eq : (nd T e).dep = T.n - m
  agree : Agree T.s ((nd T e).r - (nd T e).dep) m (T.n - m)
  top : ∀ u, u < T.heap.length → (nd T u).dep ≤ T.n - m →
    Agree T.s ((nd T u).r - (nd T u).dep) m (nd T u).dep → Anc T u e

/-- The tree invariant when the suffixes `s[m, n)` with `m < j` have been inserted. -/
structure WF (T : SuffixTree26) (j : Int) : Prop where
  n_eq : T.n = T.s.length
  low : ∀ c ∈ T.s, lower c
  root0 : T.root = 0
  size_pos : 0 < T.heap.length
  sufn_len : T.sufnodes.length = T.s.length + 1
  j_nonneg : 0 ≤ j
  j_le : j ≤ T.n
  root_l : (nd T 0).l = 0
  root_r : (nd T 0).r = 0
  root_dep : (nd T 0).dep = 0
  root_par : (nd T 0).parent = none
  root_cnt : (nd T 0).cnt = 1
  root_suf : (nd T 0).suf = some 0
  suf0 : T.sufnodes[0]? = some (some 0)
  node : ∀ v, v < T.heap.length → v ≠ 0 → ∃ p, NodeOK T j v p
  dep_nonneg : ∀ v, v < T.heap.length → 0 ≤ (nd T v).dep
  child : ∀ v, v < T.heap.length → ∀ x w, (nd T v).childs x = some w →
    w < T.heap.length ∧ (nd T w).parent = some v ∧ sl (tc T.s (nd T w).l) = x
  inner : ∀ v, v < T.heap.length → v ≠ 0 → (nd T v).r < T.n →
    ∃ x w, (nd T v).childs x = some w
  cnt01 : ∀ v, v < T.heap.length → v ≠ 0 → (nd T v).cnt = 0 ∨ (nd T v).cnt = 1
  cnt1 : ∀ v, v < T.heap.length → v ≠ 0 → ((nd T v).cnt = 1 ↔
    (T.n - (nd T v).dep < j ∧
      Agree T.s ((nd T v).r - (nd T v).dep) (T.n - (nd T v).dep) (nd T v).dep))
  ends : ∀ m : Int, 0 ≤ m → m < j → ∃ e, EndOK T m e
  total : (T.heap.map (fun x => x.cnt)).sum = 1 + j

/-- The suffix link of a node with string `c·α` points to the node with
string `α`. -/
structure LinkOK (T : SuffixTree26) (v q : Nat) : Prop where
  suf : (nd T v).suf = some q
  q_lt : q < T.heap.length
  dep_eq : (nd T q).dep + 1 = (nd T v).dep
  agree : Agree T.s ((nd T q).r - (nd T q).dep) ((nd T v).r - (nd T v).dep + 1) (nd T q).dep

/-- Every node with a child, the root and the nodes in `P` apart, has its
suffix link. -/
def Links (T : SuffixTree26) (P : Nat → Prop) : Prop :=
  ∀ v, v < T.heap.length → v ≠ 0 → (∃ x w, (nd T v).childs x = some w) → ¬ P v →
    ∃ q, LinkOK T v q

/-- A position `(c, k)`: the root with `k = 0`, or `k` characters into the
edge that leads to the node `c`. -/
def Pos (T : SuffixTree26) (c : Nat) (k : Int) : Prop :=
  c < T.heap.length ∧
    ((c = 0 ∧ k = 0) ∨ (c ≠ 0 ∧ 0 < k ∧ k ≤ (nd T c).r - (nd T c).l))

/-- The reason for which the slow scan stops at `(c, k)` with text cursor `i`. -/
def Stop (T : SuffixTree26) (c : Nat) (k i : Int) : Prop :=
  i = T.n ∨
    (k = (nd T c).r - (nd T c).l ∧ (nd T c).childs (sl (tc T.s i)) = none) ∨
    (k < (nd T c).r - (nd T c).l ∧ tc T.s ((nd T c).l + k) ≠ tc T.s i)

/-- What is known about a node `p` whose suffix link is still to be set when
the loop of `construct` is entered for the suffix `j`. -/
structure PendOK (T : SuffixTree26) (v : Vars) (j : Int) (p : Nat) : Prop where
  p_lt : p < T.heap.length
  p_ne : p ≠ 0
  inside : v.k < (nd T v.cur).r - (nd T v.cur).l
  dep_eq : (nd T p).dep = v.i - j + 1
  agree : Agree T.s ((nd T p).r - (nd T p).dep + 1) j (v.i - j)
  other : v.i = T.n ∨ ∃ m : Int, 0 ≤ m ∧ m < j ∧ Agree T.s m j (v.i - j) ∧
    m + (v.i - j) < T.n ∧ tc T.s (m + (v.i - j)) ≠ tc T.s v.i

/-- The invariant of the loop of `construct` after `j` iterations. -/
structure LI (T : SuffixTree26) (v : Vars) (j : Int) : Prop where
  wf : WF T j
  pos : Pos T v.cur v.k
  i_eq : v.i = j + ((nd T v.cur).dep - ((nd T v.cur).r - (nd T v.cur).l) + v.k)
  i_le : v.i ≤ T.n
  agree : Agree T.s ((nd T v.cur).r - (nd T v.cur).dep) j (v.i - j)
  links : Links T (fun x => v.pre = some x)
  pend : ∀ p, v.pre = some p → PendOK T v j p

/-- The position `(c, k)` spells `s[j, i)`. -/
structure At (T : SuffixTree26) (j : Int) (c : Nat) (k i : Int) : Prop where
  pos : Pos T c k
  i_eq : i = j + ((nd T c).dep - ((nd T c).r - (nd T c).l) + k)
  i_le : i ≤ T.n
  agree : Agree T.s ((nd T c).r - (nd T c).dep) j (i - j)

/-- The outcome of a split of the edge to `c` at offset `k`, as a relation
between the tree before and the tree after. -/
structure SplitOK (T T1 : SuffixTree26) (c pp : Nat) (k : Int) : Prop where
  len : T1.heap.length = T.heap.length + 1
  n_eq : T1.n = T.n
  s_eq : T1.s = T.s
  root_eq : T1.root = T.root
  sufn_eq : T1.sufnodes = T.sufnodes
  at_c : nd T1 c = { nd T c with l := (nd T c).l + k, parent := some T.heap.length }
  at_pp : nd T1 pp = setChild (sl (tc T.s (nd T c).l)) T.heap.length (nd T pp)
  at_b : nd T1 T.heap.length =
    { l := (nd T c).l, r := (nd T c).l + k,
      childs := fun y => if y = sl (tc T.s ((nd T c).l + k)) then some c else none,
      dep := (nd T pp).dep + k, parent := some pp, cnt := 0, suf := none }
  other : ∀ v, v ≠ c → v ≠ pp → v ≠ T.heap.length → nd T1 v = nd T v

/-! ## The invariant survives a split -/

/-- The hypotheses under which an edge is split. -/
structure SplitPre (T : SuffixTree26) (j : Int) (c pp : Nat) (k : Int) : Prop where
  wf : WF T j
  c_lt : c < T.heap.length
  c_ne : c ≠ 0
  par : NodeOK T j c pp
  k_pos : 0 < k
  k_lt : k < (nd T c).r - (nd T c).l

/-- The node `c` spells `s[j, i)`, the longest piece of the suffix `j` that
is in the tree. -/
structure Head (T : SuffixTree26) (j : Int) (c : Nat) (i : Int) : Prop where
  lt : c < T.heap.length
  dep_eq : (nd T c).dep = i - j
  i_le : i ≤ T.n
  agree : Agree T.s ((nd T c).r - (nd T c).dep) j (i - j)
  top : ∀ u, u < T.heap.length → (nd T u).dep ≤ T.n - j →
    Agree T.s ((nd T u).r - (nd T u).dep) j (nd T u).dep → Anc T u c
  deep : i < T.n → ∀ u, u < T.heap.length → i - j < (nd T u).dep →
    ¬ Agree T.s ((nd T u).r - (nd T u).dep) j (i - j + 1)
  free : i = T.n ∨ (nd T c).childs (sl (tc T.s i)) = none
  other : c = 0 ∨ i = T.n ∨
    ∃ x w, (nd T c).childs x = some w ∧ tc T.s (nd T w).l ≠ tc T.s i

/-- What a step of the construction keeps of the nodes that exist already. -/
structure Keeps (T T1 : SuffixTree26) : Prop where
  len_le : T.heap.length ≤ T1.heap.length
  n_eq : T1.n = T.n
  s_eq : T1.s = T.s
  root_eq : T1.root = T.root
  dep_eq : ∀ v, v < T.heap.length → (nd T1 v).dep = (nd T v).dep
  r_eq : ∀ v, v < T.heap.length → (nd T1 v).r = (nd T v).r

/-! ## Attaching a leaf, counting an occurrence -/

/-- The outcome of `attach` when text is left: a new leaf under `c`. -/
structure LeafOK (T T1 : SuffixTree26) (c : Nat) (i : Int) : Prop where
  len : T1.heap.length = T.heap.length + 1
  n_eq : T1.n = T.n
  s_eq : T1.s = T.s
  root_eq : T1.root = T.root
  sufn : T1.sufnodes = T.sufnodes.set ((nd T c).dep + T.n - i).toNat (some T.heap.length)
  at_c : nd T1 c = setChild (sl (tc T.s i)) T.heap.length (nd T c)
  at_leaf : nd T1 T.heap.length =
    { l := i, r := T.n, childs := fun _ => none, dep := (nd T c).dep + T.n - i,
      parent := some c, cnt := 1, suf := none }
  other : ∀ v, v ≠ c → v ≠ T.heap.length → nd T1 v = nd T v

/-- The outcome of `attach` when no text is left: one more occurrence at `c`. -/
structure CountOK (T T1 : SuffixTree26) (c : Nat) : Prop where
  len : T1.heap.length = T.heap.length
  n_eq : T1.n = T.n
  s_eq : T1.s = T.s
  root_eq : T1.root = T.root
  sufn : T1.sufnodes = T.sufnodes.set ((nd T c).dep).toNat (some c)
  at_c : nd T1 c = { nd T c with cnt := (nd T c).cnt + 1 }
  other : ∀ v, v ≠ c → nd T1 v = nd T v

/-- The hypotheses of `attach`. -/
structure AttachPre (T : SuffixTree26) (j : Int) (c : Nat) (i : Int) : Prop where
  wf : WF T j
  j_lt : j < T.n
  head : Head T j c i

/-- What `attach` leaves behind for the rest of the loop body. -/
structure Attached (T T1 : SuffixTree26) (j : Int) (c : Nat) (i : Int) : Prop where
  wf : WF T1 (j + 1)
  keeps : Keeps T T1
  suf_eq : ∀ v, v < T.heap.length → (nd T1 v).suf = (nd T v).suf
  childs_eq : ∀ v, v < T.heap.length → v ≠ c → (nd T1 v).childs = (nd T v).childs
  fresh : ∀ v, T.heap.length ≤ v → ∀ x, (nd T1 v).childs x = none

/-! ## Setting a suffix link -/

/-- The tree `T1` is `T` with the suffix link of `a` set to `q`. -/
structure SufSet (T T1 : SuffixTree26) (a q : Nat) : Prop where
  len : T1.heap.length = T.heap.length
  n_eq : T1.n = T.n
  s_eq : T1.s = T.s
  root_eq : T1.root = T.root
  sufn_eq : T1.sufnodes = T.sufnodes
  at_a : nd T1 a = { nd T a with suf := some q }
  other : ∀ v, v ≠ a → nd T1 v = nd T v

/-- The state of an iteration after the insertion and the update of the
pending suffix link: the suffix `j` is in the tree and ends at or below `c1`. -/
structure Mid (T : SuffixTree26) (j : Int) (c1 : Nat) (k i : Int) : Prop where
  wf : WF T (j + 1)
  c_lt : c1 < T.heap.length
  dep_eq : (nd T c1).dep = i - j
  start_lt : c1 ≠ 0 → (nd T c1).r - (nd T c1).dep < j
  i_le : i ≤ T.n
  agree : Agree T.s ((nd T c1).r - (nd T c1).dep) j (i - j)
  links : Links T (fun x => x = c1)
  k0 : c1 = 0 → k = 0
  wit : c1 ≠ 0 → i = T.n ∨ ∃ m : Int, 0 ≤ m ∧ m < j + 1 ∧
    Agree T.s m (j + 1) (i - (j + 1)) ∧ m + (i - (j + 1)) < T.n ∧
    tc T.s (m + (i - (j + 1))) ≠ tc T.s i

/-! ## The whole construction -/

/-- The text is over `'a'..'z'`. -/
def Lower (s : List Char) : Prop := ∀ c ∈ s, lower c

/-- The list `q` is the piece of the text that starts at position `p`. -/
def Reads (s : List Char) (p : Int) (q : List Char) : Prop :=
  ∀ x : Nat, x < q.length → q.getD x default = tc s (p + x)

end SuffixTree26

deriving instance DecidableEq for Except

namespace SuffixTree26

instance (s : List Char) : Decidable (Lower s) := by unfold Lower; infer_instance

/-- The answer of `find_suffix(t)` on the tree built by `SuffixTree26(s)`. -/
def query (s t : List Char) : Except Fault Bool :=
  match SuffixTree26.new s with
  | .ok T => T.find_suffix t
  | .error e => .error e

/-! ## Reachable nodes and the strings they spell -/

/-- The piece `s[a, a+d)` of the text as a list of characters. -/
def seg (s : List Char) (a d : Int) : List Char := (s.drop a.toNat).take d.toNat

/-- The label `s[l, r)` of the edge that leads from the parent of `w` to `w`. -/
def label (T : SuffixTree26) (w : Nat) : List Char :=
  seg T.s (nd T w).l ((nd T w).r - (nd T w).l)

/-- The node `v` is reached from the root through entries `0..25` of the
child arrays, and `str` is the concatenation of the labels of the edges on
the way. -/
inductive Reach (T : SuffixTree26) : Nat → List Char → Prop
  | root : Reach T T.root []
  | child {v w x : Nat} {str : List Char} : Reach T v str → x < 26 →
      (nd T v).childs x = some w → Reach T w (str ++ label T w)

/-! ## Subtree totals of the counts -/

/-- The subtree total of the child in entry `x` of the child array of `v`,
where `g` gives the subtree total of a node; an empty entry adds nothing. -/
def childTotal (T : SuffixTree26) (g : Nat → Int) (v x : Nat) : Int :=
  match (nd T v).childs x with
  | some w => g w
  | none => 0

/-- The subtree total of `v`: the count of `v` plus the subtree totals of
the children in the 26 entries of its child array.  The descent is bounded by
the first argument; a node below that bound adds nothing. -/
def subtotal (T : SuffixTree26) : Nat → Nat → Int
  | 0, _ => 0
  | fuel + 1, v =>
    (nd T v).cnt + ((List.range 26).map (childTotal T (fun w => subtotal T fuel w) v)).sum

/-- The number of suffix starts `i` in `0..n` for which `str` is a prefix of
the suffix `s[i, n)`. -/
def passing (s : List Char) (str : List Char) : Nat :=
  (List.range (s.length + 1)).countP (fun i => decide (str <+: s.drop i))

/-- One if the string of `v` is a prefix of the suffix that starts at `i`,
zero otherwise. -/
def ind (T : SuffixTree26) (v i : Nat) : Int :=
  if seg T.s ((nd T v).r - (nd T v).dep) (nd T v).dep <+: T.s.drop i then 1 else 0

/-! ## Suffix links and string depths of the tree -/

/-- The value of `f` on the tree built by `SuffixTree26(s)`. -/
def field {α : Type} (s : List Char) (f : SuffixTree26 → α) : Except Fault α :=
  match SuffixTree26.new s with
  | .ok T => .ok (f T)
  | .error e => .error e

/-- The value of `f` on the state of `construct` after `j` iterations of its
loop. -/
def stateAt {α : Type} (s : List Char) (j : Nat) (f : SuffixTree26 → Vars → α) :
    Except Fault α :=
  match (fresh s).enter with
  | .ok st =>
    match steps j st with
    | .ok (T, v) => .ok (f T v)
    | .error e => .error e
  | .error e => .error e

/-- The depth of every reachable node is the length of its string, which is
the piece `s[r - dep, r)` of the text; the depth of the root is zero and the
depth of another node is that of its parent plus the length of its label. -/
def DepOK (T : SuffixTree26) : Prop :=
  (nd T T.root).dep = 0 ∧
    ∀ u str, Reach T u str →
      (str.length : Int) = (nd T u).dep ∧
      str = seg T.s ((nd T u).r - (nd T u).dep) (nd T u).dep ∧
      (u ≠ T.root → ∃ p, (nd T u).parent = some p ∧
        (nd T u).dep = (nd T p).dep + ((nd T u).r - (nd T u).l))

/-! ## The query on an arbitrary compressed trie -/

/-- The compressed-trie invariant of a tree: the root is a node with an empty
label, every child `w` of a reachable node in the entry `x` is a node with a
non-empty label `s[l, r)` inside the text whose first symbol has the index
`x`, and the counts are numbers of occurrences. -/
structure Trie (T : SuffixTree26) : Prop where
  root_lt : T.root < T.heap.length
  root_label : (nd T T.root).r - (nd T T.root).l = 0
  child : ∀ v str, Reach T v str → ∀ x w, x < 26 → (nd T v).childs x = some w →
    w < T.heap.length ∧ 0 ≤ (nd T w).l ∧ (nd T w).l < (nd T w).r ∧
      (nd T w).r ≤ T.s.length ∧ slot (tc T.s (nd T w).l) = .ok x
  cnt_nonneg : ∀ v str, Reach T v str → 0 ≤ (nd T v).cnt

/-- The walk of a query stands at `(a, k)` when it has read `q`: at the root
with nothing read, or `k` symbols into the edge that leads to `a`. -/
def Spot (T : SuffixTree26) (a : Nat) (k : Int) (q : List Char) : Prop :=
  (a = T.root ∧ k = 0 ∧ q = []) ∨
    ∃ v str x, Reach T v str ∧ x < 26 ∧ (nd T v).childs x = some a ∧ 0 < k ∧
      k ≤ (nd T a).r - (nd T a).l ∧ q = str ++ seg T.s (nd T a).l k

end SuffixTree26

namespace Geometry

/-! # `Library_Geometry.cpp`: the intersection of two lines

A line is `aX + bY + c = 0`.  The finite values of type `double` are modelled
by rational numbers with exact arithmetic; a coordinate of a returned point
is a finite value, `INFINITY` or `NAN`.
-/

/-- A coordinate that `cross_point` returns: a finite value, `INFINITY` or
`NAN`. -/
inductive coord_t where
  | fin (q : ℚ)
  | inf
  | nan
  deriving DecidableEq

/-- The point `pt_t` as a result of `cross_point`. -/
structure pt_t where
  x : coord_t
  y : coord_t
  deriving DecidableEq

/-- The line `line_t`: `aX + bY + c = 0` with finite coefficients. -/
structure line_t where
  a : ℚ
  b : ℚ
  c : ℚ

/-- The function `cross_point(line_t l, line_t m)`.  The comparison `feq` of
`auto_util_header.hpp` is not among the source files; it is a parameter. -/
def cross_point (feq : ℚ → ℚ → Bool) (l m : line_t) : pt_t :=
  let d := l.a * m.b - l.b * m.a
  if feq d 0 then
    if feq (l.a * m.c - l.c * m.a) 0 then { x := .inf, y := .inf }
    else { x := .nan, y := .nan }
  else
    let x := l.b * m.c - m.b * l.c
    let y := l.a * m.c - m.a * l.c
    { x := .fin (x / d), y := .fin (y / -d) }

end Geometry

namespace Util

/-! # `class_SegTreeMax.cpp`: a lazy segment tree for range maxima

The vectors of the class are lists, every index is an `int` and every access
is checked.  The type `ll` of the values is the integers: the arithmetic of
the model is that of the program as long as no value leaves the 64 bit
range.
-/

/-- Modelled from the spec: the macros `Loop(i, n)` and `Loopr(i, n)` are not
among the source files.  As for the query of the suffix tree, where the body
of `Loop(i, t.length())` runs once for each character of `t` in order,
`Loop(i, n)` runs its body for `i = 0, ..., n - 1`. -/
def Loop {σ : Type} : Nat → (Int → σ → Except Fault σ) → σ → Except Fault σ
  | 0, _, st => .ok st
  | k + 1, body, st => do
    let st1 ← Loop k body st
    body k st1

/-- Modelled from the spec: `Loopr(i, n)`, the loop `Loop(i, n)` in reverse:
its body runs for `i = n - 1, ..., 0`. -/
def Loopr {σ : Type} : Nat → (Int → σ → Except Fault σ) → σ → Except Fault σ
  | 0, _, st => .ok st
  | k + 1, body, st => do
    let st1 ← body k st
    Loopr k body st1

/-- The read `v[i]` of a vector. -/
def rd {α : Type} (v : List α) (i : Int) : Except Fault α :=
  if 0 ≤ i then
    match v[i.toNat]? with
    | some x => .ok x
    | none => .error .outOfRange
  else .error .outOfRange

/-- The write `v[i] = x` of a vector. -/
def wr {α : Type} (v : List α) (i : Int) (x : α) : Except Fault (List α) :=
  if 0 ≤ i ∧ i.toNat < v.length then .ok (v.set i.toNat x) else .error .outOfRange

/-- The call `v.resize(k, x)`; a negative size is a fault. -/
def resize {α : Type} (v : List α) (k : Int) (x : α) : Except Fault (List α) :=
  if 0 ≤ k then .ok (v.take k.toNat ++ List.replicate (k.toNat - v.length) x)
  else .error .outOfRange

end Util

/-- The record `segval_t`. -/
structure segval_t where
  enable : Bool
  upd : Int
  add : Int
  max : Int
  deriving DecidableEq, Inhabited

/-- The object state of the class `SegTreeMax`. -/
structure SegTreeMax where
  n : Int
  N : Int
  base : Int
  nodes : List segval_t
  idl : List Int
  idr : List Int
  cover_size : List Int
  deriving DecidableEq

namespace SegTreeMax

/-- The constant `LLONG_MIN`. -/
def LLONG_MIN : Int := -9223372036854775808

/-- The enumeration `change_t`. -/
inductive change_t where
  | UPD
  | ADD
  deriving DecidableEq

/-- The function `merge(id)`. -/
def merge (T : SegTreeMax) (id : Int) : Except Fault SegTreeMax := do
  let il ← Util.rd T.idl id
  let L ← Util.rd T.nodes il
  let ir ← Util.rd T.idr id
  let R ← Util.rd T.nodes ir
  let X ← Util.rd T.nodes id
  let nodes ← Util.wr T.nodes id { X with max := Max.max (L.max + L.add) (R.max + R.add) }
  pure { T with nodes := nodes }

/-- The function `lazy(id)`. -/
def lazy (T : SegTreeMax) (id : Int) : Except Fault SegTreeMax :=
  if id ≥ T.base then pure T
  else do
    let X ← Util.rd T.nodes id
    if X.enable then do
      let upd := X.upd + X.add
      let il ← Util.rd T.idl id
      let n1 ← Util.wr T.nodes il { enable := true, upd := upd, add := 0, max := upd }
      let ir ← Util.rd T.idr id
      let n2 ← Util.wr n1 ir { enable := true, upd := upd, add := 0, max := upd }
      let n3 ← Util.wr n2 id { enable := false, upd := 0, add := 0, max := upd }
      pure { T with nodes := n3 }
    else do
      let il ← Util.rd T.idl id
      let L ← Util.rd T.nodes il
      let X1 ← Util.rd T.nodes id
      let n1 ← Util.wr T.nodes il { L with add := L.add + X1.add }
      let ir ← Util.rd T.idr id
      let R ← Util.rd n1 ir
      let X2 ← Util.rd n1 id
      let n2 ← Util.wr n1 ir { R with add := R.add + X2.add }
      let X3 ← Util.rd n2 id
      let n3 ← Util.wr n2 id { X3 with add := 0 }
      merge { T with nodes := n3 } id

/-- The function `change_rec(s, t, l, r, id, x, op)`; the recursion of the
source is bounded by the first argument. -/
def change_rec : Nat → SegTreeMax → Int → Int → Int → Int → Int → Int → change_t →
    Except Fault SegTreeMax
  | 0, _, _, _, _, _, _, _, _ => .error .fuel
  | fuel + 1, T, s, t, l, r, id, x, op =>
    if s = l ∧ t = r then
      match op with
      | .UPD => do
        let nodes ← Util.wr T.nodes id { enable := true, upd := x, add := 0, max := x }
        pure { T with nodes := nodes }
      | .ADD => do
        let X ← Util.rd T.nodes id
        let nodes ← Util.wr T.nodes id { X with add := X.add + x }
        pure { T with nodes := nodes }
    else do
      let T1 ← T.lazy id
      let m := (l + r) / 2
      let T2 ←
        if s < m ∧ m < t then do
          let il ← Util.rd T1.idl id
          let Ta ← change_rec fuel T1 s m l m il x op
          let ir ← Util.rd Ta.idr id
          change_rec fuel Ta m t m r ir x op
        else if s < m then do
          let il ← Util.rd T1.idl id
          change_rec fuel T1 s t l m il x op
        else if m < t then do
          let ir ← Util.rd T1.idr id
          change_rec fuel T1 s t m r ir x op
        else pure T1
      T2.merge id

/-- The function `solve_rec(s, t, l, r, id)`; the result is the returned value
together with the object after the lazy updates of the call.  The recursion
of the source is bounded by the first argument. -/
def solve_rec : Nat → SegTreeMax → Int → Int → Int → Int → Int →
    Except Fault (SegTreeMax × Int)
  | 0, _, _, _, _, _, _ => .error .fuel
  | fuel + 1, T, s, t, l, r, id => do
    let (T2, v) ←
      if s = l ∧ t = r then do
        let X ← Util.rd T.nodes id
        pure (T, X.max)
      else do
        let T1 ← T.lazy id
        let m := (l + r) / 2
        if s < m ∧ m < t then do
          let il ← Util.rd T1.idl id
          let (Ta, v0) ← solve_rec fuel T1 s m l m il
          let ir ← Util.rd Ta.idr id
          let (Tb, v1) ← solve_rec fuel Ta m t m r ir
          pure (Tb, Max.max v0 v1)
        else if s < m then do
          let il ← Util.rd T1.idl id
          solve_rec fuel T1 s t l m il
        else if m < t then do
          let ir ← Util.rd T1.idr id
          solve_rec fuel T1 s t m r ir
        else pure (T1, (0 : Int))
    let X ← Util.rd T2.nodes id
    pure (T2, v + X.add)

/-- The function `common_init()`. -/
def common_init (T : SegTreeMax) : Except Fault SegTreeMax := do
  let idl ← Util.resize T.idl (T.base + T.N) (-1)
  let idr ← Util.resize T.idr (T.base + T.N) (-1)
  let T1 : SegTreeMax := { T with idl := idl, idr := idr }
  let T2 ← Util.Loop T1.base.toNat (fun i (S : SegTreeMax) => do
    let idl ← Util.wr S.idl i (i * 2 + 1)
    let idr ← Util.wr S.idr i (i * 2 + 2)
    pure { S with idl := idl, idr := idr }) T1
  let cs ← Util.resize T2.cover_size (T2.base + T2.N) 0
  let T3 : SegTreeMax := { T2 with cover_size := cs }
  let T4 ← Util.Loop T3.n.toNat (fun i (S : SegTreeMax) => do
    let cs ← Util.wr S.cover_size (S.base + i) 1
    pure { S with cover_size := cs }) T3
  Util.Loopr T4.base.toNat (fun i (S : SegTreeMax) => do
    let il ← Util.rd S.idl i
    let a ← Util.rd S.cover_size il
    let ir ← Util.rd S.idr i
    let b ← Util.rd S.cover_size ir
    let cs ← Util.wr S.cover_size i (a + b)
    pure { S with cover_size := cs }) T4

/-- The fuel that the public functions give to the recursions. -/
def fuelOf (T : SegTreeMax) : Nat := T.N.toNat + 1

/-- The function `upd(s, t, x)`. -/
def upd (T : SegTreeMax) (s t x : Int) : Except Fault SegTreeMax :=
  if s ≥ t then pure T else change_rec (fuelOf T) T s t 0 T.N 0 x .UPD

/-- The function `add(s, t, x)`. -/
def add (T : SegTreeMax) (s t x : Int) : Except Fault SegTreeMax :=
  if s ≥ t then pure T else change_rec (fuelOf T) T s t 0 T.N 0 x .ADD

/-- The function `maxof(s, t)`. -/
def maxof (T : SegTreeMax) (s t : Int) : Except Fault (SegTreeMax × Int) :=
  if s ≥ t then pure (T, LLONG_MIN) else solve_rec (fuelOf T) T s t 0 T.N 0

/-- The members of a new object before the body of a constructor runs, with
`n`, `N`, `base` and `nodes` as the two constructors set them.  The function
`ceillog2` of `auto_util_header.hpp` is not among the source files; it is a
parameter. -/
def blank (ceillog2 : Int → Nat) (n : Int) : SegTreeMax :=
  let N : Int := 2 ^ ceillog2 n
  { n := n, N := N, base := N - 1,
    nodes := List.replicate (N - 1 + N).toNat
      { enable := false, upd := 0, add := 0, max := LLONG_MIN },
    idl := [], idr := [], cover_size := [] }

/-- The constructor `SegTreeMax(int n, val_t init)`. -/
def mk_fill (ceillog2 : Int → Nat) (n : Int) (init : Int) : Except Fault SegTreeMax := do
  let T ← (blank ceillog2 n).common_init
  T.upd 0 n init

/-- The constructor `SegTreeMax(const vector<val_t> &a)`. -/
def mk_of (ceillog2 : Int → Nat) (a : List Int) : Except Fault SegTreeMax := do
  let T ← (blank ceillog2 a.length).common_init
  let T1 ← Util.Loop T.n.toNat (fun i (S : SegTreeMax) => do
    let x ← Util.rd a i
    let nodes ← Util.wr S.nodes (S.base + i) { enable := true, upd := x, add := 0, max := x }
    pure { S with nodes := nodes }) T
  Util.Loopr T1.base.toNat (fun i (S : SegTreeMax) => S.merge i) T1

/-! ## The tree inside the vector `nodes` -/

/-- The record at index `id` of a vector of nodes. -/
def nv (ns : List segval_t) (id : Nat) : segval_t := ns.getD id default

/-- The record `X` with the field `max` that `merge` computes from the
children `L` and `R`. -/
def merged (X L R : segval_t) : segval_t :=
  { enable := X.enable, upd := X.upd, add := X.add,
    max := Max.max (L.max + L.add) (R.max + R.add) }

/-- The record `X` with `a` added to the field `add`. -/
def addTo (X : segval_t) (a : Int) : segval_t :=
  { enable := X.enable, upd := X.upd, add := X.add + a, max := X.max }

/-- The record `X` with the field `add` set to zero. -/
def clearAdd (X : segval_t) : segval_t :=
  { enable := X.enable, upd := X.upd, add := 0, max := X.max }

/-- The record of a node that was assigned the value `u`. -/
def assigned (u : Int) : segval_t :=
  { enable := true, upd := u, add := 0, max := u }

/-- The record of an inner node whose assignment of `u` went to its children. -/
def cleared (u : Int) : segval_t :=
  { enable := false, upd := 0, add := 0, max := u }

/-- The object `T` with the vector `ns` as `nodes`. -/
def setNodes (T : SegTreeMax) (ns : List segval_t) : SegTreeMax :=
  { n := T.n, N := T.N, base := T.base, nodes := ns, idl := T.idl, idr := T.idr,
    cover_size := T.cover_size }

/-- The index `j` lies in the subtree of height `h` below the index `id`. -/
def InSub : Nat → Nat → Nat → Prop
  | 0, id, j => j = id
  | h + 1, id, j => j = id ∨ InSub h (2 * id + 1) j ∨ InSub h (2 * id + 2) j

/-- The node `id` has height `h` in the tree with `2 ^ k` leaves. -/
def Lvl (k h id : Nat) : Prop :=
  ∃ d, d + h = k ∧ 2 ^ d ≤ id + 1 ∧ id + 1 < 2 ^ (d + 1)

/-- The value at position `i` that the subtree of height `h` below `id`,
which covers the positions from `l` on, stands for. -/
def den (ns : List segval_t) : Nat → Nat → Int → Int → Int
  | 0, id, _, _ => (nv ns id).max + (nv ns id).add
  | h + 1, id, l, i =>
    if (nv ns id).enable then (nv ns id).upd + (nv ns id).add
    else (if i < l + 2 ^ h then den ns h (2 * id + 1) l i
      else den ns h (2 * id + 2) (l + 2 ^ h) i) + (nv ns id).add

/-- The field `max` of every inner node of the subtree is up to date. -/
def Good (ns : List segval_t) : Nat → Nat → Prop
  | 0, _ => True
  | h + 1, id =>
    (if (nv ns id).enable then (nv ns id).max = (nv ns id).upd
      else (nv ns id).max =
        Max.max ((nv ns (2 * id + 1)).max + (nv ns (2 * id + 1)).add)
          ((nv ns (2 * id + 2)).max + (nv ns (2 * id + 2)).add)) ∧
    Good ns h (2 * id + 1) ∧ Good ns h (2 * id + 2)

/-- The number `v` is the maximum of `f` over the positions `l ≤ i < r`. -/
def IsMax (f : Int → Int) (l r v : Int) : Prop :=
  (∃ i, l ≤ i ∧ i < r ∧ f i = v) ∧ ∀ i, l ≤ i → i < r → f i ≤ v

/-- What the constructors set up and no function changes: the sizes and the
index vectors of a tree with `2 ^ k` leaves. -/
structure Static (T : SegTreeMax) (k : Nat) : Prop where
  N_eq : T.N = 2 ^ k
  base_eq : T.base = 2 ^ k - 1
  nodes_len : (T.nodes.length : Int) = 2 ^ k - 1 + 2 ^ k
  idl : ∀ id : Nat, (id : Int) < T.base → Util.rd T.idl id = .ok (2 * (id : Int) + 1)
  idr : ∀ id : Nat, (id : Int) < T.base → Util.rd T.idr id = .ok (2 * (id : Int) + 2)

/-- The object `T1` differs from `T` in the contents of `nodes` at most. -/
structure Frame (T T1 : SegTreeMax) : Prop where
  n_eq : T1.n = T.n
  N_eq : T1.N = T.N
  base_eq : T1.base = T.base
  idl_eq : T1.idl = T.idl
  idr_eq : T1.idr = T.idr
  len_eq : T1.nodes.length = T.nodes.length

/-! ## `change_rec` -/

/-- The value at position `i` after the change `op` with `x` on the positions
`s ≤ i < t`, when it was `v` before. -/
def applyOp (op : change_t) (x s t i v : Int) : Int :=
  if s ≤ i ∧ i < t then
    match op with
    | .UPD => x
    | .ADD => v + x
  else v

/-! ## The constructors -/

/-- The state of the first loop of `common_init` after `i` passes. -/
structure Init1 (T : SegTreeMax) (len i : Nat) (S : SegTreeMax) : Prop where
  n_eq : S.n = T.n
  N_eq : S.N = T.N
  base_eq : S.base = T.base
  nodes_eq : S.nodes = T.nodes
  idl_len : S.idl.length = len
  idr_len : S.idr.length = len
  idl : ∀ j, j < i → S.idl.getD j 0 = 2 * (j : Int) + 1
  idr : ∀ j, j < i → S.idr.getD j 0 = 2 * (j : Int) + 2

/-- The state of the later loops of `common_init`. -/
structure Init2 (T : SegTreeMax) (len : Nat) (S : SegTreeMax) : Prop where
  n_eq : S.n = T.n
  N_eq : S.N = T.N
  base_eq : S.base = T.base
  nodes_eq : S.nodes = T.nodes
  idl_eq : S.idl = T.idl
  idr_eq : S.idr = T.idr
  cs_len : S.cover_size.length = len

/-- The object `T` with the vector `cs` as `cover_size`. -/
def setCover (T : SegTreeMax) (cs : List Int) : SegTreeMax :=
  { n := T.n, N := T.N, base := T.base, nodes := T.nodes, idl := T.idl, idr := T.idr,
    cover_size := cs }

/-- The record that the constructors fill `nodes` with. -/
def blankNode : segval_t := { enable := false, upd := 0, add := 0, max := LLONG_MIN }

/-- The object `T` stands for the array `a`: the tree of `T` is set up and
good, and its root stands for the value `a[i]` at every position `i` of
`a`. -/
def Rep (T : SegTreeMax) (a : List Int) : Prop :=
  ∃ k, Static T k ∧ Good T.nodes k 0 ∧ T.n = a.length ∧ (a.length : Int) ≤ 2 ^ k ∧
    ∀ i : Nat, i < a.length → den T.nodes k 0 0 i = a.getD i 0

/-! ## The array of the specification -/

/-- The array `a` after `x` was assigned to every index in `[s, t)`. -/
def arrUpd (a : List Int) (s t x : Int) : List Int :=
  a.mapIdx (fun i v => if s ≤ (i : Int) ∧ (i : Int) < t then x else v)

/-- The array `a` after `x` was added to every index in `[s, t)`. -/
def arrAdd (a : List Int) (s t x : Int) : List Int :=
  a.mapIdx (fun i v => if s ≤ (i : Int) ∧ (i : Int) < t then v + x else v)

/-- The maximum of the array `a` over `[s, t)`; it is `LLONG_MIN` for
`s ≥ t`. -/
def arrMax (a : List Int) (s t : Int) : Int :=
  if s ≥ t then LLONG_MIN
  else
    match (a.drop s.toNat).take (t - s).toNat with
    | [] => LLONG_MIN
    | x :: xs => xs.foldl Max.max x

/-- A call of a public function of the class. -/
inductive Call where
  | upd (s t x : Int)
  | add (s t x : Int)
  | maxof (s t : Int)
  deriving DecidableEq

/-- The range of a call is empty, or it lies within `[0, n)`. -/
def Call.ok (n : Int) : Call → Prop
  | .upd s t _ => t ≤ s ∨ (0 ≤ s ∧ s < t ∧ t ≤ n)
  | .add s t _ => t ≤ s ∨ (0 ≤ s ∧ s < t ∧ t ≤ n)
  | .maxof s t => t ≤ s ∨ (0 ≤ s ∧ s < t ∧ t ≤ n)

instance (n : Int) (c : Call) : Decidable (c.ok n) := by
  cases c <;> unfold Call.ok <;> infer_instance

/-- A call on the object `T`; the result is the object after the call and the
values the call returned. -/
def exec (T : SegTreeMax) : Call → Except Fault (SegTreeMax × List Int)
  | .upd s t x => do
    let T1 ← T.upd s t x
    pure (T1, [])
  | .add s t x => do
    let T1 ← T.add s t x
    pure (T1, [])
  | .maxof s t => do
    let (T1, v) ← T.maxof s t
    pure (T1, [v])

/-- A sequence of calls on the object `T`. -/
def run : SegTreeMax → List Call → Except Fault (SegTreeMax × List Int)
  | T, [] => pure (T, [])
  | T, c :: cs => do
    let (T1, o1) ← exec T c
    let (T2, o2) ← run T1 cs
    pure (T2, o1 ++ o2)

/-- A call on the array `a` of the specification. -/
def arrExec (a : List Int) : Call → List Int × List Int
  | .upd s t x => (arrUpd a s t x, [])
  | .add s t x => (arrAdd a s t x, [])
  | .maxof s t => (a, [arrMax a s t])

/-- A sequence of calls on the array `a` of the specification. -/
def arrRun : List Int → List Call → List Int × List Int
  | a, [] => (a, [])
  | a, c :: cs => ((arrRun (arrExec a c).1 cs).1, (arrExec a c).2 ++ (arrRun (arrExec a c).1 cs).2)

/-! ## The objects of the two constructors -/

/-- The state of the first loop of the constructor from a vector after `i`
passes: the first `i` leaves hold the values of the vector. -/
structure Leaves (T : SegTreeMax) (a : List Int) (b i : Nat) (S : SegTreeMax) : Prop where
  frame : Frame T S
  cover : S.cover_size = T.cover_size
  at_leaf : ∀ j, b ≤ j → j < b + i → nv S.nodes j = assigned (a.getD (j - b) 0)
  other : ∀ j, j < S.nodes.length → ¬ (b ≤ j ∧ j < b + i) → nv S.nodes j = blankNode

/-- The state of the second loop of the constructor from a vector when the
nodes from `i` on are merged. -/
structure Merged (T : SegTreeMax) (b i : Nat) (S : SegTreeMax) : Prop where
  frame : Frame T S
  leaf : ∀ j, b ≤ j → nv S.nodes j = nv T.nodes j
  before : ∀ j, j < i → nv S.nodes j = blankNode
  inner : ∀ j, i ≤ j → j < b →
    nv S.nodes j = merged blankNode (nv S.nodes (2 * j + 1)) (nv S.nodes (2 * j + 2))

/-- The least `k ≤ f + k0` with `n ≤ 2 ^ k`, searched from `k0` on. -/
def leastLogFrom : Nat → Nat → Int → Nat
  | 0, k, _ => k
  | f + 1, k, n => if n ≤ 2 ^ k then k else leastLogFrom f (k + 1) n

/-- The least `k` with `n ≤ 2 ^ k`, an instance of the parameter `ceillog2`
of the constructors. -/
def leastLog (n : Int) : Nat := leastLogFrom n.toNat 0 n

end SegTreeMax

namespace TreeSimple

/-! # `legacy/class_Tree_simple.cpp`: a rooted tree from a list of edges

The vectors of the class are lists, the queue of the traversal is a list
whose head is the front, every index is an `int` and every access is
checked.
-/

/-- The record `tree_t`; an element of `edges` is the pair `(first, second)`.
The types `P` and `vi` of the header, which is not among the source files,
are taken as `pair<int, int>` and `vector<int>`. -/
structure tree_t where
  n : Int
  edges : List (Int × Int)
  vals : List Int
  costs : List Int

/-- The record `Tree::node`. -/
structure node where
  id : Int
  childs : List Int
  parent : Int
  dep : Int
  eid : Int
  subtree_n : Int
  val : Int
  cost : Int
  deriving DecidableEq

/-- The record `Tree::edgeinfo`; the field `dest` is the member `to`. -/
structure edgeinfo where
  eid : Int
  dest : Int
  cost : Int
  deriving DecidableEq

/-- The object state of the class `Tree`. -/
structure Tree where
  n : Int
  edges : List (List edgeinfo)
  nodes : List node
  dep_order : List Int
  leaves : List Int
  root : Int
  deriving DecidableEq

/-- The constant `init_val`. -/
def init_val : Int := 0

/-- The constant `init_cost`. -/
def init_cost : Int := 1

/-- The element that `nodes.resize(n)` fills with: the members without an
initializer are zero. -/
def freshNode : node :=
  { id := 0, childs := [], parent := -1, dep := -1, eid := -1, subtree_n := 1, val := 0,
    cost := 0 }

/-- The object `R` with the vector `ns` as `nodes`. -/
def setNodes (R : Tree) (ns : List node) : Tree :=
  { n := R.n, edges := R.edges, nodes := ns, dep_order := R.dep_order, leaves := R.leaves,
    root := R.root }

/-- The state of the loop over `edges[a]` in `tree_construction`: the object,
the queue and `leaf_flag`. -/
structure scan_t where
  R : Tree
  que : List Int
  leaf_flag : Bool

/-- One pass of the loop over `edges[a]` in `tree_construction`. -/
def scan (a : Int) (i : Int) (st : scan_t) : Except Fault scan_t := do
  let ea ← Util.rd st.R.edges a
  let e ← Util.rd ea i
  let b := e.dest
  let B ← Util.rd st.R.nodes b
  if B.dep ≠ -1 then do
    let A ← Util.rd st.R.nodes a
    let A1 : node := { A with parent := b, eid := e.eid, cost := e.cost, dep := B.dep + 1 }
    let ns ← Util.wr st.R.nodes a A1
    pure { R := setNodes st.R ns, que := st.que, leaf_flag := st.leaf_flag }
  else do
    let A ← Util.rd st.R.nodes a
    let ns ← Util.wr st.R.nodes a { A with childs := A.childs ++ [b] }
    pure { R := setNodes st.R ns, que := st.que ++ [b], leaf_flag := false }

/-- The statement `if (a == Tree::root) nodes[a].dep = 0;` of
`tree_construction`. -/
def markRoot (R : Tree) (a : Int) : Except Fault Tree :=
  if a = R.root then do
    let A ← Util.rd R.nodes a
    let ns ← Util.wr R.nodes a { A with dep := 0 }
    pure (setNodes R ns)
  else pure R

/-- One pass of the loop `while (que.size())` of `tree_construction`, for the
front `a` of the queue and the rest `que` of the queue. -/
def visit (R : Tree) (a : Int) (que : List Int) : Except Fault (Tree × List Int) := do
  let R1 : Tree := { R with dep_order := R.dep_order ++ [a] }
  let R2 ← markRoot R1 a
  let ea ← Util.rd R2.edges a
  let st ← Util.Loop ea.length (scan a) { R := R2, que := que, leaf_flag := true }
  if st.leaf_flag then pure ({ st.R with leaves := st.R.leaves ++ [a] }, st.que)
  else pure (st.R, st.que)

/-- The loop `while (que.size())` of `tree_construction`; the number of
passes is bounded by the first argument. -/
def bfs : Nat → Tree → List Int → Except Fault Tree
  | _, R, [] => pure R
  | 0, _, _ :: _ => .error .fuel
  | fuel + 1, R, a :: que => do
    let (R1, q1) ← visit R a que
    bfs fuel R1 q1

/-- One pass of the loop over `nodes[a].childs` at the end of
`tree_construction`. -/
def gather (a : Int) (j : Int) (R : Tree) : Except Fault Tree := do
  let A ← Util.rd R.nodes a
  let b ← Util.rd A.childs j
  let B ← Util.rd R.nodes b
  let ns ← Util.wr R.nodes a { A with subtree_n := A.subtree_n + B.subtree_n }
  pure (setNodes R ns)

/-- One pass of the loop `Loopr(i, n)` of `tree_construction`. -/
def collect (i : Int) (R : Tree) : Except Fault Tree := do
  let a ← Util.rd R.dep_order i
  let A ← Util.rd R.nodes a
  Util.Loop A.childs.length (gather a) R

/-- The function `tree_construction()`; the first argument bounds the number
of passes of its loop `while (que.size())`. -/
def tree_construction (fuel : Nat) (R : Tree) : Except Fault Tree := do
  let R1 : Tree := { R with leaves := [] }
  let R2 ← bfs fuel R1 [R1.root]
  Util.Loopr R2.n.toNat collect R2

/-- The first loop of the constructor: the members `id`, `val` and `cost` of
`nodes[i]`. -/
def fill (T : tree_t) (i : Int) (ns : List node) : Except Fault (List node) := do
  let X ← Util.rd ns i
  let v ← (if (T.vals.length : Int) > i then Util.rd T.vals i else pure init_val)
  Util.wr ns i { X with id := i, val := v, cost := init_cost }

/-- The second loop of the constructor: the edge `i` enters the lists of its
two ends. -/
def link (T : tree_t) (i : Int) (es : List (List edgeinfo)) :
    Except Fault (List (List edgeinfo)) := do
  let e ← Util.rd T.edges i
  let c ← (if (T.costs.length : Int) > i then Util.rd T.costs i else pure init_cost)
  let l1 ← Util.rd es e.1
  let es1 ← Util.wr es e.1 (l1 ++ [{ eid := i, dest := e.2, cost := c }])
  let e2 ← Util.rd T.edges i
  let c2 ← (if (T.costs.length : Int) > i then Util.rd T.costs i else pure init_cost)
  let l2 ← Util.rd es1 e2.2
  Util.wr es1 e2.2 (l2 ++ [{ eid := i, dest := e2.1, cost := c2 }])

/-- The constructor `Tree(tree_t T, int root)`.  The loop of
`tree_construction` gets `n + 1` passes. -/
def Tree.new (T : tree_t) (root : Int) : Except Fault Tree := do
  let ns0 ← Util.resize ([] : List node) T.n freshNode
  let ns ← Util.Loop T.n.toNat (fill T) ns0
  let es0 ← Util.resize ([] : List (List edgeinfo)) T.n []
  let es ← Util.Loop (T.n - 1).toNat (link T) es0
  tree_construction (T.n.toNat + 1)
    { n := T.n, edges := es, nodes := ns, dep_order := [], leaves := [], root := root }

/-! ## The graph of the input -/

/-- The graph of the input `T`: its vertices are `0, ..., n - 1`, and two
distinct vertices are adjacent when an element of `T.edges` joins them. -/
def graphOf (T : tree_t) : SimpleGraph (Fin T.n.toNat) where
  Adj u v := u ≠ v ∧
    ((((u : Nat) : Int), ((v : Nat) : Int)) ∈ T.edges ∨
      (((v : Nat) : Int), ((u : Nat) : Int)) ∈ T.edges)
  symm := fun _ _ h => ⟨h.1.symm, h.2.symm⟩
  loopless := fun _ h => h.1 rfl

/-- The input `T` is a tree on `n ≥ 1` nodes: it has `n - 1` edges between
the vertices `0, ..., n - 1`, and its graph is connected and acyclic. -/
structure IsTreeInput (T : tree_t) : Prop where
  n_pos : 1 ≤ T.n
  edges_len : (T.edges.length : Int) = T.n - 1
  ends : ∀ e ∈ T.edges, 0 ≤ e.1 ∧ e.1 < T.n ∧ 0 ≤ e.2 ∧ e.2 < T.n
  tree : (graphOf T).IsTree

/-- Adjacency in the graph of `T`, for numbers. -/
def adjN (T : tree_t) (v u : Nat) : Prop :=
  v ≠ u ∧ (((v : Int), (u : Int)) ∈ T.edges ∨ ((u : Int), (v : Int)) ∈ T.edges)

/-- The vertex `u` lies in the subtree of `v`: `v` is reached from `u` by
steps to the parent. -/
inductive Desc (par : Nat → Nat) (root : Nat) (v : Nat) : Nat → Prop
  | self : Desc par root v v
  | step {u : Nat} : u ≠ root → Desc par root v (par u) → Desc par root v u

/-- The rooted form of the graph of `T`: `d v` is the depth of `v` and
`par v` the parent of `v ≠ root`; every edge joins a vertex and its parent. -/
structure Rooted (T : tree_t) (root : Nat) (d par : Nat → Nat) : Prop where
  root_lt : root < T.n.toNat
  d_root : d root = 0
  par_lt : ∀ v, v < T.n.toNat → v ≠ root → par v < T.n.toNat
  par_adj : ∀ v, v < T.n.toNat → v ≠ root → adjN T v (par v)
  par_d : ∀ v, v < T.n.toNat → v ≠ root → d v = d (par v) + 1
  edge : ∀ v u, v < T.n.toNat → u < T.n.toNat → adjN T v u →
    (v ≠ root ∧ par v = u) ∨ (u ≠ root ∧ par u = v)

/-! ## The loops of the constructor -/

/-- The cost of the edge `i` as the constructor reads it. -/
def costOf (T : tree_t) (i : Nat) : Int :=
  if i < T.costs.length then T.costs.getD i 0 else init_cost

/-- The entry of the edge `i` in the list of one of its ends, where `b` is
the other end. -/
def entry (T : tree_t) (i : Nat) (b : Int) : edgeinfo :=
  { eid := i, dest := b, cost := costOf T i }

/-- The entries that the edge `i` adds to the list `edges[a]`. -/
def contrib (T : tree_t) (a : Int) (i : Nat) : List edgeinfo :=
  (if (T.edges.getD i (0, 0)).1 = a then
      [entry T i (T.edges.getD i (0, 0)).2] else []) ++
    (if (T.edges.getD i (0, 0)).2 = a then
      [entry T i (T.edges.getD i (0, 0)).1] else [])

/-- The list `edges[a]` after the first `k` edges were entered. -/
def adjList (T : tree_t) (a : Int) (k : Nat) : List edgeinfo :=
  (List.range k).flatMap (contrib T a)

/-- The node `X` after the pass `i` of the first loop of the constructor. -/
def filled (T : tree_t) (i : Nat) (X : node) : node :=
  { id := i, childs := X.childs, parent := X.parent, dep := X.dep, eid := X.eid,
    subtree_n := X.subtree_n, val := if i < T.vals.length then T.vals.getD i 0 else init_val,
    cost := init_cost }

/-- The node at index `v` of the object `R`. -/
def nd (R : Tree) (v : Nat) : node := R.nodes.getD v freshNode

/-- The vector `edges` of the object lists, for every vertex, each of its
neighbours once. -/
structure AdjOK (T : tree_t) (es : List (List edgeinfo)) : Prop where
  len : es.length = T.n.toNat
  nbr : ∀ a, a < T.n.toNat → ∃ L : List Nat,
    (es.getD a []).map edgeinfo.dest = L.map Nat.cast ∧ L.Nodup ∧
      ∀ u, u ∈ L ↔ (u < T.n.toNat ∧ adjN T a u)

/-! ## The loop over the neighbours of a vertex -/

/-- The neighbours among `L` that are not in `D`: the children that the
traversal finds. -/
def newOf (D L : List Nat) : List Nat := L.filter (fun u => decide (u ∉ D))

/-- The state of the loop over `edges[a]` after `i` passes, where `R2` is the
object before the loop, `D` are the vertices visited before `a`, `Q` is the
rest of the queue and `L` are the neighbours of `a`. -/
structure SInv (root : Nat) (d par : Nat → Nat) (R2 : Tree) (a : Nat) (D Q L : List Nat)
    (i : Nat) (st : scan_t) : Prop where
  n_eq : st.R.n = R2.n
  edges_eq : st.R.edges = R2.edges
  order_eq : st.R.dep_order = R2.dep_order
  leaves_eq : st.R.leaves = R2.leaves
  root_eq : st.R.root = R2.root
  len : st.R.nodes.length = R2.nodes.length
  other : ∀ v, v ≠ a → nd st.R v = nd R2 v
  que : st.que = (Q ++ newOf D (L.take i)).map Nat.cast
  flag : st.leaf_flag = (newOf D (L.take i)).isEmpty
  childs : (nd st.R a).childs = (newOf D (L.take i)).map Nat.cast
  sub : (nd st.R a).subtree_n = 1
  dep : (nd st.R a).dep = if a = root then 0 else if par a ∈ L.take i then (d a : Int) else -1
  parent : (nd st.R a).parent = if a ≠ root ∧ par a ∈ L.take i then (par a : Int) else -1

/-- The node `A` after the traversal found its parent `b` through the entry
`e`, where `dep` is the depth of `b`. -/
def withParent (A : node) (b : Int) (e : edgeinfo) (dep : Int) : node :=
  { id := A.id, childs := A.childs, parent := b, dep := dep + 1, eid := e.eid,
    subtree_n := A.subtree_n, val := A.val, cost := e.cost }

/-- The node `A` after the traversal found its child `b`. -/
def withChild (A : node) (b : Int) : node :=
  { id := A.id, childs := A.childs ++ [b], parent := A.parent, dep := A.dep, eid := A.eid,
    subtree_n := A.subtree_n, val := A.val, cost := A.cost }

/-! ## One pass of the traversal -/

/-- The state of the loop `while (que.size())`: `D` are the vertices visited
so far, in the order of the visits, and `Q` is the queue. -/
structure BInv (T : tree_t) (root : Nat) (d par : Nat → Nat) (R : Tree) (D Q : List Nat) :
    Prop where
  n_eq : R.n = T.n
  root_eq : R.root = root
  adj : AdjOK T R.edges
  len : R.nodes.length = T.n.toNat
  order : R.dep_order = D.map Nat.cast
  nodup : (D ++ Q).Nodup
  lt : ∀ v ∈ D ++ Q, v < T.n.toNat
  mem : ∀ v, v < T.n.toNat → (v ∈ D ++ Q ↔ (v = root ∨ (v ≠ root ∧ par v ∈ D)))
  sorted : (D ++ Q).Pairwise (fun x y => d x ≤ d y)
  near : ∀ x ∈ D ++ Q, ∀ q ∈ Q, d x ≤ d q + 1
  dep : ∀ v ∈ D, (nd R v).dep = d v
  parent : ∀ v ∈ D, (nd R v).parent = if v = root then -1 else (par v : Int)
  childs : ∀ v ∈ D, ∃ cs : List Nat, (nd R v).childs = cs.map Nat.cast ∧ cs.Nodup ∧
    ∀ u, u ∈ cs ↔ (u < T.n.toNat ∧ u ≠ root ∧ par u = v)
  fresh : ∀ v, v < T.n.toNat → v ∉ D →
    (nd R v).dep = -1 ∧ (nd R v).childs = [] ∧ (nd R v).parent = -1
  sub : ∀ v, v < T.n.toNat → (nd R v).subtree_n = 1
  leaves : ∃ lv : List Nat, R.leaves = lv.map Nat.cast ∧
    ∀ u, u ∈ lv ↔ (u ∈ D ∧ (nd R u).childs = [])

/-- The node `A` with the depth `x`. -/
def withDep (A : node) (x : Int) : node :=
  { id := A.id, childs := A.childs, parent := A.parent, dep := x, eid := A.eid,
    subtree_n := A.subtree_n, val := A.val, cost := A.cost }

/-- The object `R` after `dep_order.push_back(a)`. -/
def pushOrder (R : Tree) (a : Int) : Tree :=
  { n := R.n, edges := R.edges, nodes := R.nodes, dep_order := R.dep_order ++ [a],
    leaves := R.leaves, root := R.root }

/-- The object `R` after `leaves.push_back(a)`. -/
def pushLeaf (R : Tree) (a : Int) : Tree :=
  { n := R.n, edges := R.edges, nodes := R.nodes, dep_order := R.dep_order,
    leaves := R.leaves ++ [a], root := R.root }

/-! ## The loop over `dep_order` in reverse -/

/-- The node `A` with `x` added to `subtree_n`. -/
def withSub (A : node) (x : Int) : node :=
  { id := A.id, childs := A.childs, parent := A.parent, dep := A.dep, eid := A.eid,
    subtree_n := A.subtree_n + x, val := A.val, cost := A.cost }

/-- The object `R` differs from `R0` in the members `subtree_n` of the nodes
at most. -/
structure Same (R0 R : Tree) : Prop where
  n_eq : R.n = R0.n
  root_eq : R.root = R0.root
  edges_eq : R.edges = R0.edges
  order_eq : R.dep_order = R0.dep_order
  leaves_eq : R.leaves = R0.leaves
  len : R.nodes.length = R0.nodes.length
  childs : ∀ v, (nd R v).childs = (nd R0 v).childs
  dep : ∀ v, (nd R v).dep = (nd R0 v).dep
  parent : ∀ v, (nd R v).parent = (nd R0 v).parent

/-- The path `0 - 1 - 2` on three vertices, with the edges `(1, 0)` and
`(1, 2)`. -/
def path3 : tree_t := { n := 3, edges := [(1, 0), (1, 2)], vals := [], costs := [] }

/-- The members `dep`, `parent` and `subtree_n` of the nodes, with
`dep_order` and `leaves`, of the object that the constructor returns; empty
lists stand for a fault. -/
def summary (T : tree_t) (root : Int) : List Int × List Int × List (Int × Int × Int) :=
  match Tree.new T root with
  | .ok R => (R.dep_order, R.leaves, R.nodes.map (fun x => (x.dep, x.parent, x.subtree_n)))
  | .error _ => ([], [], [])

end TreeSimple

namespace SuffixTree26

/-! ## The states inside `insert` -/

/-- The lines 37 to 39 of `insert`, for `k` inside the edge of `cur`: the new
node `branch` is created, gets `cur` as a child and becomes a child of the
parent of `cur`; the members `l` and `parent` of `cur` are as before.  The
result is the state after line 39 with the node `branch`. -/
def splitLinked (T : SuffixTree26) (cur : Nat) (k : Int) :
    Except Fault (SuffixTree26 × Nat) := do
  let c ← T.deref (some cur)
  let p ← T.deref c.parent
  let (T1, branch) :=
    T.alloc { l := c.l, r := c.l + k, childs := fun _ => none, dep := p.dep + k,
              parent := c.parent, cnt := 0, suf := none }
  let x ← slot (← charAt T.s (c.l + k))
  let T2 ← T1.modify branch (setChild x cur)
  let b ← T2.deref (some branch)
  let bp ← match b.parent with
    | some q => pure q
    | none => .error .nullDeref
  let c1 ← T2.deref (some cur)
  let y ← slot (← charAt T.s c1.l)
  let T3 ← T2.modify bp (setChild y branch)
  pure (T3, branch)

/-- The lines 37 to 40 of `insert`: after `splitLinked` the member `l` of
`cur` is moved by `k`; the member `parent` of `cur` is as before. -/
def splitMoved (T : SuffixTree26) (cur : Nat) (k : Int) :
    Except Fault (SuffixTree26 × Nat) := do
  let (T3, branch) ← T.splitLinked cur k
  let T4 ← T3.modify cur (fun v => { v with l := v.l + k })
  pure (T4, branch)

/-- The value of `f` on the states after line 39 and after line 40 of
`insert` in the iteration `j + 1` of the loop of `construct`. -/
def midAt {α : Type} (s : List Char) (j : Nat) (f : SuffixTree26 → SuffixTree26 → α) :
    Except Fault α :=
  match (fresh s).enter with
  | .ok st =>
    match steps j st with
    | .ok (T, v) =>
      match T.proceed (T.s.length + 1) v.cur v.k v.i with
      | .ok (c, k, _) =>
        match T.splitLinked c k, T.splitMoved c k with
        | .ok (T3, _), .ok (T4, _) => .ok (f T3 T4)
        | .error e, _ => .error e
        | _, .error e => .error e
      | .error e => .error e
    | .error e => .error e
  | .error e => .error e

end SuffixTree26

/-! ## Theorems -/

namespace SuffixTree26

/-! ## Elementary facts -/

theorem Agree.refl (s : List Char) (a d : Int) : Agree s a a d := fun _ _ _ => rfl

theorem Agree.symm {s : List Char} {a b d : Int} (h : Agree s a b d) : Agree s b a d :=
  fun t h0 h1 => (h t h0 h1).symm

theorem Agree.trans {s : List Char} {a b c d : Int} (h1 : Agree s a b d) (h2 : Agree s b c d) :
    Agree s a c d :=
  fun t h0 ht => (h1 t h0 ht).trans (h2 t h0 ht)

theorem Agree.mono {s : List Char} {a b d e : Int} (h : Agree s a b d) (hle : e ≤ d) :
    Agree s a b e :=
  fun t h0 ht => h t h0 (by omega)

theorem Agree.shift {s : List Char} {a b d : Int} (h : Agree s a b d) (e : Int) (he : 0 ≤ e) :
    Agree s (a + e) (b + e) (d - e) := by
  intro t h0 ht
  have := h (e + t) (by omega) (by omega)
  rw [show a + e + t = a + (e + t) by ring, show b + e + t = b + (e + t) by ring]
  exact this

theorem Agree.at {s : List Char} {a b d : Int} (h : Agree s a b d) {x y : Int} (t : Int)
    (h0 : 0 ≤ t) (ht : t < d) (hx : x = a + t) (hy : y = b + t) : tc s x = tc s y := by
  subst hx; subst hy; exact h t h0 ht

theorem Agree.snoc {s : List Char} {a b d : Int} (h : Agree s a b d)
    (hd : tc s (a + d) = tc s (b + d)) : Agree s a b (d + 1) := by
  intro t h0 ht
  by_cases htd : t = d
  · subst htd; exact hd
  · exact h t h0 (by omega)

theorem Agree.congr {s : List Char} {a b d a1 b1 d1 : Int} (h : Agree s a b d)
    (ha : a1 = a) (hb : b1 = b) (hd : d1 = d) : Agree s a1 b1 d1 := by
  subst ha; subst hb; subst hd; exact h

theorem toNat_inj_of_char {c d : Char} (h : c.toNat = d.toNat) : c = d := by
  cases c with
  | mk cv ch =>
    cases d with
    | mk dv dh =>
      have h2 : cv = dv := UInt32.ext h
      subst h2
      rfl

theorem sl_inj {c d : Char} (hc : lower c) (hd : lower d) (h : sl c = sl d) : c = d := by
  unfold sl at h
  unfold lower at hc hd
  exact toNat_inj_of_char (by omega)

theorem slot_ok {c : Char} (h : lower c) : slot c = .ok (sl c) := by
  unfold slot sl
  unfold lower at h
  simp [h]

theorem slot_ok_iff (c : Char) (x : Nat) : slot c = .ok x ↔ lower c ∧ x = sl c := by
  unfold slot sl lower
  by_cases h : 97 ≤ c.toNat ∧ c.toNat < 123
  · simp only [h, and_self, if_true, true_and]
    constructor
    · intro e; injection e with e; exact e.symm
    · intro e; rw [e]
  · simp only [h, if_false, false_and, iff_false]
    intro e; cases e

theorem sl_lt {c : Char} (h : lower c) : sl c < 26 := by
  unfold sl; unfold lower at h; omega

theorem charAt_ok (s : List Char) (i : Int) (h0 : 0 ≤ i) (h1 : i < s.length) :
    charAt s i = .ok (tc s i) := by
  unfold charAt tc
  have h2 : i.toNat < s.length := by omega
  simp [h0, List.getElem?_eq_getElem h2, List.getD_eq_getElem?_getD]

theorem tc_mem (s : List Char) (i : Int) (h0 : 0 ≤ i) (h1 : i < s.length) : tc s i ∈ s := by
  unfold tc
  have h2 : i.toNat < s.length := by omega
  rw [List.getD_eq_getElem?_getD, List.getElem?_eq_getElem h2]
  exact List.getElem_mem h2

theorem deref_ok (T : SuffixTree26) (a : Nat) (h : a < T.heap.length) :
    T.deref (some a) = .ok (nd T a) := by
  unfold deref nd
  simp [List.getElem?_eq_getElem h, List.getD_eq_getElem?_getD]

theorem modify_ok (T : SuffixTree26) (a : Nat) (f : node_t → node_t) (h : a < T.heap.length) :
    T.modify a f = .ok { T with heap := T.heap.set a (f (nd T a)) } := by
  unfold modify nd
  simp [List.getElem?_eq_getElem h, List.getD_eq_getElem?_getD]

theorem nd_set (T : SuffixTree26) (a : Nat) (x : node_t) (b : Nat) (h : a < T.heap.length) :
    nd { T with heap := T.heap.set a x } b = if b = a then x else nd T b := by
  unfold nd
  simp only [List.getD_eq_getElem?_getD, List.getElem?_set]
  by_cases hb : b = a
  · subst hb; simp [h]
  · have : ¬ a = b := fun e => hb e.symm
    simp [hb, this]

theorem nd_alloc (T : SuffixTree26) (x : node_t) (b : Nat) :
    nd (T.alloc x).1 b = if b = T.heap.length then x else nd T b := by
  unfold nd alloc
  simp only [List.getD_eq_getElem?_getD]
  by_cases hb : b = T.heap.length
  · subst hb; simp
  · simp only [hb, if_false]
    by_cases hlt : b < T.heap.length
    · rw [List.getElem?_append_left hlt]
    · have h1 : T.heap.length + 1 ≤ b := by omega
      rw [List.getElem?_eq_none (by simp; omega), List.getElem?_eq_none (by omega)]

theorem tc_lower {T : SuffixTree26} {j : Int} (W : WF T j) (x : Int) (h0 : 0 ≤ x)
    (h1 : x < T.n) : lower (tc T.s x) :=
  W.low _ (tc_mem T.s x h0 (by have := W.n_eq; omega))

theorem charAt_wf {T : SuffixTree26} {j : Int} (W : WF T j) (x : Int) (h0 : 0 ≤ x)
    (h1 : x < T.n) : charAt T.s x = .ok (tc T.s x) :=
  charAt_ok T.s x h0 (by have := W.n_eq; omega)

/-! ## The parent chain -/

theorem root_of_dep_zero {T : SuffixTree26} {j : Int} (W : WF T j) {v : Nat}
    (hv : v < T.heap.length) (hd : (nd T v).dep ≤ 0) : v = 0 := by
  by_contra h0
  obtain ⟨p, hp⟩ := W.node v hv h0
  have h1 := W.dep_nonneg p hp.p_lt
  have h2 := hp.dep_eq
  have h3 := hp.l_lt_r
  omega

theorem ne_root_of_parent {T : SuffixTree26} {j : Int} (W : WF T j) {v p : Nat}
    (h : (nd T v).parent = some p) : v ≠ 0 := by
  intro e
  subst e
  rw [W.root_par] at h
  cases h

theorem nd_default_parent (T : SuffixTree26) {v : Nat} (hv : ¬ v < T.heap.length) :
    (nd T v).parent = none := by
  unfold nd
  rw [List.getD_eq_getElem?_getD, List.getElem?_eq_none (by omega)]
  rfl

theorem lt_of_parent {T : SuffixTree26} {v p : Nat} (h : (nd T v).parent = some p) :
    v < T.heap.length := by
  by_contra hv
  rw [nd_default_parent T hv] at h
  cases h

theorem anc_facts {T : SuffixTree26} {j : Int} (W : WF T j) {u v : Nat} (h : Anc T u v)
    (hv : v < T.heap.length) :
    u < T.heap.length ∧ (nd T u).dep ≤ (nd T v).dep ∧
      Agree T.s ((nd T v).r - (nd T v).dep) ((nd T u).r - (nd T u).dep) (nd T u).dep := by
  induction h with
  | refl => exact ⟨hv, le_refl _, Agree.refl _ _ _⟩
  | @step v p hp _ ih =>
    have hv0 : v ≠ 0 := ne_root_of_parent W hp
    obtain ⟨q, hq⟩ := W.node v hv hv0
    have hqp : q = p := by
      have := hq.par
      rw [hp] at this
      injection this with this
      exact this.symm
    subst hqp
    obtain ⟨h1, h2, h3⟩ := ih hq.p_lt
    refine ⟨h1, ?_, ?_⟩
    · have := hq.dep_eq
      have := hq.l_lt_r
      omega
    · exact (hq.agree.mono h2).trans h3

theorem anc_eq_of_dep {T : SuffixTree26} {j : Int} (W : WF T j) {u v : Nat} (h : Anc T u v)
    (hv : v < T.heap.length) (hd : (nd T v).dep ≤ (nd T u).dep) : u = v := by
  cases h with
  | refl => rfl
  | @step _ p hp hup =>
    exfalso
    have hv0 : v ≠ 0 := ne_root_of_parent W hp
    obtain ⟨q, hq⟩ := W.node v hv hv0
    have hqp : q = p := by
      have := hq.par
      rw [hp] at this
      injection this with this
      exact this.symm
    subst hqp
    have h1 := (anc_facts W hup hq.p_lt).2.1
    have := hq.dep_eq
    have := hq.l_lt_r
    omega

theorem anc_trans {T : SuffixTree26} {u v w : Nat} (h1 : Anc T u v) (h2 : Anc T v w) :
    Anc T u w := by
  induction h2 with
  | refl => exact h1
  | step hp _ ih => exact Anc.step hp ih

theorem anc_chain {T : SuffixTree26} {j : Int} (W : WF T j) {u c x : Nat}
    (hc : Anc T c x) (hu : Anc T u x) (hx : x < T.heap.length)
    (hd : (nd T u).dep ≤ (nd T c).dep) : Anc T u c := by
  induction hc with
  | refl => exact hu
  | @step x p hp hcp ih =>
    have hx0 : x ≠ 0 := ne_root_of_parent W hp
    obtain ⟨q, hq⟩ := W.node x hx hx0
    have hqp : q = p := by
      have := hq.par
      rw [hp] at this
      injection this with this
      exact this.symm
    subst hqp
    cases hu with
    | refl =>
      exfalso
      have h1 := (anc_facts W hcp hq.p_lt).2.1
      have := hq.dep_eq
      have := hq.l_lt_r
      omega
    | @step _ p2 hp2 hup =>
      rw [hp] at hp2
      injection hp2 with hp2
      subst hp2
      exact ih hup hq.p_lt

theorem anc_child {T : SuffixTree26} {u e : Nat} (h : Anc T u e) (hne : u ≠ e) :
    ∃ w, (nd T w).parent = some u ∧ Anc T w e := by
  induction h with
  | refl => exact absurd rfl hne
  | @step v p hp hup ih =>
    by_cases hpu : u = p
    · subst hpu
      exact ⟨v, hp, Anc.refl⟩
    · obtain ⟨w, hw, hwp⟩ := ih hpu
      exact ⟨w, hw, Anc.step hp hwp⟩

theorem root_anc_aux {T : SuffixTree26} {j : Int} (W : WF T j) (d : Nat) :
    ∀ v, v < T.heap.length → (nd T v).dep.toNat ≤ d → Anc T 0 v := by
  induction d with
  | zero =>
    intro v hv hd
    have h0 := W.dep_nonneg v hv
    have : v = 0 := root_of_dep_zero W hv (by omega)
    subst this
    exact Anc.refl
  | succ d ih =>
    intro v hv hd
    by_cases h0 : v = 0
    · subst h0; exact Anc.refl
    · obtain ⟨p, hp⟩ := W.node v hv h0
      have h1 := W.dep_nonneg p hp.p_lt
      have := hp.dep_eq
      have := hp.l_lt_r
      exact Anc.step hp.par (ih p hp.p_lt (by omega))

theorem root_anc {T : SuffixTree26} {j : Int} (W : WF T j) {v : Nat} (hv : v < T.heap.length) :
    Anc T 0 v :=
  root_anc_aux W _ v hv (le_refl _)

/-- The first character of the edge to `w`, a child of `u`, read in a text
piece that `w` agrees with. -/
theorem child_first {T : SuffixTree26} {j : Int} (W : WF T j) {w u : Nat}
    (hw : w < T.heap.length) (hp : (nd T w).parent = some u) :
    (nd T u).childs (sl (tc T.s ((nd T w).r - (nd T w).dep + (nd T u).dep))) = some w ∧
      (nd T w).l = (nd T w).r - (nd T w).dep + (nd T u).dep ∧
      (nd T u).dep < (nd T w).dep ∧ u < T.heap.length := by
  have hw0 : w ≠ 0 := ne_root_of_parent W hp
  obtain ⟨q, hq⟩ := W.node w hw hw0
  have hqp : q = u := by
    have := hq.par
    rw [hp] at this
    injection this with this
    exact this.symm
  subst hqp
  have h1 := hq.dep_eq
  have h2 := hq.l_lt_r
  have hl : (nd T w).l = (nd T w).r - (nd T w).dep + (nd T q).dep := by omega
  refine ⟨?_, hl, by omega, hq.p_lt⟩
  rw [← hl]
  exact hq.reg

theorem end_anc {T : SuffixTree26} {m : Int} {e u : Nat}
    (E : EndOK T m e) (hu : u < T.heap.length) (hd : (nd T u).dep ≤ T.n - m)
    (ha : Agree T.s ((nd T u).r - (nd T u).dep) m (nd T u).dep) : Anc T u e :=
  E.top u hu hd ha

/-! ## The slow scan -/

theorem proceed_unfold (T : SuffixTree26) (fuel cur : Nat) (k i : Int)
    (hc : cur < T.heap.length) (hi0 : 0 ≤ i) (hi : i < T.s.length) (hlow : lower (tc T.s i))
    (hn : T.n = T.s.length) :
    T.proceed (fuel + 1) cur k i =
      if k = (nd T cur).r - (nd T cur).l then
        match (nd T cur).childs (sl (tc T.s i)) with
        | none => .ok (cur, k, i)
        | some w => T.proceed fuel w 1 (i + 1)
      else
        match charAt T.s ((nd T cur).l + k) with
        | .error e => .error e
        | .ok a => if a ≠ tc T.s i then .ok (cur, k, i) else T.proceed fuel cur (k + 1) (i + 1) := by
  have hne : ¬ i = T.n := by omega
  rw [proceed]
  simp only [hne, if_false, deref_ok T cur hc, charAt_ok T.s i hi0 hi, slot_ok hlow, bind,
    Except.bind]
  split
  · rfl
  · cases charAt T.s ((nd T cur).l + k) <;> rfl

theorem At.i_ge {T : SuffixTree26} {j : Int} (W : WF T j) {c : Nat} {k i : Int}
    (A : At T j c k i) : j ≤ i := by
  have h := A.i_eq
  rcases A.pos with ⟨hc, ⟨h0, hk⟩ | ⟨h0, hk, hk2⟩⟩
  · subst h0
    have := W.root_dep; have := W.root_l; have := W.root_r
    omega
  · obtain ⟨p, hp⟩ := W.node c hc h0
    have := hp.dep_eq
    have := W.dep_nonneg p hp.p_lt
    omega

theorem proceed_stop {T : SuffixTree26} {j : Int} (W : WF T j) {c : Nat} {k i : Int}
    (A : At T j c k i) (S : Stop T c k i) (fuel : Nat) :
    T.proceed (fuel + 1) c k i = .ok (c, k, i) := by
  by_cases hi : i = T.n
  · rw [proceed]; simp [hi]
  · have hge := A.i_ge W
    have hj := W.j_nonneg
    have hle := A.i_le
    have hn := W.n_eq
    rw [proceed_unfold T fuel c k i A.pos.1 (by omega) (by omega)
      (tc_lower W i (by omega) (by omega)) hn]
    rcases S with h | ⟨h1, h2⟩ | ⟨h1, h2⟩
    · exact absurd h hi
    · simp [h1, h2]
    · have hk : ¬ k = (nd T c).r - (nd T c).l := by omega
      simp only [hk, if_false]
      rcases A.pos with ⟨hc, ⟨h0, hk0⟩ | ⟨h0, hk0, hk2⟩⟩
      · subst h0
        have := W.root_l; have := W.root_r
        omega
      · obtain ⟨p, hp⟩ := W.node c hc h0
        rw [charAt_wf W _ (by have := hp.l_nonneg; omega) (by have := hp.r_le; omega)]
        simp [h2]

theorem proceed_spec {T : SuffixTree26} {j : Int} (W : WF T j) (fuel : Nat) :
    ∀ (c : Nat) (k i : Int), At T j c k i → (T.n - i).toNat < fuel →
      ∃ c1 k1 i1, T.proceed fuel c k i = .ok (c1, k1, i1) ∧ At T j c1 k1 i1 ∧
        Stop T c1 k1 i1 := by
  induction fuel with
  | zero => intro c k i _ h; omega
  | succ fuel ih =>
    intro c k i A hf
    by_cases hi : i = T.n
    · refine ⟨c, k, i, ?_, A, Or.inl hi⟩
      rw [proceed]; simp [hi]
    · have hge := A.i_ge W
      have hj := W.j_nonneg
      have hle := A.i_le
      have hn := W.n_eq
      have hlow := tc_lower W i (by omega) (by omega)
      rw [proceed_unfold T fuel c k i A.pos.1 (by omega) (by omega) hlow hn]
      by_cases hk : k = (nd T c).r - (nd T c).l
      · simp only [hk, if_true]
        cases hch : (nd T c).childs (sl (tc T.s i)) with
        | none =>
          refine ⟨c, (nd T c).r - (nd T c).l, i, rfl, ?_, Or.inr (Or.inl ⟨rfl, hch⟩)⟩
          rw [← hk]; exact A
        | some w =>
          simp only []
          obtain ⟨hw, hpar, hsl⟩ := W.child c A.pos.1 _ w hch
          have hw0 : w ≠ 0 := ne_root_of_parent W hpar
          obtain ⟨q, hq⟩ := W.node w hw hw0
          have hqc : q = c := by
            have := hq.par
            rw [hpar] at this
            injection this with this
            exact this.symm
          subst hqc
          have hdw := hq.dep_eq
          have hlr := hq.l_lt_r
          have hieq := A.i_eq
          have hfirst : tc T.s (nd T w).l = tc T.s i :=
            sl_inj (tc_lower W _ hq.l_nonneg (by have := hq.r_le; omega)) hlow hsl
          have A1 : At T j w 1 (i + 1) := by
            refine ⟨⟨hw, Or.inr ⟨hw0, by omega, by omega⟩⟩, by omega, by omega, ?_⟩
            have hag : Agree T.s ((nd T w).r - (nd T w).dep) j (i - j) := by
              refine (hq.agree.mono (by omega)).trans A.agree
            refine (hag.snoc ?_).congr rfl rfl (by omega)
            rw [show (nd T w).r - (nd T w).dep + (i - j) = (nd T w).l by omega,
              show j + (i - j) = i by omega]
            exact hfirst
          exact ih w 1 (i + 1) A1 (by omega)
      · simp only [hk, if_false]
        rcases A.pos with ⟨hc, ⟨h0, hk0⟩ | ⟨h0, hk0, hk2⟩⟩
        · subst h0
          have := W.root_l; have := W.root_r
          omega
        · obtain ⟨p, hp⟩ := W.node c hc h0
          have hieq := A.i_eq
          have hdc := hp.dep_eq
          rw [charAt_wf W _ (by have := hp.l_nonneg; omega) (by have := hp.r_le; omega)]
          simp only []
          by_cases hcmp : tc T.s ((nd T c).l + k) = tc T.s i
          · simp only [hcmp, ne_eq, not_true_eq_false, if_false]
            have A1 : At T j c (k + 1) (i + 1) := by
              refine ⟨⟨hc, Or.inr ⟨h0, by omega, by omega⟩⟩, by omega, by omega, ?_⟩
              refine (A.agree.snoc ?_).congr rfl rfl (by omega)
              rw [show (nd T c).r - (nd T c).dep + (i - j) = (nd T c).l + k by omega,
                show j + (i - j) = i by omega]
              exact hcmp
            exact ih c (k + 1) (i + 1) A1 (by omega)
          · simp only [hcmp, ne_eq, not_false_eq_true, if_true]
            exact ⟨c, k, i, rfl, A, Or.inr (Or.inr ⟨by omega, hcmp⟩)⟩

/-! ## The scanned position is the deepest one on the path of the new suffix -/

theorem parent_eq {T : SuffixTree26} {j : Int} {v p q : Nat} (h : NodeOK T j v p)
    (hq : (nd T v).parent = some q) : p = q := by
  have := h.par
  rw [hq] at this
  injection this with this
  exact this.symm

theorem scan_anc {T : SuffixTree26} {j : Int} (W : WF T j) {c : Nat} {k i : Int}
    (A : At T j c k i) {u : Nat} (hu : u < T.heap.length)
    (ha : Agree T.s ((nd T u).r - (nd T u).dep) j (nd T u).dep)
    (hd : (nd T u).dep ≤ i - j) : Anc T u c := by
  have hieq := A.i_eq
  rcases A.pos with ⟨hc, ⟨h0, hk0⟩ | ⟨h0, hk0, hk2⟩⟩
  · subst h0
    have := W.root_dep; have := W.root_l; have := W.root_r
    have : u = 0 := root_of_dep_zero W hu (by omega)
    subst this
    exact Anc.refl
  · obtain ⟨p, hp⟩ := W.node c hc h0
    have hdc := hp.dep_eq
    have hpd := W.dep_nonneg p hp.p_lt
    obtain ⟨e, E⟩ := W.ends _ hp.start_nonneg hp.start_lt
    have h1 : Anc T u e := by
      refine E.top u hu ?_ (ha.trans (A.agree.mono hd).symm)
      have := hp.r_le
      omega
    have h2 : Anc T c e := by
      refine E.top c hc ?_ (Agree.refl _ _ _)
      have := hp.r_le
      omega
    exact anc_chain W h2 h1 E.e_lt (by omega)

theorem scan_deep {T : SuffixTree26} {j : Int} (W : WF T j) {c : Nat} {k i : Int}
    (A : At T j c k i) (S : Stop T c k i) (hi : i < T.n) {u : Nat} (hu : u < T.heap.length)
    (hgt : i - j < (nd T u).dep)
    (ha : Agree T.s ((nd T u).r - (nd T u).dep) j (i - j + 1)) : False := by
  have hieq := A.i_eq
  have hige := A.i_ge W
  have hu0 : u ≠ 0 := by
    intro e; subst e
    have := W.root_dep
    omega
  obtain ⟨pu, hpu⟩ := W.node u hu hu0
  obtain ⟨e, E⟩ := W.ends _ hpu.start_nonneg hpu.start_lt
  have hue : Anc T u e := by
    refine E.top u hu ?_ (Agree.refl _ _ _)
    have := hpu.r_le
    omega
  have hur := hpu.r_le
  rcases S with h | ⟨h1, h2⟩ | ⟨h1, h2⟩
  · omega
  · -- at the node `c`, which has no child for the next character
    have hc := A.pos.1
    have hdc : (nd T c).dep = i - j := by omega
    have hce : Anc T c e := by
      refine E.top c hc (by omega) ?_
      refine (A.agree.congr rfl rfl hdc).trans (ha.mono (by omega)).symm
    have hcu : Anc T c u := anc_chain W hue hce E.e_lt (by omega)
    have hne : c ≠ u := by
      intro e1; subst e1; omega
    obtain ⟨w, hw, hwu⟩ := anc_child hcu hne
    have hwl := lt_of_parent hw
    obtain ⟨hreg, hl, hlt, _⟩ := child_first W hwl hw
    obtain ⟨_, hdw, hag⟩ := anc_facts W hwu hu
    have hch : tc T.s ((nd T w).r - (nd T w).dep + (nd T c).dep) = tc T.s i := by
      have e1 := hag ((nd T c).dep) (by omega) (by omega)
      have e2 := ha ((nd T c).dep) (by omega) (by omega)
      rw [← e1, e2]
      congr 1
      omega
    rw [hch, h2] at hreg
    cases hreg
  · -- inside the edge to `c`, where the next character differs
    rcases A.pos with ⟨hc, ⟨h0, hk0⟩ | ⟨h0, hk0, hk2⟩⟩
    · subst h0
      have := W.root_l; have := W.root_r
      omega
    · obtain ⟨p, hp⟩ := W.node c hc h0
      have hdc := hp.dep_eq
      have hpd := W.dep_nonneg p hp.p_lt
      have hpe : Anc T p e := by
        refine E.top p hp.p_lt (by omega) ?_
        refine (hp.agree.symm.trans (A.agree.mono (by omega))).trans (ha.mono (by omega)).symm
      have hpu2 : Anc T p u := anc_chain W hue hpe E.e_lt (by omega)
      have hne : p ≠ u := by
        intro e1; subst e1; omega
      obtain ⟨w, hw, hwu⟩ := anc_child hpu2 hne
      have hwl := lt_of_parent hw
      obtain ⟨hreg, hl, hlt, _⟩ := child_first W hwl hw
      obtain ⟨_, hdw, hag⟩ := anc_facts W hwu hu
      have hch : tc T.s ((nd T w).r - (nd T w).dep + (nd T p).dep) = tc T.s (nd T c).l := by
        have e1 := hag ((nd T p).dep) (by omega) (by omega)
        have e2 := ha ((nd T p).dep) (by omega) (by omega)
        have e3 := A.agree ((nd T p).dep) (by omega) (by omega)
        rw [← e1, e2, ← e3]
        congr 1
        omega
      rw [hch, hp.reg] at hreg
      injection hreg with hreg
      subst hreg
      obtain ⟨_, hdc2, hag2⟩ := anc_facts W hwu hu
      apply h2
      have e1 := hag2 (i - j) (by omega) (by omega)
      have e2 := ha (i - j) (by omega) (by omega)
      rw [show (nd T c).l + k = (nd T c).r - (nd T c).dep + (i - j) by omega, ← e1, e2]
      congr 1
      omega

theorem scan_max {T : SuffixTree26} {j : Int} (W : WF T j) {c : Nat} {k i : Int}
    (A : At T j c k i) (S : Stop T c k i) {u : Nat} (hu : u < T.heap.length)
    (hn : (nd T u).dep ≤ T.n - j)
    (ha : Agree T.s ((nd T u).r - (nd T u).dep) j (nd T u).dep) :
    (nd T u).dep ≤ i - j := by
  by_contra hgt
  exact scan_deep W A S (by omega) hu (by omega) (ha.mono (by omega))

/-! ## Heap updates -/

theorem modify_spec (T : SuffixTree26) (a : Nat) (f : node_t → node_t) (h : a < T.heap.length) :
    ∃ T1, T.modify a f = .ok T1 ∧ T1.heap.length = T.heap.length ∧ T1.n = T.n ∧ T1.s = T.s ∧
      T1.root = T.root ∧ T1.sufnodes = T.sufnodes ∧
      ∀ v, nd T1 v = if v = a then f (nd T a) else nd T v := by
  refine ⟨_, modify_ok T a f h, by simp, rfl, rfl, rfl, rfl, ?_⟩
  intro v
  exact nd_set T a _ v h

theorem alloc_spec (T : SuffixTree26) (x : node_t) :
    ∃ T1, T.alloc x = (T1, T.heap.length) ∧ T1.heap.length = T.heap.length + 1 ∧
      T1.n = T.n ∧ T1.s = T.s ∧ T1.root = T.root ∧ T1.sufnodes = T.sufnodes ∧
      ∀ v, nd T1 v = if v = T.heap.length then x else nd T v := by
  refine ⟨(T.alloc x).1, rfl, by simp [alloc], rfl, rfl, rfl, rfl, ?_⟩
  intro v
  exact nd_alloc T x v

theorem split_run {T : SuffixTree26} {j : Int} (W : WF T j) {c : Nat} {k : Int} {p : Nat}
    (hc : c < T.heap.length) (hp : NodeOK T j c p) (hk0 : 0 < k)
    (hk : k < (nd T c).r - (nd T c).l) :
    ∃ T1, T.split c k = .ok (T1, T.heap.length) ∧ SplitOK T T1 c p k := by
  have hcp : c ≠ p := by
    intro e; subst e
    have := hp.dep_eq; have := hp.l_lt_r
    omega
  have hpl := hp.p_lt
  have hlow1 := tc_lower W ((nd T c).l + k) (by have := hp.l_nonneg; omega)
    (by have := hp.r_le; omega)
  have hlow2 := tc_lower W (nd T c).l hp.l_nonneg (by have := hp.r_le; have := hp.l_lt_r; omega)
  obtain ⟨Ta1, hTa, ha2, ha3, ha4, ha5, ha6, ha7⟩ := alloc_spec T
    { l := (nd T c).l, r := (nd T c).l + k, childs := fun _ => none, dep := (nd T p).dep + k,
      parent := some p, cnt := 0, suf := none }
  obtain ⟨T2, h2, l2, n2, s2, r2, f2, nd2⟩ := modify_spec Ta1 T.heap.length
    (setChild (sl (tc T.s ((nd T c).l + k))) c) (by omega)
  obtain ⟨T3, h3, l3, n3, s3, r3, f3, nd3⟩ := modify_spec T2 p
    (setChild (sl (tc T.s (nd T c).l)) T.heap.length) (by omega)
  obtain ⟨T4, h4, l4, n4, s4, r4, f4, nd4⟩ := modify_spec T3 c
    (fun v => { v with l := v.l + k }) (by omega)
  obtain ⟨T5, h5, l5, n5, s5, r5, f5, nd5⟩ := modify_spec T4 c
    (fun v => { v with parent := some T.heap.length }) (by omega)
  have hcb : c ≠ T.heap.length := by omega
  have hpb : p ≠ T.heap.length := by omega
  have e2b : nd T2 T.heap.length = setChild (sl (tc T.s ((nd T c).l + k))) c
      { l := (nd T c).l, r := (nd T c).l + k, childs := fun _ => none, dep := (nd T p).dep + k,
        parent := some p, cnt := 0, suf := none } := by
    rw [nd2, if_pos rfl, ha7, if_pos rfl]
  have e2c : nd T2 c = nd T c := by
    rw [nd2, if_neg hcb, ha7, if_neg hcb]
  refine ⟨T5, ?_, ?_⟩
  · rw [split]
    simp only [deref_ok T c hc, bind, Except.bind, hk, if_true, hp.par, deref_ok T p hpl, hTa,
      charAt_wf W _ (by have := hp.l_nonneg; omega) (by have := hp.r_le; omega : (nd T c).l + k < T.n),
      slot_ok hlow1, h2, deref_ok T2 T.heap.length (by omega), e2b, setChild, pure, Except.pure,
      deref_ok T2 c (by omega), e2c,
      charAt_wf W _ hp.l_nonneg (by have := hp.r_le; have := hp.l_lt_r; omega : (nd T c).l < T.n),
      slot_ok hlow2]
    rw [h3]
    simp only [h4, h5]
  · refine ⟨by omega, by rw [n5, n4, n3, n2, ha3], by rw [s5, s4, s3, s2, ha4],
      by rw [r5, r4, r3, r2, ha5], by rw [f5, f4, f3, f2, ha6], ?_, ?_, ?_, ?_⟩
    · rw [nd5, if_pos rfl, nd4, if_pos rfl, nd3, if_neg hcp, e2c]
    · rw [nd5, if_neg (Ne.symm hcp), nd4, if_neg (Ne.symm hcp), nd3, if_pos rfl, nd2, if_neg hpb,
        ha7, if_neg hpb]
    · rw [nd5, if_neg (Ne.symm hcb), nd4, if_neg (Ne.symm hcb), nd3, if_neg (Ne.symm hpb), e2b]
      simp [setChild]
    · intro v h1 h2 h3
      rw [nd5, if_neg h1, nd4, if_neg h1, nd3, if_neg h2, nd2, if_neg h3, ha7, if_neg h3]

theorem SplitPre.c_ne_pp {T : SuffixTree26} {j : Int} {c pp : Nat} {k : Int}
    (H : SplitPre T j c pp k) : c ≠ pp := by
  intro e
  have h := H.par
  rw [← e] at h
  have := h.dep_eq; have := h.l_lt_r
  omega

theorem split_old {T T1 : SuffixTree26} {j : Int} {c pp : Nat} {k : Int}
    (H : SplitPre T j c pp k) (S : SplitOK T T1 c pp k) (v : Nat) (hv : v < T.heap.length) :
    (nd T1 v).r = (nd T v).r ∧ (nd T1 v).dep = (nd T v).dep ∧ (nd T1 v).cnt = (nd T v).cnt ∧
      (nd T1 v).suf = (nd T v).suf ∧
      (v ≠ c → (nd T1 v).l = (nd T v).l ∧ (nd T1 v).parent = (nd T v).parent) ∧
      (v ≠ pp → (nd T1 v).childs = (nd T v).childs) := by
  have hcp := H.c_ne_pp
  by_cases h1 : v = c
  · subst h1
    rw [S.at_c]
    exact ⟨rfl, rfl, rfl, rfl, fun h => absurd rfl h, fun _ => rfl⟩
  · by_cases h2 : v = pp
    · subst h2
      rw [S.at_pp]
      exact ⟨rfl, rfl, rfl, rfl, fun _ => ⟨rfl, rfl⟩, fun h => absurd rfl h⟩
    · rw [S.other v h1 h2 (by omega)]
      exact ⟨rfl, rfl, rfl, rfl, fun _ => ⟨rfl, rfl⟩, fun _ => rfl⟩

theorem split_childs_pp {T T1 : SuffixTree26} {c pp : Nat} {k : Int}
    (S : SplitOK T T1 c pp k) (y : Nat) :
    (nd T1 pp).childs y =
      if y = sl (tc T.s (nd T c).l) then some T.heap.length else (nd T pp).childs y := by
  rw [S.at_pp]
  rfl

theorem split_childs_b {T T1 : SuffixTree26} {c pp : Nat} {k : Int}
    (S : SplitOK T T1 c pp k) (y : Nat) :
    (nd T1 T.heap.length).childs y =
      if y = sl (tc T.s ((nd T c).l + k)) then some c else none := by
  rw [S.at_b]

/-- An old child of an old node is still its child, unless it is the split
edge seen from above. -/
theorem split_child_old {T T1 : SuffixTree26} {j : Int} {c pp : Nat} {k : Int}
    (H : SplitPre T j c pp k) (S : SplitOK T T1 c pp k) {v w : Nat} {x : Nat}
    (hv : v < T.heap.length) (hw : w ≠ c) (h : (nd T v).childs x = some w) :
    (nd T1 v).childs x = some w := by
  by_cases h2 : v = pp
  · subst h2
    rw [split_childs_pp S]
    by_cases hx : x = sl (tc T.s (nd T c).l)
    · exfalso
      subst hx
      rw [H.par.reg] at h
      injection h with h
      exact hw h.symm
    · rw [if_neg hx]; exact h
  · rw [(split_old H S v hv).2.2.2.2.2 h2]; exact h

theorem anc_split {T T1 : SuffixTree26} {j : Int} {c pp : Nat} {k : Int}
    (H : SplitPre T j c pp k) (S : SplitOK T T1 c pp k) {u e : Nat} (h : Anc T u e) :
    Anc T1 u e := by
  induction h with
  | refl => exact Anc.refl
  | @step v p hp _ ih =>
    have hv := lt_of_parent hp
    by_cases hvc : v = c
    · subst hvc
      have : pp = p := parent_eq H.par hp
      subst this
      have h1 : (nd T1 v).parent = some T.heap.length := by rw [S.at_c]
      have h2 : (nd T1 T.heap.length).parent = some pp := by rw [S.at_b]
      exact Anc.step h1 (Anc.step h2 ih)
    · have h1 : (nd T1 v).parent = some p := by
        rw [((split_old H S v hv).2.2.2.2.1 hvc).2]; exact hp
      exact Anc.step h1 ih

/-- No node lies strictly inside an edge. -/
theorem edge_empty {T : SuffixTree26} {j : Int} (W : WF T j) {c pp e : Nat}
    (hc : c < T.heap.length) (hp : NodeOK T j c pp) (he : e < T.heap.length)
    (hd : (nd T e).dep ≤ (nd T c).dep)
    (ha : Agree T.s ((nd T e).r - (nd T e).dep) ((nd T c).r - (nd T c).dep) (nd T e).dep) :
    e = c ∨ (Anc T e pp ∧ (nd T e).dep ≤ (nd T pp).dep) := by
  obtain ⟨f, F⟩ := W.ends _ hp.start_nonneg hp.start_lt
  have hr := hp.r_le
  have h1 : Anc T e f := F.top e he (by omega) ha
  have h2 : Anc T c f := F.top c hc (by omega) (Agree.refl _ _ _)
  have h3 : Anc T e c := anc_chain W h2 h1 F.e_lt hd
  cases h3 with
  | refl => exact Or.inl rfl
  | @step _ p hp2 h4 =>
    have : pp = p := parent_eq hp hp2
    subst this
    exact Or.inr ⟨h4, (anc_facts W h4 hp.p_lt).2.1⟩

/-- A node whose string runs along the edge to `c` and ends inside it or at
its end has `c` below it or is the parent of `c` or above. -/
theorem edge_child {T : SuffixTree26} {j : Int} (W : WF T j) {c pp e : Nat}
    (hp : NodeOK T j c pp) (he : e < T.heap.length)
    (hpe : Anc T pp e) (hd : (nd T pp).dep < (nd T e).dep)
    (ha : tc T.s ((nd T e).r - (nd T e).dep + (nd T pp).dep) = tc T.s (nd T c).l) :
    Anc T c e := by
  have hne : pp ≠ e := by
    intro e1; subst e1; omega
  obtain ⟨w, hw, hwe⟩ := anc_child hpe hne
  have hwl := lt_of_parent hw
  obtain ⟨hreg, hl, hlt, _⟩ := child_first W hwl hw
  obtain ⟨_, hdw, hag⟩ := anc_facts W hwe he
  have hch : tc T.s ((nd T w).r - (nd T w).dep + (nd T pp).dep) = tc T.s (nd T c).l := by
    have e1 := hag ((nd T pp).dep) (W.dep_nonneg pp hp.p_lt) (by omega)
    rw [← e1]
    exact ha
  rw [hch, hp.reg] at hreg
  injection hreg with hreg
  subst hreg
  exact hwe

theorem list_sum_range (f : node_t → Int) (l : List node_t) :
    (l.map f).sum = ∑ i in Finset.range l.length, f (l.getD i default) := by
  induction l using List.reverseRecOn with
  | nil => simp
  | append_singleton l x ih =>
    rw [List.map_append, List.sum_append, List.length_append, List.length_singleton,
      Finset.sum_range_succ, ih]
    congr 1
    · apply Finset.sum_congr rfl
      intro i hi
      rw [Finset.mem_range] at hi
      simp [List.getD_eq_getElem?_getD, List.getElem?_append_left hi]
    · simp [List.getD_eq_getElem?_getD]

theorem cntSum_eq (T : SuffixTree26) :
    (T.heap.map (fun x => x.cnt)).sum = ∑ v in Finset.range T.heap.length, (nd T v).cnt :=
  list_sum_range _ _

theorem cntSum_grow {T T1 : SuffixTree26} (hl : T1.heap.length = T.heap.length + 1)
    (a : Nat) (ha : a < T.heap.length)
    (h : ∀ v, v < T.heap.length → v ≠ a → (nd T1 v).cnt = (nd T v).cnt) :
    (T1.heap.map (fun x => x.cnt)).sum =
      (T.heap.map (fun x => x.cnt)).sum + ((nd T1 a).cnt - (nd T a).cnt)
        + (nd T1 T.heap.length).cnt := by
  rw [cntSum_eq, cntSum_eq, hl, Finset.sum_range_succ]
  congr 1
  rw [← Finset.add_sum_erase _ _ (Finset.mem_range.mpr ha),
    ← Finset.add_sum_erase (Finset.range T.heap.length) (fun v => (nd T v).cnt) (Finset.mem_range.mpr ha)]
  have : ∑ x in (Finset.range T.heap.length).erase a, (nd T1 x).cnt
      = ∑ x in (Finset.range T.heap.length).erase a, (nd T x).cnt := by
    apply Finset.sum_congr rfl
    intro x hx
    rw [Finset.mem_erase, Finset.mem_range] at hx
    exact h x hx.2 hx.1
  rw [this]
  ring

theorem cntSum_same {T T1 : SuffixTree26} (hl : T1.heap.length = T.heap.length)
    (a : Nat) (ha : a < T.heap.length)
    (h : ∀ v, v < T.heap.length → v ≠ a → (nd T1 v).cnt = (nd T v).cnt) :
    (T1.heap.map (fun x => x.cnt)).sum =
      (T.heap.map (fun x => x.cnt)).sum + ((nd T1 a).cnt - (nd T a).cnt) := by
  rw [cntSum_eq, cntSum_eq, hl]
  rw [← Finset.add_sum_erase _ _ (Finset.mem_range.mpr ha),
    ← Finset.add_sum_erase (Finset.range T.heap.length) (fun v => (nd T v).cnt) (Finset.mem_range.mpr ha)]
  have : ∑ x in (Finset.range T.heap.length).erase a, (nd T1 x).cnt
      = ∑ x in (Finset.range T.heap.length).erase a, (nd T x).cnt := by
    apply Finset.sum_congr rfl
    intro x hx
    rw [Finset.mem_erase, Finset.mem_range] at hx
    exact h x hx.2 hx.1
  rw [this]
  ring

theorem split_node_old {T T1 : SuffixTree26} {j : Int} {c pp : Nat} {k : Int}
    (H : SplitPre T j c pp k) (S : SplitOK T T1 c pp k) {v q : Nat}
    (hv : v < T.heap.length) (hvc : v ≠ c) (h : NodeOK T j v q) : NodeOK T1 j v q := by
  obtain ⟨e1, e2, _, _, e5, _⟩ := split_old H S v hv
  obtain ⟨f1, f2, _, _, _, _⟩ := split_old H S q h.p_lt
  obtain ⟨e5l, e5p⟩ := e5 hvc
  refine ⟨by rw [e5p]; exact h.par, by have := S.len; have := h.p_lt; omega, by rw [e5l]; exact h.l_nonneg,
    by rw [e5l, e1]; exact h.l_lt_r, by rw [e1, S.n_eq]; exact h.r_le,
    by rw [e1, e2, e5l, f2]; exact h.dep_eq, ?_, by rw [e1, e2, f1, f2, S.s_eq]; exact h.agree,
    by rw [e1, e2]; exact h.start_lt, by rw [e1, e2]; exact h.start_nonneg⟩
  rw [e5l, S.s_eq]
  exact split_child_old H S h.p_lt hvc h.reg

theorem split_wf {T T1 : SuffixTree26} {j : Int} {c pp : Nat} {k : Int}
    (H : SplitPre T j c pp k) (S : SplitOK T T1 c pp k) : WF T1 j := by
  have W := H.wf
  have hp := H.par
  have hcp := H.c_ne_pp
  have hk0 := H.k_pos
  have hk := H.k_lt
  have hc := H.c_lt
  have hc0 := H.c_ne
  have hdc := hp.dep_eq
  have hppd := W.dep_nonneg pp hp.p_lt
  obtain ⟨r0, d0, c0, s0, lp0, _⟩ := split_old H S 0 W.size_pos
  obtain ⟨l0, p0⟩ := lp0 (Ne.symm hc0)
  obtain ⟨rc, dc, cc, sc, _, chc⟩ := split_old H S c hc
  obtain ⟨rp, dp, cp, sp, lpp, _⟩ := split_old H S pp hp.p_lt
  have hbl : (nd T1 T.heap.length).l = (nd T c).l := by rw [S.at_b]
  have hbr : (nd T1 T.heap.length).r = (nd T c).l + k := by rw [S.at_b]
  have hbd : (nd T1 T.heap.length).dep = (nd T pp).dep + k := by rw [S.at_b]
  have hbp : (nd T1 T.heap.length).parent = some pp := by rw [S.at_b]
  have hbc : (nd T1 T.heap.length).cnt = 0 := by rw [S.at_b]
  have hcl : (nd T1 c).l = (nd T c).l + k := by rw [S.at_c]
  have hcpar : (nd T1 c).parent = some T.heap.length := by rw [S.at_c]
  have hbstart : (nd T1 T.heap.length).r - (nd T1 T.heap.length).dep
      = (nd T c).r - (nd T c).dep := by rw [hbr, hbd]; omega
  refine
    { n_eq := by rw [S.n_eq, S.s_eq]; exact W.n_eq
      low := by rw [S.s_eq]; exact W.low
      root0 := by rw [S.root_eq]; exact W.root0
      size_pos := by rw [S.len]; omega
      sufn_len := by rw [S.sufn_eq, S.s_eq]; exact W.sufn_len
      j_nonneg := W.j_nonneg
      j_le := by rw [S.n_eq]; exact W.j_le
      root_l := by rw [l0]; exact W.root_l
      root_r := by rw [r0]; exact W.root_r
      root_dep := by rw [d0]; exact W.root_dep
      root_par := by rw [p0]; exact W.root_par
      root_cnt := by rw [c0]; exact W.root_cnt
      root_suf := by rw [s0]; exact W.root_suf
      suf0 := by rw [S.sufn_eq]; exact W.suf0
      node := ?node
      dep_nonneg := ?dep
      child := ?child
      inner := ?inner
      cnt01 := ?cnt01
      cnt1 := ?cnt1
      ends := ?ends
      total := ?total }
  case node =>
    intro v hv hv0
    rw [S.len] at hv
    by_cases hvb : v = T.heap.length
    · subst hvb
      refine ⟨pp, hbp, by rw [S.len]; have := hp.p_lt; omega, by rw [hbl]; exact hp.l_nonneg,
        by rw [hbl, hbr]; omega, by rw [hbr, S.n_eq]; have := hp.r_le; omega,
        by rw [hbd, hbr, hbl, dp]; omega, ?_, ?_, by rw [hbstart]; exact hp.start_lt,
        by rw [hbstart]; exact hp.start_nonneg⟩
      · rw [hbl, S.s_eq, split_childs_pp S, if_pos rfl]
      · rw [hbstart, rp, dp, S.s_eq]; exact hp.agree
    · by_cases hvc : v = c
      · subst hvc
        refine ⟨T.heap.length, hcpar, by rw [S.len]; omega, by rw [hcl]; have := hp.l_nonneg; omega,
          by rw [hcl, rc]; omega, by rw [rc, S.n_eq]; exact hp.r_le,
          by rw [dc, rc, hcl, hbd]; omega, ?_, ?_, by rw [rc, dc]; exact hp.start_lt,
          by rw [rc, dc]; exact hp.start_nonneg⟩
        · rw [hcl, S.s_eq, split_childs_b S, if_pos rfl]
        · rw [hbstart, rc, dc]; exact Agree.refl _ _ _
      · have hv1 : v < T.heap.length := by omega
        obtain ⟨q, hq⟩ := W.node v hv1 hv0
        exact ⟨q, split_node_old H S hv1 hvc hq⟩
  case dep =>
    intro v hv
    rw [S.len] at hv
    by_cases hvb : v = T.heap.length
    · subst hvb; rw [hbd]; omega
    · have hv1 : v < T.heap.length := by omega
      rw [(split_old H S v hv1).2.1]
      exact W.dep_nonneg v hv1
  case child =>
    intro v hv x w hw
    rw [S.len] at hv
    by_cases hvb : v = T.heap.length
    · subst hvb
      rw [split_childs_b S] at hw
      by_cases hx : x = sl (tc T.s ((nd T c).l + k))
      · rw [if_pos hx] at hw
        injection hw with hw
        subst hw
        exact ⟨by rw [S.len]; omega, hcpar, by rw [hcl, S.s_eq]; exact hx.symm⟩
      · rw [if_neg hx] at hw; cases hw
    · have hv1 : v < T.heap.length := by omega
      by_cases hvp : v = pp
      · subst hvp
        rw [split_childs_pp S] at hw
        by_cases hx : x = sl (tc T.s (nd T c).l)
        · rw [if_pos hx] at hw
          injection hw with hw
          subst hw
          exact ⟨by rw [S.len]; omega, hbp, by rw [hbl, S.s_eq]; exact hx.symm⟩
        · rw [if_neg hx] at hw
          obtain ⟨h1, h2, h3⟩ := W.child v hv1 x w hw
          have hwc : w ≠ c := by
            intro e; subst e; exact hx h3.symm
          obtain ⟨_, _, _, _, e5, _⟩ := split_old H S w h1
          obtain ⟨e5l, e5p⟩ := e5 hwc
          exact ⟨by rw [S.len]; omega, by rw [e5p]; exact h2, by rw [e5l, S.s_eq]; exact h3⟩
      · rw [(split_old H S v hv1).2.2.2.2.2 hvp] at hw
        obtain ⟨h1, h2, h3⟩ := W.child v hv1 x w hw
        have hwc : w ≠ c := by
          intro e; subst e
          exact hvp (parent_eq hp h2).symm
        obtain ⟨_, _, _, _, e5, _⟩ := split_old H S w h1
        obtain ⟨e5l, e5p⟩ := e5 hwc
        exact ⟨by rw [S.len]; omega, by rw [e5p]; exact h2, by rw [e5l, S.s_eq]; exact h3⟩
  case inner =>
    intro v hv hv0 hr
    rw [S.len] at hv
    by_cases hvb : v = T.heap.length
    · subst hvb
      exact ⟨_, c, by rw [split_childs_b S, if_pos rfl]⟩
    · have hv1 : v < T.heap.length := by omega
      rw [(split_old H S v hv1).1, S.n_eq] at hr
      obtain ⟨x, w, hw⟩ := W.inner v hv1 hv0 hr
      by_cases hwc : w = c
      · subst hwc
        have : pp = v := parent_eq hp (W.child v hv1 x w hw).2.1
        subst this
        exact ⟨_, T.heap.length, by rw [split_childs_pp S, if_pos rfl]⟩
      · exact ⟨x, w, split_child_old H S hv1 hwc hw⟩
  case cnt01 =>
    intro v hv hv0
    rw [S.len] at hv
    by_cases hvb : v = T.heap.length
    · subst hvb; exact Or.inl hbc
    · have hv1 : v < T.heap.length := by omega
      rw [(split_old H S v hv1).2.2.1]
      exact W.cnt01 v hv1 hv0
  case cnt1 =>
    intro v hv hv0
    rw [S.len] at hv
    by_cases hvb : v = T.heap.length
    · subst hvb
      rw [hbc]
      constructor
      · intro h; omega
      · rintro ⟨h1, h2⟩
        exfalso
        rw [hbstart, S.n_eq, S.s_eq] at h2
        rw [S.n_eq] at h1
        have hr := hp.r_le
        have hsn := hp.start_nonneg
        obtain ⟨e, E⟩ := W.ends (T.n - (nd T1 T.heap.length).dep) (by omega) h1
        have hde := E.dep_eq
        have hag : Agree T.s ((nd T e).r - (nd T e).dep) ((nd T c).r - (nd T c).dep)
            (nd T e).dep := by
          refine (E.agree.congr rfl rfl (by omega)).trans (h2.symm.congr rfl rfl (by omega))
        rcases edge_empty W hc hp E.e_lt (by omega) hag with h | ⟨_, h⟩
        · subst h; omega
        · omega
    · have hv1 : v < T.heap.length := by omega
      obtain ⟨e1, e2, e3, _⟩ := split_old H S v hv1
      rw [e1, e2, e3, S.n_eq, S.s_eq]
      exact W.cnt1 v hv1 hv0
  case ends =>
    intro m hm0 hmj
    obtain ⟨e, E⟩ := W.ends m hm0 hmj
    obtain ⟨e1, e2, _⟩ := split_old H S e E.e_lt
    refine ⟨e, by rw [S.sufn_eq, S.n_eq]; exact E.recd, by rw [S.len]; have := E.e_lt; omega,
      by rw [e2, S.n_eq]; exact E.dep_eq, by rw [e1, e2, S.s_eq, S.n_eq]; exact E.agree, ?_⟩
    intro u hu hd ha
    rw [S.len] at hu
    rw [S.n_eq] at hd
    rw [S.s_eq] at ha
    by_cases hub : u = T.heap.length
    · subst hub
      rw [hbstart] at ha
      have h1 : Anc T pp e := by
        refine E.top pp hp.p_lt (by omega) ?_
        exact hp.agree.symm.trans (ha.mono (by omega))
      have hde := E.dep_eq
      have h2 : Anc T c e := by
        refine edge_child W hp E.e_lt h1 (by omega) ?_
        have a1 := E.agree ((nd T pp).dep) hppd (by omega)
        have a2 := ha ((nd T pp).dep) hppd (by omega)
        rw [a1, ← a2]
        congr 1
        omega
      exact anc_trans (Anc.step hcpar Anc.refl) (anc_split H S h2)
    · have hu1 : u < T.heap.length := by omega
      obtain ⟨f1, f2, _⟩ := split_old H S u hu1
      rw [f1, f2] at ha
      rw [f2] at hd
      exact anc_split H S (E.top u hu1 hd ha)
  case total =>
    rw [cntSum_grow S.len c hc (fun v hv _ => (split_old H S v hv).2.2.1), cc, hbc, W.total]
    omega

theorem keeps_refl (T : SuffixTree26) : Keeps T T :=
  ⟨le_refl _, rfl, rfl, rfl, fun _ _ => rfl, fun _ _ => rfl⟩

theorem keeps_trans {T T1 T2 : SuffixTree26} (h1 : Keeps T T1) (h2 : Keeps T1 T2) :
    Keeps T T2 :=
  ⟨le_trans h1.len_le h2.len_le, h2.n_eq.trans h1.n_eq, h2.s_eq.trans h1.s_eq,
    h2.root_eq.trans h1.root_eq,
    fun v hv => (h2.dep_eq v (lt_of_lt_of_le hv h1.len_le)).trans (h1.dep_eq v hv),
    fun v hv => (h2.r_eq v (lt_of_lt_of_le hv h1.len_le)).trans (h1.r_eq v hv)⟩

theorem split_links {T T1 : SuffixTree26} {j : Int} {c pp : Nat} {k : Int}
    (H : SplitPre T j c pp k) (S : SplitOK T T1 c pp k) {P : Nat → Prop} (L : Links T P) :
    Links T1 (fun x => P x ∨ x = T.heap.length) := by
  intro v hv hv0 hch hP
  rw [S.len] at hv
  have hvb : v ≠ T.heap.length := fun e => hP (Or.inr e)
  have hv1 : v < T.heap.length := by omega
  have hch1 : ∃ x w, (nd T v).childs x = some w := by
    by_cases hvp : v = pp
    · subst hvp; exact ⟨_, c, H.par.reg⟩
    · rw [(split_old H S v hv1).2.2.2.2.2 hvp] at hch; exact hch
  obtain ⟨q, hq⟩ := L v hv1 hv0 hch1 (fun h => hP (Or.inl h))
  obtain ⟨e1, e2, _, e4, _⟩ := split_old H S v hv1
  obtain ⟨f1, f2, _⟩ := split_old H S q hq.q_lt
  exact ⟨q, by rw [e4]; exact hq.suf, by rw [S.len]; have := hq.q_lt; omega,
    by rw [f2, e2]; exact hq.dep_eq, by rw [e1, e2, f1, f2, S.s_eq]; exact hq.agree⟩

theorem split_keeps {T T1 : SuffixTree26} {j : Int} {c pp : Nat} {k : Int}
    (H : SplitPre T j c pp k) (S : SplitOK T T1 c pp k) : Keeps T T1 :=
  ⟨by rw [S.len]; omega, S.n_eq, S.s_eq, S.root_eq,
    fun v hv => (split_old H S v hv).2.1, fun v hv => (split_old H S v hv).1⟩

theorem split_head {T T1 : SuffixTree26} {j : Int} {c pp : Nat} {k i : Int}
    (H : SplitPre T j c pp k) (S : SplitOK T T1 c pp k) (A : At T j c k i)
    (St : Stop T c k i) : Head T1 j T.heap.length i := by
  have W := H.wf
  have hp := H.par
  have hk0 := H.k_pos
  have hk := H.k_lt
  have hdc := hp.dep_eq
  have hieq := A.i_eq
  have hbr : (nd T1 T.heap.length).r = (nd T c).l + k := by rw [S.at_b]
  have hbd : (nd T1 T.heap.length).dep = (nd T pp).dep + k := by rw [S.at_b]
  have hbp : (nd T1 T.heap.length).parent = some pp := by rw [S.at_b]
  have hbstart : (nd T1 T.heap.length).r - (nd T1 T.heap.length).dep
      = (nd T c).r - (nd T c).dep := by rw [hbr, hbd]; omega
  have hcl : (nd T1 c).l = (nd T c).l + k := by rw [S.at_c]
  have hfree : i = T.n ∨ tc T.s ((nd T c).l + k) ≠ tc T.s i := by
    rcases St with h | ⟨h, _⟩ | ⟨_, h⟩
    · exact Or.inl h
    · omega
    · exact Or.inr h
  refine ⟨by rw [S.len]; omega, by rw [hbd]; omega, by rw [S.n_eq]; exact A.i_le,
    by rw [hbstart, S.s_eq]; exact A.agree, ?_, ?_, ?_, ?_⟩
  · intro u hu hd ha
    rw [S.len] at hu
    rw [S.n_eq] at hd
    rw [S.s_eq] at ha
    by_cases hub : u = T.heap.length
    · subst hub; exact Anc.refl
    · have hu1 : u < T.heap.length := by omega
      obtain ⟨f1, f2, _⟩ := split_old H S u hu1
      rw [f1, f2] at ha
      rw [f2] at hd
      have hmax := scan_max W A St hu1 hd ha
      have hanc := scan_anc W A hu1 ha hmax
      cases hanc with
      | refl => omega
      | @step _ p hp2 h4 =>
        have : pp = p := parent_eq hp hp2
        subst this
        exact Anc.step hbp (anc_split H S h4)
  · intro hin u hu hgt ha
    rw [S.len] at hu
    rw [S.n_eq] at hin
    rw [S.s_eq] at ha
    by_cases hub : u = T.heap.length
    · subst hub; omega
    · have hu1 : u < T.heap.length := by omega
      obtain ⟨f1, f2, _⟩ := split_old H S u hu1
      rw [f1, f2] at ha
      rw [f2] at hgt
      exact scan_deep W A St hin hu1 hgt ha
  · rcases hfree with h | h
    · exact Or.inl (by rw [S.n_eq]; exact h)
    · by_cases hin : i = T.n
      · exact Or.inl (by rw [S.n_eq]; exact hin)
      · right
        rw [split_childs_b S, S.s_eq]
        have hige := A.i_ge W
        have hile := A.i_le
        have hj := W.j_nonneg
        have : sl (tc T.s i) ≠ sl (tc T.s ((nd T c).l + k)) := by
          intro e
          refine h (sl_inj (tc_lower W _ (by have := hp.l_nonneg; omega)
            (by have := hp.r_le; omega)) (tc_lower W _ (by omega) (by omega)) e.symm)
        rw [if_neg this]
  · rcases hfree with h | h
    · exact Or.inr (Or.inl (by rw [S.n_eq]; exact h))
    · refine Or.inr (Or.inr ⟨_, c, by rw [split_childs_b S, if_pos rfl], ?_⟩)
      rw [hcl, S.s_eq]; exact h

theorem head_of_at {T : SuffixTree26} {j : Int} (W : WF T j) {c : Nat} {k i : Int}
    (A : At T j c k i) (St : Stop T c k i) (hk : k = (nd T c).r - (nd T c).l) :
    Head T j c i := by
  have hieq := A.i_eq
  have hc := A.pos.1
  have hfree : i = T.n ∨ (nd T c).childs (sl (tc T.s i)) = none := by
    rcases St with h | ⟨_, h⟩ | ⟨h, _⟩
    · exact Or.inl h
    · exact Or.inr h
    · omega
  refine ⟨hc, by omega, A.i_le, A.agree, ?_, ?_, hfree, ?_⟩
  · intro u hu hd ha
    exact scan_anc W A hu ha (scan_max W A St hu hd ha)
  · intro hin u hu hgt ha
    exact scan_deep W A St hin hu hgt ha
  · by_cases hc0 : c = 0
    · exact Or.inl hc0
    · right
      rcases hfree with h | h
      · exact Or.inl h
      · right
        obtain ⟨p, hp⟩ := W.node c hc hc0
        have hr : (nd T c).r < T.n := by
          have := hp.start_lt
          have := A.i_le
          omega
        obtain ⟨x, w, hw⟩ := W.inner c hc hc0 hr
        refine ⟨x, w, hw, ?_⟩
        intro e
        have := (W.child c hc x w hw).2.2
        rw [e] at this
        rw [this, hw] at h
        cases h

theorem split_spec {T : SuffixTree26} {j : Int} (W : WF T j) {c : Nat} {k i : Int}
    (A : At T j c k i) (St : Stop T c k i) {P : Nat → Prop} (L : Links T P) :
    ∃ T1 c1, T.split c k = .ok (T1, c1) ∧ WF T1 j ∧ Head T1 j c1 i ∧
      Links T1 (fun x => P x ∨ x = c1) ∧ Keeps T T1 ∧ (c1 = 0 → k = 0) := by
  have hc := A.pos.1
  by_cases hk : k < (nd T c).r - (nd T c).l
  · rcases A.pos with ⟨_, ⟨h0, hk0⟩ | ⟨h0, hk0, hk2⟩⟩
    · subst h0
      have := W.root_l; have := W.root_r
      omega
    · obtain ⟨p, hp⟩ := W.node c hc h0
      have H : SplitPre T j c p k := ⟨W, hc, h0, hp, hk0, hk⟩
      obtain ⟨T1, hrun, S⟩ := split_run W hc hp hk0 hk
      refine ⟨T1, T.heap.length, hrun, split_wf H S, split_head H S A St, split_links H S L,
        split_keeps H S, ?_⟩
      intro e
      have := W.size_pos
      omega
  · have hk1 : k = (nd T c).r - (nd T c).l := by
      rcases A.pos with ⟨_, ⟨h0, hk0⟩ | ⟨h0, hk0, hk2⟩⟩
      · subst h0
        have := W.root_l; have := W.root_r
        omega
      · omega
    refine ⟨T, c, ?_, W, head_of_at W A St hk1, ?_, keeps_refl T, ?_⟩
    · rw [split]
      simp only [deref_ok T c hc, bind, Except.bind, hk, if_false]
      rfl
    · intro v hv hv0 hch hP
      exact L v hv hv0 hch (fun h => hP (Or.inl h))
    · intro e
      rcases A.pos with ⟨_, ⟨h0, hk0⟩ | ⟨h0, hk0, hk2⟩⟩
      · exact hk0
      · exact absurd e h0

theorem setSufnode_spec (T : SuffixTree26) (d : Int) (p : Nat) (h0 : 0 ≤ d)
    (h1 : d.toNat < T.sufnodes.length) :
    ∃ T1, T.setSufnode d p = .ok T1 ∧ T1.heap.length = T.heap.length ∧ T1.n = T.n ∧
      T1.s = T.s ∧ T1.root = T.root ∧ T1.sufnodes = T.sufnodes.set d.toNat (some p) ∧
      ∀ v, nd T1 v = nd T v := by
  have e : T.setSufnode d p
      = .ok { T with sufnodes := T.sufnodes.set d.toNat (some p) } := by
    unfold setSufnode
    simp [h0, h1]
  exact ⟨_, e, rfl, rfl, rfl, rfl, rfl, fun _ => rfl⟩

theorem attach_leaf_run {T : SuffixTree26} {j : Int} (W : WF T j) {c : Nat} {i : Int}
    (hc : c < T.heap.length) (hi0 : 0 ≤ i) (hi : i < T.n)
    (hd0 : 0 ≤ (nd T c).dep + T.n - i) (hd1 : (nd T c).dep + T.n - i ≤ T.n) :
    ∃ T1, T.attach c i = .ok T1 ∧ LeafOK T T1 c i := by
  have hlow := tc_lower W i hi0 hi
  obtain ⟨Ta, hTa, ha2, ha3, ha4, ha5, ha6, ha7⟩ := alloc_spec T
    { l := i, r := T.n, childs := fun _ => none, dep := (nd T c).dep + T.n - i,
      parent := some c, cnt := 1, suf := none }
  obtain ⟨T2, h2, l2, n2, s2, r2, f2, nd2⟩ := modify_spec Ta c
    (setChild (sl (tc T.s i)) T.heap.length) (by omega)
  have hcb : c ≠ T.heap.length := by omega
  have e2b : nd T2 T.heap.length =
      { l := i, r := T.n, childs := fun _ => none, dep := (nd T c).dep + T.n - i,
        parent := some c, cnt := 1, suf := none } := by
    rw [nd2, if_neg (Ne.symm hcb), ha7, if_pos rfl]
  have hsl : ((nd T c).dep + T.n - i).toNat < T2.sufnodes.length := by
    rw [f2, ha6, W.sufn_len]
    have := W.n_eq
    omega
  obtain ⟨T3, h3, l3, n3, s3, r3, f3, nd3⟩ := setSufnode_spec T2 _ T.heap.length hd0 hsl
  refine ⟨T3, ?_, ?_⟩
  · rw [attach]
    simp only [hi, if_true, deref_ok T c hc, bind, Except.bind, hTa, charAt_wf W i hi0 hi,
      slot_ok hlow, h2, deref_ok T2 T.heap.length (by omega), e2b]
    exact h3
  · refine ⟨by omega, by rw [n3, n2, ha3], by rw [s3, s2, ha4], by rw [r3, r2, ha5],
      by rw [f3, f2, ha6], ?_, ?_, ?_⟩
    · rw [nd3, nd2, if_pos rfl, ha7, if_neg hcb]
    · rw [nd3]; exact e2b
    · intro v h1 h4
      rw [nd3, nd2, if_neg h1, ha7, if_neg h4]

theorem attach_count_run {T : SuffixTree26} {j : Int} (W : WF T j) {c : Nat} {i : Int}
    (hc : c < T.heap.length) (hi : ¬ i < T.n)
    (hd0 : 0 ≤ (nd T c).dep) (hd1 : (nd T c).dep ≤ T.n) :
    ∃ T1, T.attach c i = .ok T1 ∧ CountOK T T1 c := by
  obtain ⟨T2, h2, l2, n2, s2, r2, f2, nd2⟩ := modify_spec T c
    (fun v => { v with cnt := v.cnt + 1 }) hc
  have e2c : (nd T2 c).dep = (nd T c).dep := by rw [nd2, if_pos rfl]
  have hsl : ((nd T c).dep).toNat < T2.sufnodes.length := by
    rw [f2, W.sufn_len]
    have := W.n_eq
    omega
  obtain ⟨T3, h3, l3, n3, s3, r3, f3, nd3⟩ := setSufnode_spec T2 _ c hd0 hsl
  refine ⟨T3, ?_, ?_⟩
  · rw [attach]
    simp only [hi, if_false, bind, Except.bind, h2, deref_ok T2 c (by omega), e2c]
    exact h3
  · refine ⟨by omega, by rw [n3, n2], by rw [s3, s2], by rw [r3, r2], by rw [f3, f2], ?_, ?_⟩
    · rw [nd3, nd2, if_pos rfl]
    · intro v h1
      rw [nd3, nd2, if_neg h1]

theorem anc_keep {T T1 : SuffixTree26}
    (hpar : ∀ v, v < T.heap.length → (nd T1 v).parent = (nd T v).parent) {u e : Nat}
    (h : Anc T u e) : Anc T1 u e := by
  induction h with
  | refl => exact Anc.refl
  | @step v p hp _ ih =>
    exact Anc.step (by rw [hpar v (lt_of_parent hp)]; exact hp) ih

theorem sufn_set_ne (l : List (Option Nat)) (a b : Int) (x : Option Nat) (ha : 0 ≤ a)
    (hb : 0 ≤ b) (hab : a ≠ b) : (l.set a.toNat x)[b.toNat]? = l[b.toNat]? := by
  rw [List.getElem?_set_ne]
  omega

theorem sufn_set_eq (l : List (Option Nat)) (a : Int) (x : Option Nat)
    (hlt : a.toNat < l.length) : (l.set a.toNat x)[a.toNat]? = some x := by
  rw [List.getElem?_set_self hlt]

theorem leaf_old {T T1 : SuffixTree26} {c : Nat} {i : Int} (S : LeafOK T T1 c i) (v : Nat)
    (hv : v < T.heap.length) :
    (nd T1 v).l = (nd T v).l ∧ (nd T1 v).r = (nd T v).r ∧ (nd T1 v).dep = (nd T v).dep ∧
      (nd T1 v).parent = (nd T v).parent ∧ (nd T1 v).cnt = (nd T v).cnt ∧
      (nd T1 v).suf = (nd T v).suf ∧ (v ≠ c → (nd T1 v).childs = (nd T v).childs) := by
  by_cases h1 : v = c
  · subst h1
    rw [S.at_c]
    exact ⟨rfl, rfl, rfl, rfl, rfl, rfl, fun h => absurd rfl h⟩
  · rw [S.other v h1 (by omega)]
    exact ⟨rfl, rfl, rfl, rfl, rfl, rfl, fun _ => rfl⟩

theorem leaf_childs_c {T T1 : SuffixTree26} {c : Nat} {i : Int} (S : LeafOK T T1 c i)
    (y : Nat) :
    (nd T1 c).childs y = if y = sl (tc T.s i) then some T.heap.length else (nd T c).childs y := by
  rw [S.at_c]
  rfl

theorem leaf_child_old {T T1 : SuffixTree26} {j : Int} {c : Nat} {i : Int}
    (H : AttachPre T j c i) (hi : i < T.n) (S : LeafOK T T1 c i) {v w x : Nat}
    (hv : v < T.heap.length) (h : (nd T v).childs x = some w) :
    (nd T1 v).childs x = some w := by
  by_cases hvc : v = c
  · subst hvc
    rw [leaf_childs_c S]
    by_cases hx : x = sl (tc T.s i)
    · exfalso
      subst hx
      rcases H.head.free with h1 | h1
      · omega
      · rw [h1] at h; cases h
    · rw [if_neg hx]; exact h
  · rw [(leaf_old S v hv).2.2.2.2.2.2 hvc]; exact h

theorem leaf_wf {T T1 : SuffixTree26} {j : Int} {c : Nat} {i : Int}
    (H : AttachPre T j c i) (hi : i < T.n) (S : LeafOK T T1 c i) : WF T1 (j + 1) := by
  have W := H.wf
  have hj := H.j_lt
  have hj0 := W.j_nonneg
  have hd := H.head.dep_eq
  have hc := H.head.lt
  have hcd := W.dep_nonneg c hc
  have hneq := W.n_eq
  obtain ⟨l0, r0, d0, p0, c0, s0, _⟩ := leaf_old S 0 W.size_pos
  obtain ⟨lc, rc, dc, pc, cc, sc, _⟩ := leaf_old S c hc
  have hfl : (nd T1 T.heap.length).l = i := by rw [S.at_leaf]
  have hfr : (nd T1 T.heap.length).r = T.n := by rw [S.at_leaf]
  have hfd : (nd T1 T.heap.length).dep = (nd T c).dep + T.n - i := by rw [S.at_leaf]
  have hfp : (nd T1 T.heap.length).parent = some c := by rw [S.at_leaf]
  have hfc : (nd T1 T.heap.length).cnt = 1 := by rw [S.at_leaf]
  have hfch : ∀ y, (nd T1 T.heap.length).childs y = none := by intro y; rw [S.at_leaf]
  have hpar : ∀ v, v < T.heap.length → (nd T1 v).parent = (nd T v).parent :=
    fun v hv => (leaf_old S v hv).2.2.2.1
  have hidx : (nd T c).dep + T.n - i = T.n - j := by omega
  refine
    { n_eq := by rw [S.n_eq, S.s_eq]; exact W.n_eq
      low := by rw [S.s_eq]; exact W.low
      root0 := by rw [S.root_eq]; exact W.root0
      size_pos := by rw [S.len]; omega
      sufn_len := by rw [S.sufn, S.s_eq, List.length_set]; exact W.sufn_len
      j_nonneg := by omega
      j_le := by rw [S.n_eq]; omega
      root_l := by rw [l0]; exact W.root_l
      root_r := by rw [r0]; exact W.root_r
      root_dep := by rw [d0]; exact W.root_dep
      root_par := by rw [p0]; exact W.root_par
      root_cnt := by rw [c0]; exact W.root_cnt
      root_suf := by rw [s0]; exact W.root_suf
      suf0 := ?suf0
      node := ?node
      dep_nonneg := ?dep
      child := ?child
      inner := ?inner
      cnt01 := ?cnt01
      cnt1 := ?cnt1
      ends := ?ends
      total := ?total }
  case suf0 =>
    rw [S.sufn, hidx]
    have := sufn_set_ne T.sufnodes (T.n - j) 0 (some T.heap.length) (by omega) (by omega)
      (by omega)
    rw [show (0 : Int).toNat = 0 from rfl] at this
    rw [this]
    exact W.suf0
  case node =>
    intro v hv hv0
    rw [S.len] at hv
    by_cases hvb : v = T.heap.length
    · subst hvb
      refine ⟨c, hfp, by rw [S.len]; omega, by rw [hfl]; omega, by rw [hfl, hfr]; exact hi,
        by rw [hfr, S.n_eq], by rw [hfd, hfr, hfl, dc]; omega, ?_, ?_, by rw [hfr, hfd]; omega,
        by rw [hfr, hfd]; omega⟩
      · rw [hfl, S.s_eq, leaf_childs_c S, if_pos rfl]
      · rw [hfr, hfd, rc, dc, S.s_eq]
        exact (H.head.agree.congr rfl (by omega) (by omega)).symm
    · have hv1 : v < T.heap.length := by omega
      obtain ⟨q, hq⟩ := W.node v hv1 hv0
      obtain ⟨e1, e2, e3, e4, _⟩ := leaf_old S v hv1
      obtain ⟨_, f2, f3, _⟩ := leaf_old S q hq.p_lt
      refine ⟨q, by rw [e4]; exact hq.par, by rw [S.len]; have := hq.p_lt; omega,
        by rw [e1]; exact hq.l_nonneg, by rw [e1, e2]; exact hq.l_lt_r,
        by rw [e2, S.n_eq]; exact hq.r_le, by rw [e3, e2, e1, f3]; exact hq.dep_eq, ?_,
        by rw [e2, e3, f2, f3, S.s_eq]; exact hq.agree,
        by rw [e2, e3]; have := hq.start_lt; omega, by rw [e2, e3]; exact hq.start_nonneg⟩
      rw [e1, S.s_eq]
      exact leaf_child_old H hi S hq.p_lt hq.reg
  case dep =>
    intro v hv
    rw [S.len] at hv
    by_cases hvb : v = T.heap.length
    · subst hvb; rw [hfd]; omega
    · have hv1 : v < T.heap.length := by omega
      rw [(leaf_old S v hv1).2.2.1]
      exact W.dep_nonneg v hv1
  case child =>
    intro v hv x w hw
    rw [S.len] at hv
    by_cases hvb : v = T.heap.length
    · subst hvb
      rw [hfch] at hw; cases hw
    · have hv1 : v < T.heap.length := by omega
      have hold : (nd T v).childs x = some w →
          w < T1.heap.length ∧ (nd T1 w).parent = some v ∧ sl (tc T1.s (nd T1 w).l) = x := by
        intro hw1
        obtain ⟨h1, h2, h3⟩ := W.child v hv1 x w hw1
        obtain ⟨e1, _, _, e4, _⟩ := leaf_old S w h1
        exact ⟨by rw [S.len]; omega, by rw [e4]; exact h2, by rw [e1, S.s_eq]; exact h3⟩
      by_cases hvc : v = c
      · subst hvc
        rw [leaf_childs_c S] at hw
        by_cases hx : x = sl (tc T.s i)
        · rw [if_pos hx] at hw
          injection hw with hw
          subst hw
          exact ⟨by rw [S.len]; omega, hfp, by rw [hfl, S.s_eq]; exact hx.symm⟩
        · rw [if_neg hx] at hw
          exact hold hw
      · rw [(leaf_old S v hv1).2.2.2.2.2.2 hvc] at hw
        exact hold hw
  case inner =>
    intro v hv hv0 hr
    rw [S.len] at hv
    by_cases hvb : v = T.heap.length
    · subst hvb
      rw [hfr, S.n_eq] at hr
      omega
    · have hv1 : v < T.heap.length := by omega
      rw [(leaf_old S v hv1).2.1, S.n_eq] at hr
      obtain ⟨x, w, hw⟩ := W.inner v hv1 hv0 hr
      exact ⟨x, w, leaf_child_old H hi S hv1 hw⟩
  case cnt01 =>
    intro v hv hv0
    rw [S.len] at hv
    by_cases hvb : v = T.heap.length
    · subst hvb; exact Or.inr hfc
    · have hv1 : v < T.heap.length := by omega
      rw [(leaf_old S v hv1).2.2.2.2.1]
      exact W.cnt01 v hv1 hv0
  case cnt1 =>
    intro v hv hv0
    rw [S.len] at hv
    by_cases hvb : v = T.heap.length
    · subst hvb
      rw [hfc, hfr, hfd, S.n_eq]
      refine ⟨fun _ => ⟨by omega, ?_⟩, fun _ => rfl⟩
      exact (Agree.refl _ _ _).congr rfl (by omega) rfl
    · have hv1 : v < T.heap.length := by omega
      obtain ⟨_, e2, e3, _, e5, _⟩ := leaf_old S v hv1
      rw [e2, e3, e5, S.n_eq, S.s_eq, W.cnt1 v hv1 hv0]
      constructor
      · rintro ⟨h1, h2⟩
        exact ⟨by omega, h2⟩
      · rintro ⟨h1, h2⟩
        refine ⟨?_, h2⟩
        by_contra hge
        have heq : T.n - (nd T v).dep = j := by omega
        rw [heq] at h2
        have ha := H.head.top v hv1 (by omega) h2
        have := (anc_facts W ha hc).2.1
        omega
  case ends =>
    intro m hm0 hmj
    by_cases hm : m = j
    · subst hm
      refine ⟨T.heap.length, ?_, by rw [S.len]; omega, by rw [hfd, S.n_eq]; omega, ?_, ?_⟩
      · rw [S.sufn, S.n_eq, hidx]
        exact sufn_set_eq _ _ _ (by rw [W.sufn_len]; omega)
      · rw [hfr, hfd, S.n_eq, S.s_eq]
        exact (Agree.refl _ _ _).congr rfl (by omega) rfl
      · intro u hu hd1 ha
        rw [S.len] at hu
        by_cases hub : u = T.heap.length
        · subst hub; exact Anc.refl
        · have hu1 : u < T.heap.length := by omega
          obtain ⟨_, e2, e3, _⟩ := leaf_old S u hu1
          rw [e2, e3, S.s_eq] at ha
          rw [e3, S.n_eq] at hd1
          exact Anc.step hfp (anc_keep hpar (H.head.top u hu1 hd1 ha))
    · obtain ⟨e, E⟩ := W.ends m hm0 (by omega)
      obtain ⟨_, e2, e3, _⟩ := leaf_old S e E.e_lt
      refine ⟨e, ?_, by rw [S.len]; have := E.e_lt; omega, by rw [e3, S.n_eq]; exact E.dep_eq,
        by rw [e2, e3, S.s_eq, S.n_eq]; exact E.agree, ?_⟩
      · rw [S.sufn, S.n_eq, hidx, sufn_set_ne _ _ _ _ (by omega) (by omega) (by omega)]
        exact E.recd
      · intro u hu hd1 ha
        rw [S.len] at hu
        by_cases hub : u = T.heap.length
        · subst hub
          exfalso
          rw [hfr, hfd, S.s_eq] at ha
          rw [hfd, S.n_eq] at hd1
          have hde := E.dep_eq
          refine H.head.deep hi e E.e_lt (by omega) ?_
          refine (E.agree.mono (by omega)).trans ((ha.mono (by omega)).symm.congr rfl ?_ rfl)
          omega
        · have hu1 : u < T.heap.length := by omega
          obtain ⟨_, f2, f3, _⟩ := leaf_old S u hu1
          rw [f2, f3, S.s_eq] at ha
          rw [f3, S.n_eq] at hd1
          exact anc_keep hpar (E.top u hu1 hd1 ha)
  case total =>
    rw [cntSum_grow S.len c hc (fun v hv _ => (leaf_old S v hv).2.2.2.2.1), cc, hfc, W.total]
    omega

theorem count_old {T T1 : SuffixTree26} {c : Nat} (S : CountOK T T1 c) (v : Nat) :
    (nd T1 v).l = (nd T v).l ∧ (nd T1 v).r = (nd T v).r ∧ (nd T1 v).dep = (nd T v).dep ∧
      (nd T1 v).parent = (nd T v).parent ∧ (nd T1 v).childs = (nd T v).childs ∧
      (nd T1 v).suf = (nd T v).suf ∧ (v ≠ c → (nd T1 v).cnt = (nd T v).cnt) := by
  by_cases h1 : v = c
  · subst h1
    rw [S.at_c]
    exact ⟨rfl, rfl, rfl, rfl, rfl, rfl, fun h => absurd rfl h⟩
  · rw [S.other v h1]
    exact ⟨rfl, rfl, rfl, rfl, rfl, rfl, fun _ => rfl⟩

theorem count_wf {T T1 : SuffixTree26} {j : Int} {c : Nat} {i : Int}
    (H : AttachPre T j c i) (hi : i = T.n) (S : CountOK T T1 c) : WF T1 (j + 1) := by
  have W := H.wf
  have hj := H.j_lt
  have hj0 := W.j_nonneg
  have hd := H.head.dep_eq
  have hc := H.head.lt
  have hneq := W.n_eq
  have hc0 : c ≠ 0 := by
    intro e; subst e
    have := W.root_dep
    omega
  obtain ⟨l0, r0, d0, p0, _, s0, c0⟩ := count_old S 0
  have hcc : (nd T1 c).cnt = (nd T c).cnt + 1 := by rw [S.at_c]
  have hpar : ∀ v, v < T.heap.length → (nd T1 v).parent = (nd T v).parent :=
    fun v _ => (count_old S v).2.2.2.1
  have hidx : (nd T c).dep = T.n - j := by omega
  have hcold : (nd T c).cnt = 0 := by
    rcases W.cnt01 c hc hc0 with h | h
    · exact h
    · exfalso
      have := ((W.cnt1 c hc hc0).mp h).1
      omega
  refine
    { n_eq := by rw [S.n_eq, S.s_eq]; exact W.n_eq
      low := by rw [S.s_eq]; exact W.low
      root0 := by rw [S.root_eq]; exact W.root0
      size_pos := by rw [S.len]; exact W.size_pos
      sufn_len := by rw [S.sufn, S.s_eq, List.length_set]; exact W.sufn_len
      j_nonneg := by omega
      j_le := by rw [S.n_eq]; omega
      root_l := by rw [l0]; exact W.root_l
      root_r := by rw [r0]; exact W.root_r
      root_dep := by rw [d0]; exact W.root_dep
      root_par := by rw [p0]; exact W.root_par
      root_cnt := by rw [c0 (Ne.symm hc0)]; exact W.root_cnt
      root_suf := by rw [s0]; exact W.root_suf
      suf0 := ?suf0
      node := ?node
      dep_nonneg := ?dep
      child := ?child
      inner := ?inner
      cnt01 := ?cnt01
      cnt1 := ?cnt1
      ends := ?ends
      total := ?total }
  case suf0 =>
    rw [S.sufn, hidx]
    have := sufn_set_ne T.sufnodes (T.n - j) 0 (some c) (by omega) (by omega) (by omega)
    rw [show (0 : Int).toNat = 0 from rfl] at this
    rw [this]
    exact W.suf0
  case node =>
    intro v hv hv0
    rw [S.len] at hv
    obtain ⟨q, hq⟩ := W.node v hv hv0
    obtain ⟨e1, e2, e3, e4, _⟩ := count_old S v
    obtain ⟨_, f2, f3, _, f5, _⟩ := count_old S q
    exact ⟨q, by rw [e4]; exact hq.par, by rw [S.len]; exact hq.p_lt,
      by rw [e1]; exact hq.l_nonneg, by rw [e1, e2]; exact hq.l_lt_r,
      by rw [e2, S.n_eq]; exact hq.r_le, by rw [e3, e2, e1, f3]; exact hq.dep_eq,
      by rw [f5, e1, S.s_eq]; exact hq.reg,
      by rw [e2, e3, f2, f3, S.s_eq]; exact hq.agree,
      by rw [e2, e3]; have := hq.start_lt; omega, by rw [e2, e3]; exact hq.start_nonneg⟩
  case dep =>
    intro v hv
    rw [S.len] at hv
    rw [(count_old S v).2.2.1]
    exact W.dep_nonneg v hv
  case child =>
    intro v hv x w hw
    rw [S.len] at hv
    rw [(count_old S v).2.2.2.2.1] at hw
    obtain ⟨h1, h2, h3⟩ := W.child v hv x w hw
    obtain ⟨e1, _, _, e4, _⟩ := count_old S w
    exact ⟨by rw [S.len]; exact h1, by rw [e4]; exact h2, by rw [e1, S.s_eq]; exact h3⟩
  case inner =>
    intro v hv hv0 hr
    rw [S.len] at hv
    rw [(count_old S v).2.1, S.n_eq] at hr
    rw [(count_old S v).2.2.2.2.1]
    exact W.inner v hv hv0 hr
  case cnt01 =>
    intro v hv hv0
    rw [S.len] at hv
    by_cases hvc : v = c
    · subst hvc
      right; rw [hcc, hcold]; rfl
    · rw [(count_old S v).2.2.2.2.2.2 hvc]
      exact W.cnt01 v hv hv0
  case cnt1 =>
    intro v hv hv0
    rw [S.len] at hv
    obtain ⟨_, e2, e3, _⟩ := count_old S v
    rw [e2, e3, S.n_eq, S.s_eq]
    by_cases hvc : v = c
    · subst hvc
      rw [hcc, hcold]
      refine ⟨fun _ => ⟨by omega, ?_⟩, fun _ => rfl⟩
      exact H.head.agree.congr rfl (by omega) (by omega)
    · rw [(count_old S v).2.2.2.2.2.2 hvc, W.cnt1 v hv hv0]
      constructor
      · rintro ⟨h1, h2⟩
        exact ⟨by omega, h2⟩
      · rintro ⟨h1, h2⟩
        refine ⟨?_, h2⟩
        by_contra hge
        have heq : T.n - (nd T v).dep = j := by omega
        rw [heq] at h2
        have ha := H.head.top v hv (by omega) h2
        exact hvc (anc_eq_of_dep W ha hc (by omega))
  case ends =>
    intro m hm0 hmj
    by_cases hm : m = j
    · subst hm
      obtain ⟨_, e2, e3, _⟩ := count_old S c
      refine ⟨c, ?_, by rw [S.len]; exact hc, by rw [e3, S.n_eq]; omega, ?_, ?_⟩
      · rw [S.sufn, S.n_eq, hidx]
        exact sufn_set_eq _ _ _ (by rw [W.sufn_len]; omega)
      · rw [e2, e3, S.n_eq, S.s_eq]
        exact H.head.agree.congr rfl rfl (by omega)
      · intro u hu hd1 ha
        rw [S.len] at hu
        obtain ⟨_, f2, f3, _⟩ := count_old S u
        rw [f2, f3, S.s_eq] at ha
        rw [f3, S.n_eq] at hd1
        exact anc_keep hpar (H.head.top u hu hd1 ha)
    · obtain ⟨e, E⟩ := W.ends m hm0 (by omega)
      obtain ⟨_, e2, e3, _⟩ := count_old S e
      refine ⟨e, ?_, by rw [S.len]; exact E.e_lt, by rw [e3, S.n_eq]; exact E.dep_eq,
        by rw [e2, e3, S.s_eq, S.n_eq]; exact E.agree, ?_⟩
      · rw [S.sufn, S.n_eq, hidx, sufn_set_ne _ _ _ _ (by omega) (by omega) (by omega)]
        exact E.recd
      · intro u hu hd1 ha
        rw [S.len] at hu
        obtain ⟨_, f2, f3, _⟩ := count_old S u
        rw [f2, f3, S.s_eq] at ha
        rw [f3, S.n_eq] at hd1
        exact anc_keep hpar (E.top u hu hd1 ha)
  case total =>
    rw [cntSum_same S.len c hc (fun v _ hvc => (count_old S v).2.2.2.2.2.2 hvc), hcc, W.total]
    omega

theorem attach_spec {T : SuffixTree26} {j : Int} {c : Nat} {i : Int}
    (H : AttachPre T j c i) : ∃ T1, T.attach c i = .ok T1 ∧ Attached T T1 j c i := by
  have W := H.wf
  have hc := H.head.lt
  have hd := H.head.dep_eq
  have hcd := W.dep_nonneg c hc
  have hile := H.head.i_le
  have hj0 := W.j_nonneg
  by_cases hi : i < T.n
  · obtain ⟨T1, hrun, S⟩ := attach_leaf_run W hc (by omega) hi (by omega) (by omega)
    refine ⟨T1, hrun, leaf_wf H hi S, ⟨by rw [S.len]; omega, S.n_eq, S.s_eq, S.root_eq,
      fun v hv => (leaf_old S v hv).2.2.1, fun v hv => (leaf_old S v hv).2.1⟩,
      fun v hv => (leaf_old S v hv).2.2.2.2.2.1,
      fun v hv hvc => (leaf_old S v hv).2.2.2.2.2.2 hvc, ?_⟩
    intro v hv x
    by_cases hvb : v = T.heap.length
    · subst hvb; rw [S.at_leaf]
    · have h1 : ¬ v < T1.heap.length := by rw [S.len]; omega
      unfold nd
      rw [List.getD_eq_getElem?_getD, List.getElem?_eq_none (by omega)]
      rfl
  · obtain ⟨T1, hrun, S⟩ := attach_count_run W hc hi hcd (by have := H.j_lt; omega)
    refine ⟨T1, hrun, count_wf H (by omega) S, ⟨by rw [S.len], S.n_eq, S.s_eq, S.root_eq,
      fun v _ => (count_old S v).2.2.1, fun v _ => (count_old S v).2.1⟩,
      fun v _ => (count_old S v).2.2.2.2.2.1,
      fun v _ _ => (count_old S v).2.2.2.2.1, ?_⟩
    intro v hv x
    rw [(count_old S v).2.2.2.2.1]
    unfold nd
    rw [List.getD_eq_getElem?_getD, List.getElem?_eq_none (by omega)]
    rfl

theorem attach_links {T T1 : SuffixTree26} {j : Int} {c : Nat} {i : Int}
    (R : Attached T T1 j c i) {P : Nat → Prop} (L : Links T P) (hP : P c) :
    Links T1 P := by
  intro v hv hv0 hch hPv
  have hvc : v ≠ c := fun e => hPv (e ▸ hP)
  by_cases hv1 : v < T.heap.length
  · rw [R.childs_eq v hv1 hvc] at hch
    obtain ⟨q, hq⟩ := L v hv1 hv0 hch hPv
    exact ⟨q, by rw [R.suf_eq v hv1]; exact hq.suf, lt_of_lt_of_le hq.q_lt R.keeps.len_le,
      by rw [R.keeps.dep_eq q hq.q_lt, R.keeps.dep_eq v hv1]; exact hq.dep_eq,
      by rw [R.keeps.dep_eq q hq.q_lt, R.keeps.dep_eq v hv1, R.keeps.r_eq q hq.q_lt,
        R.keeps.r_eq v hv1, R.keeps.s_eq]; exact hq.agree⟩
  · exfalso
    obtain ⟨x, w, hw⟩ := hch
    rw [R.fresh v (by omega) x] at hw
    cases hw

/-! ## The rescan through the suffix link -/

theorem rescan_loop {T : SuffixTree26} {J : Int} (W : WF T J) {c1 pr e : Nat} {ms i : Int}
    (hp : NodeOK T J c1 pr) (E : EndOK T ms e)
    (hms : ms = (nd T c1).r - (nd T c1).dep + 1) (hi : i = J + ((nd T c1).dep - 1))
    (hile : i ≤ T.n) (hagJ : Agree T.s ms J ((nd T c1).dep - 1)) (fuel : Nat) :
    ∀ (cur : Nat) (k jj : Int), cur < T.heap.length →
      (nd T cur).dep = (nd T pr).dep + jj - 1 → (nd T cur).dep ≤ (nd T c1).dep - 1 →
      Agree T.s ((nd T cur).r - (nd T cur).dep) ms (nd T cur).dep →
      (jj < (nd T c1).r - (nd T c1).l ∨ k = (nd T cur).r - (nd T cur).l) →
      ((nd T c1).r - (nd T c1).l - jj).toNat < fuel →
      ∃ c3 k3, T.proceed_suf_loop (nd T c1) fuel cur k jj = .ok (c3, k3) ∧ At T J c3 k3 i := by
  have hdc := hp.dep_eq
  have hlr := hp.l_lt_r
  have hrn := hp.r_le
  have hl0 := hp.l_nonneg
  have hs0 := hp.start_nonneg
  have hprd := W.dep_nonneg pr hp.p_lt
  have hde := E.dep_eq
  induction fuel with
  | zero => intro cur k jj _ _ _ _ _ h; omega
  | succ fuel ih =>
    intro cur k jj hcur hdcur hdle hag hjk hf
    have hcd := W.dep_nonneg cur hcur
    rw [proceed_suf_loop]
    by_cases hjj : jj < (nd T c1).r - (nd T c1).l
    · have hlow := tc_lower W ((nd T c1).l + jj) (by omega) (by omega)
      simp only [hjj, if_true, deref_ok T cur hcur, bind, Except.bind,
        charAt_wf W ((nd T c1).l + jj) (by omega) (by omega), slot_ok hlow]
      have hce : Anc T cur e := E.top cur hcur (by omega) hag
      have hne : cur ≠ e := by
        intro h; subst h; omega
      obtain ⟨w, hw, hwe⟩ := anc_child hce hne
      have hwl := lt_of_parent hw
      obtain ⟨hreg, hl, hlt, _⟩ := child_first W hwl hw
      obtain ⟨_, hdw, hagw⟩ := anc_facts W hwe E.e_lt
      have hw0 : w ≠ 0 := ne_root_of_parent W hw
      obtain ⟨q, hq⟩ := W.node w hwl hw0
      have hqc : q = cur := parent_eq hq hw
      subst hqc
      have hagw2 : Agree T.s ((nd T w).r - (nd T w).dep) ms (nd T w).dep :=
        hagw.symm.trans (E.agree.mono (by omega))
      have hch : tc T.s ((nd T w).r - (nd T w).dep + (nd T q).dep)
          = tc T.s ((nd T c1).l + jj) := by
        have e1 := hagw2 ((nd T q).dep) hcd (by omega)
        rw [e1]
        congr 1
        omega
      rw [hch] at hreg
      rw [hreg]
      simp only [deref_ok T w hwl]
      have hdwq := hq.dep_eq
      by_cases hk1 : (nd T c1).r - (nd T c1).l - jj > (nd T w).r - (nd T w).l
      · simp only [hk1, if_true]
        exact ih w _ _ hwl (by omega) (by omega) hagw2 (Or.inl (by omega)) (by omega)
      · simp only [hk1, if_false]
        refine ⟨w, _, rfl, ⟨hwl, Or.inr ⟨hw0, by omega, by omega⟩⟩, by omega, hile, ?_⟩
        exact ((hagw2.mono (by omega)).trans hagJ).congr rfl rfl (by omega)
    · simp only [hjj, if_false]
      have hk : k = (nd T cur).r - (nd T cur).l := by
        rcases hjk with h | h
        · exact absurd h hjj
        · exact h
      refine ⟨cur, k, rfl, ⟨hcur, ?_⟩, by omega, hile, ?_⟩
      · by_cases h0 : cur = 0
        · left
          subst h0
          have := W.root_l; have := W.root_r
          exact ⟨rfl, by omega⟩
        · right
          obtain ⟨q, hq⟩ := W.node cur hcur h0
          have := hq.l_lt_r
          exact ⟨h0, by omega, by omega⟩
      · exact ((hag.congr rfl rfl (by omega)).trans hagJ).congr rfl rfl (by omega)

theorem proceed_suf_spec {T : SuffixTree26} {j : Int} (W : WF T (j + 1)) {c1 : Nat} {i k : Int}
    (hc1 : c1 < T.heap.length) (hc0 : c1 ≠ 0) (hd : (nd T c1).dep = i - j)
    (hst : (nd T c1).r - (nd T c1).dep < j) (hile : i ≤ T.n)
    (hag : Agree T.s ((nd T c1).r - (nd T c1).dep) j (i - j))
    (L : Links T (fun x => x = c1)) :
    ∃ c3 k3, T.proceed_suf (T.s.length + 1) c1 k = .ok (c3, k3) ∧ At T (j + 1) c3 k3 i := by
  obtain ⟨pr, hp⟩ := W.node c1 hc1 hc0
  have hdc := hp.dep_eq
  have hlr := hp.l_lt_r
  have hrn := hp.r_le
  have hl0 := hp.l_nonneg
  have hs0 := hp.start_nonneg
  have hprd := W.dep_nonneg pr hp.p_lt
  have hneq := W.n_eq
  obtain ⟨e, E⟩ := W.ends ((nd T c1).r - (nd T c1).dep + 1) (by omega) (by omega)
  have hagJ : Agree T.s ((nd T c1).r - (nd T c1).dep + 1) (j + 1) ((nd T c1).dep - 1) := by
    exact (hag.shift 1 (by omega)).congr rfl rfl (by omega)
  have hloop := rescan_loop W hp E rfl (by omega : i = j + 1 + ((nd T c1).dep - 1)) hile hagJ
    (T.s.length + 1)
  rw [proceed_suf]
  simp only [W.root0, hc0, if_false, deref_ok T c1 hc1, bind, Except.bind, hp.par]
  by_cases hpr : pr = 0
  · subst hpr
    simp only [if_true, pure, Except.pure, deref_ok T 0 W.size_pos]
    have := W.root_dep; have := W.root_l; have := W.root_r
    refine hloop 0 _ 1 W.size_pos (by omega) (by omega) ?_ (Or.inr rfl) (by omega)
    intro t h0 h1
    omega
  · have hne : ¬ (some pr = some 0) := by
      intro h; injection h with h; exact hpr h
    simp only [hne, if_false, deref_ok T pr hp.p_lt]
    have hprc : ¬ pr = c1 := by
      intro h; rw [h] at hdc; omega
    obtain ⟨q, hq⟩ := L pr hp.p_lt hpr ⟨_, c1, hp.reg⟩ hprc
    rw [hq.suf]
    simp only [pure, Except.pure, deref_ok T q hq.q_lt]
    have hqd := hq.dep_eq
    have hqd0 := W.dep_nonneg q hq.q_lt
    refine hloop q _ 0 hq.q_lt (by omega) (by omega) ?_ (Or.inr rfl) (by omega)
    refine hq.agree.trans ?_
    exact ((hp.agree.symm.shift 1 (by omega)).congr rfl rfl (by omega))

theorem sufset_run (T : SuffixTree26) (a q : Nat) (h : a < T.heap.length) :
    ∃ T1, T.modify a (fun x => { x with suf := some q }) = .ok T1 ∧ SufSet T T1 a q := by
  obtain ⟨T1, h1, l1, n1, s1, r1, f1, nd1⟩ := modify_spec T a
    (fun x => { x with suf := some q }) h
  refine ⟨T1, h1, l1, n1, s1, r1, f1, ?_, ?_⟩
  · rw [nd1, if_pos rfl]
  · intro v hv
    rw [nd1, if_neg hv]

theorem sufset_old {T T1 : SuffixTree26} {a q : Nat} (S : SufSet T T1 a q) (v : Nat) :
    (nd T1 v).l = (nd T v).l ∧ (nd T1 v).r = (nd T v).r ∧ (nd T1 v).dep = (nd T v).dep ∧
      (nd T1 v).parent = (nd T v).parent ∧ (nd T1 v).childs = (nd T v).childs ∧
      (nd T1 v).cnt = (nd T v).cnt ∧ (v ≠ a → (nd T1 v).suf = (nd T v).suf) := by
  by_cases h1 : v = a
  · subst h1
    rw [S.at_a]
    exact ⟨rfl, rfl, rfl, rfl, rfl, rfl, fun h => absurd rfl h⟩
  · rw [S.other v h1]
    exact ⟨rfl, rfl, rfl, rfl, rfl, rfl, fun _ => rfl⟩

theorem sufset_suf {T T1 : SuffixTree26} {a q : Nat} (S : SufSet T T1 a q) :
    (nd T1 a).suf = some q := by
  rw [S.at_a]

theorem sufset_wf {T T1 : SuffixTree26} {J : Int} {a q : Nat} (S : SufSet T T1 a q)
    (W : WF T J) (h0 : a = 0 → q = 0) : WF T1 J := by
  have hpar : ∀ v, v < T.heap.length → (nd T1 v).parent = (nd T v).parent :=
    fun v _ => (sufset_old S v).2.2.2.1
  obtain ⟨l0, r0, d0, p0, _, c0, s0⟩ := sufset_old S 0
  refine
    { n_eq := by rw [S.n_eq, S.s_eq]; exact W.n_eq
      low := by rw [S.s_eq]; exact W.low
      root0 := by rw [S.root_eq]; exact W.root0
      size_pos := by rw [S.len]; exact W.size_pos
      sufn_len := by rw [S.sufn_eq, S.s_eq]; exact W.sufn_len
      j_nonneg := W.j_nonneg
      j_le := by rw [S.n_eq]; exact W.j_le
      root_l := by rw [l0]; exact W.root_l
      root_r := by rw [r0]; exact W.root_r
      root_dep := by rw [d0]; exact W.root_dep
      root_par := by rw [p0]; exact W.root_par
      root_cnt := by rw [c0]; exact W.root_cnt
      root_suf := ?rs
      suf0 := by rw [S.sufn_eq]; exact W.suf0
      node := ?node
      dep_nonneg := ?dep
      child := ?child
      inner := ?inner
      cnt01 := ?cnt01
      cnt1 := ?cnt1
      ends := ?ends
      total := ?total }
  case rs =>
    by_cases ha : a = 0
    · subst ha
      rw [sufset_suf S, h0 rfl]
    · rw [s0 (Ne.symm ha)]; exact W.root_suf
  case node =>
    intro v hv hv0
    rw [S.len] at hv
    obtain ⟨p, hp⟩ := W.node v hv hv0
    obtain ⟨e1, e2, e3, e4, _⟩ := sufset_old S v
    obtain ⟨_, f2, f3, _, f5, _⟩ := sufset_old S p
    exact ⟨p, by rw [e4]; exact hp.par, by rw [S.len]; exact hp.p_lt,
      by rw [e1]; exact hp.l_nonneg, by rw [e1, e2]; exact hp.l_lt_r,
      by rw [e2, S.n_eq]; exact hp.r_le, by rw [e3, e2, e1, f3]; exact hp.dep_eq,
      by rw [f5, e1, S.s_eq]; exact hp.reg,
      by rw [e2, e3, f2, f3, S.s_eq]; exact hp.agree,
      by rw [e2, e3]; exact hp.start_lt, by rw [e2, e3]; exact hp.start_nonneg⟩
  case dep =>
    intro v hv
    rw [S.len] at hv
    rw [(sufset_old S v).2.2.1]
    exact W.dep_nonneg v hv
  case child =>
    intro v hv x w hw
    rw [S.len] at hv
    rw [(sufset_old S v).2.2.2.2.1] at hw
    obtain ⟨h1, h2, h3⟩ := W.child v hv x w hw
    obtain ⟨e1, _, _, e4, _⟩ := sufset_old S w
    exact ⟨by rw [S.len]; exact h1, by rw [e4]; exact h2, by rw [e1, S.s_eq]; exact h3⟩
  case inner =>
    intro v hv hv0 hr
    rw [S.len] at hv
    rw [(sufset_old S v).2.1, S.n_eq] at hr
    rw [(sufset_old S v).2.2.2.2.1]
    exact W.inner v hv hv0 hr
  case cnt01 =>
    intro v hv hv0
    rw [S.len] at hv
    rw [(sufset_old S v).2.2.2.2.2.1]
    exact W.cnt01 v hv hv0
  case cnt1 =>
    intro v hv hv0
    rw [S.len] at hv
    obtain ⟨_, e2, e3, _, _, e6, _⟩ := sufset_old S v
    rw [e2, e3, e6, S.n_eq, S.s_eq]
    exact W.cnt1 v hv hv0
  case ends =>
    intro m hm0 hmj
    obtain ⟨e, E⟩ := W.ends m hm0 hmj
    obtain ⟨_, e2, e3, _⟩ := sufset_old S e
    refine ⟨e, by rw [S.sufn_eq, S.n_eq]; exact E.recd, by rw [S.len]; exact E.e_lt,
      by rw [e3, S.n_eq]; exact E.dep_eq, by rw [e2, e3, S.s_eq, S.n_eq]; exact E.agree, ?_⟩
    intro u hu hd1 ha
    rw [S.len] at hu
    obtain ⟨_, f2, f3, _⟩ := sufset_old S u
    rw [f2, f3, S.s_eq] at ha
    rw [f3, S.n_eq] at hd1
    exact anc_keep hpar (E.top u hu hd1 ha)
  case total =>
    rw [cntSum_same S.len 0 W.size_pos (fun v _ _ => (sufset_old S v).2.2.2.2.2.1), c0, W.total]
    omega

theorem sufset_keeps {T T1 : SuffixTree26} {a q : Nat} (S : SufSet T T1 a q) : Keeps T T1 :=
  ⟨by rw [S.len], S.n_eq, S.s_eq, S.root_eq, fun v _ => (sufset_old S v).2.2.1,
    fun v _ => (sufset_old S v).2.1⟩

theorem sufset_at {T T1 : SuffixTree26} {J : Int} {a q : Nat} (S : SufSet T T1 a q)
    {c : Nat} {k i : Int} (A : At T J c k i) : At T1 J c k i := by
  obtain ⟨e1, e2, e3, _⟩ := sufset_old S c
  refine ⟨⟨by rw [S.len]; exact A.pos.1, ?_⟩, by rw [e1, e2, e3]; exact A.i_eq,
    by rw [S.n_eq]; exact A.i_le, by rw [e2, e3, S.s_eq]; exact A.agree⟩
  rw [e1, e2]
  exact A.pos.2

theorem sufset_links {T T1 : SuffixTree26} {a q : Nat} (S : SufSet T T1 a q)
    {P Q : Nat → Prop} (L : Links T P) (hq : q < T.heap.length)
    (hd : (nd T q).dep + 1 = (nd T a).dep)
    (hag : Agree T.s ((nd T q).r - (nd T q).dep) ((nd T a).r - (nd T a).dep + 1) (nd T q).dep)
    (hPQ : ∀ v, P v → v ≠ a → Q v) : Links T1 Q := by
  intro v hv hv0 hch hQ
  rw [S.len] at hv
  obtain ⟨_, e2, e3, _, e5, _, e7⟩ := sufset_old S v
  by_cases hva : v = a
  · subst hva
    obtain ⟨_, f2, f3, _⟩ := sufset_old S q
    exact ⟨q, sufset_suf S, by rw [S.len]; exact hq, by rw [f3, e3]; exact hd,
      by rw [f2, f3, e2, e3, S.s_eq]; exact hag⟩
  · rw [e5] at hch
    obtain ⟨q1, h1⟩ := L v hv hv0 hch (fun hP => hQ (hPQ v hP hva))
    obtain ⟨_, f2, f3, _⟩ := sufset_old S q1
    exact ⟨q1, by rw [e7 hva]; exact h1.suf, by rw [S.len]; exact h1.q_lt,
      by rw [f3, e3]; exact h1.dep_eq, by rw [f2, f3, e2, e3, S.s_eq]; exact h1.agree⟩

/-! ## One iteration of the loop of `construct` -/

theorem li_at {T : SuffixTree26} {v : Vars} {j : Int} (I : LI T v j) :
    At T j v.cur v.k v.i :=
  ⟨I.pos, I.i_eq, I.i_le, I.agree⟩

/-- With a suffix link pending, the slow scan has nothing to read. -/
theorem pend_stop {T : SuffixTree26} {v : Vars} {j : Int} (I : LI T v j) {p : Nat}
    (hp : v.pre = some p) : Stop T v.cur v.k v.i := by
  have W := I.wf
  have P := I.pend p hp
  have hin := P.inside
  rcases P.other with h | ⟨m, hm0, hmj, hag, hmn, hne⟩
  · exact Or.inl h
  · right; right
    refine ⟨hin, ?_⟩
    rcases I.pos with ⟨hc, ⟨h0, hk0⟩ | ⟨h0, hk0, hk2⟩⟩
    · exfalso
      rw [h0] at hin
      have := W.root_l; have := W.root_r
      omega
    · obtain ⟨pc, hpc⟩ := W.node v.cur hc h0
      have hdc := hpc.dep_eq
      have hieq := I.i_eq
      have hpd := W.dep_nonneg pc hpc.p_lt
      obtain ⟨e, E⟩ := W.ends m hm0 hmj
      have hde := E.dep_eq
      have hagc : Agree T.s ((nd T v.cur).r - (nd T v.cur).dep) m (v.i - j) :=
        I.agree.trans hag.symm
      have h1 : Anc T pc e := by
        refine E.top pc hpc.p_lt (by omega) ?_
        exact hpc.agree.symm.trans (hagc.mono (by omega))
      have h2 : Anc T v.cur e := by
        refine edge_child W hpc E.e_lt h1 (by omega) ?_
        have a1 := E.agree ((nd T pc).dep) hpd (by omega)
        have a2 := hagc ((nd T pc).dep) hpd (by omega)
        rw [a1, ← a2]
        congr 1
        omega
      obtain ⟨_, hd2, hag2⟩ := anc_facts W h2 E.e_lt
      intro heq
      apply hne
      have a1 := hag2 (v.i - j) (by omega) (by omega)
      have a2 := E.agree (v.i - j) (by omega) (by omega)
      rw [← a2, a1, ← heq]
      congr 1
      omega

/-- The witness that lets the next slow scan stop at once. -/
theorem head_witness {T : SuffixTree26} {j : Int} (W : WF T j) {c : Nat} {i : Int}
    (H : Head T j c i) (hc0 : c ≠ 0) :
    i = T.n ∨ ∃ m : Int, 0 ≤ m ∧ m < j + 1 ∧ Agree T.s m (j + 1) (i - (j + 1)) ∧
      m + (i - (j + 1)) < T.n ∧ tc T.s (m + (i - (j + 1))) ≠ tc T.s i := by
  rcases H.other with h | h | ⟨x, w, hw, hne⟩
  · exact absurd h hc0
  · exact Or.inl h
  · right
    obtain ⟨hwl, hwp, _⟩ := W.child c H.lt x w hw
    have hw0 : w ≠ 0 := ne_root_of_parent W hwp
    obtain ⟨q, hq⟩ := W.node w hwl hw0
    have hqc : q = c := parent_eq hq hwp
    subst hqc
    have hdw := hq.dep_eq
    have hd := H.dep_eq
    have hlr := hq.l_lt_r
    have hrn := hq.r_le
    refine ⟨(nd T w).r - (nd T w).dep + 1, by have := hq.start_nonneg; omega,
      by have := hq.start_lt; omega, ?_, by omega, ?_⟩
    · have h1 : Agree T.s ((nd T w).r - (nd T w).dep) j (i - j) :=
        (hq.agree.congr rfl rfl hd.symm).trans H.agree
      exact (h1.shift 1 (by omega)).congr rfl rfl (by omega)
    · rw [show (nd T w).r - (nd T w).dep + 1 + (i - (j + 1)) = (nd T w).l by omega]
      exact hne

theorem insert_run {T T1 T2 : SuffixTree26} {c c1 : Nat} {k i : Int}
    (h1 : T.split c k = .ok (T1, c1)) (h2 : T1.attach c1 i = .ok T2) :
    T.insert c k i = .ok (T2, c1) := by
  rw [insert]
  simp only [bind, Except.bind, h1, h2]
  rfl

theorem body_mid {T : SuffixTree26} {v : Vars} {j : Int} (I : LI T v j) (hj : j < T.n) :
    ∃ c k i T2 c1 T3, T.proceed (T.s.length + 1) v.cur v.k v.i = .ok (c, k, i) ∧
      T.insert c k i = .ok (T2, c1) ∧
      (match v.pre with
        | some p => T2.modify p (fun x => { x with suf := some c1 })
        | none => pure T2) = .ok T3 ∧
      Mid T3 j c1 k i ∧ T3.s = T.s := by
  have W := I.wf
  have A := li_at I
  have hige := A.i_ge W
  have hj0 := W.j_nonneg
  have hneq := W.n_eq
  -- the slow scan
  have hscan : ∃ c k i, T.proceed (T.s.length + 1) v.cur v.k v.i = .ok (c, k, i) ∧
      At T j c k i ∧ Stop T c k i ∧ (∀ p, v.pre = some p → i = v.i) := by
    cases hpre : v.pre with
    | none =>
      obtain ⟨c, k, i, h1, h2, h3⟩ := proceed_spec W (T.s.length + 1) v.cur v.k v.i A
        (by omega)
      exact ⟨c, k, i, h1, h2, h3, fun p hp => by cases hp⟩
    | some p =>
      have St := pend_stop I hpre
      exact ⟨v.cur, v.k, v.i, proceed_stop W A St _, A, St, fun _ _ => rfl⟩
  obtain ⟨c, k, i, hrun1, A1, St, hsame⟩ := hscan
  -- the insertion
  obtain ⟨T1, c1, hrun2, W1, H1, L1, K1, hk0⟩ := split_spec W A1 St I.links
  have hn1 : j < T1.n := by rw [K1.n_eq]; exact hj
  obtain ⟨T2, hrun3, R⟩ := attach_spec ⟨W1, hn1, H1⟩
  have L2 := attach_links R L1 (Or.inr rfl)
  have K2 := R.keeps
  have W2 := R.wf
  have hc1 : c1 < T2.heap.length := lt_of_lt_of_le H1.lt K2.len_le
  have hd2 : (nd T2 c1).dep = i - j := by rw [K2.dep_eq c1 H1.lt]; exact H1.dep_eq
  have hr2 : (nd T2 c1).r = (nd T1 c1).r := K2.r_eq c1 H1.lt
  have hst2 : c1 ≠ 0 → (nd T2 c1).r - (nd T2 c1).dep < j := by
    intro h0
    obtain ⟨p, hp⟩ := W1.node c1 H1.lt h0
    rw [hr2, K2.dep_eq c1 H1.lt]
    exact hp.start_lt
  have hag2 : Agree T2.s ((nd T2 c1).r - (nd T2 c1).dep) j (i - j) := by
    rw [hr2, K2.dep_eq c1 H1.lt, K2.s_eq]; exact H1.agree
  have hwit : c1 ≠ 0 → i = T2.n ∨ ∃ m : Int, 0 ≤ m ∧ m < j + 1 ∧
      Agree T2.s m (j + 1) (i - (j + 1)) ∧ m + (i - (j + 1)) < T2.n ∧
      tc T2.s (m + (i - (j + 1))) ≠ tc T2.s i := by
    intro h0
    rw [K2.n_eq, K2.s_eq]
    exact head_witness W1 H1 h0
  refine ⟨c, k, i, T2, c1, ?_⟩
  cases hpre : v.pre with
  | none =>
    refine ⟨T2, hrun1, insert_run hrun2 hrun3, rfl, ?_, by rw [K2.s_eq, K1.s_eq]⟩
    refine ⟨W2, hc1, hd2, hst2, by rw [K2.n_eq]; exact H1.i_le, hag2, ?_, hk0, hwit⟩
    intro u hu hu0 hch hP
    refine L2 u hu hu0 hch ?_
    rintro (h | h)
    · rw [hpre] at h; cases h
    · exact hP h
  | some p =>
    have P := I.pend p hpre
    have hi := hsame p hpre
    have hp2 : p < T2.heap.length :=
      lt_of_lt_of_le P.p_lt (le_trans K1.len_le K2.len_le)
    obtain ⟨T3, hrun4, S⟩ := sufset_run T2 p c1 hp2
    have K3 := sufset_keeps S
    have hdp : (nd T2 p).dep = (nd T p).dep := by
      rw [K2.dep_eq p (lt_of_lt_of_le P.p_lt K1.len_le), K1.dep_eq p P.p_lt]
    have hrp : (nd T2 p).r = (nd T p).r := by
      rw [K2.r_eq p (lt_of_lt_of_le P.p_lt K1.len_le), K1.r_eq p P.p_lt]
    have L3 : Links T3 (fun x => x = c1) := by
      refine sufset_links S L2 hc1 (by rw [hd2, hdp, P.dep_eq]; omega) ?_ ?_
      · rw [hrp, hdp]
        refine (hag2.trans ?_).congr rfl rfl hd2
        rw [K2.s_eq, K1.s_eq, hi]
        exact P.agree.symm
      · rintro u (h | h) hne
        · rw [hpre] at h
          injection h with h
          exact absurd h.symm hne
        · exact h
    refine ⟨T3, hrun1, insert_run hrun2 hrun3, hrun4, ?_, by rw [S.s_eq, K2.s_eq, K1.s_eq]⟩
    obtain ⟨_, e2, e3, _⟩ := sufset_old S c1
    refine ⟨sufset_wf S W2 (fun h => absurd h P.p_ne), by rw [S.len]; exact hc1,
      by rw [e3]; exact hd2, by rw [e2, e3]; exact hst2, by rw [S.n_eq, K2.n_eq]; exact H1.i_le,
      by rw [e2, e3, S.s_eq]; exact hag2, L3, hk0, ?_⟩
    rw [S.n_eq, S.s_eq]
    exact hwit

theorem body_tail {T : SuffixTree26} {j : Int} {c1 : Nat} {k i : Int} (M : Mid T j c1 k i)
    (hj : j < T.n) :
    ∃ c3 k3, T.proceed_suf (T.s.length + 1) c1 k = .ok (c3, k3) ∧ c3 < T.heap.length ∧
      (k3 = (nd T c3).r - (nd T c3).l →
        ∃ T4, T.modify c1 (fun x => { x with suf := some c3 }) = .ok T4 ∧ T4.s = T.s ∧
          LI T4 { cur := c3, pre := none, k := k3, i := if c1 = T.root then i + 1 else i }
            (j + 1)) ∧
      (¬ k3 = (nd T c3).r - (nd T c3).l →
        LI T { cur := c3, pre := some c1, k := k3, i := if c1 = T.root then i + 1 else i }
          (j + 1)) := by
  have W := M.wf
  have hd := M.dep_eq
  by_cases hc0 : c1 = 0
  · -- the suffix was inserted at the root
    subst hc0
    have hk := M.k0 rfl
    subst hk
    have hr0 := W.root_dep; have hl0 := W.root_l; have hrr := W.root_r
    have hi : i = j := by omega
    refine ⟨0, 0, ?_, W.size_pos, ?_, ?_⟩
    · rw [proceed_suf, W.root0]; simp
    · intro _
      obtain ⟨T4, hrun, S⟩ := sufset_run T 0 0 W.size_pos
      refine ⟨T4, hrun, S.s_eq, ?_⟩
      have W4 := sufset_wf S W (fun _ => rfl)
      obtain ⟨e1, e2, e3, _⟩ := sufset_old S 0
      rw [W.root0]
      simp only [if_true]
      refine ⟨W4, ⟨by rw [S.len]; exact W.size_pos, Or.inl ⟨rfl, rfl⟩⟩, ?_, ?_, ?_, ?_, ?_⟩
      · show i + 1 = j + 1 + ((nd T4 0).dep - ((nd T4 0).r - (nd T4 0).l) + 0)
        rw [e1, e2, e3]; omega
      · show i + 1 ≤ T4.n
        rw [S.n_eq]; omega
      · intro t h0 h1
        exfalso
        have h2 : t < i + 1 - (j + 1) := h1
        omega
      · intro u hu hu0 hch _
        rw [S.len] at hu
        obtain ⟨_, f2, f3, _, f5, _, f7⟩ := sufset_old S u
        rw [f5] at hch
        obtain ⟨q, hq⟩ := M.links u hu hu0 hch hu0
        obtain ⟨_, g2, g3, _⟩ := sufset_old S q
        exact ⟨q, by rw [f7 hu0]; exact hq.suf, by rw [S.len]; exact hq.q_lt,
          by rw [g3, f3]; exact hq.dep_eq, by rw [g2, g3, f2, f3, S.s_eq]; exact hq.agree⟩
      · intro p hp; cases hp
    · intro h
      exfalso
      apply h
      omega
  · -- the suffix was inserted below the root
    have hne : ¬ c1 = T.root := by rw [W.root0]; exact hc0
    obtain ⟨c3, k3, hrun, A⟩ := proceed_suf_spec (k := k) W M.c_lt hc0 hd (M.start_lt hc0)
      M.i_le M.agree M.links
    have hc3 := A.pos.1
    have hieq := A.i_eq
    have hsh : Agree T.s ((nd T c1).r - (nd T c1).dep + 1) (j + 1) (i - (j + 1)) :=
      (M.agree.shift 1 (by omega)).congr rfl rfl (by omega)
    refine ⟨c3, k3, hrun, hc3, ?_, ?_⟩
    · intro hk
      obtain ⟨T4, hrun4, S⟩ := sufset_run T c1 c3 M.c_lt
      refine ⟨T4, hrun4, S.s_eq, ?_⟩
      have W4 := sufset_wf S W (fun h => absurd h hc0)
      have A4 := sufset_at S A
      simp only [hne, if_false]
      refine ⟨W4, A4.pos, A4.i_eq, A4.i_le, A4.agree, ?_, ?_⟩
      · refine sufset_links S M.links hc3 (by omega) ?_ ?_
        · refine (A.agree.trans hsh.symm).congr rfl rfl (by omega)
        · intro u hu hne2
          exact absurd hu hne2
      · intro p hp; cases hp
    · intro hk
      simp only [hne, if_false]
      refine ⟨W, A.pos, A.i_eq, A.i_le, A.agree, ?_, ?_⟩
      · intro u hu hu0 hch hP
        refine M.links u hu hu0 hch ?_
        intro h
        apply hP
        show some c1 = some u
        rw [h]
      · intro p hp
        have hp1 : c1 = p := by
          have : some c1 = some p := hp
          injection this
        subst hp1
        have hin : k3 < (nd T c3).r - (nd T c3).l := by
          rcases A.pos with ⟨_, ⟨h0, hk0⟩ | ⟨h0, hk0, hk2⟩⟩
          · exfalso
            apply hk
            rw [h0, W.root_l, W.root_r]
            omega
          · omega
        exact ⟨M.c_lt, hc0, hin, by show (nd T c1).dep = i - (j + 1) + 1; omega, hsh,
          M.wit hc0⟩

theorem body_spec {T : SuffixTree26} {v : Vars} {j : Int} (I : LI T v j) (hj : j < T.n) :
    ∃ T1 v1, body T v = .ok (T1, v1) ∧ LI T1 v1 (j + 1) ∧ T1.s = T.s := by
  obtain ⟨c, k, i, T2, c1, T3, h1, h2, h3, M, hs⟩ := body_mid I hj
  have hn3 : j < T3.n := by
    have := M.wf.j_le
    omega
  obtain ⟨c3, k3, h4, hc3, hyes, hno⟩ := body_tail M hn3
  rw [hs] at h4
  by_cases hk : k3 = (nd T3 c3).r - (nd T3 c3).l
  · obtain ⟨T4, h5, hs4, I4⟩ := hyes hk
    refine ⟨T4, _, ?_, I4, hs4.trans hs⟩
    rw [body]
    cases hpre : v.pre with
    | none =>
      rw [hpre] at h3
      have e3 : T2 = T3 := by
        have : Except.ok T2 = Except.ok T3 := h3
        injection this
      subst e3
      simp only [bind, Except.bind, h1, h2, pure, Except.pure, h4, deref_ok _ c3 hc3, hk, if_true,
        h5]
    | some p =>
      rw [hpre] at h3
      replace h3 : T2.modify p (fun x => { x with suf := some c1 }) = .ok T3 := h3
      simp only [bind, Except.bind, h1, h2, pure, Except.pure, h3, h4, deref_ok T3 c3 hc3, hk,
        if_true, h5]
  · have I4 := hno hk
    refine ⟨T3, _, ?_, I4, hs⟩
    rw [body]
    cases hpre : v.pre with
    | none =>
      rw [hpre] at h3
      have e3 : T2 = T3 := by
        have : Except.ok T2 = Except.ok T3 := h3
        injection this
      subst e3
      simp only [bind, Except.bind, h1, h2, pure, Except.pure, h4, deref_ok _ c3 hc3, hk,
        if_false]
    | some p =>
      rw [hpre] at h3
      replace h3 : T2.modify p (fun x => { x with suf := some c1 }) = .ok T3 := h3
      simp only [bind, Except.bind, h1, h2, pure, Except.pure, h3, h4, deref_ok T3 c3 hc3, hk,
        if_false]

theorem li_cond {T : SuffixTree26} {v : Vars} {j : Int} (I : LI T v j) :
    cond T v = true ↔ j < T.n := by
  have W := I.wf
  have hjle := W.j_le
  have hieq := I.i_eq
  have hile := I.i_le
  unfold cond
  rw [W.root0]
  simp only [Bool.or_eq_true, decide_eq_true_eq]
  rcases I.pos with ⟨hc, ⟨h0, hk0⟩ | ⟨h0, hk0, hk2⟩⟩
  · rw [h0] at hieq
    have := W.root_dep; have := W.root_l; have := W.root_r
    constructor
    · rintro (h | h)
      · omega
      · exact absurd h0 h
    · intro h
      left
      omega
  · obtain ⟨p, hp⟩ := W.node v.cur hc h0
    have := hp.dep_eq
    have := W.dep_nonneg p hp.p_lt
    constructor
    · intro _
      omega
    · intro _
      exact Or.inr h0

theorem enter_spec (s : List Char) (hs : Lower s) :
    ∃ T0, (fresh s).enter = .ok (T0, { cur := 0, pre := none, k := 0, i := 0 }) ∧
      LI T0 { cur := 0, pre := none, k := 0, i := 0 } 0 ∧ T0.s = s := by
  obtain ⟨T1, h1, S⟩ := sufset_run (fresh s) 0 0 (by simp [fresh])
  obtain ⟨T2, h2, l2, n2, s2, r2, f2, nd2⟩ := setSufnode_spec T1 0 0 (le_refl _)
    (by rw [S.sufn_eq]; simp [fresh])
  have hroot : (fresh s).root = 0 := rfl
  have hT1root : T1.root = 0 := by rw [S.root_eq]; rfl
  have hlen : T2.heap.length = 1 := by rw [l2, S.len]; rfl
  have hnd0 : nd T2 0 =
      { l := 0, r := 0, childs := fun _ => none, dep := 0, parent := none, cnt := 1,
        suf := some 0 } := by
    rw [nd2, S.at_a]; rfl
  have hs2 : T2.s = s := by rw [s2, S.s_eq]; rfl
  have hn2 : T2.n = s.length := by rw [n2, S.n_eq]; rfl
  have hnone : ∀ v x, v < T2.heap.length → (nd T2 v).childs x = none := by
    intro v x hv
    have : v = 0 := by omega
    subst this
    rw [hnd0]
  refine ⟨T2, ?_, ?_, hs2⟩
  · rw [enter]
    simp only [bind, Except.bind, hroot, h1, hT1root]
    rw [h2]
    rfl
  · have W : WF T2 0 := by
      refine
        { n_eq := by rw [hn2, hs2]
          low := by rw [hs2]; exact hs
          root0 := by rw [r2, hT1root]
          size_pos := by omega
          sufn_len := by rw [f2, S.sufn_eq, hs2]; simp [fresh]
          j_nonneg := le_refl _
          j_le := by rw [hn2]; omega
          root_l := by rw [hnd0]
          root_r := by rw [hnd0]
          root_dep := by rw [hnd0]
          root_par := by rw [hnd0]
          root_cnt := by rw [hnd0]
          root_suf := by rw [hnd0]
          suf0 := by rw [f2, S.sufn_eq]; simp [fresh]
          node := by intro v hv hv0; omega
          dep_nonneg := by
            intro v hv
            have : v = 0 := by omega
            subst this
            rw [hnd0]
          child := by
            intro v hv x w hw
            rw [hnone v x hv] at hw; cases hw
          inner := by intro v hv hv0; omega
          cnt01 := by intro v hv hv0; omega
          cnt1 := by intro v hv hv0; omega
          ends := by intro m h0 h1; omega
          total := ?_ }
      rw [cntSum_eq, hlen]
      simp [hnd0]
    refine ⟨W, ⟨by show 0 < T2.heap.length; omega, Or.inl ⟨rfl, rfl⟩⟩, ?_, ?_, ?_, ?_, ?_⟩
    · show (0 : Int) = 0 + ((nd T2 0).dep - ((nd T2 0).r - (nd T2 0).l) + 0)
      rw [hnd0]; rfl
    · show (0 : Int) ≤ T2.n
      rw [hn2]; omega
    · intro t h0 h1
      exfalso
      have : t < (0 : Int) - 0 := h1
      omega
    · intro u hu hu0 _ _
      omega
    · intro p hp; cases hp

theorem steps_spec (s : List Char) (hs : Lower s) (st : SuffixTree26 × Vars)
    (hst : (fresh s).enter = .ok st) :
    ∀ j : Nat, j ≤ s.length → ∃ T v, steps j st = .ok (T, v) ∧ LI T v j ∧ T.s = s := by
  obtain ⟨T0, h0, I0, hs0⟩ := enter_spec s hs
  rw [h0] at hst
  injection hst with hst
  subst hst
  intro j
  induction j with
  | zero =>
    intro _
    exact ⟨T0, _, rfl, I0, hs0⟩
  | succ j ih =>
    intro hj
    obtain ⟨T, v, h1, I, hsT⟩ := ih (by omega)
    have hn := I.wf.n_eq
    obtain ⟨T1, v1, h2, I1, hs1⟩ := body_spec I (by rw [hn, hsT]; omega)
    refine ⟨T1, v1, ?_, by rw [Nat.cast_succ]; exact I1, hs1.trans hsT⟩
    rw [steps]
    simp only [bind, Except.bind, h1, h2]

theorem loop_steps (s : List Char) (hs : Lower s) (st : SuffixTree26 × Vars)
    (hst : (fresh s).enter = .ok st) :
    ∀ (d j : Nat), j + d = s.length → ∀ st1, steps j st = .ok st1 →
      loop d st1 = steps (j + d) st := by
  intro d
  induction d with
  | zero =>
    intro j hj st1 h1
    obtain ⟨T, v, h2, I, hsT⟩ := steps_spec s hs st hst j (by omega)
    rw [h1] at h2
    injection h2 with h2
    subst h2
    have hc : ¬ (cond T v = true) := by
      rw [li_cond I, I.wf.n_eq, hsT]
      simp only [Nat.add_zero] at hj
      omega
    rw [loop]
    simp only [hc, if_false]
    exact h1.symm
  | succ d ih =>
    intro j hj st1 h1
    obtain ⟨T, v, h2, I, hsT⟩ := steps_spec s hs st hst j (by omega)
    rw [h1] at h2
    injection h2 with h2
    subst h2
    have hc : cond T v = true := by
      rw [li_cond I, I.wf.n_eq, hsT]
      omega
    obtain ⟨T1, v1, h3, I1, hs1⟩ := body_spec I (by rw [I.wf.n_eq, hsT]; omega)
    have h4 : steps (j + 1) st = .ok (T1, v1) := by
      rw [steps]
      simp only [bind, Except.bind, h1, h3]
    rw [loop]
    simp only [hc, if_true, bind, Except.bind, h3]
    rw [ih (j + 1) (by omega) (T1, v1) h4]
    congr 1
    omega

theorem new_spec (s : List Char) (hs : Lower s) :
    ∃ st T v, (fresh s).enter = .ok st ∧ steps s.length st = .ok (T, v) ∧
      SuffixTree26.new s = .ok T ∧ LI T v s.length ∧ T.s = s := by
  obtain ⟨T0, h0, _, _⟩ := enter_spec s hs
  obtain ⟨T, v, h1, I, hsT⟩ := steps_spec s hs _ h0 s.length (le_refl _)
  refine ⟨_, T, v, h0, h1, ?_, I, hsT⟩
  have h2 := loop_steps s hs _ h0 s.length 0 (by omega) _ rfl
  rw [Nat.zero_add, h1] at h2
  rw [SuffixTree26.new, construct]
  simp only [bind, Except.bind, h0]
  have : (fresh s).s.length = s.length := rfl
  rw [this, h2]
  rfl

/-! ## The query -/

theorem drop_tc (s : List Char) (x : Int) (h0 : 0 ≤ x) (h1 : x < s.length) :
    s.drop x.toNat = tc s x :: s.drop (x + 1).toNat := by
  have h2 : x.toNat < s.length := by omega
  have h3 : (x + 1).toNat = x.toNat + 1 := by omega
  rw [h3, List.drop_eq_getElem_cons h2]
  congr 1
  unfold tc
  rw [List.getD_eq_getElem?_getD, List.getElem?_eq_getElem h2]
  rfl

theorem body_inner {T : SuffixTree26} {J : Int} (W : WF T J) (c : Char) {a : Nat} {k : Int}
    (ha : a < T.heap.length) (ha0 : a ≠ 0) (hk0 : 0 < k) (hk : k < (nd T a).r - (nd T a).l) :
    T.find_suffix_body c (a, k) =
      if c = tc T.s ((nd T a).l + k) then .ok (.inl (a, k + 1)) else .ok (.inr false) := by
  obtain ⟨p, hp⟩ := W.node a ha ha0
  have hne : ¬ k = (nd T a).r - (nd T a).l := by omega
  rw [find_suffix_body]
  simp only [deref_ok T a ha, bind, Except.bind, hne, if_false,
    charAt_wf W ((nd T a).l + k) (by have := hp.l_nonneg; omega) (by have := hp.r_le; omega)]
  split <;> rfl

theorem body_node {T : SuffixTree26} {J : Int} (W : WF T J) (c : Char) (hc : lower c) {a : Nat}
    {k : Int} (ha : a < T.heap.length) (hk : k = (nd T a).r - (nd T a).l) :
    T.find_suffix_body c (a, k) =
      match (nd T a).childs (sl c) with
      | none => .ok (.inr false)
      | some w =>
        if c = tc T.s (nd T w).l then .ok (.inl (w, 1)) else .ok (.inr false) := by
  rw [find_suffix_body]
  simp only [deref_ok T a ha, bind, Except.bind, hk, if_true, slot_ok hc]
  cases hch : (nd T a).childs (sl c) with
  | none => rfl
  | some w =>
    obtain ⟨hw, hpar, _⟩ := W.child a ha _ w hch
    have hw0 : w ≠ 0 := ne_root_of_parent W hpar
    obtain ⟨p, hp⟩ := W.node w hw hw0
    simp only [deref_ok T w hw, Int.add_zero, Int.zero_add,
      charAt_wf W (nd T w).l hp.l_nonneg (by have := hp.r_le; have := hp.l_lt_r; omega)]
    split <;> rfl

theorem pos_facts {T : SuffixTree26} {J : Int} (W : WF T J) {a : Nat} {k : Int}
    (h : Pos T a k) :
    0 ≤ k ∧ k ≤ (nd T a).r - (nd T a).l ∧ 0 ≤ (nd T a).dep - ((nd T a).r - (nd T a).l) ∧
      (nd T a).r ≤ T.n ∧ 0 ≤ (nd T a).l := by
  rcases h with ⟨hc, ⟨h0, hk0⟩ | ⟨h0, hk0, hk2⟩⟩
  · subst h0
    rw [W.root_dep, W.root_l, W.root_r]
    have := W.j_le; have := W.j_nonneg
    omega
  · obtain ⟨p, hp⟩ := W.node a hc h0
    have := hp.dep_eq
    have := W.dep_nonneg p hp.p_lt
    have := hp.r_le
    have := hp.l_nonneg
    omega

/-- The walk of the query along an inserted suffix ends at the node of the suffix. -/
theorem walk_complete {T : SuffixTree26} {J : Int} (W : WF T J) {m : Int} {e : Nat}
    (E : EndOK T m e) (hm0 : 0 ≤ m) (r : Nat) :
    ∀ (a : Nat) (k d : Int), Pos T a k →
      d = (nd T a).dep - ((nd T a).r - (nd T a).l) + k → Anc T a e → d ≤ T.n - m →
      (T.n - m - d).toNat = r →
      Loop T.find_suffix_body (T.s.drop (m + d).toNat) (a, k)
        = .ok (.inl (e, (nd T e).r - (nd T e).l)) := by
  have hneq := W.n_eq
  have hde := E.dep_eq
  induction r with
  | zero =>
    intro a k d hpos hd hanc hle hr
    have hdn : d = T.n - m := by omega
    have hdrop : T.s.drop (m + d).toNat = [] := by
      apply List.drop_of_length_le
      omega
    rw [hdrop, Loop]
    obtain ⟨_, hda, _⟩ := anc_facts W hanc E.e_lt
    obtain ⟨_, _, _, _, _⟩ := pos_facts W hpos
    have hdep : (nd T e).dep ≤ (nd T a).dep := by omega
    have hae : a = e := anc_eq_of_dep W hanc E.e_lt hdep
    subst hae
    have : k = (nd T a).r - (nd T a).l := by omega
    rw [this]
  | succ r ih =>
    intro a k d hpos hd hanc hle hr
    have hdlt : d < T.n - m := by omega
    obtain ⟨_, _, _, _, _⟩ := pos_facts W hpos
    have hd0 : 0 ≤ d := by omega
    rw [drop_tc T.s (m + d) (by omega) (by omega), Loop]
    have hlow := tc_lower W (m + d) (by omega) (by omega)
    obtain ⟨_, hda, haga⟩ := anc_facts W hanc E.e_lt
    by_cases hk : k = (nd T a).r - (nd T a).l
    · -- at a node: go down to the child on the way to `e`
      have hne : a ≠ e := by
        intro h; subst h; omega
      obtain ⟨w, hw, hwe⟩ := anc_child hanc hne
      have hwl := lt_of_parent hw
      obtain ⟨hreg, hl, hlt, _⟩ := child_first W hwl hw
      obtain ⟨_, hdw, hagw⟩ := anc_facts W hwe E.e_lt
      have hch : tc T.s ((nd T w).r - (nd T w).dep + (nd T a).dep) = tc T.s (m + d) := by
        have e1 := hagw ((nd T a).dep) (by omega) (by omega)
        have e2 := E.agree ((nd T a).dep) (by omega) (by omega)
        rw [← e1, e2]
        congr 1
        omega
      rw [hch] at hreg
      rw [body_node W _ hlow hpos.1 hk, hreg]
      have hfirst : tc T.s (m + d) = tc T.s (nd T w).l := by
        rw [hl, hch]
      simp only [hfirst, if_true]
      have hw0 : w ≠ 0 := ne_root_of_parent W hw
      obtain ⟨q, hq⟩ := W.node w hwl hw0
      have hqa : q = a := parent_eq hq hw
      subst hqa
      have := hq.dep_eq
      have := hq.l_lt_r
      have h1 := ih w 1 (d + 1) ⟨hwl, Or.inr ⟨hw0, by omega, by omega⟩⟩ (by omega) hwe (by omega)
        (by omega)
      rw [show m + (d + 1) = m + d + 1 by ring] at h1
      exact h1
    · -- inside an edge: the next character of the edge is the one read
      rcases hpos with ⟨hc, ⟨h0, hk0⟩ | ⟨h0, hk0, hk2⟩⟩
      · exfalso
        rw [h0] at hk
        have := W.root_l; have := W.root_r
        omega
      · rw [body_inner W _ hc h0 hk0 (by omega)]
        have hch : tc T.s (m + d) = tc T.s ((nd T a).l + k) := by
          have e1 := haga d hd0 (by omega)
          have e2 := E.agree d hd0 (by omega)
          rw [← e2, e1]
          congr 1
          omega
        simp only [hch, if_true]
        have h1 := ih a (k + 1) (d + 1) ⟨hc, Or.inr ⟨h0, by omega, by omega⟩⟩ (by omega) hanc
          (by omega) (by omega)
        rw [show m + (d + 1) = m + d + 1 by ring] at h1
        exact h1

theorem find_suffix_complete {T : SuffixTree26} (W : WF T T.n) (m : Nat)
    (hm : m ≤ T.s.length) : T.find_suffix (T.s.drop m) = .ok true := by
  have hneq := W.n_eq
  by_cases hmn : m = T.s.length
  · subst hmn
    rw [List.drop_length, find_suffix, Loop]
    simp only [bind, Except.bind, W.root0, deref_ok T 0 W.size_pos, W.root_l, W.root_r,
      W.root_cnt]
    rfl
  · obtain ⟨e, E⟩ := W.ends m (by omega) (by omega)
    have h1 := walk_complete W E (by omega) _ 0 0 0 ⟨W.size_pos, Or.inl ⟨rfl, rfl⟩⟩
      (by rw [W.root_dep, W.root_l, W.root_r]; rfl) (root_anc W E.e_lt) (by omega) rfl
    rw [show ((m : Int) + 0).toNat = m by omega] at h1
    have he0 : e ≠ 0 := by
      intro h
      have := E.dep_eq
      rw [h, W.root_dep] at this
      omega
    have hcnt : (nd T e).cnt = 1 := by
      have hde := E.dep_eq
      rw [W.cnt1 e E.e_lt he0]
      refine ⟨by omega, ?_⟩
      exact E.agree.congr rfl (by omega) hde
    rw [find_suffix]
    simp only [bind, Except.bind, W.root0, h1, deref_ok T e E.e_lt, if_true, hcnt]
    rfl

theorem reads_snoc {s : List Char} {p : Int} {q : List Char} {c : Char} (h : Reads s p q)
    (hc : c = tc s (p + q.length)) : Reads s p (q ++ [c]) := by
  intro x hx
  rw [List.length_append, List.length_singleton] at hx
  by_cases hxq : x < q.length
  · rw [List.getD_eq_getElem?_getD, List.getElem?_append_left hxq, ← List.getD_eq_getElem?_getD]
    exact h x hxq
  · have : x = q.length := by omega
    subst this
    rw [List.getD_eq_getElem?_getD, List.getElem?_append_right (le_refl _)]
    simp only [Nat.sub_self, List.getElem?_cons_zero, Option.getD_some]
    exact hc

theorem reads_drop {s : List Char} (t : List Char) :
    ∀ p : Int, Reads s p t → 0 ≤ p → p + t.length = s.length → t = s.drop p.toNat := by
  induction t with
  | nil =>
    intro p _ h0 h1
    rw [List.drop_of_length_le]
    simp only [List.length_nil, Nat.cast_zero, add_zero] at h1
    omega
  | cons c t ih =>
    intro p h h0 h1
    rw [List.length_cons, Nat.cast_succ] at h1
    rw [drop_tc s p h0 (by omega)]
    have hc : c = tc s p := by
      have := h 0 (by simp)
      simpa using this
    have ht : Reads s (p + 1) t := by
      intro x hx
      have := h (x + 1) (by simp; omega)
      rw [List.getD_cons_succ] at this
      rw [this]
      congr 1
      push_cast
      ring
    rw [← hc, ← ih (p + 1) ht (by omega) (by omega)]

theorem lower_cons {c : Char} {t : List Char} (h : Lower (c :: t)) : lower c ∧ Lower t :=
  ⟨h c (List.mem_cons_self _ _), fun d hd => h d (List.mem_cons_of_mem _ hd)⟩

/-- The walk of the query never leaves the tree, and what it has read is the
string of the position it has reached. -/
theorem walk_sound {T : SuffixTree26} {J : Int} (W : WF T J) (t : List Char) :
    ∀ (q : List Char) (a : Nat) (k : Int), Lower t → Pos T a k →
      (nd T a).dep - ((nd T a).r - (nd T a).l) + k = q.length →
      Reads T.s ((nd T a).r - (nd T a).dep) q →
      ∃ r, Loop T.find_suffix_body t (a, k) = .ok r ∧
        (∀ b, r = .inr b → b = false) ∧
        ∀ a1 k1, r = .inl (a1, k1) → Pos T a1 k1 ∧
          (nd T a1).dep - ((nd T a1).r - (nd T a1).l) + k1 = (q ++ t).length ∧
          Reads T.s ((nd T a1).r - (nd T a1).dep) (q ++ t) := by
  induction t with
  | nil =>
    intro q a k _ hpos hd hr
    refine ⟨.inl (a, k), rfl, (fun b hb => by cases hb), ?_⟩
    intro a1 k1 h
    injection h with h
    injection h with h1 h2
    subst h1; subst h2
    rw [List.append_nil]
    exact ⟨hpos, hd, hr⟩
  | cons c t ih =>
    intro q a k hlow hpos hd hr
    obtain ⟨hc, hlt⟩ := lower_cons hlow
    have hfalse : ∃ r, (Except.ok (Sum.inr false) : Except Fault ((Nat × Int) ⊕ Bool)) = .ok r ∧
        (∀ b, r = .inr b → b = false) ∧
        ∀ a1 k1, r = .inl (a1, k1) → Pos T a1 k1 ∧
          (nd T a1).dep - ((nd T a1).r - (nd T a1).l) + k1 = (q ++ c :: t).length ∧
          Reads T.s ((nd T a1).r - (nd T a1).dep) (q ++ c :: t) := by
      refine ⟨.inr false, rfl, ?_, fun a1 k1 h => by cases h⟩
      intro b hb
      injection hb with hb
      exact hb.symm
    rw [Loop]
    obtain ⟨hk0, hkle, hpd, hrn, hl0⟩ := pos_facts W hpos
    by_cases hk : k = (nd T a).r - (nd T a).l
    · rw [body_node W c hc hpos.1 hk]
      cases hch : (nd T a).childs (sl c) with
      | none => exact hfalse
      | some w =>
        simp only []
        by_cases hcmp : c = tc T.s (nd T w).l
        · simp only [hcmp, if_true]
          rw [← hcmp]
          obtain ⟨hw, hpar, _⟩ := W.child a hpos.1 _ w hch
          have hw0 : w ≠ 0 := ne_root_of_parent W hpar
          obtain ⟨p, hp⟩ := W.node w hw hw0
          have hpa : p = a := parent_eq hp hpar
          subst hpa
          have hdw := hp.dep_eq
          have hlr := hp.l_lt_r
          have hq1 : Reads T.s ((nd T w).r - (nd T w).dep) (q ++ [c]) := by
            refine reads_snoc ?_ ?_
            · intro x hx
              rw [hr x hx]
              exact (hp.agree x (by omega) (by omega)).symm
            · rw [hcmp]
              congr 1
              omega
          have h1 := ih (q ++ [c]) w 1 hlt ⟨hw, Or.inr ⟨hw0, by omega, by omega⟩⟩
            (by rw [List.length_append, List.length_singleton]; push_cast; omega) hq1
          rw [List.append_assoc, List.singleton_append] at h1
          exact h1
        · simp only [hcmp, if_false]
          exact hfalse
    · rcases hpos with ⟨ha, ⟨h0, hk00⟩ | ⟨h0, hk00, hk2⟩⟩
      · exfalso
        rw [h0] at hk
        have := W.root_l; have := W.root_r
        omega
      · rw [body_inner W c ha h0 hk00 (by omega)]
        by_cases hcmp : c = tc T.s ((nd T a).l + k)
        · simp only [hcmp, if_true]
          rw [← hcmp]
          have hq1 : Reads T.s ((nd T a).r - (nd T a).dep) (q ++ [c]) := by
            refine reads_snoc hr ?_
            rw [hcmp]
            congr 1
            omega
          have h1 := ih (q ++ [c]) a (k + 1) hlt ⟨ha, Or.inr ⟨h0, by omega, by omega⟩⟩
            (by rw [List.length_append, List.length_singleton]; push_cast; omega) hq1
          rw [List.append_assoc, List.singleton_append] at h1
          exact h1
        · simp only [hcmp, if_false]
          exact hfalse

theorem find_suffix_sound {T : SuffixTree26} (W : WF T T.n) (t : List Char) (ht : Lower t) :
    ∃ b, T.find_suffix t = .ok b ∧ (b = true → t <:+ T.s) := by
  have hneq := W.n_eq
  obtain ⟨r, h1, h2, h3⟩ := walk_sound W t [] 0 0 ht ⟨W.size_pos, Or.inl ⟨rfl, rfl⟩⟩
    (by rw [W.root_dep, W.root_l, W.root_r]; rfl) (fun x hx => by simp at hx)
  rw [find_suffix]
  simp only [bind, Except.bind, W.root0, h1]
  cases r with
  | inr b =>
    have := h2 b rfl
    subst this
    exact ⟨false, rfl, fun h => by cases h⟩
  | inl st =>
    obtain ⟨a1, k1⟩ := st
    obtain ⟨hpos, hd, hr⟩ := h3 a1 k1 rfl
    rw [List.nil_append] at hd hr
    simp only [deref_ok T a1 hpos.1]
    by_cases hk : k1 = (nd T a1).r - (nd T a1).l
    · simp only [hk, if_true]
      refine ⟨_, rfl, ?_⟩
      intro hb
      have hcnt : (nd T a1).cnt ≠ 0 := by
        have : decide ((nd T a1).cnt ≠ 0) = true := hb
        exact of_decide_eq_true this
      by_cases ha0 : a1 = 0
      · subst ha0
        have := W.root_dep; have := W.root_l; have := W.root_r
        have : t.length = 0 := by omega
        rw [List.length_eq_zero] at this
        rw [this]
        exact List.nil_suffix
      · have hc1 : (nd T a1).cnt = 1 := by
          rcases W.cnt01 a1 hpos.1 ha0 with h | h
          · exact absurd h hcnt
          · exact h
        obtain ⟨hlt, hag⟩ := (W.cnt1 a1 hpos.1 ha0).mp hc1
        have hdn := W.dep_nonneg a1 hpos.1
        have hdt : (nd T a1).dep = t.length := by omega
        obtain ⟨p, hp⟩ := W.node a1 hpos.1 ha0
        have hrn := hp.r_le
        have hsn := hp.start_nonneg
        have hrd : Reads T.s (T.n - (nd T a1).dep) t := by
          intro x hx
          rw [hr x hx]
          exact hag x (by omega) (by omega)
        have := reads_drop t _ hrd (by omega) (by omega)
        rw [this]
        exact List.drop_suffix _ _
    · simp only [hk, if_false]
      exact ⟨false, rfl, fun h => by cases h⟩

theorem query_eq {s : List Char} {T : SuffixTree26} (h : SuffixTree26.new s = .ok T)
    (t : List Char) : query s t = T.find_suffix t := by
  unfold query
  rw [h]

theorem new_wf (s : List Char) (hs : Lower s) :
    ∃ T, SuffixTree26.new s = .ok T ∧ WF T T.n ∧ T.s = s := by
  obtain ⟨st, T, v, _, _, h, I, hsT⟩ := new_spec s hs
  refine ⟨T, h, ?_, hsT⟩
  have := I.wf
  rw [← hsT, ← I.wf.n_eq] at this
  exact this

/-- C1: for every text `s` over `'a'..'z'` and every `i ≤ n`, the query for
the suffix `s[i, n)` on the tree built from `s` returns true, the empty
suffix at `i = n` included. -/
theorem C1_find_suffix_complete (s : List Char) (hs : Lower s) (i : Nat) (hi : i ≤ s.length) :
    ∃ T, SuffixTree26.new s = .ok T ∧ T.find_suffix (s.drop i) = .ok true := by
  obtain ⟨T, h, W, hsT⟩ := new_wf s hs
  refine ⟨T, h, ?_⟩
  have := find_suffix_complete W i (by rw [hsT]; exact hi)
  rw [hsT] at this
  exact this

theorem C1_witness :
    Lower ['a', 'b', 'a', 'b'] ∧ 2 ≤ ['a', 'b', 'a', 'b'].length ∧
      ∃ T, SuffixTree26.new ['a', 'b', 'a', 'b'] = .ok T ∧
        T.find_suffix (['a', 'b', 'a', 'b'].drop 2) = .ok true :=
  ⟨by decide, by decide, C1_find_suffix_complete _ (by decide) 2 (by decide)⟩

/-- C2: for every text `s` over `'a'..'z'` and every string `t` over
`'a'..'z'` that is not a suffix of `s`, the query for `t` on the tree built
from `s` returns false. -/
theorem C2_find_suffix_sound (s t : List Char) (hs : Lower s) (ht : Lower t)
    (h : ¬ t <:+ s) :
    ∃ T, SuffixTree26.new s = .ok T ∧ T.find_suffix t = .ok false := by
  obtain ⟨T, hT, W, hsT⟩ := new_wf s hs
  refine ⟨T, hT, ?_⟩
  obtain ⟨b, hb, hsuf⟩ := find_suffix_sound W t ht
  cases b with
  | false => exact hb
  | true =>
    exfalso
    apply h
    rw [← hsT]
    exact hsuf rfl

theorem C2_witness :
    Lower ['a', 'a', 'a', 'a'] ∧ Lower ['a', 'a', 'a', 'a', 'a'] ∧
      ¬ ['a', 'a', 'a', 'a', 'a'] <:+ ['a', 'a', 'a', 'a'] ∧
      ∃ T, SuffixTree26.new ['a', 'a', 'a', 'a'] = .ok T ∧
        T.find_suffix ['a', 'a', 'a', 'a', 'a'] = .ok false :=
  ⟨by decide, by decide, by decide,
    C2_find_suffix_sound _ _ (by decide) (by decide) (by decide)⟩

/-- C3: for every text `s` (a string over the alphabet `'a'..'z'`, the empty
one included) the empty query on the tree built from `s` returns true: the
count of the root is at least 1 after the construction. -/
theorem C3_empty_query (s : List Char) (hs : Lower s) :
    ∃ T, SuffixTree26.new s = .ok T ∧ T.find_suffix [] = .ok true ∧
      1 ≤ (nd T T.root).cnt := by
  obtain ⟨T, hT, W, hsT⟩ := new_wf s hs
  refine ⟨T, hT, ?_, ?_⟩
  · have := find_suffix_complete W T.s.length (le_refl _)
    rw [List.drop_length] at this
    exact this
  · rw [W.root0, W.root_cnt]

theorem C3_witness :
    Lower [] ∧ ∃ T, SuffixTree26.new [] = .ok T ∧ T.find_suffix [] = .ok true ∧
      1 ≤ (nd T T.root).cnt :=
  ⟨by decide, C3_empty_query [] (by decide)⟩

/-- C4, the claim as stated fails: on the tree built from `banana` the query
for `ana` does not return false. -/
theorem C4_banana_ana_not_false :
    query ['b', 'a', 'n', 'a', 'n', 'a'] ['a', 'n', 'a'] ≠ .ok false := by
  decide

/-- C4, amended: `ana` is a suffix of `banana`, and the query for `ana` on the
tree built from `banana` returns true. -/
theorem C4_banana_ana :
    ['a', 'n', 'a'] <:+ ['b', 'a', 'n', 'a', 'n', 'a'] ∧
      query ['b', 'a', 'n', 'a', 'n', 'a'] ['a', 'n', 'a'] = .ok true := by
  decide

/-- C5, the claim as stated fails: on the tree of the empty text the query
for the one-character string `A` indexes the child array of the root out of
range and returns no boolean. -/
theorem C5_outside_alphabet_faults :
    query [] ['A'] = .error Fault.outOfRange ∧ query [] ['A'] ≠ .ok false := by
  decide

/-- C5, amended: on the tree built from a text over `'a'..'z'`, the query
returns a boolean for every string over `'a'..'z'`, with every child index
in `0..25`; a string that starts with a character outside `'a'..'z'` makes
the query index the child array of the root out of range. -/
theorem C5_find_suffix_total (s : List Char) (hs : Lower s) :
    ∃ T, SuffixTree26.new s = .ok T ∧
      (∀ t, Lower t → ∃ b, T.find_suffix t = .ok b) ∧
      (∀ c t, ¬ lower c → T.find_suffix (c :: t) = .error Fault.outOfRange) := by
  obtain ⟨T, hT, W, hsT⟩ := new_wf s hs
  refine ⟨T, hT, ?_, ?_⟩
  · intro t ht
    obtain ⟨b, hb, _⟩ := find_suffix_sound W t ht
    exact ⟨b, hb⟩
  · intro c t hc
    have hslot : slot c = .error Fault.outOfRange := by
      unfold slot
      unfold lower at hc
      simp [hc]
    have hbody : T.find_suffix_body c (0, 0) = .error Fault.outOfRange := by
      rw [find_suffix_body]
      simp only [deref_ok T 0 W.size_pos, bind, Except.bind, W.root_l, W.root_r, hslot]
      rfl
    rw [find_suffix, W.root0, Loop, hbody]
    rfl

theorem C5_witness :
    Lower ['a', 'b'] ∧ ∃ T, SuffixTree26.new ['a', 'b'] = .ok T ∧
      (∀ t, Lower t → ∃ b, T.find_suffix t = .ok b) ∧
      (∀ c t, ¬ lower c → T.find_suffix (c :: t) = .error Fault.outOfRange) :=
  ⟨by decide, C5_find_suffix_total ['a', 'b'] (by decide)⟩

/-- C6: for every text `s` over `'a'..'z'` of length `n` the loop of
`construct` ends after exactly `n` iterations: after `j ≤ n` iterations the
loop condition holds if and only if `j < n`, and the counts in the heap add
up to `1 + j`, one insertion (a new leaf with count 1 or one increment) for
each iteration; for `n = 0` the body never runs. -/
theorem C6_loop_iterations (s : List Char) (hs : Lower s) :
    ∃ st, (fresh s).enter = .ok st ∧
      (∀ j : Nat, j ≤ s.length → ∃ T v, steps j st = .ok (T, v) ∧
        (cond T v = true ↔ j < s.length) ∧
        (T.heap.map (fun x => x.cnt)).sum = 1 + (j : Int)) ∧
      loop s.length st = steps s.length st := by
  obtain ⟨T0, h0, _, _⟩ := enter_spec s hs
  refine ⟨_, h0, ?_, ?_⟩
  · intro j hj
    obtain ⟨T, v, h1, I, hsT⟩ := steps_spec s hs _ h0 j hj
    refine ⟨T, v, h1, ?_, I.wf.total⟩
    rw [li_cond I, I.wf.n_eq, hsT]
    omega
  · have := loop_steps s hs _ h0 s.length 0 (by omega) _ rfl
    rw [Nat.zero_add] at this
    exact this

theorem C6_witness :
    Lower ['a', 'a'] ∧ ∃ st, (fresh ['a', 'a']).enter = .ok st ∧
      (∀ j : Nat, j ≤ ['a', 'a'].length → ∃ T v, steps j st = .ok (T, v) ∧
        (cond T v = true ↔ j < ['a', 'a'].length) ∧
        (T.heap.map (fun x => x.cnt)).sum = 1 + (j : Int)) ∧
      loop ['a', 'a'].length st = steps ['a', 'a'].length st :=
  ⟨by decide, C6_loop_iterations ['a', 'a'] (by decide)⟩

/-- C7: for every text `s` over `'a'..'z'` the construction runs without a
fault: every child index is in `0..25`, every text index in `0..n-1`, every
index of `sufnodes` in `0..n`, and every pointer that is dereferenced points
to a node; this holds after each number of iterations of the loop and for the
constructor as a whole. -/
theorem C7_construct_safe (s : List Char) (hs : Lower s) :
    (∃ T, SuffixTree26.new s = .ok T) ∧
      ∀ st, (fresh s).enter = .ok st → ∀ j : Nat, j ≤ s.length →
        ∃ st1, steps j st = .ok st1 := by
  obtain ⟨T, hT, _, _⟩ := new_wf s hs
  refine ⟨⟨T, hT⟩, ?_⟩
  intro st hst j hj
  obtain ⟨T1, v, h1, _, _⟩ := steps_spec s hs st hst j hj
  exact ⟨_, h1⟩

theorem C7_witness :
    Lower ['a', 'b', 'a'] ∧ (∃ T, SuffixTree26.new ['a', 'b', 'a'] = .ok T) ∧
      ∀ st, (fresh ['a', 'b', 'a']).enter = .ok st → ∀ j : Nat, j ≤ ['a', 'b', 'a'].length →
        ∃ st1, steps j st = .ok st1 :=
  ⟨by decide, C7_construct_safe ['a', 'b', 'a'] (by decide)⟩

theorem seg_length {s : List Char} {a d : Int} (ha : 0 ≤ a) (hd : 0 ≤ d)
    (h : a + d ≤ s.length) : ((seg s a d).length : Int) = d := by
  unfold seg
  rw [List.length_take, List.length_drop]
  omega

theorem seg_length_le (s : List Char) (a d : Int) (hd : 0 ≤ d) :
    ((seg s a d).length : Int) ≤ d := by
  unfold seg
  rw [List.length_take]
  omega

theorem seg_getD {s : List Char} {a d : Int} (ha : 0 ≤ a) (x : Nat) (hx : (x : Int) < d) :
    (seg s a d).getD x default = tc s (a + x) := by
  unfold seg tc
  have h1 : x < d.toNat := by omega
  have h2 : (a + x).toNat = a.toNat + x := by omega
  rw [List.getD_eq_getElem?_getD, List.getD_eq_getElem?_getD, List.getElem?_take_of_lt h1,
    List.getElem?_drop, h2]

theorem agree_of_seg {s : List Char} {a b d : Int} (ha : 0 ≤ a) (hb : 0 ≤ b)
    (h : seg s a d = seg s b d) : Agree s a b d := by
  intro t h0 h1
  have h2 := seg_getD (s := s) ha t.toNat (by omega : ((t.toNat : Nat) : Int) < d)
  have h3 := seg_getD (s := s) hb t.toNat (by omega : ((t.toNat : Nat) : Int) < d)
  have h4 : ((t.toNat : Nat) : Int) = t := by omega
  rw [h4] at h2 h3
  rw [← h2, ← h3, h]

theorem seg_of_agree {s : List Char} {a b d : Int} (ha : 0 ≤ a) (hb : 0 ≤ b) (hd : 0 ≤ d)
    (ha1 : a + d ≤ s.length) (hb1 : b + d ≤ s.length) (h : Agree s a b d) :
    seg s a d = seg s b d := by
  have l1 := seg_length ha hd ha1
  have l2 := seg_length hb hd hb1
  apply List.ext_getElem (by omega)
  intro x h1 h2
  have h3 := seg_getD (s := s) (d := d) ha x (by omega)
  have h4 := seg_getD (s := s) (d := d) hb x (by omega)
  rw [List.getD_eq_getElem _ _ h1] at h3
  rw [List.getD_eq_getElem _ _ h2] at h4
  rw [h3, h4]
  exact h x (by omega) (by omega)

theorem seg_add (s : List Char) {a d e : Int} (ha : 0 ≤ a) (hd : 0 ≤ d) (he : 0 ≤ e) :
    seg s a (d + e) = seg s a d ++ seg s (a + d) e := by
  unfold seg
  have h1 : (d + e).toNat = d.toNat + e.toNat := by omega
  have h2 : (a + d).toNat = a.toNat + d.toNat := by omega
  rw [h1, h2, List.take_add, List.drop_drop]

theorem seg_drop (s : List Char) (i : Int) (hi : 0 ≤ i) :
    seg s i (s.length - i) = s.drop i.toNat := by
  unfold seg
  apply List.take_of_length_le
  rw [List.length_drop]
  omega

theorem seg_zero (s : List Char) (a : Int) : seg s a 0 = [] := by
  unfold seg
  rfl

/-- A piece of the text is a prefix of a suffix of the text exactly when it
fits in and agrees with the suffix. -/
theorem seg_prefix_iff {s : List Char} {a d i : Int} (ha : 0 ≤ a) (hd : 0 ≤ d)
    (ha1 : a + d ≤ s.length) (hi : 0 ≤ i) (hi1 : i ≤ s.length) :
    seg s a d <+: s.drop i.toNat ↔ (d ≤ s.length - i ∧ Agree s a i d) := by
  constructor
  · intro h
    have hl : (seg s a d).length ≤ (s.drop i.toNat).length := h.length_le
    have l1 := seg_length ha hd ha1
    rw [List.length_drop] at hl
    have hdle : d ≤ s.length - i := by omega
    refine ⟨hdle, ?_⟩
    apply agree_of_seg ha hi
    have h2 := List.prefix_iff_eq_take.mp h
    have hlen : (seg s a d).length = d.toNat := by omega
    rw [hlen] at h2
    exact h2
  · rintro ⟨h1, h2⟩
    rw [seg_of_agree ha hi hd ha1 (by omega) h2]
    unfold seg
    exact List.take_prefix _ _

/-- The range of every node lies in the text. -/
theorem node_bounds {T : SuffixTree26} {j : Int} (W : WF T j) {v : Nat}
    (hv : v < T.heap.length) :
    0 ≤ (nd T v).r - (nd T v).dep ∧ (nd T v).r ≤ T.s.length ∧ 0 ≤ (nd T v).dep := by
  have hn := W.n_eq
  by_cases h0 : v = 0
  · subst h0
    rw [W.root_r, W.root_dep]
    omega
  · obtain ⟨p, hp⟩ := W.node v hv h0
    have := hp.start_nonneg
    have := hp.r_le
    have := W.dep_nonneg v hv
    omega

/-- The string of a node is the string of its parent followed by the label of
its edge. -/
theorem str_child {T : SuffixTree26} {j : Int} (W : WF T j) {v p : Nat}
    (hv : v < T.heap.length) (h : NodeOK T j v p) :
    seg T.s ((nd T v).r - (nd T v).dep) (nd T v).dep =
      seg T.s ((nd T p).r - (nd T p).dep) (nd T p).dep ++ label T v := by
  obtain ⟨b1, b2, b3⟩ := node_bounds W hv
  obtain ⟨c1, c2, c3⟩ := node_bounds W h.p_lt
  have h1 := h.dep_eq
  have h2 := h.l_lt_r
  have e1 : seg T.s ((nd T v).r - (nd T v).dep) (nd T v).dep =
      seg T.s ((nd T v).r - (nd T v).dep) ((nd T p).dep + ((nd T v).r - (nd T v).l)) := by
    rw [← h1]
  rw [e1, seg_add T.s b1 c3 (by omega)]
  have e2 : (nd T v).r - (nd T v).dep + (nd T p).dep = (nd T v).l := by omega
  rw [e2, seg_of_agree b1 c1 c3 (by omega) (by omega) h.agree]
  rfl

theorem reach_sound {T : SuffixTree26} {j : Int} (W : WF T j) {v : Nat} {str : List Char}
    (h : Reach T v str) :
    v < T.heap.length ∧ str = seg T.s ((nd T v).r - (nd T v).dep) (nd T v).dep := by
  induction h with
  | root =>
    rw [W.root0, W.root_dep, seg_zero]
    exact ⟨W.size_pos, rfl⟩
  | @child v w x str _ _ hch ih =>
    obtain ⟨hv, hstr⟩ := ih
    obtain ⟨hw, hpar, _⟩ := W.child v hv x w hch
    have hw0 : w ≠ 0 := ne_root_of_parent W hpar
    obtain ⟨p, hp⟩ := W.node w hw hw0
    have hpv : p = v := by
      have := hp.par
      rw [hpar] at this
      injection this with this
      exact this.symm
    subst hpv
    refine ⟨hw, ?_⟩
    rw [str_child W hw hp, ← hstr]

theorem reach_complete_aux {T : SuffixTree26} {j : Int} (W : WF T j) (d : Nat) :
    ∀ v, v < T.heap.length → (nd T v).dep.toNat ≤ d →
      Reach T v (seg T.s ((nd T v).r - (nd T v).dep) (nd T v).dep) := by
  induction d with
  | zero =>
    intro v hv hd
    have h0 := W.dep_nonneg v hv
    have : v = 0 := root_of_dep_zero W hv (by omega)
    subst this
    rw [W.root_dep, seg_zero]
    have := Reach.root (T := T)
    rw [W.root0] at this
    exact this
  | succ d ih =>
    intro v hv hd
    by_cases h0 : v = 0
    · subst h0
      rw [W.root_dep, seg_zero]
      have := Reach.root (T := T)
      rw [W.root0] at this
      exact this
    · obtain ⟨p, hp⟩ := W.node v hv h0
      have h1 := W.dep_nonneg p hp.p_lt
      have h2 := hp.dep_eq
      have h3 := hp.l_lt_r
      have hr := ih p hp.p_lt (by omega)
      rw [str_child W hv hp]
      have hlow : lower (tc T.s (nd T v).l) :=
        tc_lower W _ hp.l_nonneg (by have := hp.r_le; omega)
      exact Reach.child hr (sl_lt hlow) hp.reg

/-- Every node of the heap is reached from the root, and the string on the
way is the piece of the text that ends at its `r` and has its `dep` as
length. -/
theorem reach_complete {T : SuffixTree26} {j : Int} (W : WF T j) {v : Nat}
    (hv : v < T.heap.length) :
    Reach T v (seg T.s ((nd T v).r - (nd T v).dep) (nd T v).dep) :=
  reach_complete_aux W _ v hv (le_refl _)

/-- The length of the string of a reachable node is its depth. -/
theorem reach_length {T : SuffixTree26} {j : Int} (W : WF T j) {v : Nat} {str : List Char}
    (h : Reach T v str) : (str.length : Int) = (nd T v).dep := by
  obtain ⟨hv, hstr⟩ := reach_sound W h
  obtain ⟨b1, b2, b3⟩ := node_bounds W hv
  rw [hstr]
  exact seg_length b1 b3 (by omega)

/-- The node that spells the suffix `s[i, n)` of the finished tree. -/
theorem suffix_node {T : SuffixTree26} (W : WF T T.n) (i : Nat) (hi : i ≤ T.s.length) :
    ∃ v, Reach T v (T.s.drop i) ∧ (∀ u, Reach T u (T.s.drop i) → u = v) ∧
      1 ≤ (nd T v).cnt ∧ T.sufnodes[T.s.length - i]? = some (some v) := by
  have hn := W.n_eq
  by_cases hin : i = T.s.length
  · subst hin
    refine ⟨0, ?_, ?_, ?_, ?_⟩
    · rw [List.drop_length]
      have := Reach.root (T := T)
      rw [W.root0] at this
      exact this
    · intro u hu
      have hl := reach_length W hu
      rw [List.drop_length] at hl
      exact root_of_dep_zero W (reach_sound W hu).1 (by rw [← hl]; simp)
    · rw [W.root_cnt]
    · rw [Nat.sub_self]
      exact W.suf0
  · have hlt : i < T.s.length := by omega
    obtain ⟨e, E⟩ := W.ends (i : Int) (by omega) (by omega)
    obtain ⟨b1, b2, b3⟩ := node_bounds W E.e_lt
    have hde := E.dep_eq
    have he0 : e ≠ 0 := by
      intro h
      subst h
      rw [W.root_dep] at hde
      omega
    have hdrop : T.s.drop i = seg T.s ((nd T e).r - (nd T e).dep) (nd T e).dep := by
      have h1 := seg_drop T.s (i : Int) (by omega)
      rw [Int.toNat_ofNat] at h1
      have h2 : seg T.s ((nd T e).r - (nd T e).dep) (nd T e).dep = seg T.s (i : Int) (nd T e).dep := by
        apply seg_of_agree b1 (by omega) b3 (by omega) (by omega)
        have := E.agree
        rw [← hde] at this
        exact this
      rw [h2, hde, hn, h1]
    refine ⟨e, ?_, ?_, ?_, ?_⟩
    · rw [hdrop]
      exact reach_complete W E.e_lt
    · intro u hu
      obtain ⟨hul, hus⟩ := reach_sound W hu
      obtain ⟨c1, c2, c3⟩ := node_bounds W hul
      have hl := reach_length W hu
      rw [List.length_drop] at hl
      have hdu : (nd T u).dep = T.n - i := by omega
      apply anc_eq_of_dep W _ E.e_lt (by omega)
      apply E.top u hul (by omega)
      have hp : seg T.s ((nd T u).r - (nd T u).dep) (nd T u).dep <+: T.s.drop (i : Int).toNat := by
        rw [Int.toNat_ofNat, ← hus]
      exact ((seg_prefix_iff c1 c3 (by omega) (by omega) (by omega)).mp hp).2
    · have := (W.cnt1 e E.e_lt he0).mpr
        ⟨by omega, E.agree.congr rfl (by omega) (by omega)⟩
      omega
    · have := E.recd
      have e1 : (T.n - (i : Int)).toNat = T.s.length - i := by omega
      rw [e1] at this
      exact this

theorem list_sum_map_range (f : Nat → Int) (m : Nat) :
    ((List.range m).map f).sum = ∑ x in Finset.range m, f x := by
  induction m with
  | zero => rfl
  | succ m ih =>
    rw [List.range_succ, List.map_append, List.sum_append, Finset.sum_range_succ, ih]
    simp

theorem countP_range (p : Nat → Bool) (m : Nat) :
    (((List.range m).countP p : Nat) : Int) =
      ∑ i in Finset.range m, if p i = true then (1 : Int) else 0 := by
  induction m with
  | zero => rfl
  | succ m ih =>
    rw [List.range_succ, List.countP_append, Finset.sum_range_succ, Nat.cast_add, ih]
    congr 1
    cases h : p m <;> simp [List.countP_cons, h]

theorem passing_eq {T : SuffixTree26} {j : Int} (W : WF T j) {v : Nat} {str : List Char}
    (h : Reach T v str) :
    ((passing T.s str : Nat) : Int) = ∑ i in Finset.range (T.s.length + 1), ind T v i := by
  unfold passing
  rw [countP_range]
  apply Finset.sum_congr rfl
  intro i _
  unfold ind
  rw [← (reach_sound W h).2]
  simp only [decide_eq_true_eq]

/-- The string of `v` is a prefix of the suffix at `i` exactly when it fits
and agrees with it. -/
theorem pass_iff {T : SuffixTree26} {j : Int} (W : WF T j) {v : Nat} (hv : v < T.heap.length)
    (i : Nat) (hi : i ≤ T.s.length) :
    seg T.s ((nd T v).r - (nd T v).dep) (nd T v).dep <+: T.s.drop i ↔
      ((nd T v).dep ≤ T.n - i ∧ Agree T.s ((nd T v).r - (nd T v).dep) i (nd T v).dep) := by
  obtain ⟨b1, b2, b3⟩ := node_bounds W hv
  have := seg_prefix_iff (s := T.s) (i := (i : Int)) b1 b3 (by omega) (by omega) (by omega)
  rw [Int.toNat_ofNat] at this
  rw [this, W.n_eq]

/-- A suffix that passes through a child of `v` passes through `v`, goes on
below `v`, and the entry of the child is the one of its next character. -/
theorem pass_child {T : SuffixTree26} {j : Int} (W : WF T j) {v : Nat} (hv : v < T.heap.length)
    {x w : Nat} (hch : (nd T v).childs x = some w) (i : Int)
    (hd : (nd T w).dep ≤ T.n - i)
    (ha : Agree T.s ((nd T w).r - (nd T w).dep) i (nd T w).dep) :
    ((nd T v).dep ≤ T.n - i ∧ Agree T.s ((nd T v).r - (nd T v).dep) i (nd T v).dep) ∧
      (nd T v).dep < T.n - i ∧ x = sl (tc T.s (i + (nd T v).dep)) := by
  obtain ⟨hw, hpar, hx⟩ := W.child v hv x w hch
  obtain ⟨_, hl, hlt, _⟩ := child_first W hw hpar
  have hw0 : w ≠ 0 := ne_root_of_parent W hpar
  obtain ⟨p, hp⟩ := W.node w hw hw0
  have hpv : p = v := by
    have := hp.par
    rw [hpar] at this
    injection this with this
    exact this.symm
  subst hpv
  have h0 := W.dep_nonneg p hv
  refine ⟨⟨by omega, hp.agree.symm.trans (ha.mono (by omega))⟩, by omega, ?_⟩
  rw [← hx, hl]
  congr 1
  exact ha.at (nd T p).dep h0 hlt rfl rfl

/-- A suffix that passes through `v` and goes on below it passes through the
child of `v` in the entry of its next character. -/
theorem pass_next {T : SuffixTree26} (W : WF T T.n) {v : Nat} (hv : v < T.heap.length)
    (i : Int) (hi : 0 ≤ i) (hd : (nd T v).dep < T.n - i)
    (ha : Agree T.s ((nd T v).r - (nd T v).dep) i (nd T v).dep) :
    ∃ w, (nd T v).childs (sl (tc T.s (i + (nd T v).dep))) = some w ∧
      (nd T w).dep ≤ T.n - i ∧ Agree T.s ((nd T w).r - (nd T w).dep) i (nd T w).dep := by
  have h0 := W.dep_nonneg v hv
  obtain ⟨e, E⟩ := W.ends i hi (by omega)
  have hve : Anc T v e := E.top v hv (by omega) ha
  have hne : v ≠ e := by
    intro h
    subst h
    have := E.dep_eq
    omega
  obtain ⟨w, hpar, hwe⟩ := anc_child hve hne
  have hw := lt_of_parent hpar
  obtain ⟨hch, hl, hlt, _⟩ := child_first W hw hpar
  obtain ⟨_, hdw, haw⟩ := anc_facts W hwe E.e_lt
  have hde := E.dep_eq
  have hwi : Agree T.s ((nd T w).r - (nd T w).dep) i (nd T w).dep :=
    haw.symm.trans (E.agree.mono (by omega))
  refine ⟨w, ?_, by omega, hwi⟩
  rw [← hch]
  congr 2
  exact (hwi.at (nd T v).dep h0 hlt rfl rfl).symm

/-- The count of a node is one when its string is a suffix of the text, and
zero otherwise. -/
theorem pass_here {T : SuffixTree26} (W : WF T T.n) {v : Nat} (hv : v < T.heap.length) :
    ((nd T v).cnt = 0 ∨ (nd T v).cnt = 1) ∧ ((nd T v).cnt = 1 ↔
      Agree T.s ((nd T v).r - (nd T v).dep) (T.n - (nd T v).dep) (nd T v).dep) := by
  by_cases h0 : v = 0
  · subst h0
    rw [W.root_cnt, W.root_dep]
    refine ⟨Or.inr rfl, fun _ => ?_, fun _ => rfl⟩
    intro t h1 h2
    omega
  · refine ⟨W.cnt01 v hv h0, ?_⟩
    rw [W.cnt1 v hv h0]
    obtain ⟨p, hp⟩ := W.node v hv h0
    have := W.dep_nonneg p hp.p_lt
    have := hp.dep_eq
    have := hp.l_lt_r
    constructor
    · exact fun h => h.2
    · exact fun h => ⟨by omega, h⟩

theorem ind_child_zero {T : SuffixTree26} {j : Int} (W : WF T j) {v : Nat}
    (hv : v < T.heap.length) (i : Nat) (hi : i ≤ T.s.length) (x : Nat)
    (h : ∀ w, (nd T v).childs x = some w → (nd T w).dep ≤ T.n - i →
      Agree T.s ((nd T w).r - (nd T w).dep) i (nd T w).dep → False) :
    childTotal T (fun w => ind T w i) v x = 0 := by
  unfold childTotal
  cases hch : (nd T v).childs x with
  | none => rfl
  | some w =>
    obtain ⟨hw, _, _⟩ := W.child v hv x w hch
    show ind T w i = 0
    unfold ind
    rw [if_neg]
    intro hp
    obtain ⟨h1, h2⟩ := (pass_iff W hw i hi).mp hp
    exact h w hch h1 h2

/-- The suffixes through `v` are the one that ends at `v`, if there is one,
and those through the children of `v`. -/
theorem ind_split {T : SuffixTree26} (W : WF T T.n) {v : Nat} (hv : v < T.heap.length)
    (i : Nat) (hi : i ≤ T.s.length) :
    ind T v i = (if (i : Int) = T.n - (nd T v).dep then (nd T v).cnt else 0) +
      ∑ x in Finset.range 26, childTotal T (fun w => ind T w i) v x := by
  obtain ⟨hc01, hc1⟩ := pass_here W hv
  have hn := W.n_eq
  by_cases hP : seg T.s ((nd T v).r - (nd T v).dep) (nd T v).dep <+: T.s.drop i
  · obtain ⟨h1, h2⟩ := (pass_iff W hv i hi).mp hP
    have hl : ind T v i = 1 := by unfold ind; rw [if_pos hP]
    rw [hl]
    by_cases he : (i : Int) = T.n - (nd T v).dep
    · rw [if_pos he, Finset.sum_eq_zero, add_zero]
      · symm
        rw [hc1]
        rw [← he]
        exact h2
      · intro x _
        apply ind_child_zero W hv i hi
        intro w hch hd ha
        have := (pass_child W hv hch i hd ha).2.1
        omega
    · rw [if_neg he, zero_add]
      obtain ⟨w, hch, hd, ha⟩ := pass_next W hv i (by omega) (by omega) h2
      have hlow : lower (tc T.s ((i : Int) + (nd T v).dep)) :=
        tc_lower W _ (by have := W.dep_nonneg v hv; omega) (by omega)
      rw [Finset.sum_eq_single_of_mem (sl (tc T.s ((i : Int) + (nd T v).dep)))
        (Finset.mem_range.mpr (sl_lt hlow))]
      · unfold childTotal
        rw [hch]
        show 1 = ind T w i
        unfold ind
        rw [if_pos]
        exact (pass_iff W (W.child v hv _ w hch).1 i hi).mpr ⟨hd, ha⟩
      · intro x _ hx
        apply ind_child_zero W hv i hi
        intro w2 hch2 hd2 ha2
        exact hx (pass_child W hv hch2 i hd2 ha2).2.2
  · have hl : ind T v i = 0 := by unfold ind; rw [if_neg hP]
    rw [hl, Finset.sum_eq_zero]
    · rw [add_zero]
      by_cases he : (i : Int) = T.n - (nd T v).dep
      · rw [if_pos he]
        rcases hc01 with h | h
        · exact h.symm
        · exfalso
          apply hP
          rw [pass_iff W hv i hi]
          refine ⟨by omega, ?_⟩
          rw [he]
          exact hc1.mp h
      · rw [if_neg he]
    · intro x _
      apply ind_child_zero W hv i hi
      intro w hch hd ha
      apply hP
      rw [pass_iff W hv i hi]
      exact (pass_child W hv hch i hd ha).1

theorem childTotal_sum (T : SuffixTree26) (v x : Nat) (m : Nat) :
    ∑ i in Finset.range m, childTotal T (fun w => ind T w i) v x =
      childTotal T (fun w => ∑ i in Finset.range m, ind T w i) v x := by
  unfold childTotal
  cases (nd T v).childs x with
  | none => exact Finset.sum_const_zero
  | some w => rfl

/-- The number of suffixes through `v` is the count of `v` plus the numbers
of suffixes through its children. -/
theorem ind_sum {T : SuffixTree26} (W : WF T T.n) {v : Nat} (hv : v < T.heap.length) :
    ∑ i in Finset.range (T.s.length + 1), ind T v i = (nd T v).cnt +
      ∑ x in Finset.range 26,
        childTotal T (fun w => ∑ i in Finset.range (T.s.length + 1), ind T w i) v x := by
  obtain ⟨b1, b2, b3⟩ := node_bounds W hv
  have hn := W.n_eq
  have h1 : ∑ i in Finset.range (T.s.length + 1), ind T v i =
      ∑ i in Finset.range (T.s.length + 1),
        ((if (i : Int) = T.n - (nd T v).dep then (nd T v).cnt else 0) +
          ∑ x in Finset.range 26, childTotal T (fun w => ind T w i) v x) := by
    apply Finset.sum_congr rfl
    intro i hi
    rw [Finset.mem_range] at hi
    exact ind_split W hv i (by omega)
  rw [h1, Finset.sum_add_distrib, Finset.sum_comm]
  congr 1
  · rw [Finset.sum_eq_single_of_mem (T.n - (nd T v).dep).toNat
      (Finset.mem_range.mpr (by omega))]
    · rw [if_pos (by omega)]
    · intro i _ hi
      rw [if_neg (by omega)]
  · apply Finset.sum_congr rfl
    intro x _
    exact childTotal_sum T v x _

/-- With enough fuel the subtree total of a node is the number of suffixes
through it. -/
theorem subtotal_eq {T : SuffixTree26} (W : WF T T.n) :
    ∀ (f : Nat) (v : Nat), v < T.heap.length → T.n - (nd T v).dep < f →
      subtotal T f v = ∑ i in Finset.range (T.s.length + 1), ind T v i := by
  intro f
  induction f with
  | zero =>
    intro v hv hf
    obtain ⟨b1, b2, b3⟩ := node_bounds W hv
    have := W.n_eq
    omega
  | succ f ih =>
    intro v hv hf
    rw [subtotal, list_sum_map_range, ind_sum W hv]
    congr 1
    apply Finset.sum_congr rfl
    intro x _
    unfold childTotal
    cases hch : (nd T v).childs x with
    | none => rfl
    | some w =>
      obtain ⟨hw, hpar, _⟩ := W.child v hv x w hch
      obtain ⟨_, _, hlt, _⟩ := child_first W hw hpar
      exact ih w hw (by omega)

/-- The subtree totals of the finished tree. -/
theorem subtotal_spec {T : SuffixTree26} (W : WF T T.n) :
    (∀ v, v < T.heap.length → ∃ str, Reach T v str) ∧
      (∀ v str, Reach T v str → ∀ f : Nat, T.s.length < f →
        subtotal T f v = passing T.s str) ∧
      ∀ f : Nat, T.s.length < f → subtotal T f T.root = T.s.length + 1 := by
  have hn := W.n_eq
  have key : ∀ v str, Reach T v str → ∀ f : Nat, T.s.length < f →
      subtotal T f v = passing T.s str := by
    intro v str h f hf
    obtain ⟨hv, _⟩ := reach_sound W h
    obtain ⟨b1, b2, b3⟩ := node_bounds W hv
    rw [passing_eq W h]
    exact subtotal_eq W f v hv (by omega)
  refine ⟨fun v hv => ⟨_, reach_complete W hv⟩, key, ?_⟩
  intro f hf
  rw [key _ _ Reach.root f hf]
  unfold passing
  rw [List.countP_eq_length.mpr, List.length_range]
  · push_cast
    rfl
  · intro i _
    simp

/-- C8: after `SuffixTree26(s)` for a text `s` over `'a'..'z'` of length `n`,
for every `i ≤ n` exactly one node reachable from the root has the suffix
`s[i, n)` as the concatenation of the edge labels on the way from the root;
the count of that node is at least 1, and it is the node recorded in
`sufnodes[n - i]`. -/
theorem C8_suffix_node_unique (s : List Char) (hs : Lower s) (i : Nat) (hi : i ≤ s.length) :
    ∃ T, SuffixTree26.new s = .ok T ∧
      ∃ v, Reach T v (s.drop i) ∧ (∀ u, Reach T u (s.drop i) → u = v) ∧
        1 ≤ (nd T v).cnt ∧ T.sufnodes[s.length - i]? = some (some v) := by
  obtain ⟨T, hT, W, hsT⟩ := new_wf s hs
  refine ⟨T, hT, ?_⟩
  have := suffix_node W i (by rw [hsT]; exact hi)
  rw [hsT] at this
  exact this

theorem C8_witness :
    Lower ['a', 'b', 'a', 'b'] ∧ 2 ≤ ['a', 'b', 'a', 'b'].length ∧
      ∃ T, SuffixTree26.new ['a', 'b', 'a', 'b'] = .ok T ∧
        ∃ v, Reach T v (['a', 'b', 'a', 'b'].drop 2) ∧
          (∀ u, Reach T u (['a', 'b', 'a', 'b'].drop 2) → u = v) ∧
          1 ≤ (nd T v).cnt ∧
          T.sufnodes[['a', 'b', 'a', 'b'].length - 2]? = some (some v) :=
  ⟨by decide, by decide, C8_suffix_node_unique _ (by decide) 2 (by decide)⟩

/-- C9: for every text `s` over `'a'..'z'` the tree is a compressed trie
after every number `j ≤ n` of iterations of the loop of `construct`: for
every node `u` reachable from the root and every symbol `c`, if the child of
`u` under `c` is `w` then the parent field of `w` is `u`, the label of `w` is
not empty (`0 ≤ w.l < w.r ≤ n`), and the first symbol `s[w.l]` of the label
is `c`; so two children of `u` whose labels start with the same symbol are
the same node. -/
theorem C9_compressed_trie (s : List Char) (hs : Lower s) :
    ∃ st, (fresh s).enter = .ok st ∧ ∀ j : Nat, j ≤ s.length →
      ∃ T v, steps j st = .ok (T, v) ∧ T.s = s ∧ T.n = s.length ∧
        ∀ u str, Reach T u str → ∀ c x w, slot c = .ok x → (nd T u).childs x = some w →
          ((nd T w).parent = some u ∧ 0 ≤ (nd T w).l ∧ (nd T w).l < (nd T w).r ∧
            (nd T w).r ≤ T.n ∧ charAt T.s (nd T w).l = .ok c) ∧
          ∀ c2 x2 w2, slot c2 = .ok x2 → (nd T u).childs x2 = some w2 →
            charAt T.s (nd T w2).l = charAt T.s (nd T w).l → w2 = w := by
  obtain ⟨T0, h0, _, _⟩ := enter_spec s hs
  refine ⟨_, h0, ?_⟩
  intro j hj
  obtain ⟨T, v, h1, I, hsT⟩ := steps_spec s hs _ h0 j hj
  have W := I.wf
  refine ⟨T, v, h1, hsT, by rw [W.n_eq, hsT], ?_⟩
  intro u str hu c x w hc hch
  obtain ⟨hul, _⟩ := reach_sound W hu
  obtain ⟨hw, hpar, hx⟩ := W.child u hul x w hch
  have hw0 : w ≠ 0 := ne_root_of_parent W hpar
  obtain ⟨p, hp⟩ := W.node w hw hw0
  have hlt : (nd T w).l < T.n := by
    have := hp.l_lt_r
    have := hp.r_le
    omega
  have hcw := charAt_wf W (nd T w).l hp.l_nonneg hlt
  obtain ⟨hcl, hxc⟩ := (slot_ok_iff c x).mp hc
  have hcc : tc T.s (nd T w).l = c :=
    sl_inj (tc_lower W _ hp.l_nonneg hlt) hcl (by rw [hx, hxc])
  refine ⟨⟨hpar, hp.l_nonneg, hp.l_lt_r, hp.r_le, by rw [hcw, hcc]⟩, ?_⟩
  intro c2 x2 w2 _ hch2 he
  obtain ⟨hw2, hpar2, hx2⟩ := W.child u hul x2 w2 hch2
  have hw20 : w2 ≠ 0 := ne_root_of_parent W hpar2
  obtain ⟨p2, hp2⟩ := W.node w2 hw2 hw20
  have hlt2 : (nd T w2).l < T.n := by
    have := hp2.l_lt_r
    have := hp2.r_le
    omega
  rw [hcw, charAt_wf W (nd T w2).l hp2.l_nonneg hlt2] at he
  injection he with he
  have hxx : x2 = x := by rw [← hx2, ← hx, he]
  rw [hxx, hch] at hch2
  injection hch2 with hch2
  exact hch2.symm

theorem C9_witness :
    Lower ['a', 'b', 'a', 'b'] ∧
      ∃ st, (fresh ['a', 'b', 'a', 'b']).enter = .ok st ∧
        ∀ j : Nat, j ≤ ['a', 'b', 'a', 'b'].length →
          ∃ T v, steps j st = .ok (T, v) ∧ T.s = ['a', 'b', 'a', 'b'] ∧
            T.n = ['a', 'b', 'a', 'b'].length ∧
            ∀ u str, Reach T u str → ∀ c x w, slot c = .ok x →
              (nd T u).childs x = some w →
              ((nd T w).parent = some u ∧ 0 ≤ (nd T w).l ∧ (nd T w).l < (nd T w).r ∧
                (nd T w).r ≤ T.n ∧ charAt T.s (nd T w).l = .ok c) ∧
              ∀ c2 x2 w2, slot c2 = .ok x2 → (nd T u).childs x2 = some w2 →
                charAt T.s (nd T w2).l = charAt T.s (nd T w).l → w2 = w :=
  ⟨by decide, C9_compressed_trie ['a', 'b', 'a', 'b'] (by decide)⟩

/-- C10: after `SuffixTree26(s)` for a text `s` over `'a'..'z'` of length
`n`, every node of the heap is reachable from the root, and for every node
`v` with root-to-node string `str` the count of `v` plus the sum of the
subtree totals of the children of `v` is the number of suffix starts `i` in
`0..n` with `str` a prefix of `s[i, n)`; this is the subtree total of `v`,
and the subtree total of the root is `n + 1`.  Every bound `f > n` on the
descent gives these values. -/
theorem C10_subtree_totals (s : List Char) (hs : Lower s) :
    ∃ T, SuffixTree26.new s = .ok T ∧
      (∀ v, v < T.heap.length → ∃ str, Reach T v str) ∧
      (∀ v str, Reach T v str → ∀ f : Nat, s.length < f →
        (nd T v).cnt + ((List.range 26).map
          (childTotal T (fun w => subtotal T f w) v)).sum = passing s str ∧
        subtotal T f v = passing s str) ∧
      ∀ f : Nat, s.length < f → subtotal T f T.root = s.length + 1 := by
  obtain ⟨T, hT, W, hsT⟩ := new_wf s hs
  obtain ⟨h1, h2, h3⟩ := subtotal_spec W
  rw [hsT] at h2 h3
  refine ⟨T, hT, h1, ?_, h3⟩
  intro v str hv f hf
  exact ⟨h2 v str hv (f + 1) (by omega), h2 v str hv f hf⟩

theorem C10_witness :
    Lower ['a', 'b', 'a', 'b'] ∧
      ∃ T, SuffixTree26.new ['a', 'b', 'a', 'b'] = .ok T ∧
        (∀ v, v < T.heap.length → ∃ str, Reach T v str) ∧
        (∀ v str, Reach T v str → ∀ f : Nat, ['a', 'b', 'a', 'b'].length < f →
          (nd T v).cnt + ((List.range 26).map
            (childTotal T (fun w => subtotal T f w) v)).sum =
              passing ['a', 'b', 'a', 'b'] str ∧
          subtotal T f v = passing ['a', 'b', 'a', 'b'] str) ∧
        ∀ f : Nat, ['a', 'b', 'a', 'b'].length < f →
          subtotal T f T.root = ['a', 'b', 'a', 'b'].length + 1 :=
  ⟨by decide, C10_subtree_totals ['a', 'b', 'a', 'b'] (by decide)⟩

theorem field_eq {α : Type} {s : List Char} {T : SuffixTree26}
    (h : SuffixTree26.new s = .ok T) (f : SuffixTree26 → α) : field s f = .ok (f T) := by
  unfold field
  rw [h]

theorem stateAt_eq {α : Type} {s : List Char} {j : Nat} {st : SuffixTree26 × Vars}
    {T : SuffixTree26} {v : Vars} (h0 : (fresh s).enter = .ok st)
    (h1 : steps j st = .ok (T, v)) (f : SuffixTree26 → Vars → α) :
    stateAt s j f = .ok (f T v) := by
  unfold stateAt
  rw [h0]
  simp only [h1]

theorem seg_cons (s : List Char) {a d : Int} (ha : 0 ≤ a) (hd : 1 ≤ d)
    (h : a + d ≤ s.length) : seg s a d = tc s a :: seg s (a + 1) (d - 1) := by
  unfold seg
  have e : d.toNat = (d - 1).toNat + 1 := by omega
  rw [drop_tc s a ha (by omega), e, List.take_succ_cons]

theorem depok_of_wf {T : SuffixTree26} {j : Int} (W : WF T j) : DepOK T := by
  refine ⟨by rw [W.root0]; exact W.root_dep, ?_⟩
  intro u str hu
  obtain ⟨hul, hstr⟩ := reach_sound W hu
  refine ⟨reach_length W hu, hstr, ?_⟩
  intro h0
  rw [W.root0] at h0
  obtain ⟨p, hp⟩ := W.node u hul h0
  exact ⟨p, hp.par, hp.dep_eq⟩

/-! ## The points of an iteration -/

/-- The trees of an iteration of the loop of `construct`: `T1` after the
split inside `insert`, `T2` after `insert`. -/
theorem iter_points {T : SuffixTree26} {v : Vars} {j : Int} (I : LI T v j) (hj : j < T.n) :
    ∃ c k i T1 c1 T2, T.proceed (T.s.length + 1) v.cur v.k v.i = .ok (c, k, i) ∧
      T.split c k = .ok (T1, c1) ∧ T1.attach c1 i = .ok T2 ∧
      At T j c k i ∧ Stop T c k i ∧
      (∀ p, v.pre = some p → c = v.cur ∧ k = v.k ∧ i = v.i) ∧
      WF T1 j ∧ Head T1 j c1 i ∧ Keeps T T1 ∧ WF T2 (j + 1) ∧ Keeps T1 T2 ∧
      ∀ u, u < T1.heap.length → (nd T2 u).l = (nd T1 u).l := by
  have W := I.wf
  have A := li_at I
  have hige := A.i_ge W
  have hj0 := W.j_nonneg
  have hneq := W.n_eq
  have hscan : ∃ c k i, T.proceed (T.s.length + 1) v.cur v.k v.i = .ok (c, k, i) ∧
      At T j c k i ∧ Stop T c k i ∧ (∀ p, v.pre = some p → c = v.cur ∧ k = v.k ∧ i = v.i) := by
    cases hpre : v.pre with
    | none =>
      obtain ⟨c, k, i, h1, h2, h3⟩ := proceed_spec W (T.s.length + 1) v.cur v.k v.i A
        (by omega)
      exact ⟨c, k, i, h1, h2, h3, fun p hp => by cases hp⟩
    | some p =>
      have St := pend_stop I hpre
      exact ⟨v.cur, v.k, v.i, proceed_stop W A St _, A, St, fun _ _ => ⟨rfl, rfl, rfl⟩⟩
  obtain ⟨c, k, i, hrun1, A1, St, hsame⟩ := hscan
  obtain ⟨T1, c1, hrun2, W1, H1, L1, K1, hk0⟩ := split_spec W A1 St I.links
  have hn1 : j < T1.n := by rw [K1.n_eq]; exact hj
  obtain ⟨T2, hrun3, R⟩ := attach_spec ⟨W1, hn1, H1⟩
  refine ⟨c, k, i, T1, c1, T2, hrun1, hrun2, hrun3, A1, St, hsame, W1, H1, K1, R.wf, R.keeps, ?_⟩
  have hd := H1.dep_eq
  have hcd := W1.dep_nonneg c1 H1.lt
  have hile := H1.i_le
  intro u hu
  by_cases hi : i < T1.n
  · obtain ⟨T2a, hrun, S⟩ := attach_leaf_run W1 H1.lt (by omega) hi (by omega) (by omega)
    rw [hrun3] at hrun
    injection hrun with hrun
    subst hrun
    exact (leaf_old S u hu).1
  · obtain ⟨T2a, hrun, S⟩ := attach_count_run (i := i) W1 H1.lt hi hcd (by omega)
    rw [hrun3] at hrun
    injection hrun with hrun
    subst hrun
    exact (count_old S u).1

/-- With a suffix link pending for `p`, the insertion splits the edge at the
position the rescan ended at, and the new node spells the string of `p`
without its first symbol. -/
theorem pending_split {T : SuffixTree26} {v : Vars} {j : Int} (I : LI T v j) (hj : j < T.n)
    {p : Nat} (hp : v.pre = some p) :
    v.k < (nd T v.cur).r - (nd T v.cur).l ∧
      T.proceed (T.s.length + 1) v.cur v.k v.i = .ok (v.cur, v.k, v.i) ∧
      ∃ T2, T.insert v.cur v.k v.i = .ok (T2, T.heap.length) ∧
        (nd T2 T.heap.length).l = (nd T v.cur).l ∧
        (nd T2 T.heap.length).r = (nd T v.cur).l + v.k ∧
        (nd T2 T.heap.length).childs (sl (tc T.s ((nd T v.cur).l + v.k))) = some v.cur ∧
        ∃ c α, Reach T p (c :: α) ∧ Reach T2 p (c :: α) ∧ Reach T2 T.heap.length α := by
  have W := I.wf
  have P := I.pend p hp
  have hin := P.inside
  obtain ⟨c, k, i, T1, c1, T2, hrun1, hrun2, hrun3, A1, St, hsame, W1, H1, K1, W2, K2, hl2⟩ :=
    iter_points I hj
  obtain ⟨e1, e2, e3⟩ := hsame p hp
  subst e1; subst e2; subst e3
  refine ⟨hin, hrun1, T2, ?_⟩
  have hc := A1.pos.1
  have hc0 : v.cur ≠ 0 := by
    intro e
    rw [e] at hin
    have := W.root_l; have := W.root_r
    rcases A1.pos with ⟨_, ⟨_, hk0⟩ | ⟨h0, _, _⟩⟩
    · omega
    · exact h0 e
  have hk0 : 0 < v.k := by
    rcases A1.pos with ⟨_, ⟨h0, _⟩ | ⟨_, hk0, _⟩⟩
    · exact absurd h0 hc0
    · exact hk0
  obtain ⟨pp, hpp⟩ := W.node v.cur hc hc0
  obtain ⟨T1a, hrun, S⟩ := split_run W hc hpp hk0 hin
  rw [hrun2] at hrun
  injection hrun with hrun
  injection hrun with ht hb
  subst ht; subst hb
  have hb1 : T.heap.length < T1.heap.length := by rw [S.len]; omega
  have hile := H1.i_le
  have hd1 := H1.dep_eq
  have hn1 : T1.n = T.n := K1.n_eq
  have hj0 := W.j_nonneg
  have hcd := W1.dep_nonneg T.heap.length H1.lt
  have hige := A1.i_ge W
  have hch2 : (nd T2 T.heap.length).childs (sl (tc T.s ((nd T v.cur).l + v.k))) = some v.cur := by
    by_cases hi : v.i < T1.n
    · obtain ⟨T2a, hr, L⟩ := attach_leaf_run W1 H1.lt (by omega) hi (by omega) (by omega)
      rw [hrun3] at hr
      injection hr with hr
      subst hr
      have hne : tc T.s ((nd T v.cur).l + v.k) ≠ tc T.s v.i := by
        rcases St with h | ⟨h, _⟩ | ⟨_, h⟩
        · omega
        · omega
        · exact h
      have hlow1 := tc_lower W ((nd T v.cur).l + v.k) (by have := hpp.l_nonneg; omega)
        (by have := hpp.r_le; omega)
      have hlow2 := tc_lower W v.i (by omega) (by omega)
      have hsl : sl (tc T.s ((nd T v.cur).l + v.k)) ≠ sl (tc T.s v.i) :=
        fun e => hne (sl_inj hlow1 hlow2 e)
      rw [L.at_c, S.at_b, S.s_eq]
      simp only [setChild, if_neg hsl, if_true]
    · obtain ⟨T2a, hr, L⟩ := attach_count_run (i := v.i) W1 H1.lt hi hcd (by omega)
      rw [hrun3] at hr
      injection hr with hr
      subst hr
      rw [L.at_c, S.at_b]
      simp only [if_true]
  have hr2 : (nd T2 T.heap.length).r = (nd T1 T.heap.length).r := K2.r_eq _ hb1
  have hd2 : (nd T2 T.heap.length).dep = (nd T1 T.heap.length).dep := K2.dep_eq _ hb1
  have hb2 : T.heap.length < T2.heap.length := lt_of_lt_of_le hb1 K2.len_le
  have hs2 : T2.s = T.s := K2.s_eq.trans K1.s_eq
  refine ⟨insert_run hrun2 hrun3, ?_, ?_, hch2, ?_⟩
  · rw [hl2 _ hb1, S.at_b]
  · rw [hr2, S.at_b]
  · obtain ⟨b1, b2, b3⟩ := node_bounds W P.p_lt
    have hdp := P.dep_eq
    have hp1 : p < T1.heap.length := lt_of_lt_of_le P.p_lt K1.len_le
    have hrp : (nd T2 p).r = (nd T p).r := by rw [K2.r_eq p hp1, K1.r_eq p P.p_lt]
    have hdpp : (nd T2 p).dep = (nd T p).dep := by rw [K2.dep_eq p hp1, K1.dep_eq p P.p_lt]
    have hstr := seg_cons T.s b1 (by omega : 1 ≤ (nd T p).dep) (by omega)
    refine ⟨tc T.s ((nd T p).r - (nd T p).dep),
      seg T.s ((nd T p).r - (nd T p).dep + 1) ((nd T p).dep - 1), ?_, ?_, ?_⟩
    · rw [← hstr]
      exact reach_complete W P.p_lt
    · rw [← hstr]
      have := reach_complete W2 (lt_of_lt_of_le hp1 K2.len_le)
      rw [hrp, hdpp, hs2] at this
      exact this
    · have := reach_complete W2 hb2
      rw [hr2, hd2, hs2, hd1] at this
      obtain ⟨c1, c2, c3⟩ := node_bounds W1 H1.lt
      rw [hd1] at c1
      rw [K1.s_eq] at c2
      have e : seg T.s ((nd T p).r - (nd T p).dep + 1) ((nd T p).dep - 1) =
          seg T.s ((nd T1 T.heap.length).r - (v.i - j)) (v.i - j) := by
        rw [show (nd T p).dep - 1 = v.i - j by omega]
        apply seg_of_agree (by omega) (by omega) (by omega) (by omega) (by omega)
        have h1 := P.agree
        have h2 := H1.agree
        rw [hd1, K1.s_eq] at h2
        exact h1.trans h2.symm
      rw [e]
      exact this

/-! ## What `insert` changes -/

/-- The effect of `insert(c, k, i)` on a tree with the invariant of the
construction, for a position `(c, k)` on an edge or at a node and a text
cursor `i` that is not before the end of the string of the position. -/
theorem insert_frame {T : SuffixTree26} {j : Int} (W : WF T j) {c : Nat} {k i : Int}
    (hc : c < T.heap.length) (hk0 : 0 ≤ k) (hpos : c = T.root ∨ 0 < k)
    (hk : k ≤ (nd T c).r - (nd T c).l)
    (hi0 : (nd T c).dep - ((nd T c).r - (nd T c).l) + k ≤ i) (hin : i ≤ T.n) :
    ∃ T1 c1 T2, T.split c k = .ok (T1, c1) ∧ T1.attach c1 i = .ok T2 ∧
      T.insert c k i = .ok (T2, c1) ∧
      (k < (nd T c).r - (nd T c).l → c1 = T.heap.length ∧
        ∃ p, (nd T c).parent = some p ∧
          (nd T p).childs (sl (tc T.s (nd T c).l)) = some c ∧ SplitOK T T1 c p k) ∧
      (k = (nd T c).r - (nd T c).l → T1 = T ∧ c1 = c) ∧
      (∀ v str, Reach T v str → Reach T1 v str) ∧
      (i < T.n → LeafOK T1 T2 c1 i) ∧ (i = T.n → CountOK T1 T2 c1) := by
  have hn := W.n_eq
  -- the split
  have hsplit : ∃ T1 c1, T.split c k = .ok (T1, c1) ∧ WF T1 j ∧ c1 < T1.heap.length ∧
      T1.n = T.n ∧ (nd T1 c1).dep = (nd T c).dep - ((nd T c).r - (nd T c).l) + k ∧
      (k < (nd T c).r - (nd T c).l → c1 = T.heap.length ∧
        ∃ p, (nd T c).parent = some p ∧
          (nd T p).childs (sl (tc T.s (nd T c).l)) = some c ∧ SplitOK T T1 c p k) ∧
      (k = (nd T c).r - (nd T c).l → T1 = T ∧ c1 = c) ∧
      (∀ v str, Reach T v str → Reach T1 v str) := by
    by_cases hlt : k < (nd T c).r - (nd T c).l
    · have hc0 : c ≠ 0 := by
        intro e
        subst e
        have := W.root_l; have := W.root_r
        omega
      have hk1 : 0 < k := by
        rcases hpos with h | h
        · rw [W.root0] at h
          exact absurd h hc0
        · exact h
      obtain ⟨p, hp⟩ := W.node c hc hc0
      obtain ⟨T1, hrun, S⟩ := split_run W hc hp hk1 hlt
      have H : SplitPre T j c p k := ⟨W, hc, hc0, hp, hk1, hlt⟩
      have W1 := split_wf H S
      refine ⟨T1, T.heap.length, hrun, W1, by rw [S.len]; omega, S.n_eq, ?_,
        fun _ => ⟨rfl, p, hp.par, hp.reg, S⟩, fun e => by omega, ?_⟩
      · rw [S.at_b]
        have := hp.dep_eq
        show (nd T p).dep + k = _
        omega
      · intro v str hv
        obtain ⟨hvl, hstr⟩ := reach_sound W hv
        obtain ⟨e1, e2, _⟩ := split_old H S v hvl
        have := reach_complete W1 (lt_of_lt_of_le hvl (by rw [S.len]; omega))
        rw [e1, e2, S.s_eq, ← hstr] at this
        exact this
    · have hke : k = (nd T c).r - (nd T c).l := by omega
      refine ⟨T, c, ?_, W, hc, rfl, by omega, fun h => absurd h hlt, fun _ => ⟨rfl, rfl⟩,
        fun v str hv => hv⟩
      rw [split]
      simp only [deref_ok T c hc, bind, Except.bind, hlt, if_false]
      rfl
  obtain ⟨T1, c1, hrun, W1, hc1, hn1, hd1, hA, hB, hC⟩ := hsplit
  have hcd := W1.dep_nonneg c1 hc1
  by_cases hi : i < T1.n
  · obtain ⟨T2, hrun2, L⟩ := attach_leaf_run W1 hc1 (by omega) hi (by omega) (by omega)
    exact ⟨T1, c1, T2, hrun, hrun2, insert_run hrun hrun2, hA, hB, hC, fun _ => L,
      fun e => by omega⟩
  · obtain ⟨T2, hrun2, L⟩ := attach_count_run (i := i) W1 hc1 hi hcd (by omega)
    exact ⟨T1, c1, T2, hrun, hrun2, insert_run hrun hrun2, hA, hB, hC, fun h => by omega,
      fun _ => L⟩

/-- C17: for every text `s` over `'a'..'z'` and every iteration `j < n` of the
loop of `construct` that starts with `pre` non-null: the position `(cur, k)`
is strictly inside the edge of `cur`, the call of `proceed` returns the same
node with `k` and `i` unchanged, the node returned by `insert` is the new
node made by splitting the edge of `cur` at offset `k`, and its root-to-node
string is the root-to-node string of `pre` without its first symbol. -/
theorem C17_pending_split (s : List Char) (hs : Lower s) (j : Nat) (hj : j < s.length) :
    ∃ st T v, (fresh s).enter = .ok st ∧ steps j st = .ok (T, v) ∧
      ∀ p, v.pre = some p →
        v.k < (nd T v.cur).r - (nd T v.cur).l ∧
        T.proceed (T.s.length + 1) v.cur v.k v.i = .ok (v.cur, v.k, v.i) ∧
        ∃ T2, T.insert v.cur v.k v.i = .ok (T2, T.heap.length) ∧
          (nd T2 T.heap.length).l = (nd T v.cur).l ∧
          (nd T2 T.heap.length).r = (nd T v.cur).l + v.k ∧
          (nd T2 T.heap.length).childs (sl (tc T.s ((nd T v.cur).l + v.k))) = some v.cur ∧
          ∃ c α, Reach T p (c :: α) ∧ Reach T2 p (c :: α) ∧ Reach T2 T.heap.length α := by
  obtain ⟨T0, h0, _, _⟩ := enter_spec s hs
  obtain ⟨T, v, h1, I, hsT⟩ := steps_spec s hs _ h0 j (by omega)
  refine ⟨_, T, v, h0, h1, ?_⟩
  intro p hp
  exact pending_split I (by rw [I.wf.n_eq, hsT]; omega) hp

theorem C17_witness :
    Lower ['a', 'b', 'a', 'b'] ∧ 3 < ['a', 'b', 'a', 'b'].length ∧
      stateAt ['a', 'b', 'a', 'b'] 3 (fun _ v => v.pre) = .ok (some 3) ∧
      ∃ st T v, (fresh ['a', 'b', 'a', 'b']).enter = .ok st ∧ steps 3 st = .ok (T, v) ∧
        ∀ p, v.pre = some p →
          v.k < (nd T v.cur).r - (nd T v.cur).l ∧
          T.proceed (T.s.length + 1) v.cur v.k v.i = .ok (v.cur, v.k, v.i) ∧
          ∃ T2, T.insert v.cur v.k v.i = .ok (T2, T.heap.length) ∧
            (nd T2 T.heap.length).l = (nd T v.cur).l ∧
            (nd T2 T.heap.length).r = (nd T v.cur).l + v.k ∧
            (nd T2 T.heap.length).childs (sl (tc T.s ((nd T v.cur).l + v.k))) =
              some v.cur ∧
            ∃ c α, Reach T p (c :: α) ∧ Reach T2 p (c :: α) ∧ Reach T2 T.heap.length α :=
  ⟨by decide, by decide, by decide,
    C17_pending_split ['a', 'b', 'a', 'b'] (by decide) 3 (by decide)⟩

/-- C18: on a tree with the invariant of the construction, `insert(c, k, i)`
for a position `(c, k)` and a cursor `i ≤ n` not before the end of the string
of the position does the following.  If `0 < k < c.r - c.l` the new node
`branch` with label `s[c.l, c.l + k)`, depth `parent.depth + k` and count 0
takes the place of `c` in the entry of the symbol `s[c.l]` of the old parent
of `c`, and `c` is its only child, in the entry of `s[c.l + k]`, with label
`s[c.l + k, c.r)`, parent `branch` and the same depth; no other node changes
and every node keeps its root-to-node string.  Then, if `i < n`, a new leaf
with label `s[i, n)`, depth `(insertion node depth) + n - i` and count 1 is
put into the entry of `s[i]` of the insertion node, else the count of the
insertion node goes up by 1; no other node changes. -/
theorem C18_insert_frame (T : SuffixTree26) (j : Int) (W : WF T j) (c : Nat) (k i : Int)
    (hc : c < T.heap.length) (hk0 : 0 ≤ k) (hpos : c = T.root ∨ 0 < k)
    (hk : k ≤ (nd T c).r - (nd T c).l)
    (hi0 : (nd T c).dep - ((nd T c).r - (nd T c).l) + k ≤ i) (hin : i ≤ T.n) :
    ∃ T1 c1 T2, T.split c k = .ok (T1, c1) ∧ T1.attach c1 i = .ok T2 ∧
      T.insert c k i = .ok (T2, c1) ∧
      (k < (nd T c).r - (nd T c).l → c1 = T.heap.length ∧
        ∃ p, (nd T c).parent = some p ∧
          (nd T p).childs (sl (tc T.s (nd T c).l)) = some c ∧ SplitOK T T1 c p k) ∧
      (k = (nd T c).r - (nd T c).l → T1 = T ∧ c1 = c) ∧
      (∀ v str, Reach T v str → Reach T1 v str) ∧
      (i < T.n → LeafOK T1 T2 c1 i) ∧ (i = T.n → CountOK T1 T2 c1) :=
  insert_frame W hc hk0 hpos hk hi0 hin

theorem C18_witness :
    ∃ T, SuffixTree26.new ['a', 'b', 'a', 'b'] = .ok T ∧ WF T T.n ∧
      ∃ T1 c1 T2, T.split 1 1 = .ok (T1, c1) ∧ T1.attach c1 4 = .ok T2 ∧
        T.insert 1 1 4 = .ok (T2, c1) ∧
        ((1 : Int) < (nd T 1).r - (nd T 1).l → c1 = T.heap.length ∧
          ∃ p, (nd T 1).parent = some p ∧
            (nd T p).childs (sl (tc T.s (nd T 1).l)) = some 1 ∧ SplitOK T T1 1 p 1) ∧
        ((1 : Int) = (nd T 1).r - (nd T 1).l → T1 = T ∧ c1 = 1) ∧
        (∀ v str, Reach T v str → Reach T1 v str) ∧
        ((4 : Int) < T.n → LeafOK T1 T2 c1 4) ∧ ((4 : Int) = T.n → CountOK T1 T2 c1) := by
  obtain ⟨T, hT, W, _⟩ := new_wf ['a', 'b', 'a', 'b'] (by decide)
  have h : field ['a', 'b', 'a', 'b'] (fun T => decide (1 < T.heap.length ∧
      (1 : Int) ≤ (nd T 1).r - (nd T 1).l ∧
      (nd T 1).dep - ((nd T 1).r - (nd T 1).l) + 1 ≤ 4 ∧ (4 : Int) ≤ T.n)) = .ok true := by
    decide
  rw [field_eq hT] at h
  injection h with h
  obtain ⟨h1, h2, h3, h4⟩ := of_decide_eq_true h
  exact ⟨T, hT, W, C18_insert_frame T T.n W 1 1 4 h1 (by decide) (Or.inr (by decide)) h2 h3 h4⟩

/-- C19, amended: for every text `s` over `'a'..'z'`, at these points of the
construction: when the loop is entered, inside `insert` after the split of
the edge (lines 36 to 43) and after the attachment (when `insert` returns) in
every iteration, after every iteration, and after `construct`, the depth of
the root is 0 and, for every node `v` reachable from the root, `v.dep` is the
length of the root-to-node string of `v`, that string is
`s[v.r - v.dep, v.r)`, and `v.dep = v.parent.dep + (v.r - v.l)` when `v` is
not the root.  The statements inside the split are not among these points. -/
theorem C19_string_depth (s : List Char) (hs : Lower s) :
    ∃ st, (fresh s).enter = .ok st ∧
      (∀ j : Nat, j ≤ s.length → ∃ T v, steps j st = .ok (T, v) ∧ DepOK T ∧
        (j < s.length → ∃ c k i T1 c1 T2,
          T.proceed (T.s.length + 1) v.cur v.k v.i = .ok (c, k, i) ∧
          T.split c k = .ok (T1, c1) ∧ T1.attach c1 i = .ok T2 ∧
          T.insert c k i = .ok (T2, c1) ∧ DepOK T1 ∧ DepOK T2)) ∧
      ∃ T, SuffixTree26.new s = .ok T ∧ DepOK T := by
  obtain ⟨T0, h0, _, _⟩ := enter_spec s hs
  refine ⟨_, h0, ?_, ?_⟩
  · intro j hj
    obtain ⟨T, v, h1, I, hsT⟩ := steps_spec s hs _ h0 j hj
    refine ⟨T, v, h1, depok_of_wf I.wf, ?_⟩
    intro hlt
    obtain ⟨c, k, i, T1, c1, T2, r1, r2, r3, _, _, _, W1, _, _, W2, _, _⟩ :=
      iter_points I (by rw [I.wf.n_eq, hsT]; omega)
    exact ⟨c, k, i, T1, c1, T2, r1, r2, r3, insert_run r2 r3, depok_of_wf W1, depok_of_wf W2⟩
  · obtain ⟨T, hT, W, _⟩ := new_wf s hs
    exact ⟨T, hT, depok_of_wf W⟩

theorem C19_witness :
    Lower ['a', 'b', 'a', 'b'] ∧
      ∃ st, (fresh ['a', 'b', 'a', 'b']).enter = .ok st ∧
        (∀ j : Nat, j ≤ ['a', 'b', 'a', 'b'].length → ∃ T v, steps j st = .ok (T, v) ∧
          DepOK T ∧
          (j < ['a', 'b', 'a', 'b'].length → ∃ c k i T1 c1 T2,
            T.proceed (T.s.length + 1) v.cur v.k v.i = .ok (c, k, i) ∧
            T.split c k = .ok (T1, c1) ∧ T1.attach c1 i = .ok T2 ∧
            T.insert c k i = .ok (T2, c1) ∧ DepOK T1 ∧ DepOK T2)) ∧
        ∃ T, SuffixTree26.new ['a', 'b', 'a', 'b'] = .ok T ∧ DepOK T :=
  ⟨by decide, C19_string_depth ['a', 'b', 'a', 'b'] (by decide)⟩

/-- C20, the claim as stated fails: after the construction for the non-empty
text `a` the count of the root is not greater than 1. -/
theorem C20_root_count_not_raised :
    ∃ T, SuffixTree26.new ['a'] = .ok T ∧ ¬ 1 < (nd T T.root).cnt := by
  obtain ⟨T, hT, W, _⟩ := new_wf ['a'] (by decide)
  refine ⟨T, hT, ?_⟩
  rw [W.root0, W.root_cnt]
  decide

/-- C20, amended: for every text `s` over `'a'..'z'` the construction leaves
the count of the root at the value 1 it was created with, which stands for
the empty suffix (`sufnodes[0]` is the root): this holds after every number
of iterations of the loop and after `construct`; and no zero-length leaf is
created: every node other than the root has `l < r`. -/
theorem C20_root_count_kept (s : List Char) (hs : Lower s) :
    ∃ st, (fresh s).enter = .ok st ∧
      (∀ j : Nat, j ≤ s.length → ∃ T v, steps j st = .ok (T, v) ∧
        (nd T T.root).cnt = 1 ∧
        ∀ u, u < T.heap.length → u ≠ T.root → (nd T u).l < (nd T u).r) ∧
      ∃ T, SuffixTree26.new s = .ok T ∧ (nd T T.root).cnt = 1 ∧
        T.sufnodes[0]? = some (some T.root) ∧
        ∀ u, u < T.heap.length → u ≠ T.root → (nd T u).l < (nd T u).r := by
  have key : ∀ (T : SuffixTree26) (j : Int), WF T j → (nd T T.root).cnt = 1 ∧
      T.sufnodes[0]? = some (some T.root) ∧
      ∀ u, u < T.heap.length → u ≠ T.root → (nd T u).l < (nd T u).r := by
    intro T j W
    rw [W.root0]
    refine ⟨W.root_cnt, W.suf0, ?_⟩
    intro u hu hu0
    obtain ⟨p, hp⟩ := W.node u hu hu0
    exact hp.l_lt_r
  obtain ⟨T0, h0, _, _⟩ := enter_spec s hs
  refine ⟨_, h0, ?_, ?_⟩
  · intro j hj
    obtain ⟨T, v, h1, I, _⟩ := steps_spec s hs _ h0 j hj
    obtain ⟨k1, _, k3⟩ := key T j I.wf
    exact ⟨T, v, h1, k1, k3⟩
  · obtain ⟨T, hT, W, _⟩ := new_wf s hs
    exact ⟨T, hT, key T _ W⟩

theorem C20_witness :
    Lower ['a', 'b'] ∧
      ∃ st, (fresh ['a', 'b']).enter = .ok st ∧
        (∀ j : Nat, j ≤ ['a', 'b'].length → ∃ T v, steps j st = .ok (T, v) ∧
          (nd T T.root).cnt = 1 ∧
          ∀ u, u < T.heap.length → u ≠ T.root → (nd T u).l < (nd T u).r) ∧
        ∃ T, SuffixTree26.new ['a', 'b'] = .ok T ∧ (nd T T.root).cnt = 1 ∧
          T.sufnodes[0]? = some (some T.root) ∧
          ∀ u, u < T.heap.length → u ≠ T.root → (nd T u).l < (nd T u).r :=
  ⟨by decide, C20_root_count_kept ['a', 'b'] (by decide)⟩

theorem trie_of_wf {T : SuffixTree26} {j : Int} (W : WF T j) : Trie T := by
  refine ⟨by rw [W.root0]; exact W.size_pos, by rw [W.root0, W.root_l, W.root_r]; rfl, ?_, ?_⟩
  · intro v str hv x w _ hch
    obtain ⟨hvl, _⟩ := reach_sound W hv
    obtain ⟨hw, hpar, hx⟩ := W.child v hvl x w hch
    have hw0 : w ≠ 0 := ne_root_of_parent W hpar
    obtain ⟨p, hp⟩ := W.node w hw hw0
    have hn := W.n_eq
    refine ⟨hw, hp.l_nonneg, hp.l_lt_r, by have := hp.r_le; omega, ?_⟩
    rw [slot_ok (tc_lower W _ hp.l_nonneg (by have := hp.r_le; have := hp.l_lt_r; omega)), hx]
  · intro v str hv
    obtain ⟨hvl, _⟩ := reach_sound W hv
    by_cases h0 : v = 0
    · subst h0
      rw [W.root_cnt]
      decide
    · rcases W.cnt01 v hvl h0 with h | h
      · rw [h]
      · rw [h]
        decide

theorem Loop_append {σ β : Type} (body : Char → σ → Except Fault (σ ⊕ β)) (t1 t2 : List Char) :
    ∀ st st1, Loop body t1 st = .ok (.inl st1) →
      Loop body (t1 ++ t2) st = Loop body t2 st1 := by
  induction t1 with
  | nil =>
    intro st st1 h
    rw [Loop] at h
    injection h with h
    injection h with h
    subst h
    rfl
  | cons c t ih =>
    intro st st1 h
    rw [List.cons_append, Loop]
    rw [Loop] at h
    cases hb : body c st with
    | error e => rw [hb] at h; cases h
    | ok r =>
      cases r with
      | inr b => rw [hb] at h; cases h
      | inl st2 =>
        rw [hb] at h
        exact ih st2 st1 h

theorem Loop_stop {σ β : Type} (body : Char → σ → Except Fault (σ ⊕ β)) (c : Char)
    (t : List Char) (st : σ) (b : β) (h : body c st = .ok (.inr b)) :
    Loop body (c :: t) st = .ok (.inr b) := by
  rw [Loop, h]

theorem fs_inr {T : SuffixTree26} {t : List Char} {b : Bool}
    (h : Loop T.find_suffix_body t (T.root, (0 : Int)) = .ok (.inr b)) :
    T.find_suffix t = .ok b := by
  rw [find_suffix]
  simp only [bind, Except.bind, h]
  rfl

theorem fs_inl {T : SuffixTree26} {t : List Char} {a : Nat} {k : Int}
    (h : Loop T.find_suffix_body t (T.root, (0 : Int)) = .ok (.inl (a, k)))
    (ha : a < T.heap.length) :
    T.find_suffix t =
      .ok (if k = (nd T a).r - (nd T a).l then decide ((nd T a).cnt ≠ 0) else false) := by
  rw [find_suffix]
  simp only [bind, Except.bind, h, deref_ok T a ha]
  split <;> rfl

/-- The step of the walk at a node. -/
theorem node_step {T : SuffixTree26} (H : Trie T) {v : Nat} {str : List Char}
    (hv : Reach T v str) (hvl : v < T.heap.length) {c : Char} {x : Nat} (hc : slot c = .ok x) :
    ((nd T v).childs x = none →
      T.find_suffix_body c (v, (nd T v).r - (nd T v).l) = .ok (.inr false)) ∧
    (∀ w, (nd T v).childs x = some w →
      T.find_suffix_body c (v, (nd T v).r - (nd T v).l) = .ok (.inl (w, 1)) ∧
        c = tc T.s (nd T w).l) := by
  have hx : x < 26 := by
    obtain ⟨hl, hx⟩ := (slot_ok_iff c x).mp hc
    rw [hx]
    exact sl_lt hl
  constructor
  · intro hch
    rw [find_suffix_body]
    simp only [deref_ok T v hvl, bind, Except.bind, if_true, hc, hch]
    rfl
  · intro w hch
    obtain ⟨hw, hl0, hlr, hrn, hsl⟩ := H.child v str hv x w hx hch
    obtain ⟨hcl, hxc⟩ := (slot_ok_iff c x).mp hc
    obtain ⟨hdl, hxd⟩ := (slot_ok_iff _ x).mp hsl
    have hcd : c = tc T.s (nd T w).l := sl_inj hcl hdl (by rw [← hxc, ← hxd])
    refine ⟨?_, hcd⟩
    rw [find_suffix_body]
    simp only [deref_ok T v hvl, bind, Except.bind, if_true, hc, hch, deref_ok T w hw,
      Int.add_zero, charAt_ok T.s (nd T w).l hl0 (by omega), ← hcd]
    rfl

/-- The step of the walk inside an edge. -/
theorem inner_step {T : SuffixTree26} {w : Nat} (hw : w < T.heap.length)
    (hl0 : 0 ≤ (nd T w).l) (hrn : (nd T w).r ≤ T.s.length) {k : Int} (hk0 : 0 ≤ k)
    (hk : k < (nd T w).r - (nd T w).l) (c : Char) :
    T.find_suffix_body c (w, k) =
      if c = tc T.s ((nd T w).l + k) then .ok (.inl (w, k + 1)) else .ok (.inr false) := by
  have hne : ¬ k = (nd T w).r - (nd T w).l := by omega
  rw [find_suffix_body]
  simp only [deref_ok T w hw, bind, Except.bind, hne, if_false,
    charAt_ok T.s ((nd T w).l + k) (by omega) (by omega)]
  split <;> rfl

/-- The walk along the rest of an edge. -/
theorem walk_edge {T : SuffixTree26} {w : Nat} (hw : w < T.heap.length)
    (hl0 : 0 ≤ (nd T w).l) (hrn : (nd T w).r ≤ T.s.length) (m : Nat) :
    ∀ k : Int, 0 ≤ k → k + m ≤ (nd T w).r - (nd T w).l →
      Loop T.find_suffix_body (seg T.s ((nd T w).l + k) m) (w, k) = .ok (.inl (w, k + m)) := by
  induction m with
  | zero =>
    intro k _ _
    rw [Nat.cast_zero, seg_zero, Loop, add_zero]
  | succ m ih =>
    intro k hk0 hk
    rw [Nat.cast_succ] at hk
    rw [seg_cons T.s (by omega) (by rw [Nat.cast_succ]; omega) (by rw [Nat.cast_succ]; omega),
      Loop, inner_step hw hl0 hrn hk0 (by omega), if_pos rfl]
    have h := ih (k + 1) (by omega) (by omega)
    rw [show (nd T w).l + (k + 1) = (nd T w).l + k + 1 by ring] at h
    rw [show ((m + 1 : Nat) : Int) - 1 = m by rw [Nat.cast_succ]; ring,
      show k + ((m + 1 : Nat) : Int) = k + 1 + m by rw [Nat.cast_succ]; ring]
    exact h

/-- The walk from a node into the edge of one of its children. -/
theorem walk_into {T : SuffixTree26} (H : Trie T) {v : Nat} {str : List Char}
    (hv : Reach T v str) (hvl : v < T.heap.length) {x w : Nat} (hx : x < 26)
    (hch : (nd T v).childs x = some w) {k : Int} (hk0 : 0 < k)
    (hk : k ≤ (nd T w).r - (nd T w).l) :
    Loop T.find_suffix_body (seg T.s (nd T w).l k) (v, (nd T v).r - (nd T v).l) =
      .ok (.inl (w, k)) := by
  obtain ⟨hw, hl0, hlr, hrn, hsl⟩ := H.child v str hv x w hx hch
  obtain ⟨h1, _⟩ := (node_step H hv hvl hsl).2 w hch
  rw [seg_cons T.s hl0 (by omega) (by omega), Loop, h1]
  have h2 := walk_edge hw hl0 hrn (k - 1).toNat 1 (by omega) (by omega)
  rw [show (((k - 1).toNat : Nat) : Int) = k - 1 by omega] at h2
  rw [show (1 : Int) + (k - 1) = k by ring] at h2
  exact h2

/-- The walk along the string of a reachable node ends at that node. -/
theorem walk_reach {T : SuffixTree26} (H : Trie T) {v : Nat} {str : List Char}
    (hv : Reach T v str) :
    v < T.heap.length ∧
      Loop T.find_suffix_body str (T.root, (0 : Int)) =
        .ok (.inl (v, (nd T v).r - (nd T v).l)) := by
  induction hv with
  | root =>
    refine ⟨H.root_lt, ?_⟩
    rw [Loop, H.root_label]
  | @child v w x str hv hx hch ih =>
    obtain ⟨hvl, hrun⟩ := ih
    obtain ⟨hw, hl0, hlr, hrn, hsl⟩ := H.child v str hv x w hx hch
    refine ⟨hw, ?_⟩
    rw [Loop_append _ _ _ _ _ hrun]
    exact walk_into H hv hvl hx hch (by omega) (le_refl _)

/-- The walk along what a spot has read ends at the spot. -/
theorem walk_spot {T : SuffixTree26} (H : Trie T) {a : Nat} {k : Int} {q : List Char}
    (S : Spot T a k q) :
    a < T.heap.length ∧
      Loop T.find_suffix_body q (T.root, (0 : Int)) = .ok (.inl (a, k)) := by
  rcases S with ⟨h1, h2, h3⟩ | ⟨v, str, x, hv, hx, hch, hk0, hk, hq⟩
  · subst h1; subst h2; subst h3
    exact ⟨H.root_lt, by rw [Loop]⟩
  · obtain ⟨hvl, hrun⟩ := walk_reach H hv
    obtain ⟨hw, _⟩ := H.child v str hv x a hx hch
    refine ⟨hw, ?_⟩
    rw [hq, Loop_append _ _ _ _ _ hrun]
    exact walk_into H hv hvl hx hch hk0 hk

theorem spot_reach {T : SuffixTree26} {a : Nat} {k : Int} {q : List Char}
    (S : Spot T a k q) (hk : k = (nd T a).r - (nd T a).l) : Reach T a q := by
  rcases S with ⟨h1, _, h3⟩ | ⟨v, str, x, hv, hx, hch, _, _, hq⟩
  · subst h1; subst h3
    exact Reach.root
  · rw [hq, hk]
    exact Reach.child hv hx hch

theorem seg_snoc (s : List Char) {a d : Int} (ha : 0 ≤ a) (hd : 0 ≤ d)
    (h : a + d < s.length) : seg s a (d + 1) = seg s a d ++ [tc s (a + d)] := by
  rw [seg_add s ha hd (by omega), seg_cons s (by omega) (le_refl _) (by omega),
    show (1 : Int) - 1 = 0 by rfl, seg_zero]

/-- One step of the walk from a spot: it fails, or it reaches the spot of
what has been read. -/
theorem spot_step {T : SuffixTree26} (H : Trie T) {a : Nat} {k : Int} {q : List Char}
    (S : Spot T a k q) {c : Char} (hc : lower c) :
    T.find_suffix_body c (a, k) = .ok (.inr false) ∨
      ∃ a1 k1, T.find_suffix_body c (a, k) = .ok (.inl (a1, k1)) ∧ Spot T a1 k1 (q ++ [c]) := by
  obtain ⟨hal, _⟩ := walk_spot H S
  by_cases hk : k = (nd T a).r - (nd T a).l
  · have hr := spot_reach S hk
    obtain ⟨h1, h2⟩ := node_step H hr hal (slot_ok hc)
    rw [hk]
    cases hch : (nd T a).childs (sl c) with
    | none => exact Or.inl (h1 hch)
    | some w =>
      obtain ⟨h3, h4⟩ := h2 w hch
      obtain ⟨hw, hl0, hlr, hrn, hsl⟩ := H.child a q hr (sl c) w (sl_lt hc) hch
      refine Or.inr ⟨w, 1, h3, Or.inr ⟨a, q, sl c, hr, sl_lt hc, hch, by decide, by omega, ?_⟩⟩
      rw [seg_cons T.s hl0 (le_refl _) (by omega), show (1 : Int) - 1 = 0 by rfl, seg_zero, h4]
  · rcases S with ⟨h1, h2, _⟩ | ⟨v, str, x, hv, hx, hch, hk0, hk1, hq⟩
    · exfalso
      apply hk
      rw [h1, h2, H.root_label]
    · obtain ⟨hw, hl0, hlr, hrn, hsl⟩ := H.child v str hv x a hx hch
      rw [inner_step hw hl0 hrn (by omega) (by omega) c]
      by_cases hcc : c = tc T.s ((nd T a).l + k)
      · rw [if_pos hcc]
        refine Or.inr ⟨a, k + 1, rfl, Or.inr ⟨v, str, x, hv, hx, hch, by omega, by omega, ?_⟩⟩
        rw [hq, seg_snoc T.s hl0 (by omega) (by omega), hcc, List.append_assoc]
      · rw [if_neg hcc]
        exact Or.inl rfl

/-- The walk from a spot fails or ends at the spot of all it has read. -/
theorem walk_spots {T : SuffixTree26} (H : Trie T) (t : List Char) :
    ∀ (a : Nat) (k : Int) (q : List Char), Spot T a k q → Lower t →
      Loop T.find_suffix_body t (a, k) = .ok (.inr false) ∨
        ∃ a1 k1, Loop T.find_suffix_body t (a, k) = .ok (.inl (a1, k1)) ∧
          Spot T a1 k1 (q ++ t) := by
  induction t with
  | nil =>
    intro a k q S _
    exact Or.inr ⟨a, k, by rw [Loop], by rw [List.append_nil]; exact S⟩
  | cons c t ih =>
    intro a k q S ht
    obtain ⟨hc, ht1⟩ := lower_cons ht
    rcases spot_step H S hc with h | ⟨a1, k1, h, S1⟩
    · exact Or.inl (Loop_stop _ c t _ _ h)
    · rw [Loop, h]
      have := ih a1 k1 (q ++ [c]) S1 ht1
      rw [List.append_assoc, List.singleton_append] at this
      exact this

/-- The answer of the query on a compressed trie. -/
theorem trie_query {T : SuffixTree26} (H : Trie T) (t : List Char) (ht : Lower t) :
    ∃ b, T.find_suffix t = .ok b ∧
      (b = true ↔ ∃ v, Reach T v t ∧ 1 ≤ (nd T v).cnt) := by
  have S0 : Spot T T.root 0 [] := Or.inl ⟨rfl, rfl, rfl⟩
  rcases walk_spots H t T.root 0 [] S0 ht with h | ⟨a, k, h, S⟩
  · refine ⟨false, fs_inr h, ?_⟩
    constructor
    · intro e; cases e
    · rintro ⟨v, hv, _⟩
      obtain ⟨_, h2⟩ := walk_reach H hv
      rw [h] at h2
      cases h2
  · rw [List.nil_append] at S
    obtain ⟨hal, _⟩ := walk_spot H S
    refine ⟨_, fs_inl h hal, ?_⟩
    by_cases hk : k = (nd T a).r - (nd T a).l
    · rw [if_pos hk]
      have hr := spot_reach S hk
      have hc0 := H.cnt_nonneg a t hr
      constructor
      · intro hb
        have : (nd T a).cnt ≠ 0 := of_decide_eq_true hb
        exact ⟨a, hr, by omega⟩
      · rintro ⟨v, hv, hcnt⟩
        obtain ⟨_, h2⟩ := walk_reach H hv
        rw [h] at h2
        injection h2 with h2
        injection h2 with h2
        injection h2 with h2 _
        subst h2
        apply decide_eq_true
        omega
    · rw [if_neg hk]
      constructor
      · intro e; cases e
      · rintro ⟨v, hv, _⟩
        obtain ⟨_, h2⟩ := walk_reach H hv
        rw [h] at h2
        injection h2 with h2
        injection h2 with h2
        injection h2 with h2 h3
        subst h2
        exact absurd h3 hk

/-- The query for a string that ends strictly inside an edge fails. -/
theorem trie_inside {T : SuffixTree26} (H : Trie T) {v : Nat} {str : List Char}
    (hv : Reach T v str) {x w : Nat} (hx : x < 26) (hch : (nd T v).childs x = some w)
    {k : Int} (hk0 : 0 < k) (hk : k < (nd T w).r - (nd T w).l) :
    T.find_suffix (str ++ seg T.s (nd T w).l k) = .ok false := by
  have S : Spot T w k (str ++ seg T.s (nd T w).l k) :=
    Or.inr ⟨v, str, x, hv, hx, hch, hk0, by omega, rfl⟩
  obtain ⟨hw, h⟩ := walk_spot H S
  rw [fs_inl h hw, if_neg (by omega)]

/-- The query fails when the child for the next symbol is missing. -/
theorem trie_missing {T : SuffixTree26} (H : Trie T) {v : Nat} {str : List Char}
    (hv : Reach T v str) {c : Char} {x : Nat} (hc : slot c = .ok x)
    (hch : (nd T v).childs x = none) (rest : List Char) :
    T.find_suffix (str ++ c :: rest) = .ok false := by
  obtain ⟨hvl, h⟩ := walk_reach H hv
  apply fs_inr
  rw [Loop_append _ _ _ _ _ h]
  exact Loop_stop _ c rest _ _ ((node_step H hv hvl hc).1 hch)

/-- The query fails at the first symbol that differs from the edge. -/
theorem trie_mismatch {T : SuffixTree26} (H : Trie T) {v : Nat} {str : List Char}
    (hv : Reach T v str) {x w : Nat} (hx : x < 26) (hch : (nd T v).childs x = some w)
    {k : Int} (hk0 : 0 < k) (hk : k < (nd T w).r - (nd T w).l) {c : Char}
    (hc : c ≠ tc T.s ((nd T w).l + k)) (rest : List Char) :
    T.find_suffix (str ++ seg T.s (nd T w).l k ++ c :: rest) = .ok false := by
  have S : Spot T w k (str ++ seg T.s (nd T w).l k) :=
    Or.inr ⟨v, str, x, hv, hx, hch, hk0, by omega, rfl⟩
  obtain ⟨hw, h⟩ := walk_spot H S
  obtain ⟨_, hl0, hlr, hrn, _⟩ := H.child v str hv x w hx hch
  apply fs_inr
  rw [Loop_append _ _ _ _ _ h]
  apply Loop_stop
  rw [inner_step hw hl0 hrn (by omega) hk c, if_neg hc]

/-- C15: on every tree with the compressed-trie invariant (the root has an
empty label, each child of a reachable node under a symbol `c` has a
non-empty label `s[l, r)` that starts with `c`, counts are not negative) and
for every string `t` over `'a'..'z'`, `find_suffix(t)` returns a boolean that
is true exactly when a node reachable from the root has `t` as root-to-node
string and a count of at least 1.  It returns false when `t` ends strictly
inside an edge, when the child for the next symbol is missing, and at the
first symbol that differs from the edge. -/
theorem C15_query_walk (T : SuffixTree26) (H : Trie T) :
    (∀ t, Lower t → ∃ b, T.find_suffix t = .ok b ∧
      (b = true ↔ ∃ v, Reach T v t ∧ 1 ≤ (nd T v).cnt)) ∧
    (∀ v str x w (k : Int), Reach T v str → x < 26 → (nd T v).childs x = some w →
      0 < k → k < (nd T w).r - (nd T w).l →
      T.find_suffix (str ++ seg T.s (nd T w).l k) = .ok false) ∧
    (∀ v str c x rest, Reach T v str → slot c = .ok x → (nd T v).childs x = none →
      T.find_suffix (str ++ c :: rest) = .ok false) ∧
    (∀ v str x w (k : Int) c rest, Reach T v str → x < 26 → (nd T v).childs x = some w →
      0 < k → k < (nd T w).r - (nd T w).l → c ≠ tc T.s ((nd T w).l + k) →
      T.find_suffix (str ++ seg T.s (nd T w).l k ++ c :: rest) = .ok false) :=
  ⟨fun t ht => trie_query H t ht,
    fun _ _ _ _ _ hv hx hch hk0 hk => trie_inside H hv hx hch hk0 hk,
    fun _ _ _ _ rest hv hc hch => trie_missing H hv hc hch rest,
    fun _ _ _ _ _ _ rest hv hx hch hk0 hk hc => trie_mismatch H hv hx hch hk0 hk hc rest⟩

theorem C15_witness :
    ∃ T, SuffixTree26.new ['a', 'b', 'a', 'b'] = .ok T ∧ Trie T ∧
      (∀ t, Lower t → ∃ b, T.find_suffix t = .ok b ∧
        (b = true ↔ ∃ v, Reach T v t ∧ 1 ≤ (nd T v).cnt)) ∧
      (∀ v str x w (k : Int), Reach T v str → x < 26 → (nd T v).childs x = some w →
        0 < k → k < (nd T w).r - (nd T w).l →
        T.find_suffix (str ++ seg T.s (nd T w).l k) = .ok false) ∧
      (∀ v str c x rest, Reach T v str → slot c = .ok x → (nd T v).childs x = none →
        T.find_suffix (str ++ c :: rest) = .ok false) ∧
      (∀ v str x w (k : Int) c rest, Reach T v str → x < 26 → (nd T v).childs x = some w →
        0 < k → k < (nd T w).r - (nd T w).l → c ≠ tc T.s ((nd T w).l + k) →
        T.find_suffix (str ++ seg T.s (nd T w).l k ++ c :: rest) = .ok false) := by
  obtain ⟨T, hT, W, _⟩ := new_wf ['a', 'b', 'a', 'b'] (by decide)
  exact ⟨T, hT, trie_of_wf W, C15_query_walk T (trie_of_wf W)⟩

end SuffixTree26

namespace Geometry

/-- C13, what the code does: whenever `feq` holds of equal numbers and not of
`-1` and `0`, `cross_point(l, l)` is `(INFINITY, INFINITY)` for every line
`l`, not `(NAN, NAN)`; the parallel lines `0x + 1y + 0 = 0` and
`0x + 1y - 1 = 0` give `(INFINITY, INFINITY)`, and the parallel lines
`1x + 0y + 0 = 0` and `1x + 0y - 1 = 0`, which do not coincide, give
`(NAN, NAN)`. -/
theorem C13_degenerate_branches (feq : ℚ → ℚ → Bool) (h0 : feq 0 0 = true)
    (h1 : feq (-1) 0 = false) :
    (∀ l : line_t, cross_point feq l l = { x := .inf, y := .inf } ∧
      cross_point feq l l ≠ { x := .nan, y := .nan }) ∧
    cross_point feq { a := 0, b := 1, c := 0 } { a := 0, b := 1, c := -1 } =
      { x := .inf, y := .inf } ∧
    cross_point feq { a := 1, b := 0, c := 0 } { a := 1, b := 0, c := -1 } =
      { x := .nan, y := .nan } := by
  have key : ∀ l : line_t, cross_point feq l l = { x := .inf, y := .inf } := by
    intro l
    unfold cross_point
    have e1 : l.a * l.b - l.b * l.a = 0 := by ring
    have e2 : l.a * l.c - l.c * l.a = 0 := by ring
    simp only [e1, e2, h0, if_true]
  refine ⟨fun l => ⟨key l, ?_⟩, ?_, ?_⟩
  · rw [key l]
    intro h
    injection h with h _
    cases h
  · unfold cross_point
    simp [h0]
  · unfold cross_point
    simp [h0, h1]

theorem C13_witness :
    (fun x y : ℚ => decide (x = y)) 0 0 = true ∧
      (fun x y : ℚ => decide (x = y)) (-1) 0 = false ∧
      (∀ l : line_t, cross_point (fun x y => decide (x = y)) l l = { x := .inf, y := .inf } ∧
        cross_point (fun x y => decide (x = y)) l l ≠ { x := .nan, y := .nan }) ∧
      cross_point (fun x y => decide (x = y)) { a := 0, b := 1, c := 0 }
        { a := 0, b := 1, c := -1 } = { x := .inf, y := .inf } ∧
      cross_point (fun x y => decide (x = y)) { a := 1, b := 0, c := 0 }
        { a := 1, b := 0, c := -1 } = { x := .nan, y := .nan } :=
  ⟨by simp, by simp, C13_degenerate_branches _ (by simp) (by simp)⟩

end Geometry

namespace Util

theorem rd_ok {α : Type} (v : List α) (i : Nat) (x : α) (h : v[i]? = some x) :
    rd v (i : Int) = .ok x := by
  unfold rd
  simp [h]

theorem rd_getD {α : Type} (v : List α) (i : Nat) (d : α) (h : i < v.length) :
    rd v (i : Int) = .ok (v.getD i d) := by
  apply rd_ok
  rw [List.getD_eq_getElem?_getD, List.getElem?_eq_getElem h]
  rfl

theorem wr_ok {α : Type} (v : List α) (i : Nat) (x : α) (h : i < v.length) :
    wr v (i : Int) x = .ok (v.set i x) := by
  unfold wr
  simp [h]

theorem getD_set {α : Type} (v : List α) (a b : Nat) (x d : α) :
    (v.set a x).getD b d = if a = b ∧ a < v.length then x else v.getD b d := by
  rw [List.getD_eq_getElem?_getD, List.getD_eq_getElem?_getD, List.getElem?_set]
  by_cases h : a = b
  · subst h
    by_cases h2 : a < v.length
    · simp [h2]
    · simp [h2]
      rw [List.getElem?_eq_none (by omega)]
      rfl
  · simp [h]

end Util

namespace SegTreeMax

theorem frame_refl (T : SegTreeMax) : Frame T T := ⟨rfl, rfl, rfl, rfl, rfl, rfl⟩

theorem frame_trans {T T1 T2 : SegTreeMax} (h1 : Frame T T1) (h2 : Frame T1 T2) :
    Frame T T2 :=
  ⟨h2.n_eq.trans h1.n_eq, h2.N_eq.trans h1.N_eq, h2.base_eq.trans h1.base_eq,
    h2.idl_eq.trans h1.idl_eq, h2.idr_eq.trans h1.idr_eq, h2.len_eq.trans h1.len_eq⟩

theorem static_frame {T T1 : SegTreeMax} {k : Nat} (S : Static T k) (F : Frame T T1) :
    Static T1 k :=
  ⟨F.N_eq.trans S.N_eq, F.base_eq.trans S.base_eq, by rw [F.len_eq]; exact S.nodes_len,
    fun id h => by rw [F.idl_eq]; exact S.idl id (by rw [← F.base_eq]; exact h),
    fun id h => by rw [F.idr_eq]; exact S.idr id (by rw [← F.base_eq]; exact h)⟩

theorem pow_pos_int (h : Nat) : (0 : Int) < 2 ^ h := by positivity

theorem pow_succ_int (h : Nat) : (2 : Int) ^ (h + 1) = 2 * 2 ^ h := by
  rw [pow_succ]; ring

theorem lvl_root (k : Nat) : Lvl k k 0 := ⟨0, by omega, by simp, by simp⟩

theorem lvl_left {k h id : Nat} (L : Lvl k (h + 1) id) : Lvl k h (2 * id + 1) := by
  obtain ⟨d, h1, h2, h3⟩ := L
  refine ⟨d + 1, by omega, ?_, ?_⟩
  · rw [Nat.pow_succ]; omega
  · rw [Nat.pow_succ] at h3 ⊢; rw [Nat.pow_succ]; omega

theorem lvl_right {k h id : Nat} (L : Lvl k (h + 1) id) : Lvl k h (2 * id + 2) := by
  obtain ⟨d, h1, h2, h3⟩ := L
  refine ⟨d + 1, by omega, ?_, ?_⟩
  · rw [Nat.pow_succ]; omega
  · rw [Nat.pow_succ] at h3 ⊢; rw [Nat.pow_succ]; omega

/-- An inner node lies before `base`, and its children are nodes. -/
theorem lvl_inner {T : SegTreeMax} {k h id : Nat} (S : Static T k) (L : Lvl k (h + 1) id) :
    (id : Int) < T.base ∧ 2 * id + 2 < T.nodes.length := by
  obtain ⟨d, h1, h2, h3⟩ := L
  have hp : 2 ^ (d + 1) ≤ 2 ^ k := Nat.pow_le_pow_right (by decide) (by omega)
  have hb := S.base_eq
  have hl := S.nodes_len
  have hc : ((2 ^ k : Nat) : Int) = 2 ^ k := by push_cast; rfl
  constructor
  · omega
  · have : (((2 * id + 2 : Nat)) : Int) < T.nodes.length := by
      rw [hl]; push_cast; omega
    exact_mod_cast this

/-- A node of height `0` is a leaf: it lies at or after `base`. -/
theorem lvl_leaf {T : SegTreeMax} {k id : Nat} (S : Static T k) (L : Lvl k 0 id) :
    T.base ≤ (id : Int) ∧ id < T.nodes.length := by
  obtain ⟨d, h1, h2, h3⟩ := L
  have hd : d = k := by omega
  subst hd
  have hb := S.base_eq
  have hl := S.nodes_len
  have hc : ((2 ^ d : Nat) : Int) = 2 ^ d := by push_cast; rfl
  rw [Nat.pow_succ] at h3
  constructor
  · omega
  · have : ((id : Nat) : Int) < T.nodes.length := by
      rw [hl]; omega
    exact_mod_cast this

theorem lvl_lt {T : SegTreeMax} {k h id : Nat} (S : Static T k) (L : Lvl k h id) :
    id < T.nodes.length := by
  cases h with
  | zero => exact (lvl_leaf S L).2
  | succ h => have := (lvl_inner S L).2; omega

theorem insub_self (h id : Nat) : InSub h id id := by
  cases h with
  | zero => exact rfl
  | succ h => exact Or.inl rfl

/-- An index of a subtree has the root of the subtree as an ancestor. -/
theorem insub_div {h a j : Nat} (H : InSub h a j) : ∃ e, (j + 1) / 2 ^ e = a + 1 := by
  induction h generalizing a with
  | zero =>
    rw [InSub] at H
    exact ⟨0, by rw [H]; simp⟩
  | succ h ih =>
    rw [InSub] at H
    rcases H with H | H | H
    · exact ⟨0, by rw [H]; simp⟩
    · obtain ⟨e, he⟩ := ih H
      refine ⟨e + 1, ?_⟩
      rw [Nat.pow_succ, ← Nat.div_div_eq_div_mul, he]
      omega
    · obtain ⟨e, he⟩ := ih H
      refine ⟨e + 1, ?_⟩
      rw [Nat.pow_succ, ← Nat.div_div_eq_div_mul, he]
      omega

theorem div_pow_le (x e : Nat) (he : 0 < e) : x / 2 ^ e ≤ x / 2 := by
  obtain ⟨e1, rfl⟩ : ∃ e1, e = e1 + 1 := ⟨e - 1, by omega⟩
  rw [Nat.pow_succ, Nat.mul_comm, ← Nat.div_div_eq_div_mul]
  exact Nat.div_le_self _ _

/-- Two numbers with quotients `x` and `y` by powers of two, where neither of
`x` and `y` is a quotient of the other. -/
theorem div_clash {j x y e1 e2 : Nat} (h1 : j / 2 ^ e1 = x) (h2 : j / 2 ^ e2 = y)
    (hxy : x ≠ y) (hx : x / 2 < y) (hy : y / 2 < x) : False := by
  rcases Nat.lt_trichotomy e1 e2 with h | h | h
  · obtain ⟨c, rfl⟩ : ∃ c, e2 = e1 + c := ⟨e2 - e1, by omega⟩
    rw [Nat.pow_add, ← Nat.div_div_eq_div_mul, h1] at h2
    have := div_pow_le x c (by omega)
    omega
  · subst h
    exact hxy (h1.symm.trans h2)
  · obtain ⟨c, rfl⟩ : ∃ c, e1 = e2 + c := ⟨e1 - e2, by omega⟩
    rw [Nat.pow_add, ← Nat.div_div_eq_div_mul, h2] at h1
    have := div_pow_le y c (by omega)
    omega

theorem insub_left_ne {h id j : Nat} (H : InSub h (2 * id + 1) j) : j ≠ id := by
  intro e
  subst e
  obtain ⟨e, he⟩ := insub_div H
  have := Nat.div_le_self (j + 1) (2 ^ e)
  omega

theorem insub_right_ne {h id j : Nat} (H : InSub h (2 * id + 2) j) : j ≠ id := by
  intro e
  subst e
  obtain ⟨e, he⟩ := insub_div H
  have := Nat.div_le_self (j + 1) (2 ^ e)
  omega

theorem insub_disjoint {h1 h2 id j : Nat} (H1 : InSub h1 (2 * id + 1) j)
    (H2 : InSub h2 (2 * id + 2) j) : False := by
  obtain ⟨e1, he1⟩ := insub_div H1
  obtain ⟨e2, he2⟩ := insub_div H2
  exact div_clash he1 he2 (by omega) (by omega) (by omega)

theorem den_congr {ns ns1 : List segval_t} (h : Nat) :
    ∀ (id : Nat) (l i : Int), (∀ j, InSub h id j → nv ns1 j = nv ns j) →
      den ns1 h id l i = den ns h id l i := by
  induction h with
  | zero =>
    intro id l i H
    rw [den, den, H id rfl]
  | succ h ih =>
    intro id l i H
    rw [den, den, H id (Or.inl rfl),
      ih (2 * id + 1) l i (fun j hj => H j (Or.inr (Or.inl hj))),
      ih (2 * id + 2) (l + 2 ^ h) i (fun j hj => H j (Or.inr (Or.inr hj)))]

theorem good_congr {ns ns1 : List segval_t} (h : Nat) :
    ∀ (id : Nat), (∀ j, InSub h id j → nv ns1 j = nv ns j) →
      Good ns h id → Good ns1 h id := by
  induction h with
  | zero =>
    intro id _ _
    trivial
  | succ h ih =>
    intro id H G
    rw [Good] at G ⊢
    rw [H id (Or.inl rfl), H (2 * id + 1) (Or.inr (Or.inl (insub_self _ _))),
      H (2 * id + 2) (Or.inr (Or.inr (insub_self _ _)))]
    exact ⟨G.1, ih _ (fun j hj => H j (Or.inr (Or.inl hj))) G.2.1,
      ih _ (fun j hj => H j (Or.inr (Or.inr hj))) G.2.2⟩

/-! ## Maxima -/

theorem IsMax.unique {f : Int → Int} {l r v w : Int} (h1 : IsMax f l r v)
    (h2 : IsMax f l r w) : v = w := by
  obtain ⟨⟨i, a1, a2, a3⟩, a4⟩ := h1
  obtain ⟨⟨j, b1, b2, b3⟩, b4⟩ := h2
  have := a4 j b1 b2
  have := b4 i a1 a2
  omega

theorem IsMax.split {f : Int → Int} {l m r v w : Int} (h1 : IsMax f l m v)
    (h2 : IsMax f m r w) : IsMax f l r (Max.max v w) := by
  obtain ⟨⟨i, a1, a2, a3⟩, a4⟩ := h1
  obtain ⟨⟨j, b1, b2, b3⟩, b4⟩ := h2
  constructor
  · rcases le_total v w with h | h
    · exact ⟨j, by omega, b2, by rw [b3, max_eq_right h]⟩
    · exact ⟨i, a1, by omega, by rw [a3, max_eq_left h]⟩
  · intro x hx1 hx2
    by_cases hxm : x < m
    · exact le_trans (a4 x hx1 hxm) (le_max_left _ _)
    · exact le_trans (b4 x (by omega) hx2) (le_max_right _ _)

theorem IsMax.congr_on {f g : Int → Int} {l r v : Int} (h : IsMax f l r v)
    (e : ∀ i, l ≤ i → i < r → g i = f i) : IsMax g l r v := by
  obtain ⟨⟨i, a1, a2, a3⟩, a4⟩ := h
  exact ⟨⟨i, a1, a2, by rw [e i a1 a2]; exact a3⟩, fun x h1 h2 => by rw [e x h1 h2]; exact a4 x h1 h2⟩

theorem IsMax.const {f : Int → Int} {l r c : Int} (hlr : l < r)
    (e : ∀ i, l ≤ i → i < r → f i = c) : IsMax f l r c :=
  ⟨⟨l, le_refl _, hlr, e l (le_refl _) hlr⟩, fun x h1 h2 => by rw [e x h1 h2]⟩

theorem IsMax.shift_by {f g : Int → Int} {l r v c : Int} (h : IsMax f l r v)
    (e : ∀ i, l ≤ i → i < r → g i = f i + c) : IsMax g l r (v + c) := by
  obtain ⟨⟨i, a1, a2, a3⟩, a4⟩ := h
  refine ⟨⟨i, a1, a2, by rw [e i a1 a2, a3]⟩, fun x h1 h2 => ?_⟩
  rw [e x h1 h2]
  have := a4 x h1 h2
  omega

/-- The top of a good subtree holds the maximum of what the subtree stands
for. -/
theorem good_top {ns : List segval_t} (h : Nat) :
    ∀ (id : Nat) (l : Int), Good ns h id →
      IsMax (den ns h id l) l (l + 2 ^ h) ((nv ns id).max + (nv ns id).add) := by
  induction h with
  | zero =>
    intro id l _
    refine IsMax.const (by simp) ?_
    intro i _ _
    rw [den]
  | succ h ih =>
    intro id l G
    rw [Good] at G
    obtain ⟨G0, G1, G2⟩ := G
    have hp := pow_pos_int h
    have hs := pow_succ_int h
    by_cases he : (nv ns id).enable = true
    · rw [if_pos he] at G0
      refine IsMax.const (by omega) ?_
      intro i _ _
      rw [den, if_pos he, G0]
    · rw [if_neg he] at G0
      rw [G0]
      have m1 := ih (2 * id + 1) l G1
      have m2 := ih (2 * id + 2) (l + 2 ^ h) G2
      rw [show l + 2 ^ h + 2 ^ h = l + 2 ^ (h + 1) by omega] at m2
      have m3 : IsMax (fun i => if i < l + 2 ^ h then den ns h (2 * id + 1) l i
          else den ns h (2 * id + 2) (l + 2 ^ h) i) l (l + 2 ^ (h + 1))
          (Max.max ((nv ns (2 * id + 1)).max + (nv ns (2 * id + 1)).add)
            ((nv ns (2 * id + 2)).max + (nv ns (2 * id + 2)).add)) := by
        refine IsMax.split (m1.congr_on ?_) (m2.congr_on ?_)
        · intro i _ hi
          simp only [hi, if_true]
        · intro i hi _
          simp only [show ¬ i < l + 2 ^ h by omega, if_false]
      refine m3.shift_by ?_
      intro i _ _
      rw [den, if_neg he]

/-! ## `merge` and `lazy` -/

theorem rdl (ns : List segval_t) (j : Nat) (h : j < ns.length) :
    Util.rd ns (j : Int) = .ok (nv ns j) :=
  Util.rd_getD ns j default h

theorem nv_set (ns : List segval_t) (a b : Nat) (x : segval_t) (h : a < ns.length) :
    nv (ns.set a x) b = if b = a then x else nv ns b := by
  unfold nv
  rw [Util.getD_set]
  by_cases e : a = b
  · subst e; simp [h]
  · simp [e, Ne.symm e]

theorem wr_spec (ns : List segval_t) (j : Nat) (x : segval_t) (h : j < ns.length) :
    ∃ ns1, Util.wr ns (j : Int) x = .ok ns1 ∧ ns1.length = ns.length ∧
      ∀ b, nv ns1 b = if b = j then x else nv ns b :=
  ⟨ns.set j x, Util.wr_ok ns j x h, by simp, fun b => nv_set ns j b x h⟩

theorem frame_set (T : SegTreeMax) {ns : List segval_t} (h : ns.length = T.nodes.length) :
    Frame T (T.setNodes ns) :=
  ⟨rfl, rfl, rfl, rfl, rfl, h⟩

theorem cast_left (id : Nat) : 2 * (id : Int) + 1 = ((2 * id + 1 : Nat) : Int) := by
  push_cast; ring

theorem cast_right (id : Nat) : 2 * (id : Int) + 2 = ((2 * id + 2 : Nat) : Int) := by
  push_cast; ring

theorem merge_spec {T : SegTreeMax} {k h id : Nat} (S : Static T k) (L : Lvl k (h + 1) id) :
    ∃ T1, T.merge id = .ok T1 ∧ Frame T T1 ∧
      ∀ j, nv T1.nodes j = if j = id then
        merged (nv T.nodes id) (nv T.nodes (2 * id + 1)) (nv T.nodes (2 * id + 2))
        else nv T.nodes j := by
  obtain ⟨hb, hlen⟩ := lvl_inner S L
  obtain ⟨n1, w1, l1, v1⟩ := wr_spec T.nodes id
    (merged (nv T.nodes id) (nv T.nodes (2 * id + 1)) (nv T.nodes (2 * id + 2))) (by omega)
  simp only [merged] at w1
  refine ⟨T.setNodes n1, ?_, frame_set T l1, v1⟩
  rw [merge]
  simp only [S.idl id hb, S.idr id hb, bind, Except.bind, cast_left, cast_right,
    rdl T.nodes (2 * id + 1) (by omega), rdl T.nodes (2 * id + 2) hlen,
    rdl T.nodes id (by omega), w1]
  rfl

/-- The value of a subtree whose root got `a` added to its field `add`. -/
theorem den_add {ns ns1 : List segval_t} {h c : Nat} {a : Int}
    (hc : nv ns1 c = addTo (nv ns c) a)
    (hs : ∀ j, InSub h c j → j ≠ c → nv ns1 j = nv ns j) (l i : Int) :
    den ns1 h c l i = den ns h c l i + a := by
  cases h with
  | zero =>
    rw [den, den, hc]
    simp only [addTo]
    ring
  | succ h =>
    rw [den, den, hc]
    have e1 : den ns1 h (2 * c + 1) l i = den ns h (2 * c + 1) l i :=
      den_congr h _ _ _ (fun j hj => hs j (Or.inr (Or.inl hj)) (insub_left_ne hj))
    have e2 : den ns1 h (2 * c + 2) (l + 2 ^ h) i = den ns h (2 * c + 2) (l + 2 ^ h) i :=
      den_congr h _ _ _ (fun j hj => hs j (Or.inr (Or.inr hj)) (insub_right_ne hj))
    rw [e1, e2]
    simp only [addTo]
    split <;> ring

/-- The value of a subtree whose root was assigned the value `u`. -/
theorem den_const {ns1 : List segval_t} {h c : Nat} {u : Int}
    (hc : nv ns1 c = assigned u) (l i : Int) :
    den ns1 h c l i = u := by
  cases h with
  | zero =>
    rw [den, hc]
    simp [assigned]
  | succ h =>
    rw [den, hc]
    simp [assigned]

theorem good_add {ns ns1 : List segval_t} {h c : Nat} {a : Int}
    (hc : nv ns1 c = addTo (nv ns c) a)
    (hs : ∀ j, InSub h c j → j ≠ c → nv ns1 j = nv ns j) (G : Good ns h c) :
    Good ns1 h c := by
  cases h with
  | zero => trivial
  | succ h =>
    rw [Good] at G ⊢
    have e1 : nv ns1 (2 * c + 1) = nv ns (2 * c + 1) :=
      hs _ (Or.inr (Or.inl (insub_self _ _))) (by omega)
    have e2 : nv ns1 (2 * c + 2) = nv ns (2 * c + 2) :=
      hs _ (Or.inr (Or.inr (insub_self _ _))) (by omega)
    rw [e1, e2, hc]
    exact ⟨G.1,
      good_congr h _ (fun j hj => hs j (Or.inr (Or.inl hj)) (insub_left_ne hj)) G.2.1,
      good_congr h _ (fun j hj => hs j (Or.inr (Or.inr hj)) (insub_right_ne hj)) G.2.2⟩

theorem good_const {ns ns1 : List segval_t} {h c : Nat} {u : Int}
    (hc : nv ns1 c = assigned u)
    (hs : ∀ j, InSub h c j → j ≠ c → nv ns1 j = nv ns j) (G : Good ns h c) :
    Good ns1 h c := by
  cases h with
  | zero => trivial
  | succ h =>
    rw [Good] at G ⊢
    rw [hc]
    exact ⟨by simp [assigned],
      good_congr h _ (fun j hj => hs j (Or.inr (Or.inl hj)) (insub_left_ne hj)) G.2.1,
      good_congr h _ (fun j hj => hs j (Or.inr (Or.inr hj)) (insub_right_ne hj)) G.2.2⟩

/-- The nodes outside of a subtree and the nodes strictly below its children,
when the root and its two children are the only nodes that change. -/
theorem three_changed {ns ns1 : List segval_t} (h id : Nat)
    (hoth : ∀ j, j ≠ id → j ≠ 2 * id + 1 → j ≠ 2 * id + 2 → nv ns1 j = nv ns j) :
    (∀ j, ¬ InSub (h + 1) id j → nv ns1 j = nv ns j) ∧
      (∀ j, InSub h (2 * id + 1) j → j ≠ 2 * id + 1 → nv ns1 j = nv ns j) ∧
      (∀ j, InSub h (2 * id + 2) j → j ≠ 2 * id + 2 → nv ns1 j = nv ns j) := by
  refine ⟨?_, ?_, ?_⟩
  · intro j hj
    refine hoth j (fun e => hj ?_) (fun e => hj ?_) (fun e => hj ?_)
    · rw [e]; exact insub_self _ _
    · rw [e]; exact Or.inr (Or.inl (insub_self _ _))
    · rw [e]; exact Or.inr (Or.inr (insub_self _ _))
  · intro j hj hne
    exact hoth j (insub_left_ne hj) hne
      (fun e => @insub_disjoint _ h _ _ hj (by rw [e]; exact insub_self _ _))
  · intro j hj hne
    exact hoth j (insub_right_ne hj)
      (fun e => @insub_disjoint h _ _ _ (by rw [e]; exact insub_self _ _) hj) hne

/-- What `lazy` does to an inner node: the pending update moves to the
children and the subtree stands for the same values. -/
theorem lazy_spec {T : SegTreeMax} {k h id : Nat} (S : Static T k) (L : Lvl k (h + 1) id)
    (G : Good T.nodes (h + 1) id) :
    ∃ T1, T.lazy id = .ok T1 ∧ Frame T T1 ∧
      (∀ j, ¬ InSub (h + 1) id j → nv T1.nodes j = nv T.nodes j) ∧
      (nv T1.nodes id).enable = false ∧ (nv T1.nodes id).add = 0 ∧
      Good T1.nodes (h + 1) id ∧
      ∀ l i, den T1.nodes (h + 1) id l i = den T.nodes (h + 1) id l i := by
  obtain ⟨hb, hlen⟩ := lvl_inner S L
  have hnb : ¬ (id : Int) ≥ T.base := by omega
  have hid : id < T.nodes.length := by omega
  have hl : 2 * id + 1 < T.nodes.length := by omega
  rw [Good] at G
  obtain ⟨G0, G1, G2⟩ := G
  by_cases he : (nv T.nodes id).enable = true
  · -- an assignment is pending
    rw [if_pos he] at G0
    obtain ⟨n1, w1, l1, v1⟩ := wr_spec T.nodes (2 * id + 1)
      (assigned ((nv T.nodes id).upd + (nv T.nodes id).add)) hl
    obtain ⟨n2, w2, l2, v2⟩ := wr_spec n1 (2 * id + 2)
      (assigned ((nv T.nodes id).upd + (nv T.nodes id).add)) (by omega)
    obtain ⟨n3, w3, l3, v3⟩ := wr_spec n2 id
      (cleared ((nv T.nodes id).upd + (nv T.nodes id).add)) (by omega)
    have hrun : T.lazy id = .ok (T.setNodes n3) := by
      simp only [assigned] at w1 w2
      simp only [cleared] at w3
      rw [lazy]
      simp only [hnb, if_false, rdl T.nodes id hid, bind, Except.bind, he, if_true,
        S.idl id hb, S.idr id hb, cast_left, cast_right, w1, w2, w3]
      rfl
    have h_id : nv n3 id = cleared ((nv T.nodes id).upd + (nv T.nodes id).add) := by
      rw [v3, if_pos rfl]
    have h_l : nv n3 (2 * id + 1) =
        assigned ((nv T.nodes id).upd + (nv T.nodes id).add) := by
      rw [v3, if_neg (by omega), v2, if_neg (by omega), v1, if_pos rfl]
    have h_r : nv n3 (2 * id + 2) =
        assigned ((nv T.nodes id).upd + (nv T.nodes id).add) := by
      rw [v3, if_neg (by omega), v2, if_pos rfl]
    obtain ⟨f1, f2, f3⟩ := @three_changed T.nodes n3 h id (fun j a b c => by
      rw [v3, if_neg a, v2, if_neg c, v1, if_neg b])
    refine ⟨_, hrun, frame_set T (by omega), f1, ?_, ?_, ?_, ?_⟩
    · show (nv n3 id).enable = false
      rw [h_id]; rfl
    · show (nv n3 id).add = 0
      rw [h_id]; rfl
    · show Good n3 (h + 1) id
      rw [Good, h_id, h_l, h_r]
      exact ⟨by simp [assigned, cleared], good_const h_l f2 G1, good_const h_r f3 G2⟩
    · intro l i
      show den n3 (h + 1) id l i = _
      rw [den, den, h_id, if_pos he, den_const h_l, den_const h_r]
      simp [cleared]
  · -- an addition is pending
    rw [if_neg he] at G0
    obtain ⟨n1, w1, l1, v1⟩ := wr_spec T.nodes (2 * id + 1)
      (addTo (nv T.nodes (2 * id + 1)) (nv T.nodes id).add) hl
    obtain ⟨n2, w2, l2, v2⟩ := wr_spec n1 (2 * id + 2)
      (addTo (nv T.nodes (2 * id + 2)) (nv T.nodes id).add) (by omega)
    obtain ⟨n3, w3, l3, v3⟩ := wr_spec n2 id (clearAdd (nv T.nodes id)) (by omega)
    have r1 : nv n1 (2 * id + 2) = nv T.nodes (2 * id + 2) := by
      rw [v1, if_neg (by omega)]
    have r2 : nv n1 id = nv T.nodes id := by
      rw [v1, if_neg (by omega)]
    have r3 : nv n2 id = nv T.nodes id := by
      rw [v2, if_neg (by omega), r2]
    have S3 : Static (T.setNodes n3) k := static_frame S (frame_set T (by omega))
    obtain ⟨T4, hm, F4, hv4⟩ := merge_spec S3 L
    have hen : (nv T.nodes id).enable = false := by
      cases hh : (nv T.nodes id).enable
      · rfl
      · exact absurd hh he
    have hrun : T.lazy id = .ok T4 := by
      simp only [addTo, clearAdd, hen] at w1 w2 w3
      rw [lazy]
      simp only [hnb, if_false, rdl T.nodes id hid, bind, Except.bind, hen,
        Bool.false_eq_true,
        S.idl id hb, S.idr id hb, cast_left, cast_right,
        rdl T.nodes (2 * id + 1) hl, w1,
        rdl n1 (2 * id + 2) (by omega), r1, rdl n1 id (by omega), r2, w2,
        rdl n2 id (by omega), r3, w3]
      exact hm
    have e_id : nv n3 id = clearAdd (nv T.nodes id) := by
      rw [v3, if_pos rfl]
    have e_l : nv n3 (2 * id + 1) = addTo (nv T.nodes (2 * id + 1)) (nv T.nodes id).add := by
      rw [v3, if_neg (by omega), v2, if_neg (by omega), v1, if_pos rfl]
    have e_r : nv n3 (2 * id + 2) = addTo (nv T.nodes (2 * id + 2)) (nv T.nodes id).add := by
      rw [v3, if_neg (by omega), v2, if_pos rfl]
    have h_l : nv T4.nodes (2 * id + 1) =
        addTo (nv T.nodes (2 * id + 1)) (nv T.nodes id).add := by
      rw [hv4, if_neg (by omega)]
      exact e_l
    have h_r : nv T4.nodes (2 * id + 2) =
        addTo (nv T.nodes (2 * id + 2)) (nv T.nodes id).add := by
      rw [hv4, if_neg (by omega)]
      exact e_r
    have h_id : nv T4.nodes id = merged (clearAdd (nv T.nodes id))
        (addTo (nv T.nodes (2 * id + 1)) (nv T.nodes id).add)
        (addTo (nv T.nodes (2 * id + 2)) (nv T.nodes id).add) := by
      rw [hv4, if_pos rfl]
      show merged (nv n3 id) (nv n3 (2 * id + 1)) (nv n3 (2 * id + 2)) = _
      rw [e_id, e_l, e_r]
    have F : Frame T T4 := frame_trans (frame_set T (by omega)) F4
    obtain ⟨f1, f2, f3⟩ := @three_changed T.nodes T4.nodes h id
      (fun j a b c => by
        rw [hv4, if_neg a]
        show nv n3 j = _
        rw [v3, if_neg a, v2, if_neg c, v1, if_neg b])
    refine ⟨T4, hrun, F, f1, ?_, ?_, ?_, ?_⟩
    · rw [h_id]; exact hen
    · rw [h_id]; rfl
    · rw [Good, h_id, h_l, h_r]
      refine ⟨?_, good_add h_l f2 G1, good_add h_r f3 G2⟩
      simp only [merged, clearAdd, addTo, hen]
      simp
    · intro l i
      rw [den, den, h_id, den_add h_l f2, den_add h_r f3]
      simp only [merged, clearAdd, hen]
      simp only [Bool.false_eq_true, if_false]
      split <;> ring

theorem applyOp_in {op : change_t} {x s t i v : Int} (h1 : s ≤ i) (h2 : i < t) :
    applyOp op x s t i v = match op with
      | .UPD => x
      | .ADD => v + x := by
  unfold applyOp
  rw [if_pos ⟨h1, h2⟩]

theorem applyOp_out {op : change_t} {x s t i v : Int} (h : ¬ (s ≤ i ∧ i < t)) :
    applyOp op x s t i v = v := by
  unfold applyOp
  rw [if_neg h]

theorem applyOp_left {op : change_t} {x s m t i v : Int} (hi : i < m) (hm : m ≤ t) :
    applyOp op x s m i v = applyOp op x s t i v := by
  unfold applyOp
  by_cases h : s ≤ i
  · rw [if_pos ⟨h, hi⟩, if_pos ⟨h, by omega⟩]
  · rw [if_neg (fun e => h e.1), if_neg (fun e => h e.1)]

theorem applyOp_right {op : change_t} {x s m t i v : Int} (hi : m ≤ i) (hm : s ≤ m) :
    applyOp op x m t i v = applyOp op x s t i v := by
  unfold applyOp
  by_cases h : i < t
  · rw [if_pos ⟨hi, h⟩, if_pos ⟨by omega, h⟩]
  · rw [if_neg (fun e => h e.2), if_neg (fun e => h e.2)]

/-- The change at a node that covers exactly the positions of the change. -/
theorem change_exact {T : SegTreeMax} {k h id : Nat} (S : Static T k) (L : Lvl k h id)
    (fuel : Nat) (l x : Int) (op : change_t) (G : Good T.nodes h id) :
    ∃ T1, change_rec (fuel + 1) T l (l + 2 ^ h) l (l + 2 ^ h) id x op = .ok T1 ∧
      Frame T T1 ∧ (∀ j, ¬ InSub h id j → nv T1.nodes j = nv T.nodes j) ∧
      Good T1.nodes h id ∧
      ∀ i, l ≤ i → i < l + 2 ^ h →
        den T1.nodes h id l i = applyOp op x l (l + 2 ^ h) i (den T.nodes h id l i) := by
  have hid := lvl_lt S L
  cases op with
  | UPD =>
    obtain ⟨n1, w1, l1, v1⟩ := wr_spec T.nodes id (assigned x) hid
    have hc : nv n1 id = assigned x := by rw [v1, if_pos rfl]
    have hs : ∀ j, j ≠ id → nv n1 j = nv T.nodes j := fun j hj => by rw [v1, if_neg hj]
    refine ⟨T.setNodes n1, ?_, frame_set T l1, ?_, ?_, ?_⟩
    · simp only [assigned] at w1
      rw [change_rec]
      simp only [and_self, if_true, bind, Except.bind, w1]
      rfl
    · intro j hj
      exact hs j (fun e => hj (e ▸ insub_self h id))
    · exact good_const hc (fun j _ hj => hs j hj) G
    · intro i h1 h2
      show den n1 h id l i = _
      rw [den_const hc, applyOp_in h1 h2]
  | ADD =>
    obtain ⟨n1, w1, l1, v1⟩ := wr_spec T.nodes id (addTo (nv T.nodes id) x) hid
    have hc : nv n1 id = addTo (nv T.nodes id) x := by rw [v1, if_pos rfl]
    have hs : ∀ j, j ≠ id → nv n1 j = nv T.nodes j := fun j hj => by rw [v1, if_neg hj]
    refine ⟨T.setNodes n1, ?_, frame_set T l1, ?_, ?_, ?_⟩
    · simp only [addTo] at w1
      rw [change_rec]
      simp only [and_self, if_true, bind, Except.bind, rdl T.nodes id hid, w1]
      rfl
    · intro j hj
      exact hs j (fun e => hj (e ▸ insub_self h id))
    · exact good_add hc (fun j _ hj => hs j hj) G
    · intro i h1 h2
      show den n1 h id l i = _
      rw [den_add hc (fun j _ hj => hs j hj), applyOp_in h1 h2]

/-- The end of a change below an inner node: the children are up to date and
`merge` brings the node up to date. -/
theorem change_finish {T T1 T2 : SegTreeMax} {k h id : Nat} {l s t x : Int} {op : change_t}
    (S : Static T k) (L : Lvl k (h + 1) id) (F1 : Frame T T1)
    (f1 : ∀ j, ¬ InSub (h + 1) id j → nv T1.nodes j = nv T.nodes j)
    (hen : (nv T1.nodes id).enable = false) (hadd : (nv T1.nodes id).add = 0)
    (hden1 : ∀ l i, den T1.nodes (h + 1) id l i = den T.nodes (h + 1) id l i)
    (F2 : Frame T1 T2)
    (f2 : ∀ j, ¬ (InSub h (2 * id + 1) j ∨ InSub h (2 * id + 2) j) →
      nv T2.nodes j = nv T1.nodes j)
    (gl : Good T2.nodes h (2 * id + 1)) (gr : Good T2.nodes h (2 * id + 2))
    (dL : ∀ i, l ≤ i → i < l + 2 ^ h → den T2.nodes h (2 * id + 1) l i =
      applyOp op x s t i (den T1.nodes h (2 * id + 1) l i))
    (dR : ∀ i, l + 2 ^ h ≤ i → i < l + 2 ^ (h + 1) →
      den T2.nodes h (2 * id + 2) (l + 2 ^ h) i =
        applyOp op x s t i (den T1.nodes h (2 * id + 2) (l + 2 ^ h) i)) :
    ∃ T3, T2.merge id = .ok T3 ∧ Frame T T3 ∧
      (∀ j, ¬ InSub (h + 1) id j → nv T3.nodes j = nv T.nodes j) ∧
      Good T3.nodes (h + 1) id ∧
      ∀ i, l ≤ i → i < l + 2 ^ (h + 1) →
        den T3.nodes (h + 1) id l i = applyOp op x s t i (den T.nodes (h + 1) id l i) := by
  have S2 : Static T2 k := static_frame (static_frame S F1) F2
  obtain ⟨T3, hm, F3, v3⟩ := merge_spec S2 L
  have h2id : nv T2.nodes id = nv T1.nodes id :=
    f2 id (fun e => e.elim (fun e => insub_left_ne e rfl) (fun e => insub_right_ne e rfl))
  have h3id : nv T3.nodes id =
      merged (nv T1.nodes id) (nv T2.nodes (2 * id + 1)) (nv T2.nodes (2 * id + 2)) := by
    rw [v3, if_pos rfl, h2id]
  have h3o : ∀ j, j ≠ id → nv T3.nodes j = nv T2.nodes j := fun j hj => by rw [v3, if_neg hj]
  refine ⟨T3, hm, frame_trans (frame_trans F1 F2) F3, ?_, ?_, ?_⟩
  · intro j hj
    have hjid : j ≠ id := fun e => hj (e ▸ insub_self _ _)
    rw [h3o j hjid, f2 j (fun e => hj (e.elim (fun e => Or.inr (Or.inl e))
      (fun e => Or.inr (Or.inr e)))), f1 j hj]
  · rw [Good, h3id, h3o _ (by omega : 2 * id + 1 ≠ id), h3o _ (by omega : 2 * id + 2 ≠ id)]
    refine ⟨?_, good_congr h _ (fun j hj => h3o j (insub_left_ne hj)) gl,
      good_congr h _ (fun j hj => h3o j (insub_right_ne hj)) gr⟩
    simp only [merged, hen]
    simp
  · intro i h1 h2
    have e3L : den T3.nodes h (2 * id + 1) l i = den T2.nodes h (2 * id + 1) l i :=
      den_congr h _ _ _ (fun j hj => h3o j (insub_left_ne hj))
    have e3R : den T3.nodes h (2 * id + 2) (l + 2 ^ h) i =
        den T2.nodes h (2 * id + 2) (l + 2 ^ h) i :=
      den_congr h _ _ _ (fun j hj => h3o j (insub_right_ne hj))
    rw [← hden1, den, den, h3id, e3L, e3R]
    simp only [merged, hen, hadd, Bool.false_eq_true, if_false, add_zero]
    by_cases hi : i < l + 2 ^ h
    · rw [if_pos hi, if_pos hi]
      exact dL i h1 hi
    · rw [if_neg hi, if_neg hi]
      exact dR i (by omega) h2

/-- The nodes strictly inside the subtree of one child do not touch the
subtree of the other child. -/
theorem left_keeps_right {ns ns1 : List segval_t} {h id : Nat}
    (f : ∀ j, ¬ InSub h (2 * id + 1) j → nv ns1 j = nv ns j) :
    ∀ j, InSub h (2 * id + 2) j → nv ns1 j = nv ns j :=
  fun j hj => f j (fun e => insub_disjoint e hj)

theorem right_keeps_left {ns ns1 : List segval_t} {h id : Nat}
    (f : ∀ j, ¬ InSub h (2 * id + 2) j → nv ns1 j = nv ns j) :
    ∀ j, InSub h (2 * id + 1) j → nv ns1 j = nv ns j :=
  fun j hj => f j (fun e => insub_disjoint hj e)

/-- The function `change_rec` on a good subtree: it returns, keeps the
subtree good, changes no node outside of the subtree, and the subtree stands
for the changed values. -/
theorem change_rec_spec {k : Nat} (h : Nat) :
    ∀ (fuel : Nat) (T : SegTreeMax) (id : Nat) (l s t x : Int) (op : change_t),
      Static T k → Lvl k h id → h < fuel → l ≤ s → s < t → t ≤ l + 2 ^ h →
      Good T.nodes h id →
      ∃ T1, change_rec fuel T s t l (l + 2 ^ h) id x op = .ok T1 ∧ Frame T T1 ∧
        (∀ j, ¬ InSub h id j → nv T1.nodes j = nv T.nodes j) ∧ Good T1.nodes h id ∧
        ∀ i, l ≤ i → i < l + 2 ^ h →
          den T1.nodes h id l i = applyOp op x s t i (den T.nodes h id l i) := by
  induction h with
  | zero =>
    intro fuel T id l s t x op S L hf h1 h2 h3 G
    obtain ⟨f, rfl⟩ : ∃ f, fuel = f + 1 := ⟨fuel - 1, by omega⟩
    have hs : s = l := by simp at h3; omega
    have ht : t = l + 2 ^ 0 := by simp at h3 ⊢; omega
    subst hs; subst ht
    exact change_exact S L f s x op G
  | succ h ih =>
    intro fuel T id l s t x op S L hf h1 h2 h3 G
    obtain ⟨f, rfl⟩ : ∃ f, fuel = f + 1 := ⟨fuel - 1, by omega⟩
    by_cases hex : s = l ∧ t = l + 2 ^ (h + 1)
    · obtain ⟨hs, ht⟩ := hex
      subst hs; subst ht
      exact change_exact S L f s x op G
    · have hp := pow_pos_int h
      have hpw := pow_succ_int h
      have hm : (l + (l + 2 ^ (h + 1))) / 2 = l + 2 ^ h := by omega
      obtain ⟨hb, hlen⟩ := lvl_inner S L
      obtain ⟨T1, hlz, F1, f1, hen, hadd, G1, hden1⟩ := lazy_spec S L G
      have S1 := static_frame S F1
      have G1' := G1
      rw [Good] at G1'
      obtain ⟨_, G1L, G1R⟩ := G1'
      have Ll := lvl_left L
      have Lr := lvl_right L
      -- the changes below the node
      have hsub : ∃ T2, (∀ T3, T2.merge id = .ok T3 →
            change_rec (f + 1) T s t l (l + 2 ^ (h + 1)) id x op = .ok T3) ∧ Frame T1 T2 ∧
          (∀ j, ¬ (InSub h (2 * id + 1) j ∨ InSub h (2 * id + 2) j) →
            nv T2.nodes j = nv T1.nodes j) ∧
          Good T2.nodes h (2 * id + 1) ∧ Good T2.nodes h (2 * id + 2) ∧
          (∀ i, l ≤ i → i < l + 2 ^ h → den T2.nodes h (2 * id + 1) l i =
            applyOp op x s t i (den T1.nodes h (2 * id + 1) l i)) ∧
          (∀ i, l + 2 ^ h ≤ i → i < l + 2 ^ (h + 1) →
            den T2.nodes h (2 * id + 2) (l + 2 ^ h) i =
              applyOp op x s t i (den T1.nodes h (2 * id + 2) (l + 2 ^ h) i)) := by
        have hr : l + 2 ^ (h + 1) = l + 2 ^ h + 2 ^ h := by omega
        have hil := S1.idl id (by rw [F1.base_eq]; exact hb)
        have hir := S1.idr id (by rw [F1.base_eq]; exact hb)
        rw [cast_left] at hil
        rw [cast_right] at hir
        by_cases c1 : s < l + 2 ^ h
        · by_cases c2 : l + 2 ^ h < t
          · -- both children
            obtain ⟨Ta, ra, Fa, fa, Ga, da⟩ := ih f T1 (2 * id + 1) l s (l + 2 ^ h) x op S1 Ll
              (by omega) h1 c1 (le_refl _) G1L
            have Sa := static_frame S1 Fa
            have GaR : Good Ta.nodes h (2 * id + 2) :=
              good_congr h _ (left_keeps_right fa) G1R
            obtain ⟨Tb, rb, Fb, fb, Gb, db⟩ := ih f Ta (2 * id + 2) (l + 2 ^ h) (l + 2 ^ h) t x
              op Sa Lr (by omega) (le_refl _) c2 (by omega) GaR
            have hira := Sa.idr id (by rw [Fa.base_eq, F1.base_eq]; exact hb)
            rw [cast_right] at hira
            rw [← hr] at rb
            refine ⟨Tb, ?_, frame_trans Fa Fb, ?_, ?_, Gb, ?_, ?_⟩
            · intro T3 r3
              cases op <;>
              · rw [change_rec]
                simp only [hex, if_false, hlz, bind, Except.bind, hm, c1, c2, and_self, if_true,
                  hil, ra, hira, rb]
                exact r3
            · intro j hj
              rw [fb j (fun e => hj (Or.inr e)), fa j (fun e => hj (Or.inl e))]
            · exact good_congr h _ (right_keeps_left fb) Ga
            · intro i i1 i2
              rw [den_congr h _ _ _ (right_keeps_left fb), da i i1 i2]
              exact applyOp_left i2 (by omega)
            · intro i i1 i2
              rw [db i i1 (by omega), den_congr h _ _ _ (left_keeps_right fa)]
              exact applyOp_right i1 (by omega)
          · -- the left child alone
            obtain ⟨Ta, ra, Fa, fa, Ga, da⟩ := ih f T1 (2 * id + 1) l s t x op S1 Ll
              (by omega) h1 h2 (by omega) G1L
            refine ⟨Ta, ?_, Fa, ?_, Ga, good_congr h _ (left_keeps_right fa) G1R, da, ?_⟩
            · intro T3 r3
              cases op <;>
              · rw [change_rec]
                simp only [hex, if_false, hlz, bind, Except.bind, hm, c1, c2, and_false, if_true,
                  hil, ra]
                exact r3
            · intro j hj
              exact fa j (fun e => hj (Or.inl e))
            · intro i i1 i2
              rw [den_congr h _ _ _ (left_keeps_right fa), applyOp_out (by omega)]
        · have c2 : l + 2 ^ h < t := by omega
          obtain ⟨Tb, rb, Fb, fb, Gb, db⟩ := ih f T1 (2 * id + 2) (l + 2 ^ h) s t x op S1 Lr
            (by omega) (by omega) h2 (by omega) G1R
          rw [← hr] at rb
          refine ⟨Tb, ?_, Fb, ?_, good_congr h _ (right_keeps_left fb) G1L, Gb, ?_, ?_⟩
          · intro T3 r3
            cases op <;>
            · rw [change_rec]
              simp only [hex, if_false, hlz, bind, Except.bind, hm, c1, c2, false_and, if_true,
                hir, rb]
              exact r3
          · intro j hj
            exact fb j (fun e => hj (Or.inr e))
          · intro i i1 i2
            rw [den_congr h _ _ _ (right_keeps_left fb), applyOp_out (by omega)]
          · intro i i1 i2
            exact db i i1 (by omega)
      obtain ⟨T2, r2, F2, f2, g2l, g2r, d2l, d2r⟩ := hsub
      obtain ⟨T3, r3, F3, f3, G3, d3⟩ :=
        @change_finish _ _ _ _ _ _ l s t x op S L F1 f1 hen hadd hden1
          F2 f2 g2l g2r d2l d2r
      exact ⟨T3, r2 T3 r3, F3, f3, G3, d3⟩

/-! ## `solve_rec` -/

/-- The top of a subtree keeps its value when the subtree stays good and
stands for the same values. -/
theorem top_keeps {ns ns1 : List segval_t} {h c : Nat} (G : Good ns h c) (G1 : Good ns1 h c)
    (d : ∀ l i, den ns1 h c l i = den ns h c l i) :
    (nv ns1 c).max + (nv ns1 c).add = (nv ns c).max + (nv ns c).add := by
  have m := good_top h c 0 G
  have m1 := good_top h c 0 G1
  exact (m1.congr_on (fun i _ _ => (d 0 i).symm)).unique m

/-- The end of a query below an inner node. -/
theorem solve_finish {T T1 T2 : SegTreeMax} {h id : Nat} (F1 : Frame T T1)
    (f1 : ∀ j, ¬ InSub (h + 1) id j → nv T1.nodes j = nv T.nodes j)
    (hadd : (nv T1.nodes id).add = 0)
    (G1 : Good T1.nodes (h + 1) id)
    (hden1 : ∀ l i, den T1.nodes (h + 1) id l i = den T.nodes (h + 1) id l i)
    (F2 : Frame T1 T2)
    (f2 : ∀ j, ¬ (InSub h (2 * id + 1) j ∨ InSub h (2 * id + 2) j) →
      nv T2.nodes j = nv T1.nodes j)
    (gl : Good T2.nodes h (2 * id + 1)) (gr : Good T2.nodes h (2 * id + 2))
    (dl : ∀ l i, den T2.nodes h (2 * id + 1) l i = den T1.nodes h (2 * id + 1) l i)
    (dr : ∀ l i, den T2.nodes h (2 * id + 2) l i = den T1.nodes h (2 * id + 2) l i) :
    Frame T T2 ∧ (∀ j, ¬ InSub (h + 1) id j → nv T2.nodes j = nv T.nodes j) ∧
      (nv T2.nodes id).add = 0 ∧ Good T2.nodes (h + 1) id ∧
      ∀ l i, den T2.nodes (h + 1) id l i = den T.nodes (h + 1) id l i := by
  have h2id : nv T2.nodes id = nv T1.nodes id :=
    f2 id (fun e => e.elim (fun e => insub_left_ne e rfl) (fun e => insub_right_ne e rfl))
  have G1' := G1
  rw [Good] at G1'
  obtain ⟨G10, G1L, G1R⟩ := G1'
  refine ⟨frame_trans F1 F2, ?_, by rw [h2id]; exact hadd, ?_, ?_⟩
  · intro j hj
    rw [f2 j (fun e => hj (e.elim (fun e => Or.inr (Or.inl e)) (fun e => Or.inr (Or.inr e)))),
      f1 j hj]
  · rw [Good, h2id, top_keeps G1L gl dl, top_keeps G1R gr dr]
    exact ⟨G10, gl, gr⟩
  · intro l i
    rw [← hden1, den, den, h2id, dl, dr]

/-- The function `solve_rec` on a good subtree: it returns the maximum of the
values that the subtree stands for on `s ≤ i < t`, and the subtree stays good
and stands for the same values. -/
theorem solve_rec_spec {k : Nat} (h : Nat) :
    ∀ (fuel : Nat) (T : SegTreeMax) (id : Nat) (l s t : Int),
      Static T k → Lvl k h id → h < fuel → l ≤ s → s < t → t ≤ l + 2 ^ h →
      Good T.nodes h id →
      ∃ T1 v, solve_rec fuel T s t l (l + 2 ^ h) id = .ok (T1, v) ∧ Frame T T1 ∧
        (∀ j, ¬ InSub h id j → nv T1.nodes j = nv T.nodes j) ∧ Good T1.nodes h id ∧
        (∀ l1 i, den T1.nodes h id l1 i = den T.nodes h id l1 i) ∧
        IsMax (den T.nodes h id l) s t v := by
  have exact : ∀ (h : Nat) (f : Nat) (T : SegTreeMax) (id : Nat) (l : Int), Static T k →
      Lvl k h id → Good T.nodes h id →
      ∃ T1 v, solve_rec (f + 1) T l (l + 2 ^ h) l (l + 2 ^ h) id = .ok (T1, v) ∧ Frame T T1 ∧
        (∀ j, ¬ InSub h id j → nv T1.nodes j = nv T.nodes j) ∧ Good T1.nodes h id ∧
        (∀ l1 i, den T1.nodes h id l1 i = den T.nodes h id l1 i) ∧
        IsMax (den T.nodes h id l) l (l + 2 ^ h) v := by
    intro h f T id l S L G
    have hid := lvl_lt S L
    refine ⟨T, (nv T.nodes id).max + (nv T.nodes id).add, ?_, frame_refl T, fun _ _ => rfl, G,
      fun _ _ => rfl, good_top h id l G⟩
    rw [solve_rec]
    simp only [and_self, if_true, bind, Except.bind, rdl T.nodes id hid, pure, Except.pure]
  induction h with
  | zero =>
    intro fuel T id l s t S L hf h1 h2 h3 G
    obtain ⟨f, rfl⟩ : ∃ f, fuel = f + 1 := ⟨fuel - 1, by omega⟩
    have hs : s = l := by simp at h3; omega
    have ht : t = l + 2 ^ 0 := by simp at h3 ⊢; omega
    subst hs; subst ht
    exact exact 0 f T id s S L G
  | succ h ih =>
    intro fuel T id l s t S L hf h1 h2 h3 G
    obtain ⟨f, rfl⟩ : ∃ f, fuel = f + 1 := ⟨fuel - 1, by omega⟩
    by_cases hex : s = l ∧ t = l + 2 ^ (h + 1)
    · obtain ⟨hs, ht⟩ := hex
      subst hs; subst ht
      exact exact (h + 1) f T id s S L G
    · have hp := pow_pos_int h
      have hpw := pow_succ_int h
      have hm : (l + (l + 2 ^ (h + 1))) / 2 = l + 2 ^ h := by omega
      have hr : l + 2 ^ (h + 1) = l + 2 ^ h + 2 ^ h := by omega
      obtain ⟨hb, hlen⟩ := lvl_inner S L
      obtain ⟨T1, hlz, F1, f1, hen, hadd, G1, hden1⟩ := lazy_spec S L G
      have S1 := static_frame S F1
      have G1' := G1
      rw [Good] at G1'
      obtain ⟨_, G1L, G1R⟩ := G1'
      have Ll := lvl_left L
      have Lr := lvl_right L
      have hil := S1.idl id (by rw [F1.base_eq]; exact hb)
      have hir := S1.idr id (by rw [F1.base_eq]; exact hb)
      rw [cast_left] at hil
      rw [cast_right] at hir
      -- what the node stands for after `lazy`
      have hd1 : ∀ i, den T.nodes (h + 1) id l i =
          if i < l + 2 ^ h then den T1.nodes h (2 * id + 1) l i
          else den T1.nodes h (2 * id + 2) (l + 2 ^ h) i := by
        intro i
        rw [← hden1, den, hen, hadd]
        simp
      have hid2 : ∀ T2 : SegTreeMax, Frame T1 T2 → id < T2.nodes.length := by
        intro T2 F2
        rw [F2.len_eq, F1.len_eq]
        omega
      by_cases c1 : s < l + 2 ^ h
      · by_cases c2 : l + 2 ^ h < t
        · -- both children
          obtain ⟨Ta, v0, ra, Fa, fa, Ga, da, ma⟩ :=
            ih f T1 (2 * id + 1) l s (l + 2 ^ h) S1 Ll (by omega) h1 c1 (le_refl _) G1L
          have Sa := static_frame S1 Fa
          have GaR : Good Ta.nodes h (2 * id + 2) := good_congr h _ (left_keeps_right fa) G1R
          obtain ⟨Tb, v1, rb, Fb, fb, Gb, db, mb⟩ :=
            ih f Ta (2 * id + 2) (l + 2 ^ h) (l + 2 ^ h) t Sa Lr (by omega) (le_refl _) c2
              (by omega) GaR
          have hira := Sa.idr id (by rw [Fa.base_eq, F1.base_eq]; exact hb)
          rw [cast_right] at hira
          rw [← hr] at rb
          obtain ⟨F2, f2, hadd2, G2, d2⟩ := @solve_finish _ _ Tb _ _ F1 f1 hadd G1 hden1
            (frame_trans Fa Fb)
            (fun j hj => by rw [fb j (fun e => hj (Or.inr e)), fa j (fun e => hj (Or.inl e))])
            (good_congr h _ (right_keeps_left fb) Ga) Gb
            (fun l1 i => by rw [den_congr h _ _ _ (right_keeps_left fb), da])
            (fun l1 i => by rw [db, den_congr h _ _ _ (left_keeps_right fa)])
          refine ⟨Tb, Max.max v0 v1 + 0, ?_, F2, f2, G2, d2, ?_⟩
          · rw [solve_rec]
            simp only [hex, if_false, hlz, bind, Except.bind, hm, c1, c2, and_self, if_true,
              hil, ra, hira, rb, pure, Except.pure, rdl Tb.nodes id (hid2 Tb (frame_trans Fa Fb)),
              hadd2]
          · have mb' : IsMax (den T1.nodes h (2 * id + 2) (l + 2 ^ h)) (l + 2 ^ h) t v1 :=
              mb.congr_on (fun i _ _ => (den_congr h _ _ _ (left_keeps_right fa)).symm)
            refine (IsMax.split (ma.congr_on ?_) (mb'.congr_on ?_)).shift_by (fun i _ _ => (add_zero _).symm)
            · intro i _ hi
              rw [hd1, if_pos hi]
            · intro i hi _
              rw [hd1, if_neg (by omega)]
        · -- the left child alone
          obtain ⟨Ta, v0, ra, Fa, fa, Ga, da, ma⟩ :=
            ih f T1 (2 * id + 1) l s t S1 Ll (by omega) h1 h2 (by omega) G1L
          obtain ⟨F2, f2, hadd2, G2, d2⟩ := @solve_finish _ _ Ta _ _ F1 f1 hadd G1 hden1 Fa
            (fun j hj => fa j (fun e => hj (Or.inl e))) Ga
            (good_congr h _ (left_keeps_right fa) G1R) da
            (fun l1 i => den_congr h _ _ _ (left_keeps_right fa))
          refine ⟨Ta, v0 + 0, ?_, F2, f2, G2, d2, ?_⟩
          · rw [solve_rec]
            simp only [hex, if_false, hlz, bind, Except.bind, hm, c1, c2, and_false, if_true,
              hil, ra, pure, Except.pure, rdl Ta.nodes id (hid2 Ta Fa), hadd2]
          · refine (ma.congr_on ?_).shift_by (fun i _ _ => (add_zero _).symm)
            intro i _ hi
            rw [hd1, if_pos (by omega)]
      · have c2 : l + 2 ^ h < t := by omega
        obtain ⟨Tb, v1, rb, Fb, fb, Gb, db, mb⟩ :=
          ih f T1 (2 * id + 2) (l + 2 ^ h) s t S1 Lr (by omega) (by omega) h2 (by omega) G1R
        rw [← hr] at rb
        obtain ⟨F2, f2, hadd2, G2, d2⟩ := @solve_finish _ _ Tb _ _ F1 f1 hadd G1 hden1 Fb
          (fun j hj => fb j (fun e => hj (Or.inr e)))
          (good_congr h _ (right_keeps_left fb) G1L) Gb
          (fun l1 i => den_congr h _ _ _ (right_keeps_left fb)) db
        refine ⟨Tb, v1 + 0, ?_, F2, f2, G2, d2, ?_⟩
        · rw [solve_rec]
          simp only [hex, if_false, hlz, bind, Except.bind, hm, c1, c2, false_and, if_true,
            hir, rb, pure, Except.pure, rdl Tb.nodes id (hid2 Tb Fb), hadd2]
        · refine (mb.congr_on ?_).shift_by (fun i _ _ => (add_zero _).symm)
          intro i hi _
          rw [hd1, if_neg (by omega)]

end SegTreeMax

namespace Util

/-- A property that every pass of the body of `Loop(i, n)` carries from `i`
to `i + 1` holds for `n` when the loop ends, and the loop ends. -/
theorem loop_inv {σ : Type} (P : Nat → σ → Prop) (body : Int → σ → Except Fault σ) :
    ∀ (n : Nat) (st : σ), P 0 st →
      (∀ (i : Nat) (s : σ), i < n → P i s → ∃ s1, body i s = .ok s1 ∧ P (i + 1) s1) →
      ∃ s1, Loop n body st = .ok s1 ∧ P n s1 := by
  intro n
  induction n with
  | zero => intro st h0 _; exact ⟨st, rfl, h0⟩
  | succ n ih =>
    intro st h0 hs
    obtain ⟨s1, r1, p1⟩ := ih st h0 (fun i s hi => hs i s (by omega))
    obtain ⟨s2, r2, p2⟩ := hs n s1 (by omega) p1
    refine ⟨s2, ?_, p2⟩
    rw [Loop]
    simp only [bind, Except.bind, r1, r2]

/-- A property that every pass of the body of `Loopr(i, n)` carries from
`i + 1` to `i` holds for `0` when the loop ends, and the loop ends. -/
theorem loopr_inv {σ : Type} (P : Nat → σ → Prop) (body : Int → σ → Except Fault σ) :
    ∀ (n : Nat) (st : σ), P n st →
      (∀ (i : Nat) (s : σ), i < n → P (i + 1) s → ∃ s1, body i s = .ok s1 ∧ P i s1) →
      ∃ s1, Loopr n body st = .ok s1 ∧ P 0 s1 := by
  intro n
  induction n with
  | zero => intro st h0 _; exact ⟨st, rfl, h0⟩
  | succ n ih =>
    intro st h0 hs
    obtain ⟨s1, r1, p1⟩ := hs n st (by omega) h0
    obtain ⟨s2, r2, p2⟩ := ih s1 p1 (fun i s hi => hs i s (by omega))
    refine ⟨s2, ?_, p2⟩
    rw [Loopr]
    simp only [bind, Except.bind, r1, r2]

theorem ok_bind {ε α β : Type} (a : α) (f : α → Except ε β) :
    (Except.ok a >>= f) = f a := rfl

theorem resize_spec {α : Type} (v : List α) (k : Int) (x : α) (hk : 0 ≤ k) :
    ∃ v1, resize v k x = .ok v1 ∧ v1.length = k.toNat := by
  refine ⟨_, if_pos hk, ?_⟩
  simp only [List.length_append, List.length_take, List.length_replicate]
  omega

end Util

namespace SegTreeMax

/-- The function `common_init` on an object with `N = 2 ^ k`, `base = N - 1`
and `0 ≤ n ≤ N`: it returns, fills the index vectors, and keeps `n`, `N`,
`base` and `nodes`. -/
theorem common_init_spec {T : SegTreeMax} {k : Nat} (hN : T.N = 2 ^ k)
    (hb : T.base = 2 ^ k - 1) (hn0 : 0 ≤ T.n) (hn : T.n ≤ 2 ^ k)
    (hlen : (T.nodes.length : Int) = 2 ^ k - 1 + 2 ^ k) :
    ∃ T1, T.common_init = .ok T1 ∧ T1.n = T.n ∧ T1.nodes = T.nodes ∧ Static T1 k := by
  have hp := pow_pos_int k
  have hsz : 0 ≤ T.base + T.N := by omega
  obtain ⟨l0, rl, ll⟩ := Util.resize_spec T.idl (T.base + T.N) (-1) hsz
  obtain ⟨r0, rr, lr⟩ := Util.resize_spec T.idr (T.base + T.N) (-1) hsz
  -- the first loop
  obtain ⟨T2, run2, I2⟩ := Util.loop_inv (Init1 T (T.base + T.N).toNat)
    (fun i (S : SegTreeMax) => do
      let idl ← Util.wr S.idl i (i * 2 + 1)
      let idr ← Util.wr S.idr i (i * 2 + 2)
      pure { S with idl := idl, idr := idr })
    T.base.toNat { T with idl := l0, idr := r0 }
    ⟨rfl, rfl, rfl, rfl, ll, lr, fun j hj => by omega, fun j hj => by omega⟩
    (by
      intro i S hi I
      have h1 : i < S.idl.length := by rw [I.idl_len]; omega
      have h2 : i < S.idr.length := by rw [I.idr_len]; omega
      refine ⟨{ S with idl := S.idl.set i (i * 2 + 1), idr := S.idr.set i (i * 2 + 2) }, ?_,
        I.n_eq, I.N_eq, I.base_eq, I.nodes_eq, ?_, ?_, ?_, ?_⟩
      · simp only [Util.wr_ok _ _ _ h1, Util.wr_ok _ _ _ h2, bind, Except.bind, pure,
          Except.pure]
      · simp only [List.length_set]; exact I.idl_len
      · simp only [List.length_set]; exact I.idr_len
      · intro j hj
        show (S.idl.set i _).getD j 0 = _
        rw [Util.getD_set]
        by_cases e : i = j
        · subst e; rw [if_pos ⟨rfl, h1⟩]; ring
        · rw [if_neg (fun c => e c.1)]; exact I.idl j (by omega)
      · intro j hj
        show (S.idr.set i _).getD j 0 = _
        rw [Util.getD_set]
        by_cases e : i = j
        · subst e; rw [if_pos ⟨rfl, h2⟩]; ring
        · rw [if_neg (fun c => e c.1)]; exact I.idr j (by omega))
  have hsz2 : 0 ≤ T2.base + T2.N := by rw [I2.base_eq, I2.N_eq]; exact hsz
  obtain ⟨c0, rc, lc⟩ := Util.resize_spec T2.cover_size (T2.base + T2.N) 0 hsz2
  rw [I2.base_eq, I2.N_eq] at lc
  -- the second loop
  obtain ⟨T4, run4, I4⟩ := Util.loop_inv (fun _ => Init2 T2 (T.base + T.N).toNat)
    (fun i (S : SegTreeMax) => do
      let cs ← Util.wr S.cover_size (S.base + i) 1
      pure { S with cover_size := cs })
    T2.n.toNat { T2 with cover_size := c0 } ⟨rfl, rfl, rfl, rfl, rfl, rfl, lc⟩
    (by
      intro i S hi I
      have hi2 : (i : Int) < T.n := by rw [I2.n_eq] at hi; omega
      have e : S.base + (i : Int) = ((T.base.toNat + i : Nat) : Int) := by
        rw [I.base_eq, I2.base_eq]; push_cast; omega
      have h1 : T.base.toNat + i < S.cover_size.length := by rw [I.cs_len]; omega
      refine ⟨{ S with cover_size := S.cover_size.set (T.base.toNat + i) 1 }, ?_,
        I.n_eq, I.N_eq, I.base_eq, I.nodes_eq, I.idl_eq, I.idr_eq, ?_⟩
      · simp only [e, Util.wr_ok _ _ _ h1, bind, Except.bind, pure, Except.pure]
      · simp only [List.length_set]; exact I.cs_len)
  -- the third loop
  obtain ⟨T5, run5, I5⟩ := Util.loopr_inv (fun _ => Init2 T2 (T.base + T.N).toNat)
    (fun i (S : SegTreeMax) => do
      let il ← Util.rd S.idl i
      let a ← Util.rd S.cover_size il
      let ir ← Util.rd S.idr i
      let b ← Util.rd S.cover_size ir
      let cs ← Util.wr S.cover_size i (a + b)
      pure { S with cover_size := cs })
    T4.base.toNat T4 I4
    (by
      intro i S hi I
      have hi2 : (i : Int) < T.base := by rw [I4.base_eq, I2.base_eq] at hi; omega
      have hil : Util.rd S.idl i = .ok (((2 * i + 1 : Nat) : Int)) := by
        rw [I.idl_eq, Util.rd_getD T2.idl i 0 (by rw [I2.idl_len]; omega), I2.idl i (by omega)]
        push_cast; rfl
      have hir : Util.rd S.idr i = .ok (((2 * i + 2 : Nat) : Int)) := by
        rw [I.idr_eq, Util.rd_getD T2.idr i 0 (by rw [I2.idr_len]; omega), I2.idr i (by omega)]
        push_cast; rfl
      have h1 : 2 * i + 1 < S.cover_size.length := by rw [I.cs_len]; omega
      have h2 : 2 * i + 2 < S.cover_size.length := by rw [I.cs_len]; omega
      have h3 : i < S.cover_size.length := by omega
      refine ⟨S.setCover (S.cover_size.set i
          (S.cover_size.getD (2 * i + 1) 0 + S.cover_size.getD (2 * i + 2) 0)), ?_,
        I.n_eq, I.N_eq, I.base_eq, I.nodes_eq, I.idl_eq, I.idr_eq, ?_⟩
      · simp only [hil, hir, Util.rd_getD _ _ 0 h1, Util.rd_getD _ _ 0 h2,
          Util.wr_ok _ _ _ h3, bind, Except.bind, pure, Except.pure, setCover]
      · simp only [setCover, List.length_set]; exact I.cs_len)
  refine ⟨T5, ?_, ?_, ?_, ?_⟩
  · unfold common_init
    simp only [rl, rr, Util.ok_bind, run2, rc, run4, run5]
  · rw [I5.n_eq, I2.n_eq]
  · rw [I5.nodes_eq, I2.nodes_eq]
  · refine ⟨?_, ?_, ?_, ?_, ?_⟩
    · rw [I5.N_eq, I2.N_eq]; exact hN
    · rw [I5.base_eq, I2.base_eq]; exact hb
    · rw [I5.nodes_eq, I2.nodes_eq]; exact hlen
    · intro id hid
      rw [I5.base_eq, I2.base_eq] at hid
      rw [I5.idl_eq, Util.rd_getD T2.idl id 0 (by rw [I2.idl_len]; omega),
        I2.idl id (by omega)]
    · intro id hid
      rw [I5.base_eq, I2.base_eq] at hid
      rw [I5.idr_eq, Util.rd_getD T2.idr id 0 (by rw [I2.idr_len]; omega),
        I2.idr id (by omega)]

theorem nv_replicate (len j : Nat) (x : segval_t) (h : j < len) :
    nv (List.replicate len x) j = x := by
  unfold nv
  rw [List.getD_eq_getElem?_getD, List.getElem?_replicate, if_pos h]
  rfl

/-- Every index before `base` is an inner node of some height. -/
theorem lvl_exists {k id : Nat} (h : id + 1 < 2 ^ k) : ∃ h1, Lvl k (h1 + 1) id := by
  have h1 : 2 ^ Nat.log 2 (id + 1) ≤ id + 1 := Nat.pow_log_le_self 2 (by omega)
  have h2 : id + 1 < 2 ^ (Nat.log 2 (id + 1) + 1) := Nat.lt_pow_succ_log_self (by decide) _
  have h3 : Nat.log 2 (id + 1) < k := by
    by_contra c
    have : 2 ^ k ≤ 2 ^ Nat.log 2 (id + 1) := Nat.pow_le_pow_right (by decide) (by omega)
    omega
  exact ⟨k - Nat.log 2 (id + 1) - 1, Nat.log 2 (id + 1), by omega, h1, h2⟩

/-- A tree whose inner nodes all have an up to date field `max` is good. -/
theorem good_of_loc {T : SegTreeMax} {k : Nat} (S : Static T k)
    (hl : ∀ j : Nat, (j : Int) < T.base →
      if (nv T.nodes j).enable then (nv T.nodes j).max = (nv T.nodes j).upd
      else (nv T.nodes j).max =
        Max.max ((nv T.nodes (2 * j + 1)).max + (nv T.nodes (2 * j + 1)).add)
          ((nv T.nodes (2 * j + 2)).max + (nv T.nodes (2 * j + 2)).add)) :
    ∀ h id, Lvl k h id → Good T.nodes h id := by
  intro h
  induction h with
  | zero => intro id _; rw [Good]; trivial
  | succ h ih =>
    intro id L
    rw [Good]
    exact ⟨hl id (lvl_inner S L).1, ih _ (lvl_left L), ih _ (lvl_right L)⟩

/-- In a tree without pending changes at its inner nodes a subtree stands
for the values at its leaves. -/
theorem den_plain {T : SegTreeMax} {k : Nat} (S : Static T k)
    (hf : ∀ j : Nat, (j : Int) < T.base →
      (nv T.nodes j).enable = false ∧ (nv T.nodes j).add = 0) :
    ∀ h id (l i : Int), Lvl k h id → l ≤ i → i < l + 2 ^ h →
      den T.nodes h id l i =
        (nv T.nodes ((id + 1) * 2 ^ h - 1 + (i - l).toNat)).max +
          (nv T.nodes ((id + 1) * 2 ^ h - 1 + (i - l).toNat)).add := by
  intro h
  induction h with
  | zero =>
    intro id l i _ h1 h2
    have e : (id + 1) * 2 ^ 0 - 1 + (i - l).toNat = id := by
      simp at h2 ⊢; omega
    rw [den, e]
  | succ h ih =>
    intro id l i L h1 h2
    obtain ⟨he, ha⟩ := hf id (lvl_inner S L).1
    have hp := pow_pos_int h
    have hs := pow_succ_int h
    have hc : ((2 ^ h : Nat) : Int) = 2 ^ h := by push_cast; rfl
    have hq : 0 < 2 ^ h := Nat.pow_pos (by decide)
    have e1 : (2 * id + 1 + 1) * 2 ^ h = (id + 1) * 2 ^ (h + 1) := by ring
    have e2 : (2 * id + 2 + 1) * 2 ^ h = (id + 1) * 2 ^ (h + 1) + 2 ^ h := by ring
    rw [den, he, ha]
    simp only [Bool.false_eq_true, if_false, add_zero]
    by_cases c : i < l + 2 ^ h
    · rw [if_pos c, ih _ l i (lvl_left L) h1 c, e1]
    · rw [if_neg c, ih _ (l + 2 ^ h) i (lvl_right L) (by omega) (by omega), e2]
      have e3 : (id + 1) * 2 ^ (h + 1) + 2 ^ h - 1 + (i - (l + 2 ^ h)).toNat =
          (id + 1) * 2 ^ (h + 1) - 1 + (i - l).toNat := by
        have : 0 < (id + 1) * 2 ^ (h + 1) := Nat.mul_pos (by omega) (Nat.pow_pos (by decide))
        generalize (id + 1) * 2 ^ (h + 1) = A at this ⊢
        generalize (2 : Nat) ^ h = P at hc hq ⊢
        generalize (2 : Int) ^ h = Q at hc hp c h2 hs ⊢
        omega
      rw [e3]

/-- The members that the constructors set before `common_init`. -/
theorem blank_spec (ceillog2 : Int → Nat) (n : Int) :
    (blank ceillog2 n).n = n ∧ (blank ceillog2 n).N = 2 ^ ceillog2 n ∧
      (blank ceillog2 n).base = 2 ^ ceillog2 n - 1 ∧
      ((blank ceillog2 n).nodes.length : Int) = 2 ^ ceillog2 n - 1 + 2 ^ ceillog2 n ∧
      ∀ j : Nat, j < (blank ceillog2 n).nodes.length →
        nv (blank ceillog2 n).nodes j = blankNode := by
  have hp := pow_pos_int (ceillog2 n)
  refine ⟨rfl, rfl, rfl, ?_, ?_⟩
  · simp only [blank, List.length_replicate]
    omega
  · intro j hj
    simp only [blank, List.length_replicate] at hj
    simp only [blank]
    exact nv_replicate _ _ _ hj

/-- The object after `common_init` in a constructor. -/
theorem init_spec (ceillog2 : Int → Nat) (n : Int) (hn0 : 0 ≤ n) (hn : n ≤ 2 ^ ceillog2 n) :
    ∃ T, (blank ceillog2 n).common_init = .ok T ∧ T.n = n ∧ Static T (ceillog2 n) ∧
      ∀ j : Nat, j < T.nodes.length → nv T.nodes j = blankNode := by
  obtain ⟨b1, b2, b3, b4, b5⟩ := blank_spec ceillog2 n
  obtain ⟨T, r, e1, e2, S⟩ := common_init_spec (T := blank ceillog2 n) b2 b3
    (by rw [b1]; exact hn0) (by rw [b1]; exact hn) b4
  refine ⟨T, r, by rw [e1, b1], S, ?_⟩
  rw [e2]
  exact b5

theorem getD_mapIdx (a : List Int) (f : Nat → Int → Int) (i : Nat) (h : i < a.length) :
    (a.mapIdx f).getD i 0 = f i (a.getD i 0) := by
  rw [List.getD_eq_getElem?_getD, List.getD_eq_getElem?_getD, List.getElem?_mapIdx,
    List.getElem?_eq_getElem h]
  rfl

theorem arrUpd_spec (a : List Int) (s t x : Int) :
    (arrUpd a s t x).length = a.length ∧ ∀ i : Nat, i < a.length →
      (arrUpd a s t x).getD i 0 = applyOp .UPD x s t i (a.getD i 0) :=
  ⟨List.length_mapIdx, fun i h => getD_mapIdx a _ i h⟩

theorem arrAdd_spec (a : List Int) (s t x : Int) :
    (arrAdd a s t x).length = a.length ∧ ∀ i : Nat, i < a.length →
      (arrAdd a s t x).getD i 0 = applyOp .ADD x s t i (a.getD i 0) :=
  ⟨List.length_mapIdx, fun i h => getD_mapIdx a _ i h⟩

theorem foldl_max_spec : ∀ (xs : List Int) (x : Int),
    xs.foldl Max.max x ∈ x :: xs ∧ ∀ y ∈ x :: xs, y ≤ xs.foldl Max.max x := by
  intro xs
  induction xs with
  | nil => intro x; simp
  | cons z xs ih =>
    intro x
    obtain ⟨h1, h2⟩ := ih (Max.max x z)
    rw [List.foldl_cons]
    constructor
    · rcases List.mem_cons.mp h1 with e | e
      · rw [e]
        rcases max_choice x z with c | c
        · rw [c]; exact List.mem_cons_self _ _
        · rw [c]; exact List.mem_cons_of_mem _ (List.mem_cons_self _ _)
      · exact List.mem_cons_of_mem _ (List.mem_cons_of_mem _ e)
    · intro y hy
      have hm := h2 _ (List.mem_cons_self _ _)
      rcases List.mem_cons.mp hy with e | e
      · rw [e]; exact le_trans (le_max_left _ _) hm
      · rcases List.mem_cons.mp e with e | e
        · rw [e]; exact le_trans (le_max_right _ _) hm
        · exact h2 y (List.mem_cons_of_mem _ e)

/-- The function `arrMax` gives the maximum of the array over `[s, t)`. -/
theorem arrMax_spec (a : List Int) (s t : Int) (h0 : 0 ≤ s) (h1 : s < t)
    (h2 : t ≤ a.length) : IsMax (fun i => a.getD i.toNat 0) s t (arrMax a s t) := by
  have hg : ∀ j : Nat, j < (t - s).toNat →
      ((a.drop s.toNat).take (t - s).toNat)[j]? = some (a.getD (s.toNat + j) 0) := by
    intro j hj
    rw [List.getElem?_take, if_pos hj, List.getElem?_drop,
      List.getElem?_eq_getElem (by omega), List.getD_eq_getElem a 0 (by omega)]
  have hl : ((a.drop s.toNat).take (t - s).toNat).length = (t - s).toNat := by
    simp only [List.length_take, List.length_drop]
    omega
  unfold arrMax
  rw [if_neg (by omega)]
  cases hsl : (a.drop s.toNat).take (t - s).toNat with
  | nil => rw [hsl] at hl; simp at hl; omega
  | cons x xs =>
    obtain ⟨m1, m2⟩ := foldl_max_spec xs x
    rw [← hsl] at m1 m2
    constructor
    · obtain ⟨j, hj, e⟩ := List.getElem_of_mem m1
      rw [hl] at hj
      have := hg j hj
      rw [List.getElem?_eq_getElem (by omega)] at this
      injection this with this
      rw [e] at this
      refine ⟨s + j, by omega, by omega, ?_⟩
      show a.getD (s + j).toNat 0 = _
      rw [show (s + j).toNat = s.toNat + j by omega]
      exact this.symm
    · intro i hi1 hi2
      apply m2
      have hj : (i - s).toNat < (t - s).toNat := by omega
      have := hg _ hj
      rw [show s.toNat + (i - s).toNat = i.toNat by omega] at this
      exact List.mem_iff_getElem?.mpr ⟨_, this⟩

theorem rep_congr {T : SegTreeMax} {a b : List Int} (R : Rep T a) (hl : b.length = a.length)
    (hv : ∀ i : Nat, i < a.length → b.getD i 0 = a.getD i 0) : Rep T b := by
  obtain ⟨k, S, G, hn, hk, hd⟩ := R
  refine ⟨k, S, G, by rw [hl]; exact hn, by rw [hl]; exact hk, ?_⟩
  intro i hi
  rw [hl] at hi
  rw [hv i hi]
  exact hd i hi

theorem fuel_ok {T : SegTreeMax} {k : Nat} (S : Static T k) : k < fuelOf T := by
  unfold fuelOf
  have h1 := Nat.lt_two_pow k
  have h2 : T.N.toNat = 2 ^ k := by
    rw [S.N_eq]
    have : ((2 ^ k : Nat) : Int) = 2 ^ k := by push_cast; rfl
    omega
  omega

/-- A change of a non-empty range within the array. -/
theorem change_rep {T : SegTreeMax} {a b : List Int} (R : Rep T a) (s t x : Int)
    (op : change_t) (h0 : 0 ≤ s) (h1 : s < t) (h2 : t ≤ a.length)
    (hl : b.length = a.length)
    (hv : ∀ i : Nat, i < a.length → b.getD i 0 = applyOp op x s t i (a.getD i 0)) :
    ∃ T1, change_rec (fuelOf T) T s t 0 T.N 0 x op = .ok T1 ∧ Rep T1 b := by
  obtain ⟨k, S, G, hn, hk, hd⟩ := R
  obtain ⟨T1, r, F, _, G1, d1⟩ := change_rec_spec k (fuelOf T) T 0 0 s t x op S (lvl_root k)
    (fuel_ok S) h0 h1 (by omega) G
  have hp := pow_pos_int k
  refine ⟨T1, ?_, k, static_frame S F, G1, by rw [F.n_eq, hl]; exact hn,
    by rw [hl]; exact hk, ?_⟩
  · rw [S.N_eq]
    rw [zero_add, Nat.cast_zero] at r
    exact r
  · intro i hi
    rw [hl] at hi
    rw [d1 i (by omega) (by omega), hd i hi, hv i hi]

/-- A query of a non-empty range within the array. -/
theorem solve_rep {T : SegTreeMax} {a : List Int} (R : Rep T a) (s t : Int)
    (h0 : 0 ≤ s) (h1 : s < t) (h2 : t ≤ a.length) :
    ∃ T1, solve_rec (fuelOf T) T s t 0 T.N 0 = .ok (T1, arrMax a s t) ∧ Rep T1 a := by
  obtain ⟨k, S, G, hn, hk, hd⟩ := R
  obtain ⟨T1, v, r, F, _, G1, d1, m⟩ := solve_rec_spec k (fuelOf T) T 0 0 s t S (lvl_root k)
    (fuel_ok S) h0 h1 (by omega) G
  have hv : v = arrMax a s t := by
    refine IsMax.unique (m.congr_on ?_) (arrMax_spec a s t h0 h1 h2)
    intro i hi1 hi2
    have := hd i.toNat (by omega)
    rw [show ((i.toNat : Nat) : Int) = i by omega] at this
    exact this.symm
  subst hv
  refine ⟨T1, ?_, k, static_frame S F, G1, by rw [F.n_eq]; exact hn, hk, ?_⟩
  · rw [S.N_eq]
    rw [zero_add, Nat.cast_zero] at r
    exact r
  · intro i hi
    rw [d1, hd i hi]

/-- A call on an object that stands for the array `a` returns what the call
on `a` returns, and the object then stands for the array after the call. -/
theorem exec_rep {T : SegTreeMax} {a : List Int} (R : Rep T a) (c : Call)
    (hc : c.ok a.length) :
    ∃ T1, exec T c = .ok (T1, (arrExec a c).2) ∧ Rep T1 (arrExec a c).1 := by
  cases c with
  | upd s t x =>
    obtain ⟨l1, v1⟩ := arrUpd_spec a s t x
    rcases hc with h | ⟨h0, h1, h2⟩
    · refine ⟨T, ?_, rep_congr R l1 (fun i hi => by
        show (arrUpd a s t x).getD i 0 = _
        rw [v1 i hi, applyOp_out (by omega)])⟩
      simp only [exec, SegTreeMax.upd, ge_iff_le, h, if_true]
      rfl
    · obtain ⟨T1, r, R1⟩ := change_rep R s t x .UPD h0 h1 h2 l1 v1
      refine ⟨T1, ?_, R1⟩
      simp only [exec, SegTreeMax.upd, ge_iff_le, not_le.mpr h1, if_false, r]
      rfl
  | add s t x =>
    obtain ⟨l1, v1⟩ := arrAdd_spec a s t x
    rcases hc with h | ⟨h0, h1, h2⟩
    · refine ⟨T, ?_, rep_congr R l1 (fun i hi => by
        show (arrAdd a s t x).getD i 0 = _
        rw [v1 i hi, applyOp_out (by omega)])⟩
      simp only [exec, SegTreeMax.add, ge_iff_le, h, if_true]
      rfl
    · obtain ⟨T1, r, R1⟩ := change_rep R s t x .ADD h0 h1 h2 l1 v1
      refine ⟨T1, ?_, R1⟩
      simp only [exec, SegTreeMax.add, ge_iff_le, not_le.mpr h1, if_false, r]
      rfl
  | maxof s t =>
    rcases hc with h | ⟨h0, h1, h2⟩
    · refine ⟨T, ?_, R⟩
      simp only [exec, SegTreeMax.maxof, arrExec, arrMax, ge_iff_le, h, if_true]
      rfl
    · obtain ⟨T1, r, R1⟩ := solve_rep R s t h0 h1 h2
      refine ⟨T1, ?_, R1⟩
      simp only [exec, SegTreeMax.maxof, ge_iff_le, not_le.mpr h1, if_false, r]
      rfl

theorem arrExec_length (a : List Int) (c : Call) : (arrExec a c).1.length = a.length := by
  cases c with
  | upd s t x => exact (arrUpd_spec a s t x).1
  | add s t x => exact (arrAdd_spec a s t x).1
  | maxof s t => rfl

/-- A sequence of calls on an object that stands for the array `a` returns
what the calls on `a` return. -/
theorem run_rep : ∀ (cs : List Call) (T : SegTreeMax) (a : List Int), Rep T a →
    (∀ c ∈ cs, c.ok a.length) →
    ∃ T1, run T cs = .ok (T1, (arrRun a cs).2) ∧ Rep T1 (arrRun a cs).1 := by
  intro cs
  induction cs with
  | nil => intro T a R _; exact ⟨T, rfl, R⟩
  | cons c cs ih =>
    intro T a R hc
    obtain ⟨T1, r1, R1⟩ := exec_rep R c (hc c (List.mem_cons_self _ _))
    obtain ⟨T2, r2, R2⟩ := ih T1 _ R1 (fun d hd => by
      rw [arrExec_length]
      exact hc d (List.mem_cons_of_mem _ hd))
    refine ⟨T2, ?_, R2⟩
    rw [run]
    simp only [r1, Util.ok_bind, r2]
    rfl

/-- The tree after `common_init` is good. -/
theorem blank_good {T : SegTreeMax} {k : Nat} (S : Static T k)
    (hb : ∀ j : Nat, j < T.nodes.length → nv T.nodes j = blankNode) : Good T.nodes k 0 := by
  refine good_of_loc S ?_ k 0 (lvl_root k)
  intro j hj
  have hlen := S.nodes_len
  have hbe := S.base_eq
  have hp := pow_pos_int k
  rw [hb j (by omega), hb (2 * j + 1) (by omega), hb (2 * j + 2) (by omega)]
  simp [blankNode]

/-- The constructor `SegTreeMax(n, init)` returns an object that stands for
the array of `n` copies of `init`. -/
theorem mk_fill_rep (ceillog2 : Int → Nat) (n init : Int) (hn : 1 ≤ n)
    (hc : n ≤ 2 ^ ceillog2 n) :
    ∃ T, mk_fill ceillog2 n init = .ok T ∧ Rep T (List.replicate n.toNat init) := by
  obtain ⟨T0, r0, e0, S, hb⟩ := init_spec ceillog2 n (by omega) hc
  have G := blank_good S hb
  obtain ⟨T1, r, F, _, G1, d1⟩ := change_rec_spec (ceillog2 n) (fuelOf T0) T0 0 0 0 n init .UPD S
    (lvl_root _) (fuel_ok S) (le_refl _) (by omega) (by omega) G
  have hlen : ((List.replicate n.toNat init).length : Int) = n := by
    rw [List.length_replicate]; omega
  refine ⟨T1, ?_, ceillog2 n, static_frame S F, G1, by rw [F.n_eq, e0, hlen],
    by rw [hlen]; exact hc, ?_⟩
  · rw [zero_add, Nat.cast_zero, ← S.N_eq] at r
    unfold mk_fill
    simp only [r0, Util.ok_bind, SegTreeMax.upd, ge_iff_le, e0]
    rw [if_neg (by omega)]
    exact r
  · intro i hi
    rw [List.length_replicate] at hi
    rw [d1 i (by omega) (by omega), applyOp_in (by omega) (by omega),
      List.getD_eq_getElem _ 0 (by rw [List.length_replicate]; exact hi), List.getElem_replicate]

/-- The constructor `SegTreeMax(a)` returns an object that stands for the
array `a`. -/
theorem mk_of_rep (ceillog2 : Int → Nat) (a : List Int)
    (hc : (a.length : Int) ≤ 2 ^ ceillog2 a.length) :
    ∃ T, mk_of ceillog2 a = .ok T ∧ Rep T a := by
  obtain ⟨T0, r0, e0, S, hb⟩ := init_spec ceillog2 a.length (by omega) hc
  generalize ceillog2 (a.length : Int) = k at hc S
  have hp := pow_pos_int k
  have hlen := S.nodes_len
  have hbe := S.base_eq
  have hpc : ((2 ^ k : Nat) : Int) = 2 ^ k := by push_cast; rfl
  have hq : 0 < 2 ^ k := Nat.pow_pos (by decide)
  have hbn : T0.base = ((2 ^ k - 1 : Nat) : Int) := by omega
  -- the leaves
  obtain ⟨T1, r1, I1⟩ := Util.loop_inv (Leaves T0 a (2 ^ k - 1))
    (fun i (S : SegTreeMax) => do
      let x ← Util.rd a i
      let nodes ← Util.wr S.nodes (S.base + i) { enable := true, upd := x, add := 0, max := x }
      pure { S with nodes := nodes })
    T0.n.toNat T0 ⟨frame_refl T0, rfl, fun j h1 h2 => by omega, fun j hj _ => hb j hj⟩
    (by
      intro i X hi I
      have hi2 : i < a.length := by omega
      have e : X.base + (i : Int) = ((2 ^ k - 1 + i : Nat) : Int) := by
        rw [I.frame.base_eq]; omega
      have hw : 2 ^ k - 1 + i < X.nodes.length := by rw [I.frame.len_eq]; omega
      obtain ⟨n1, w1, l1, v1⟩ := wr_spec X.nodes (2 ^ k - 1 + i) (assigned (a.getD i 0)) hw
      simp only [assigned] at w1
      refine ⟨X.setNodes n1, ?_, ?_, I.cover, ?_, ?_⟩
      · simp only [Util.rd_getD a i 0 hi2, Util.ok_bind, e, w1]
        rfl
      · exact frame_trans I.frame (frame_set X l1)
      · intro j h1 h2
        show nv n1 j = _
        rw [v1]
        by_cases c : j = 2 ^ k - 1 + i
        · rw [if_pos c, show j - (2 ^ k - 1) = i by omega]
        · rw [if_neg c]; exact I.at_leaf j h1 (by omega)
      · intro j h1 h2
        show nv n1 j = _
        have h3 : j < X.nodes.length := by
          have : (X.setNodes n1).nodes.length = X.nodes.length := l1
          omega
        rw [v1, if_neg (by omega)]
        exact I.other j h3 (by omega))
  have S1 := static_frame S I1.frame
  have hn1 : T0.n.toNat = a.length := by omega
  -- the inner nodes
  obtain ⟨T2, r2, I2⟩ := Util.loopr_inv (Merged T1 (2 ^ k - 1))
    (fun i (S : SegTreeMax) => S.merge i) T1.base.toNat T1
    ⟨frame_refl T1, fun _ _ => rfl, fun j hj => I1.other j
      (by rw [I1.frame.base_eq] at hj; rw [I1.frame.len_eq]; omega) (by
        rw [I1.frame.base_eq] at hj; omega),
      fun j h1 h2 => by rw [I1.frame.base_eq] at h1; omega⟩
    (by
      intro i X hi I
      rw [I1.frame.base_eq] at hi
      have SX := static_frame S1 I.frame
      obtain ⟨h1, L⟩ := @lvl_exists k i (by omega)
      obtain ⟨X1, m1, F1, v1⟩ := merge_spec SX L
      refine ⟨X1, m1, frame_trans I.frame F1, ?_, ?_, ?_⟩
      · intro j hj
        rw [v1, if_neg (by omega)]
        exact I.leaf j hj
      · intro j hj
        rw [v1, if_neg (by omega)]
        exact I.before j (by omega)
      · intro j hj1 hj2
        rw [v1 (2 * j + 1), v1 (2 * j + 2), if_neg (by omega : ¬ 2 * j + 1 = i),
          if_neg (by omega : ¬ 2 * j + 2 = i), v1 j]
        by_cases c : j = i
        · rw [if_pos c, c, I.before i (by omega)]
        · rw [if_neg c]
          exact I.inner j (by omega) hj2)
  have S2 := static_frame S1 I2.frame
  have hflat : ∀ j : Nat, (j : Int) < T2.base →
      (nv T2.nodes j).enable = false ∧ (nv T2.nodes j).add = 0 := by
    intro j hj
    rw [S2.base_eq] at hj
    rw [I2.inner j (by omega) (by omega)]
    exact ⟨rfl, rfl⟩
  refine ⟨T2, ?_, k, S2, ?_, by rw [I2.frame.n_eq, I1.frame.n_eq, e0], hc, ?_⟩
  · unfold mk_of
    simp only [r0, Util.ok_bind, r1, r2]
  · refine good_of_loc S2 ?_ k 0 (lvl_root k)
    intro j hj
    rw [S2.base_eq] at hj
    rw [I2.inner j (by omega) (by omega)]
    simp [merged, blankNode]
  · intro i hi
    rw [den_plain S2 hflat k 0 0 i (lvl_root k) (by omega) (by omega)]
    have e : (0 + 1) * 2 ^ k - 1 + ((i : Int) - 0).toNat = 2 ^ k - 1 + i := by
      simp
    rw [e, I2.leaf _ (by omega), I1.at_leaf _ (by omega) (by omega)]
    simp [assigned]

/-- C14: the lazy segment tree refines a plain array.  For a function
`ceillog2` with `n ≤ 2 ^ ceillog2 n` at the size of the array, the object of
either constructor (`SegTreeMax(a)` for the array `a`, `SegTreeMax(n, init)`
with `1 ≤ n` for `n` copies of `init`) runs every finite sequence of calls of
`upd`, `add` and `maxof` whose ranges are empty or lie in `[0, n)`, and the
values that the calls of `maxof` return are those of the same calls on the
array, where `upd` assigns `x` to and `add` adds `x` to every index in
`[s, t)` and `maxof` gives the maximum over `[s, t)`.  A call with `s ≥ t`
leaves the object as it is, and `maxof` then returns `LLONG_MIN`.  The
values are integers, so that nothing overflows. -/
theorem C14_refines_array (ceillog2 : Int → Nat) (a : List Int) (n init : Int)
    (cs : List Call) :
    ((a.length : Int) ≤ 2 ^ ceillog2 a.length → (∀ c ∈ cs, c.ok a.length) →
      ∃ T T1, mk_of ceillog2 a = .ok T ∧ run T cs = .ok (T1, (arrRun a cs).2)) ∧
    (1 ≤ n → n ≤ 2 ^ ceillog2 n → (∀ c ∈ cs, c.ok n) →
      ∃ T T1, mk_fill ceillog2 n init = .ok T ∧
        run T cs = .ok (T1, (arrRun (List.replicate n.toNat init) cs).2)) ∧
    (∀ (T : SegTreeMax) (s t x : Int), t ≤ s →
      T.upd s t x = .ok T ∧ T.add s t x = .ok T ∧ T.maxof s t = .ok (T, LLONG_MIN)) ∧
    (∀ (b : List Int) (s t : Int), 0 ≤ s → s < t → t ≤ b.length →
      IsMax (fun i => b.getD i.toNat 0) s t (arrMax b s t)) := by
  refine ⟨?_, ?_, ?_, ?_⟩
  · intro hc hcs
    obtain ⟨T, r, R⟩ := mk_of_rep ceillog2 a hc
    obtain ⟨T1, r1, _⟩ := run_rep cs T a R hcs
    exact ⟨T, T1, r, r1⟩
  · intro hn hc hcs
    obtain ⟨T, r, R⟩ := mk_fill_rep ceillog2 n init hn hc
    obtain ⟨T1, r1, _⟩ := run_rep cs T _ R (by
      rw [List.length_replicate, show ((n.toNat : Nat) : Int) = n by omega]
      exact hcs)
    exact ⟨T, T1, r, r1⟩
  · intro T s t x h
    refine ⟨?_, ?_, ?_⟩
    · simp only [SegTreeMax.upd, ge_iff_le, h, if_true]; rfl
    · simp only [SegTreeMax.add, ge_iff_le, h, if_true]; rfl
    · simp only [SegTreeMax.maxof, ge_iff_le, h, if_true]; rfl
  · intro b s t h0 h1 h2
    exact arrMax_spec b s t h0 h1 h2

/-- The array `[3, 1, 4, 1, 5]` with the calls `maxof(0, 5)`, `add(1, 3, 10)`,
`maxof(0, 2)`, `upd(2, 5, 7)`, `maxof(2, 2)`, `maxof(1, 5)`, `maxof(3, 4)`. -/
theorem C14_witness :
    ∃ T T1, mk_of leastLog [3, 1, 4, 1, 5] = .ok T ∧
      run T [.maxof 0 5, .add 1 3 10, .maxof 0 2, .upd 2 5 7, .maxof 2 2, .maxof 1 5,
        .maxof 3 4] = .ok (T1, [5, 11, LLONG_MIN, 11, 7]) :=
  (C14_refines_array leastLog [3, 1, 4, 1, 5] 1 0
    [.maxof 0 5, .add 1 3 10, .maxof 0 2, .upd 2 5 7, .maxof 2 2, .maxof 1 5,
      .maxof 3 4]).1 (by decide) (by decide)

end SegTreeMax

namespace TreeSimple

/-- In a tree the paths to a vertex `r` can be chosen at once for all
vertices, and every edge joins a vertex to the next vertex of its path. -/
theorem tree_paths {V : Type} {G : SimpleGraph V} (hT : G.IsTree) (r : V) :
    ∃ P : ∀ v, G.Walk v r, (∀ v, (P v).IsPath) ∧ (∀ v (q : G.Walk v r), q.IsPath → q = P v) ∧
      ∀ v u (h : G.Adj v u), P v = SimpleGraph.Walk.cons h (P u) ∨
        P u = SimpleGraph.Walk.cons h.symm (P v) := by
  classical
  have ex := fun v => hT.existsUnique_path v r
  refine ⟨fun v => (ex v).choose, fun v => (ex v).choose_spec.1,
    fun v q hq => (ex v).choose_spec.2 q hq, ?_⟩
  intro v u h
  have hv := (ex v).choose_spec
  have hu := (ex u).choose_spec
  by_cases hm : u ∈ ((ex v).choose).support
  · left
    have hq := hv.1.dropUntil hm
    have hs := congrArg SimpleGraph.Walk.support (((ex v).choose).take_spec hm)
    rw [SimpleGraph.Walk.support_append] at hs
    have hnd := hv.1.support_nodup
    rw [← hs] at hnd
    have hvq : v ∉ (((ex v).choose).dropUntil u hm).support := by
      intro c
      rw [SimpleGraph.Walk.support_eq_cons] at c
      rcases List.mem_cons.mp c with c | c
      · exact h.ne c
      · exact (List.disjoint_of_nodup_append hnd) (SimpleGraph.Walk.start_mem_support _) c
    have hp : (SimpleGraph.Walk.cons h (((ex v).choose).dropUntil u hm)).IsPath :=
      (SimpleGraph.Walk.cons_isPath_iff h _).mpr ⟨hq, hvq⟩
    show (ex v).choose = SimpleGraph.Walk.cons h (ex u).choose
    rw [← hu.2 _ hq]
    exact (hv.2 _ hp).symm
  · right
    have hp : (SimpleGraph.Walk.cons h.symm ((ex v).choose)).IsPath :=
      (SimpleGraph.Walk.cons_isPath_iff h.symm _).mpr ⟨hv.1, hm⟩
    show (ex u).choose = SimpleGraph.Walk.cons h.symm (ex v).choose
    exact (hu.2 _ hp).symm

theorem desc_inv {par : Nat → Nat} {root v u : Nat} (D : Desc par root v u) :
    u = v ∨ (u ≠ root ∧ Desc par root v (par u)) := by
  cases D with
  | self => exact Or.inl rfl
  | step h D1 => exact Or.inr ⟨h, D1⟩

/-- The graph of a tree has a rooted form for every root; the depth of a
vertex is the length of its path to the root, its parent is the next vertex
of that path, and its subtree consists of the vertices whose path to the root
goes through it. -/
theorem rooted_of_tree {T : tree_t} (hi : IsTreeInput T) {root : Nat}
    (hr : root < T.n.toNat) :
    ∃ d par, Rooted T root d par ∧
      ∀ (v : Fin T.n.toNat) (p : (graphOf T).Walk v ⟨root, hr⟩), p.IsPath →
        p.length = d v ∧ ((v : Nat) ≠ root → ((p.getVert 1 : Fin T.n.toNat) : Nat) = par v) ∧
        ∀ w : Fin T.n.toNat, w ∈ p.support ↔ Desc par root w v := by
  obtain ⟨P, hP, huniq, hedge⟩ := tree_paths hi.tree ⟨root, hr⟩
  let d : Nat → Nat := fun v => if h : v < T.n.toNat then (P ⟨v, h⟩).length else 0
  let par : Nat → Nat := fun v =>
    if h : v < T.n.toNat then ((P ⟨v, h⟩).getVert 1 : Fin T.n.toNat) else 0
  have hd : ∀ v : Fin T.n.toNat, d v = (P v).length := fun v => dif_pos v.2
  have hpar : ∀ v : Fin T.n.toNat, par v = ((P v).getVert 1 : Fin T.n.toNat) :=
    fun v => dif_pos v.2
  have hnil : P ⟨root, hr⟩ = SimpleGraph.Walk.nil :=
    (huniq _ _ SimpleGraph.Walk.IsPath.nil).symm
  -- the path of a vertex other than the root
  have hcons : ∀ v : Fin T.n.toNat, (v : Nat) ≠ root →
      ∃ (u : Fin T.n.toNat) (h : (graphOf T).Adj v u), P v = SimpleGraph.Walk.cons h (P u) := by
    intro v hv
    have hne : v ≠ ⟨root, hr⟩ := fun e => hv (congrArg Fin.val e)
    obtain ⟨u, h, q, e⟩ := SimpleGraph.Walk.exists_eq_cons_of_ne hne (P v)
    have hq : q.IsPath := by
      have := hP v
      rw [e] at this
      exact this.of_cons
    rw [huniq u q hq] at e
    exact ⟨u, h, e⟩
  have hstep : ∀ (v u : Fin T.n.toNat) (h : (graphOf T).Adj v u),
      P v = SimpleGraph.Walk.cons h (P u) →
      (v : Nat) ≠ root ∧ par v = u ∧ d v = d u + 1 := by
    intro v u h e
    have e1 : d v = d u + 1 := by rw [hd, hd, e, SimpleGraph.Walk.length_cons]
    refine ⟨?_, ?_, e1⟩
    · intro c
      have : v = ⟨root, hr⟩ := Fin.ext c
      subst this
      rw [hd, hnil] at e1
      simp at e1
    · rw [hpar, e, SimpleGraph.Walk.getVert_cons_succ, SimpleGraph.Walk.getVert_zero]
  have hR : Rooted T root d par := by
    refine ⟨hr, ?_, ?_, ?_, ?_, ?_⟩
    · have := hd ⟨root, hr⟩
      rw [hnil] at this
      exact this
    · intro v hv _
      have := hpar ⟨v, hv⟩
      simp only at this
      rw [this]
      exact Fin.is_lt _
    · intro v hv hne
      obtain ⟨u, h, e⟩ := hcons ⟨v, hv⟩ hne
      obtain ⟨_, e2, _⟩ := hstep _ _ h e
      simp only at e2
      rw [e2]
      exact ⟨fun c => h.1 (Fin.ext c), h.2⟩
    · intro v hv hne
      obtain ⟨u, h, e⟩ := hcons ⟨v, hv⟩ hne
      obtain ⟨_, e2, e3⟩ := hstep _ _ h e
      simp only at e2 e3
      rw [e2, e3]
    · intro v u hv hu ha
      have h : (graphOf T).Adj ⟨v, hv⟩ ⟨u, hu⟩ :=
        ⟨fun c => ha.1 (congrArg Fin.val c), ha.2⟩
      rcases hedge _ _ h with e | e
      · obtain ⟨e1, e2, _⟩ := hstep _ _ h e
        exact Or.inl ⟨e1, e2⟩
      · obtain ⟨e1, e2, _⟩ := hstep _ _ h.symm e
        exact Or.inr ⟨e1, e2⟩
  refine ⟨d, par, hR, ?_⟩
  intro v p hp
  rw [huniq v p hp]
  refine ⟨(hd v).symm, fun _ => (hpar v).symm, ?_⟩
  -- the support of the path, by induction on the depth
  have key : ∀ (k : Nat) (v : Fin T.n.toNat), d v = k →
      ∀ w : Fin T.n.toNat, w ∈ (P v).support ↔ Desc par root w v := by
    intro k
    induction k with
    | zero =>
      intro v hv w
      have hvr : v = ⟨root, hr⟩ := by
        by_contra c
        obtain ⟨u, h, e⟩ := hcons v (fun e => c (Fin.ext e))
        have := (hstep _ _ h e).2.2
        omega
      subst hvr
      rw [hnil, SimpleGraph.Walk.support_nil, List.mem_singleton]
      constructor
      · intro e; rw [e]; exact Desc.self
      · intro D
        rcases desc_inv D with c | ⟨c, _⟩
        · exact Fin.ext c.symm
        · exact absurd rfl c
    | succ k ih =>
      intro v hv w
      have hvr : (v : Nat) ≠ root := by
        intro c
        have : v = ⟨root, hr⟩ := Fin.ext c
        subst this
        rw [hd, hnil] at hv
        simp at hv
      obtain ⟨u, h, e⟩ := hcons v hvr
      obtain ⟨_, e2, e3⟩ := hstep _ _ h e
      have := ih u (by omega) w
      rw [e, SimpleGraph.Walk.support_cons, List.mem_cons, this]
      constructor
      · rintro (c | c)
        · rw [c]; exact Desc.self
        · exact Desc.step hvr (by rw [e2]; exact c)
      · intro D
        rcases desc_inv D with c | ⟨_, D1⟩
        · exact Or.inl (Fin.ext c.symm)
        · rw [e2] at D1; exact Or.inr D1
  exact key _ v rfl

theorem opt_read (l : List Int) (i : Nat) (dflt : Int) :
    (if (l.length : Int) > i then Util.rd l i else pure dflt) =
      .ok (if i < l.length then l.getD i 0 else dflt) := by
  by_cases h : i < l.length
  · rw [if_pos (by omega), if_pos h, Util.rd_getD l i 0 h]
  · rw [if_neg (by omega), if_neg h]
    rfl

/-- The first loop of the constructor returns `n` nodes in their initial
state. -/
theorem fill_spec (T : tree_t) (h0 : 0 ≤ T.n) :
    ∃ ns0 ns, Util.resize ([] : List node) T.n freshNode = .ok ns0 ∧
      Util.Loop T.n.toNat (fill T) ns0 = .ok ns ∧ ns.length = T.n.toNat ∧
      ∀ v, v < T.n.toNat → (ns.getD v freshNode).dep = -1 ∧
        (ns.getD v freshNode).childs = [] ∧ (ns.getD v freshNode).subtree_n = 1 ∧
        (ns.getD v freshNode).parent = -1 := by
  obtain ⟨ns0, r0, l0⟩ := Util.resize_spec ([] : List node) T.n freshNode h0
  have hfresh : ∀ v, ns0.getD v freshNode = freshNode := by
    intro v
    have : ns0 = List.replicate T.n.toNat freshNode := by
      unfold Util.resize at r0
      rw [if_pos h0] at r0
      injection r0 with r0
      rw [← r0]
      simp
    rw [this, List.getD_eq_getElem?_getD, List.getElem?_replicate]
    by_cases c : v < T.n.toNat
    · rw [if_pos c]; rfl
    · rw [if_neg c]; rfl
  obtain ⟨ns, r, ln, hv⟩ := Util.loop_inv
    (fun (_ : Nat) (ns : List node) => ns.length = T.n.toNat ∧
      ∀ v, (ns.getD v freshNode).dep = -1 ∧
        (ns.getD v freshNode).childs = [] ∧ (ns.getD v freshNode).subtree_n = 1 ∧
        (ns.getD v freshNode).parent = -1)
    (fill T) T.n.toNat ns0 ⟨l0, fun v => by rw [hfresh v]; exact ⟨rfl, rfl, rfl, rfl⟩⟩
    (by
      intro i ns hi ⟨hl, hv⟩
      have hi2 : i < ns.length := by omega
      refine ⟨ns.set i (filled T i (ns.getD i freshNode)), ?_, ?_, ?_⟩
      · unfold fill
        simp only [Util.rd_getD ns i freshNode hi2, Util.ok_bind, opt_read]
        exact Util.wr_ok ns i _ hi2
      · simp [hl]
      · intro v
        rw [Util.getD_set]
        by_cases c : i = v ∧ i < ns.length
        · rw [if_pos c]
          exact hv i
        · rw [if_neg c]
          exact hv v)
  exact ⟨ns0, ns, r0, r, ln, fun v _ => hv v⟩

/-- The second loop of the constructor returns the lists of neighbours. -/
theorem link_spec (T : tree_t) (h0 : 0 ≤ T.n) (hlen : (T.edges.length : Int) = T.n - 1)
    (hends : ∀ e ∈ T.edges, 0 ≤ e.1 ∧ e.1 < T.n ∧ 0 ≤ e.2 ∧ e.2 < T.n) :
    ∃ es0 es, Util.resize ([] : List (List edgeinfo)) T.n [] = .ok es0 ∧
      Util.Loop (T.n - 1).toNat (link T) es0 = .ok es ∧ es.length = T.n.toNat ∧
      ∀ a, a < T.n.toNat → es.getD a [] = adjList T a T.edges.length := by
  obtain ⟨es0, r0, l0⟩ := Util.resize_spec ([] : List (List edgeinfo)) T.n [] h0
  have hfresh : ∀ v, es0.getD v [] = [] := by
    intro v
    have : es0 = List.replicate T.n.toNat [] := by
      unfold Util.resize at r0
      rw [if_pos h0] at r0
      injection r0 with r0
      rw [← r0]
      simp
    rw [this, List.getD_eq_getElem?_getD, List.getElem?_replicate]
    by_cases c : v < T.n.toNat
    · rw [if_pos c]; rfl
    · rw [if_neg c]; rfl
  have hm : (T.n - 1).toNat = T.edges.length := by omega
  obtain ⟨es, r, ln, hv⟩ := Util.loop_inv
    (fun (k : Nat) (es : List (List edgeinfo)) => es.length = T.n.toNat ∧
      ∀ a, a < T.n.toNat → es.getD a [] = adjList T a k)
    (link T) (T.n - 1).toNat es0 ⟨l0, fun v _ => by rw [hfresh v]; rfl⟩
    (by
      intro i es hi ⟨hl, hv⟩
      have hi2 : i < T.edges.length := by omega
      have hmem : T.edges.getD i (0, 0) ∈ T.edges := by
        rw [List.getD_eq_getElem _ _ hi2]
        exact List.getElem_mem _
      obtain ⟨b1, b2, b3, b4⟩ := hends _ hmem
      generalize he : T.edges.getD i (0, 0) = e at b1 b2 b3 b4
      obtain ⟨x, y⟩ := e
      simp only at b1 b2 b3 b4
      obtain ⟨xn, rfl⟩ : ∃ xn : Nat, x = xn := ⟨x.toNat, by omega⟩
      obtain ⟨yn, rfl⟩ : ∃ yn : Nat, y = yn := ⟨y.toNat, by omega⟩
      have hxl : xn < es.length := by omega
      have hyl : yn < (es.set xn (es.getD xn [] ++ [entry T i yn])).length := by
        rw [List.length_set]; omega
      refine ⟨(es.set xn (es.getD xn [] ++ [entry T i yn])).set yn
        ((es.set xn (es.getD xn [] ++ [entry T i yn])).getD yn [] ++ [entry T i xn]),
        ?_, ?_, ?_⟩
      · unfold link
        simp only [Util.rd_getD T.edges i (0, 0) hi2, Util.ok_bind, opt_read, he]
        rw [Util.rd_getD es xn [] hxl]
        simp only [Util.ok_bind]
        have w1 := Util.wr_ok es xn (es.getD xn [] ++ [entry T i yn]) hxl
        simp only [entry, costOf] at w1 hyl ⊢
        rw [w1]
        simp only [Util.ok_bind]
        rw [Util.rd_getD _ yn [] hyl]
        simp only [Util.ok_bind]
        rw [Util.wr_ok _ yn _ hyl]
      · simp [hl]
      · intro a ha
        rw [Util.getD_set, Util.getD_set, Util.getD_set]
        have e1 : adjList T a (i + 1) = adjList T a i ++ contrib T a i := by
          unfold adjList
          rw [List.range_succ, List.flatMap_append]
          simp
        rw [e1, contrib, he, ← hv a ha]
        by_cases c1 : xn = a
        · by_cases c2 : yn = a
          · subst c1
            simp [c2, hxl]
          · subst c1
            simp [c2, hxl]
        · by_cases c2 : yn = a
          · subst c2
            have hyl2 : yn < es.length := by omega
            simp [c1, hyl2]
          · simp [c1, c2])
  rw [hm] at hv
  exact ⟨es0, es, r0, r, ln, hv⟩

/-! ## The lists of neighbours -/

/-- The edges of a tree are pairwise different as unordered pairs, and none
joins a vertex to itself: a tree on `n` vertices has exactly `n - 1` edges. -/
theorem simple_of_tree {T : tree_t} (hi : IsTreeInput T) :
    (∀ e ∈ T.edges, e.1 ≠ e.2) ∧
      ∀ i j, i < T.edges.length → j < T.edges.length →
        (T.edges.getD i (0, 0) = T.edges.getD j (0, 0) ∨
          T.edges.getD i (0, 0) = ((T.edges.getD j (0, 0)).2, (T.edges.getD j (0, 0)).1)) →
        i = j := by
  classical
  have hn := hi.n_pos
  have hn0 : 0 < T.n.toNat := by omega
  have hcard := hi.tree.card_edgeFinset
  rw [Fintype.card_fin] at hcard
  let g : Int → Fin T.n.toNat := fun x => if h : x.toNat < T.n.toNat then ⟨x.toNat, h⟩ else ⟨0, hn0⟩
  have hg : ∀ u : Fin T.n.toNat, g ((u : Nat) : Int) = u := by
    intro u
    show (if h : (((u : Nat) : Int)).toNat < T.n.toNat then _ else _) = u
    have hu := u.2
    rw [dif_pos (by omega)]
    exact Fin.ext (by simp)
  let f : Nat → Sym2 (Fin T.n.toNat) := fun i =>
    s(g (T.edges.getD i (0, 0)).1, g (T.edges.getD i (0, 0)).2)
  have hsub : (graphOf T).edgeFinset ⊆ (Finset.range T.edges.length).image f := by
    intro e he
    rw [SimpleGraph.mem_edgeFinset] at he
    induction e using Sym2.ind with
    | _ u v =>
      rw [SimpleGraph.mem_edgeSet] at he
      rw [Finset.mem_image]
      rcases he.2 with h | h
      · obtain ⟨i, hi1, hi2⟩ := List.getElem_of_mem h
        refine ⟨i, Finset.mem_range.mpr hi1, ?_⟩
        show s(g (T.edges.getD i (0, 0)).1, g (T.edges.getD i (0, 0)).2) = _
        rw [List.getD_eq_getElem _ _ hi1, hi2, hg, hg]
      · obtain ⟨i, hi1, hi2⟩ := List.getElem_of_mem h
        refine ⟨i, Finset.mem_range.mpr hi1, ?_⟩
        show s(g (T.edges.getD i (0, 0)).1, g (T.edges.getD i (0, 0)).2) = _
        rw [List.getD_eq_getElem _ _ hi1, hi2, hg, hg]
        exact Sym2.eq_swap
  have hle : ((Finset.range T.edges.length).image f).card ≤ T.edges.length := by
    have := Finset.card_image_le (s := Finset.range T.edges.length) (f := f)
    rw [Finset.card_range] at this
    exact this
  have hlen := hi.edges_len
  have hm : T.edges.length = (graphOf T).edgeFinset.card := by omega
  have heq : (graphOf T).edgeFinset = (Finset.range T.edges.length).image f :=
    Finset.eq_of_subset_of_card_le hsub (by omega)
  have hinj : Set.InjOn f (Finset.range T.edges.length) := by
    rw [← Finset.card_image_iff, ← heq, Finset.card_range]
    exact hm.symm
  constructor
  · intro e he c
    obtain ⟨i, hi1, hi2⟩ := List.getElem_of_mem he
    have hfi : f i ∈ (graphOf T).edgeFinset := by
      rw [heq]
      exact Finset.mem_image_of_mem f (Finset.mem_range.mpr hi1)
    rw [SimpleGraph.mem_edgeFinset] at hfi
    have : (graphOf T).Adj (g (T.edges.getD i (0, 0)).1) (g (T.edges.getD i (0, 0)).2) :=
      (SimpleGraph.mem_edgeSet _).mp hfi
    rw [List.getD_eq_getElem _ _ hi1, hi2, c] at this
    exact this.1 rfl
  · intro i j hi1 hj1 h
    apply hinj (Finset.mem_coe.mpr (Finset.mem_range.mpr hi1))
      (Finset.mem_coe.mpr (Finset.mem_range.mpr hj1))
    show s(g (T.edges.getD i (0, 0)).1, g (T.edges.getD i (0, 0)).2) =
      s(g (T.edges.getD j (0, 0)).1, g (T.edges.getD j (0, 0)).2)
    rcases h with h | h
    · rw [h]
    · rw [h]
      exact Sym2.eq_swap

theorem mem_contrib (T : tree_t) (a : Int) (i : Nat) (x : Int) :
    x ∈ (contrib T a i).map edgeinfo.dest ↔
      ((T.edges.getD i (0, 0)).1 = a ∧ x = (T.edges.getD i (0, 0)).2) ∨
        ((T.edges.getD i (0, 0)).2 = a ∧ x = (T.edges.getD i (0, 0)).1) := by
  unfold contrib entry
  generalize T.edges.getD i (0, 0) = e
  by_cases c1 : e.1 = a <;> by_cases c2 : e.2 = a <;> simp [c1, c2, eq_comm]

theorem mem_adjList (T : tree_t) (a : Int) (k : Nat) (x : Int) :
    x ∈ (adjList T a k).map edgeinfo.dest ↔
      ∃ i, i < k ∧ (((T.edges.getD i (0, 0)).1 = a ∧ x = (T.edges.getD i (0, 0)).2) ∨
        ((T.edges.getD i (0, 0)).2 = a ∧ x = (T.edges.getD i (0, 0)).1)) := by
  unfold adjList
  rw [List.map_flatMap, List.mem_flatMap]
  constructor
  · rintro ⟨i, hi, hx⟩
    exact ⟨i, List.mem_range.mp hi, (mem_contrib T a i x).mp hx⟩
  · rintro ⟨i, hi, hx⟩
    exact ⟨i, List.mem_range.mpr hi, (mem_contrib T a i x).mpr hx⟩

/-- The lists of neighbours that the constructor builds from a tree. -/
theorem adj_ok {T : tree_t} (hi : IsTreeInput T) {es : List (List edgeinfo)}
    (hlen : es.length = T.n.toNat)
    (hes : ∀ a, a < T.n.toNat → es.getD a [] = adjList T a T.edges.length) : AdjOK T es := by
  obtain ⟨hloop, hinj⟩ := simple_of_tree hi
  refine ⟨hlen, ?_⟩
  intro a ha
  have hget : ∀ i, i < T.edges.length → T.edges.getD i (0, 0) ∈ T.edges := by
    intro i hi1
    rw [List.getD_eq_getElem _ _ hi1]
    exact List.getElem_mem _
  -- the members of the list
  have hmem : ∀ x : Int, x ∈ (adjList T a T.edges.length).map edgeinfo.dest ↔
      0 ≤ x ∧ x < T.n ∧ adjN T a x.toNat := by
    intro x
    rw [mem_adjList]
    constructor
    · rintro ⟨i, hi1, h⟩
      have hm := hget i hi1
      obtain ⟨b1, b2, b3, b4⟩ := hi.ends _ hm
      have hl := hloop _ hm
      generalize T.edges.getD i (0, 0) = e at h hm b1 b2 b3 b4 hl
      obtain ⟨p, q⟩ := e
      simp only at h b1 b2 b3 b4 hl
      rcases h with ⟨h1, h2⟩ | ⟨h1, h2⟩
      · subst h1; subst h2
        refine ⟨b3, b4, fun c => hl (by omega), Or.inl ?_⟩
        rw [show ((x.toNat : Nat) : Int) = x by omega]
        exact hm
      · subst h1; subst h2
        refine ⟨b1, b2, fun c => hl (by omega), Or.inr ?_⟩
        rw [show ((x.toNat : Nat) : Int) = x by omega]
        exact hm
    · rintro ⟨h1, h2, _, h3⟩
      rw [show ((x.toNat : Nat) : Int) = x by omega] at h3
      rcases h3 with h | h
      · obtain ⟨i, hi1, hi2⟩ := List.getElem_of_mem h
        refine ⟨i, hi1, Or.inl ?_⟩
        rw [List.getD_eq_getElem _ _ hi1, hi2]
        exact ⟨rfl, rfl⟩
      · obtain ⟨i, hi1, hi2⟩ := List.getElem_of_mem h
        refine ⟨i, hi1, Or.inr ?_⟩
        rw [List.getD_eq_getElem _ _ hi1, hi2]
        exact ⟨rfl, rfl⟩
  -- the list has no duplicates
  have hnd : ((adjList T a T.edges.length).map edgeinfo.dest).Nodup := by
    unfold adjList
    rw [List.map_flatMap, List.nodup_flatMap]
    constructor
    · intro i hi1
      have hl := hloop _ (hget i (List.mem_range.mp hi1))
      unfold contrib entry
      generalize T.edges.getD i (0, 0) = e at hl
      by_cases c1 : e.1 = a <;> by_cases c2 : e.2 = a
      · exact absurd (c1.trans c2.symm) hl
      · simp [c1, c2]
      · simp [c1, c2]
      · simp [c1, c2]
    · refine List.Nodup.pairwise_of_forall_ne (List.nodup_range _) ?_
      intro i hi1 j hj1 hne
      rw [Function.onFun]
      intro x hx hy
      rw [mem_contrib] at hx hy
      apply hne
      apply hinj i j (List.mem_range.mp hi1) (List.mem_range.mp hj1)
      generalize T.edges.getD i (0, 0) = e1 at hx
      generalize T.edges.getD j (0, 0) = e2 at hy
      obtain ⟨p1, q1⟩ := e1
      obtain ⟨p2, q2⟩ := e2
      simp only at hx hy ⊢
      rcases hx with ⟨h1, h2⟩ | ⟨h1, h2⟩ <;> rcases hy with ⟨h3, h4⟩ | ⟨h3, h4⟩
      · left; rw [h1, h3, ← h2, ← h4]
      · right; rw [h1, h3, ← h2, ← h4]
      · right; rw [h1, h3, ← h2, ← h4]
      · left; rw [h1, h3, ← h2, ← h4]
  refine ⟨((adjList T a T.edges.length).map edgeinfo.dest).map Int.toNat, ?_, ?_, ?_⟩
  · rw [hes a ha, List.map_map]
    symm
    conv_rhs => rw [← List.map_id ((adjList T a T.edges.length).map edgeinfo.dest)]
    apply List.map_congr_left
    intro x hx
    have := (hmem x).mp hx
    show ((x.toNat : Nat) : Int) = x
    omega
  · refine List.Nodup.map_on ?_ hnd
    intro x hx y hy e
    have := (hmem x).mp hx
    have := (hmem y).mp hy
    omega
  · intro u
    rw [List.mem_map]
    constructor
    · rintro ⟨x, hx, rfl⟩
      obtain ⟨h1, h2, h3⟩ := (hmem x).mp hx
      exact ⟨by omega, h3⟩
    · rintro ⟨h1, h2⟩
      refine ⟨(u : Int), (hmem _).mpr ⟨by omega, by omega, ?_⟩, by simp⟩
      rw [Int.toNat_ofNat]
      exact h2

theorem nd_put (R : Tree) (a v : Nat) (X : node) (h : a < R.nodes.length) :
    nd (setNodes R (R.nodes.set a X)) v = if v = a then X else nd R v := by
  show (R.nodes.set a X).getD v freshNode = _
  rw [Util.getD_set]
  by_cases c : v = a
  · subst c; rw [if_pos ⟨rfl, h⟩, if_pos rfl]
  · rw [if_neg (fun e => c e.1.symm), if_neg c]
    rfl

theorem rd_nd (R : Tree) (v : Nat) (h : v < R.nodes.length) :
    Util.rd R.nodes (v : Int) = .ok (nd R v) :=
  Util.rd_getD R.nodes v freshNode h

theorem take_snoc (L : List Nat) (i : Nat) (h : i < L.length) :
    L.take (i + 1) = L.take i ++ [L.getD i 0] := by
  rw [List.take_succ, List.getD_eq_getElem _ _ h, List.getElem?_eq_getElem h]
  rfl

theorem newOf_snoc_in (D L : List Nat) (b : Nat) (h : b ∈ D) :
    newOf D (L ++ [b]) = newOf D L := by
  unfold newOf
  rw [List.filter_append]
  simp [h]

theorem newOf_snoc_out (D L : List Nat) (b : Nat) (h : b ∉ D) :
    newOf D (L ++ [b]) = newOf D L ++ [b] := by
  unfold newOf
  rw [List.filter_append]
  simp [h]

/-- One pass of the loop over `edges[a]`. -/
theorem scan_step {root : Nat} {d par : Nat → Nat} {R2 : Tree} {a : Nat} {D Q L : List Nat}
    (ha : a < R2.nodes.length) (hea : a < R2.edges.length)
    (hL : (R2.edges.getD a []).map edgeinfo.dest = L.map Nat.cast)
    (hLlt : ∀ u ∈ L, u < R2.nodes.length ∧ u ≠ a)
    (hdepD : ∀ u ∈ L, u ∈ D → (nd R2 u).dep = d u)
    (hdepF : ∀ u ∈ L, u ∉ D → (nd R2 u).dep = -1)
    (hN1 : ∀ u ∈ L, u ∈ D → a ≠ root ∧ par a = u)
    (hpar : a ≠ root → par a ∈ D) (hpd : a ≠ root → d a = d (par a) + 1)
    {i : Nat} (hi : i < L.length) {st : scan_t} (I : SInv root d par R2 a D Q L i st) :
    ∃ st1, scan a i st = .ok st1 ∧ SInv root d par R2 a D Q L (i + 1) st1 := by
  have hlen : (R2.edges.getD a []).length = L.length := by
    have := congrArg List.length hL
    simpa using this
  have hb : L.getD i 0 ∈ L := by
    rw [List.getD_eq_getElem _ _ hi]
    exact List.getElem_mem _
  obtain ⟨hbl, hba⟩ := hLlt _ hb
  have hdest : ((R2.edges.getD a []).getD i ⟨0, 0, 0⟩).dest = ((L.getD i 0 : Nat) : Int) := by
    have := List.getD_map (R2.edges.getD a []) ⟨0, 0, 0⟩ (n := i) edgeinfo.dest
    rw [hL] at this
    rw [← this]
    exact List.getD_map L 0 (n := i) Nat.cast
  have hal : a < st.R.nodes.length := by rw [I.len]; exact ha
  have hbl2 : L.getD i 0 < st.R.nodes.length := by rw [I.len]; exact hbl
  have hB : nd st.R (L.getD i 0) = nd R2 (L.getD i 0) := I.other _ hba
  have hts := take_snoc L i hi
  by_cases hD : L.getD i 0 ∈ D
  · -- the parent
    obtain ⟨har, hpa⟩ := hN1 _ hb hD
    have hdep := hdepD _ hb hD
    have hne : (nd R2 (L.getD i 0)).dep ≠ -1 := by rw [hdep]; omega
    refine ⟨⟨setNodes st.R (st.R.nodes.set a (withParent (nd st.R a) (L.getD i 0 : Nat)
        ((R2.edges.getD a []).getD i ⟨0, 0, 0⟩) (nd R2 (L.getD i 0)).dep)),
      st.que, st.leaf_flag⟩, ?_, ?_⟩
    · unfold scan
      rw [I.edges_eq, Util.rd_getD R2.edges a [] hea]
      simp only [Util.ok_bind]
      rw [Util.rd_getD _ i ⟨0, 0, 0⟩ (by rw [hlen]; exact hi)]
      simp only [Util.ok_bind, hdest]
      rw [rd_nd st.R _ hbl2, hB]
      simp only [Util.ok_bind, hne, ne_eq, not_false_eq_true, if_true]
      rw [rd_nd st.R a hal]
      simp only [Util.ok_bind]
      rw [Util.wr_ok _ a _ hal]
      rfl
    · have hnew := newOf_snoc_in D (L.take i) _ hD
      refine ⟨I.n_eq, I.edges_eq, I.order_eq, I.leaves_eq, I.root_eq, ?_, ?_, ?_, ?_, ?_, ?_, ?_,
        ?_⟩
      · show (st.R.nodes.set a _).length = _
        rw [List.length_set]; exact I.len
      · intro v hv
        rw [nd_put _ _ _ _ hal, if_neg hv]
        exact I.other v hv
      · rw [hts, hnew]; exact I.que
      · rw [hts, hnew]; exact I.flag
      · rw [nd_put _ _ _ _ hal, if_pos rfl, hts, hnew]
        exact I.childs
      · rw [nd_put _ _ _ _ hal, if_pos rfl]
        exact I.sub
      · rw [nd_put _ _ _ _ hal, if_pos rfl, if_neg har, hts, if_pos (by rw [hpa]; simp)]
        show (nd R2 (L.getD i 0)).dep + 1 = _
        rw [hdep, hpd har, hpa]
        push_cast; rfl
      · rw [nd_put _ _ _ _ hal, if_pos rfl, hts, if_pos ⟨har, by rw [hpa]; simp⟩, hpa]
        rfl
  · -- a child
    have hdep := hdepF _ hb hD
    have hnew := newOf_snoc_out D (L.take i) _ hD
    have hpb : a ≠ root → (par a ∈ L.take (i + 1) ↔ par a ∈ L.take i) := by
      intro har
      rw [hts, List.mem_append, List.mem_singleton]
      constructor
      · rintro (h | h)
        · exact h
        · exact absurd (h ▸ hpar har) hD
      · exact Or.inl
    refine ⟨⟨setNodes st.R (st.R.nodes.set a
        (withChild (nd st.R a) ((L.getD i 0 : Nat) : Int))),
      st.que ++ [((L.getD i 0 : Nat) : Int)], false⟩, ?_, ?_⟩
    · unfold scan
      rw [I.edges_eq, Util.rd_getD R2.edges a [] hea]
      simp only [Util.ok_bind]
      rw [Util.rd_getD _ i ⟨0, 0, 0⟩ (by rw [hlen]; exact hi)]
      simp only [Util.ok_bind, hdest]
      rw [rd_nd st.R _ hbl2, hB]
      simp only [Util.ok_bind, hdep, ne_eq, not_true_eq_false, if_false]
      rw [rd_nd st.R a hal]
      simp only [Util.ok_bind]
      rw [Util.wr_ok _ a _ hal]
      rfl
    · refine ⟨I.n_eq, I.edges_eq, I.order_eq, I.leaves_eq, I.root_eq, ?_, ?_, ?_, ?_, ?_, ?_, ?_,
        ?_⟩
      · show (st.R.nodes.set a _).length = _
        rw [List.length_set]; exact I.len
      · intro v hv
        rw [nd_put _ _ _ _ hal, if_neg hv]
        exact I.other v hv
      · show st.que ++ _ = _
        rw [hts, hnew, I.que]
        simp
      · rw [hts, hnew]
        simp
      · rw [nd_put _ _ _ _ hal, if_pos rfl, hts, hnew]
        show (nd st.R a).childs ++ _ = _
        rw [I.childs]
        simp
      · rw [nd_put _ _ _ _ hal, if_pos rfl]
        exact I.sub
      · rw [nd_put _ _ _ _ hal, if_pos rfl]
        show (nd st.R a).dep = _
        rw [I.dep]
        by_cases har : a = root
        · rw [if_pos har, if_pos har]
        · rw [if_neg har, if_neg har]
          simp only [hpb har]
      · rw [nd_put _ _ _ _ hal, if_pos rfl]
        show (nd st.R a).parent = _
        rw [I.parent]
        by_cases har : a = root
        · rw [if_neg (fun c => c.1 har), if_neg (fun c => c.1 har)]
        · simp only [hpb har]

theorem adjN_symm {T : tree_t} {v u : Nat} (h : adjN T v u) : adjN T u v :=
  ⟨h.1.symm, h.2.symm⟩

theorem nd_congr {R R1 : Tree} (h : R1.nodes = R.nodes) (v : Nat) : nd R1 v = nd R v := by
  unfold nd
  rw [h]

/-- The neighbours of the front `a` of the queue: the parent of `a` is the
only one that was visited, and the others are the children of `a`. -/
theorem nbr_facts {T : tree_t} {root : Nat} {d par : Nat → Nat} {R : Tree} {D Q : List Nat}
    {a : Nat} (H : Rooted T root d par) (I : BInv T root d par R D (a :: Q)) {L : List Nat}
    (hLmem : ∀ u, u ∈ L ↔ (u < T.n.toNat ∧ adjN T a u)) :
    a < T.n.toNat ∧ a ∉ D ∧ (a ≠ root → par a ∈ D) ∧ (∀ u ∈ L, u < T.n.toNat ∧ u ≠ a) ∧
      (∀ u ∈ L, u ∈ D → a ≠ root ∧ par a = u) ∧
      (∀ u, u ∈ newOf D L ↔ (u < T.n.toNat ∧ u ≠ root ∧ par u = a)) ∧
      (a ≠ root → par a ∈ L) := by
  have hmemA : a ∈ D ++ a :: Q := List.mem_append_right _ (List.mem_cons_self _ _)
  have haN := I.lt a hmemA
  have haD : a ∉ D := fun c =>
    (List.nodup_append.mp I.nodup).2.2 c (List.mem_cons_self _ _)
  have hpar : a ≠ root → par a ∈ D := by
    intro har
    rcases (I.mem a haN).mp hmemA with h | h
    · exact absurd h har
    · exact h.2
  have hinD : ∀ u, u < T.n.toNat → u ∈ D → u ≠ root → par u ≠ a := by
    intro u hu huD hur c
    rcases (I.mem u hu).mp (List.mem_append_left _ huD) with h | h
    · exact hur h
    · exact haD (c ▸ h.2)
  refine ⟨haN, haD, hpar, ?_, ?_, ?_, ?_⟩
  · intro u hu
    obtain ⟨h1, h2⟩ := (hLmem u).mp hu
    exact ⟨h1, fun c => h2.1 c.symm⟩
  · intro u hu huD
    obtain ⟨h1, h2⟩ := (hLmem u).mp hu
    rcases H.edge a u haN h1 h2 with h | h
    · exact h
    · exact absurd h.2 (hinD u h1 huD h.1)
  · intro u
    unfold newOf
    rw [List.mem_filter, decide_eq_true_iff]
    constructor
    · rintro ⟨hu, huD⟩
      obtain ⟨h1, h2⟩ := (hLmem u).mp hu
      rcases H.edge a u haN h1 h2 with h | h
      · exact absurd (h.2 ▸ hpar h.1) huD
      · exact ⟨h1, h⟩
    · rintro ⟨h1, h2, h3⟩
      refine ⟨(hLmem u).mpr ⟨h1, ?_⟩, fun c => hinD u h1 c h2 h3⟩
      have := H.par_adj u h1 h2
      rw [h3] at this
      exact adjN_symm this
  · intro har
    exact (hLmem _).mpr ⟨H.par_lt a haN har, H.par_adj a haN har⟩

/-- The state after the pass of the traversal for the front `a` of the queue,
from what the loop over the neighbours of `a` leaves. -/
theorem visit_inv {T : tree_t} {root : Nat} {d par : Nat → Nat} {R R1 : Tree}
    {D Q : List Nat} {a : Nat} (H : Rooted T root d par)
    (I : BInv T root d par R D (a :: Q)) {L : List Nat} (hLnd : L.Nodup)
    (hLmem : ∀ u, u ∈ L ↔ (u < T.n.toNat ∧ adjN T a u))
    (hn : R1.n = R.n) (hroot : R1.root = R.root) (hedges : R1.edges = R.edges)
    (hlen : R1.nodes.length = R.nodes.length)
    (horder : R1.dep_order = R.dep_order ++ [(a : Int)])
    (hother : ∀ v, v ≠ a → nd R1 v = nd R v)
    (hchilds : (nd R1 a).childs = (newOf D L).map Nat.cast)
    (hsub : (nd R1 a).subtree_n = 1)
    (hdep : (nd R1 a).dep = if a = root then 0 else if par a ∈ L then (d a : Int) else -1)
    (hparent : (nd R1 a).parent = if a ≠ root ∧ par a ∈ L then (par a : Int) else -1)
    (hleaves : R1.leaves = if (newOf D L).isEmpty then R.leaves ++ [(a : Int)] else R.leaves) :
    BInv T root d par R1 (D ++ [a]) (Q ++ newOf D L) := by
  obtain ⟨haN, haD, hpar, hLlt, hN1, hcs, hparL⟩ := nbr_facts H I hLmem
  have hcsnd : (newOf D L).Nodup := hLnd.filter _
  have hcsd : ∀ u ∈ newOf D L, d u = d a + 1 := by
    intro u hu
    obtain ⟨h1, h2, h3⟩ := (hcs u).mp hu
    rw [H.par_d u h1 h2, h3]
  have hcsout : ∀ u ∈ newOf D L, u ∉ D ++ a :: Q := by
    intro u hu c
    obtain ⟨h1, h2, h3⟩ := (hcs u).mp hu
    rcases (I.mem u h1).mp c with h | h
    · exact h2 h
    · exact haD (h3 ▸ h.2)
  have hall : D ++ [a] ++ (Q ++ newOf D L) = (D ++ a :: Q) ++ newOf D L := by simp
  have hsort := List.pairwise_append.mp I.sorted
  have haq : ∀ q ∈ Q, d a ≤ d q := fun q hq => (List.pairwise_cons.mp hsort.2.1).1 q hq
  have hmemA : a ∈ D ++ a :: Q := List.mem_append_right _ (List.mem_cons_self _ _)
  have hda : (nd R1 a).dep = d a := by
    rw [hdep]
    by_cases har : a = root
    · rw [if_pos har, har, H.d_root]; rfl
    · rw [if_neg har, if_pos (hparL har)]
  have hpa : (nd R1 a).parent = if a = root then -1 else (par a : Int) := by
    rw [hparent]
    by_cases har : a = root
    · rw [if_pos har, if_neg (fun c => c.1 har)]
    · rw [if_neg har, if_pos ⟨har, hparL har⟩]
  refine ⟨hn.trans I.n_eq, hroot.trans I.root_eq, by rw [hedges]; exact I.adj,
    hlen.trans I.len, ?_, ?_, ?_, ?_, ?_, ?_, ?_, ?_, ?_, ?_, ?_, ?_⟩
  · rw [horder, I.order]
    simp
  · rw [hall, List.nodup_append]
    exact ⟨I.nodup, hcsnd, fun x hx hy => hcsout x hy hx⟩
  · intro v hv
    rw [hall, List.mem_append] at hv
    rcases hv with h | h
    · exact I.lt v h
    · exact ((hcs v).mp h).1
  · intro v hv
    rw [hall, List.mem_append, I.mem v hv, hcs, List.mem_append, List.mem_singleton]
    constructor
    · rintro (h | h)
      · rcases h with h | h
        · exact Or.inl h
        · exact Or.inr ⟨h.1, Or.inl h.2⟩
      · by_cases hr : v = root
        · exact Or.inl hr
        · exact Or.inr ⟨hr, Or.inr h.2.2⟩
    · rintro (h | ⟨h1, h2 | h2⟩)
      · exact Or.inl (Or.inl h)
      · exact Or.inl (Or.inr ⟨h1, h2⟩)
      · exact Or.inr ⟨hv, h1, h2⟩
  · rw [hall, List.pairwise_append]
    refine ⟨I.sorted, ?_, ?_⟩
    · refine List.pairwise_of_forall_mem_list ?_
      intro x hx y hy
      rw [hcsd x hx, hcsd y hy]
    · intro x hx y hy
      rw [hcsd y hy]
      exact I.near x hx a (List.mem_cons_self _ _)
  · intro x hx q hq
    rw [hall, List.mem_append] at hx
    rw [List.mem_append] at hq
    rcases hq with hq | hq
    · rcases hx with hx | hx
      · exact I.near x hx q (List.mem_cons_of_mem _ hq)
      · rw [hcsd x hx]
        have := haq q hq
        omega
    · rw [hcsd q hq]
      rcases hx with hx | hx
      · have := I.near x hx a (List.mem_cons_self _ _)
        omega
      · rw [hcsd x hx]
        omega
  · intro v hv
    rw [List.mem_append, List.mem_singleton] at hv
    rcases hv with h | h
    · rw [hother v (fun c => haD (c ▸ h))]
      exact I.dep v h
    · rw [h]; exact hda
  · intro v hv
    rw [List.mem_append, List.mem_singleton] at hv
    rcases hv with h | h
    · rw [hother v (fun c => haD (c ▸ h))]
      exact I.parent v h
    · rw [h]; exact hpa
  · intro v hv
    rw [List.mem_append, List.mem_singleton] at hv
    rcases hv with h | h
    · rw [hother v (fun c => haD (c ▸ h))]
      exact I.childs v h
    · rw [h]
      exact ⟨newOf D L, hchilds, hcsnd, hcs⟩
  · intro v hv hvD
    rw [List.mem_append, List.mem_singleton] at hvD
    have hva : v ≠ a := fun c => hvD (Or.inr c)
    rw [hother v hva]
    exact I.fresh v hv (fun c => hvD (Or.inl c))
  · intro v hv
    by_cases c : v = a
    · rw [c]; exact hsub
    · rw [hother v c]; exact I.sub v hv
  · obtain ⟨lv, hlv, hlvm⟩ := I.leaves
    have hempty : (newOf D L).isEmpty = true ↔ (nd R1 a).childs = [] := by
      rw [hchilds, List.isEmpty_iff]
      constructor
      · intro e; rw [e]; rfl
      · intro e
        exact List.map_eq_nil_iff.mp e
    have hold : ∀ u, u ∈ lv ↔ (u ∈ D ∧ (nd R1 u).childs = []) := by
      intro u
      rw [hlvm]
      constructor
      · rintro ⟨h1, h2⟩
        exact ⟨h1, by rw [hother u (fun c => haD (c ▸ h1))]; exact h2⟩
      · rintro ⟨h1, h2⟩
        exact ⟨h1, by rw [hother u (fun c => haD (c ▸ h1))] at h2; exact h2⟩
    by_cases he : (newOf D L).isEmpty = true
    · refine ⟨lv ++ [a], by rw [hleaves, if_pos he, hlv]; simp, ?_⟩
      intro u
      rw [List.mem_append, List.mem_singleton, List.mem_append, List.mem_singleton, hold]
      constructor
      · rintro (h | h)
        · exact ⟨Or.inl h.1, h.2⟩
        · rw [h]; exact ⟨Or.inr rfl, hempty.mp he⟩
      · rintro ⟨h1 | h1, h2⟩
        · exact Or.inl ⟨h1, h2⟩
        · exact Or.inr h1
    · refine ⟨lv, by rw [hleaves, if_neg he, hlv], ?_⟩
      intro u
      rw [List.mem_append, List.mem_singleton, hold]
      constructor
      · rintro h
        exact ⟨Or.inl h.1, h.2⟩
      · rintro ⟨h1 | h1, h2⟩
        · exact ⟨h1, h2⟩
        · rw [h1] at h2
          exact absurd (hempty.mpr h2) he

/-- The start of a pass of the traversal: `a` enters `dep_order`, and the
root gets the depth `0`. -/
theorem visit_head (R : Tree) (a : Nat) (root : Nat) (hroot : R.root = root)
    (ha : a < R.nodes.length) :
    ∃ R2, markRoot (pushOrder R a) a = .ok R2 ∧
      R2.n = R.n ∧ R2.root = R.root ∧ R2.edges = R.edges ∧ R2.leaves = R.leaves ∧
      R2.dep_order = R.dep_order ++ [(a : Int)] ∧ R2.nodes.length = R.nodes.length ∧
      (∀ v, v ≠ a → nd R2 v = nd R v) ∧ (nd R2 a).childs = (nd R a).childs ∧
      (nd R2 a).subtree_n = (nd R a).subtree_n ∧ (nd R2 a).parent = (nd R a).parent ∧
      (nd R2 a).dep = if a = root then 0 else (nd R a).dep := by
  have hr : (pushOrder R a).root = root := hroot
  by_cases c : a = root
  · refine ⟨setNodes (pushOrder R a) ((pushOrder R a).nodes.set a (withDep (nd R a) 0)), ?_,
      rfl, rfl, rfl, rfl, rfl, ?_, ?_, ?_, ?_, ?_, ?_⟩
    · unfold markRoot
      rw [hr, if_pos (by rw [c])]
      have h1 : Util.rd (pushOrder R a).nodes (a : Int) = .ok (nd R a) := rd_nd R a ha
      rw [h1]
      simp only [Util.ok_bind]
      have h2 := Util.wr_ok (pushOrder R a).nodes a (withDep (nd R a) 0) ha
      simp only [withDep] at h2 ⊢
      rw [h2]
      rfl
    · show ((pushOrder R a).nodes.set a _).length = _
      rw [List.length_set]; rfl
    · intro v hv
      rw [nd_put (pushOrder R a) a v _ ha, if_neg hv]
      rfl
    · rw [nd_put (pushOrder R a) a a _ ha, if_pos rfl]; rfl
    · rw [nd_put (pushOrder R a) a a _ ha, if_pos rfl]; rfl
    · rw [nd_put (pushOrder R a) a a _ ha, if_pos rfl]; rfl
    · rw [nd_put (pushOrder R a) a a _ ha, if_pos rfl, if_pos c]; rfl
  · refine ⟨pushOrder R a, ?_, rfl, rfl, rfl, rfl, rfl, rfl, fun _ _ => rfl, rfl, rfl, rfl, ?_⟩
    · unfold markRoot
      rw [hr, if_neg (by omega)]
      rfl
    · rw [if_neg c]; rfl

/-- One pass of the traversal. -/
theorem visit_spec {T : tree_t} {root : Nat} {d par : Nat → Nat} {R : Tree} {D Q : List Nat}
    {a : Nat} (H : Rooted T root d par) (I : BInv T root d par R D (a :: Q)) :
    ∃ R1 Q1, visit R (a : Int) (Q.map Nat.cast) = .ok (R1, Q1.map Nat.cast) ∧
      BInv T root d par R1 (D ++ [a]) Q1 := by
  have hmemA : a ∈ D ++ a :: Q := List.mem_append_right _ (List.mem_cons_self _ _)
  have haN := I.lt a hmemA
  obtain ⟨L, hLmap, hLnd, hLmem⟩ := I.adj.nbr a haN
  obtain ⟨_, haD, hpar, hLlt, hN1, hcs, hparL⟩ := nbr_facts H I hLmem
  have hal : a < R.nodes.length := by rw [I.len]; exact haN
  obtain ⟨R2, run2, e1, e2, e3, e4, e5, e6, e7, e8, e9, e10, e11⟩ :=
    visit_head R a root I.root_eq hal
  obtain ⟨f1, f2, f3⟩ := I.fresh a haN haD
  have hea : a < R2.edges.length := by rw [e3, I.adj.len]; exact haN
  have hLlen : (R2.edges.getD a []).length = L.length := by
    have := congrArg List.length hLmap
    rw [e3]
    simpa using this
  -- the loop over the neighbours
  obtain ⟨st, runL, S⟩ := Util.loop_inv (SInv root d par R2 a D Q L) (scan a) L.length
    ⟨R2, Q.map Nat.cast, true⟩
    ⟨rfl, rfl, rfl, rfl, rfl, rfl, fun _ _ => rfl, by simp [newOf], by simp [newOf],
      by rw [e8, f2]; simp [newOf], by rw [e9]; exact I.sub a haN,
      by rw [e11, f1]; simp, by rw [e10, f3]; simp⟩
    (by
      intro i st hi Si
      refine scan_step (by rw [e6]; exact hal) hea (by rw [e3]; exact hLmap) ?_ ?_ ?_ hN1 hpar
        (fun har => H.par_d a haN har) hi Si
      · intro u hu
        obtain ⟨h1, h2⟩ := hLlt u hu
        exact ⟨by rw [e6, I.len]; exact h1, h2⟩
      · intro u hu huD
        rw [e7 u (hLlt u hu).2]
        exact I.dep u huD
      · intro u hu huD
        rw [e7 u (hLlt u hu).2]
        exact (I.fresh u (hLlt u hu).1 huD).1)
  have Sque := S.que
  have Sflag := S.flag
  have Schilds := S.childs
  have Sdep := S.dep
  have Spar := S.parent
  rw [List.take_length] at Sque Sflag Schilds Sdep Spar
  have hinv : ∀ R1 : Tree, R1.n = st.R.n → R1.root = st.R.root → R1.edges = st.R.edges →
      R1.nodes = st.R.nodes → R1.dep_order = st.R.dep_order →
      R1.leaves = (if (newOf D L).isEmpty then R.leaves ++ [(a : Int)] else R.leaves) →
      BInv T root d par R1 (D ++ [a]) (Q ++ newOf D L) := by
    intro R1 h1 h2 h3 h4 h5 h6
    have hnd : ∀ v, nd R1 v = nd st.R v := nd_congr h4
    refine visit_inv H I hLnd hLmem (by rw [h1, S.n_eq, e1]) (by rw [h2, S.root_eq, e2])
      (by rw [h3, S.edges_eq, e3]) (by rw [h4, S.len, e6]) (by rw [h5, S.order_eq, e5])
      ?_ (by rw [hnd]; exact Schilds) (by rw [hnd]; exact S.sub) (by rw [hnd]; exact Sdep)
      (by rw [hnd]; exact Spar) h6
    intro v hv
    rw [hnd, S.other v hv, e7 v hv]
  have hrun : ∀ X : Tree × List Int,
      (if st.leaf_flag = true then
        (pure (pushLeaf st.R (a : Int), st.que) : Except Fault (Tree × List Int))
        else pure (st.R, st.que)) = .ok X →
      visit R (a : Int) (Q.map Nat.cast) = .ok X := by
    intro X hX
    unfold visit
    have r2 := run2
    simp only [pushOrder] at r2
    simp only [r2, Util.ok_bind, Util.rd_getD R2.edges a [] hea, hLlen, runL]
    exact hX
  by_cases hf : st.leaf_flag = true
  · refine ⟨pushLeaf st.R a, Q ++ newOf D L, hrun _ (by rw [if_pos hf, Sque]; rfl), ?_⟩
    refine hinv _ rfl rfl rfl rfl rfl ?_
    rw [← Sflag, if_pos hf]
    show st.R.leaves ++ _ = _
    rw [S.leaves_eq, e4]
  · refine ⟨st.R, Q ++ newOf D L, hrun _ (by rw [if_neg hf, Sque]; rfl), ?_⟩
    refine hinv _ rfl rfl rfl rfl rfl ?_
    rw [← Sflag, if_neg hf, S.leaves_eq, e4]

/-! ## The traversal -/

theorem length_le_of_lt {l : List Nat} {n : Nat} (hnd : l.Nodup) (hlt : ∀ v ∈ l, v < n) :
    l.length ≤ n := by
  have h := (List.subperm_of_subset hnd (fun v hv => List.mem_range.mpr (hlt v hv))).length_le
  rw [List.length_range] at h
  exact h

/-- The loop `while (que.size())` ends when it gets more passes than there
are vertices left to visit, and its invariant holds at the end. -/
theorem bfs_spec {T : tree_t} {root : Nat} {d par : Nat → Nat} (H : Rooted T root d par) :
    ∀ (fuel : Nat) (R : Tree) (D Q : List Nat), BInv T root d par R D Q →
      T.n.toNat - D.length < fuel →
      ∃ R1 D1, bfs fuel R (Q.map Nat.cast) = .ok R1 ∧ BInv T root d par R1 D1 [] := by
  intro fuel
  induction fuel with
  | zero => intro R D Q _ h; omega
  | succ fuel ih =>
    intro R D Q I hf
    cases Q with
    | nil => exact ⟨R, D, rfl, I⟩
    | cons a Q =>
      obtain ⟨R1, Q1, r1, I1⟩ := visit_spec H I
      have hlen := length_le_of_lt I.nodup I.lt
      rw [List.length_append, List.length_cons] at hlen
      obtain ⟨R2, D2, r2, I2⟩ := ih R1 (D ++ [a]) Q1 I1 (by
        rw [List.length_append, List.length_singleton]; omega)
      refine ⟨R2, D2, ?_, I2⟩
      rw [List.map_cons, bfs]
      simp only [r1, Util.ok_bind, r2]

/-- When the queue is empty every vertex was visited. -/
theorem bfs_all {T : tree_t} {root : Nat} {d par : Nat → Nat} (H : Rooted T root d par)
    {R : Tree} {D : List Nat} (I : BInv T root d par R D []) :
    ∀ v, v < T.n.toNat → v ∈ D := by
  have key : ∀ (k v : Nat), d v = k → v < T.n.toNat → v ∈ D := by
    intro k
    induction k with
    | zero =>
      intro v hd hv
      have hr : v = root := by
        by_contra c
        have := H.par_d v hv c
        omega
      have := (I.mem v hv).mpr (Or.inl hr)
      rw [List.append_nil] at this
      exact this
    | succ k ih =>
      intro v hd hv
      have hr : v ≠ root := by
        intro c
        rw [c, H.d_root] at hd
        omega
      have hp := ih (par v) (by have := H.par_d v hv hr; omega) (H.par_lt v hv hr)
      have := (I.mem v hv).mpr (Or.inr ⟨hr, hp⟩)
      rw [List.append_nil] at this
      exact this
  exact fun v hv => key (d v) v rfl hv

/-- The state in which the constructor enters the traversal. -/
theorem bfs_start {T : tree_t} {root : Nat} {d par : Nat → Nat} (H : Rooted T root d par)
    {R : Tree} (hn : R.n = T.n) (hroot : R.root = root) (hadj : AdjOK T R.edges)
    (hlen : R.nodes.length = T.n.toNat) (horder : R.dep_order = []) (hleaves : R.leaves = [])
    (hfresh : ∀ v, v < T.n.toNat → (nd R v).dep = -1 ∧ (nd R v).childs = [] ∧
      (nd R v).subtree_n = 1 ∧ (nd R v).parent = -1) :
    BInv T root d par R [] [root] := by
  refine ⟨hn, hroot, hadj, hlen, horder, by simp, ?_, ?_, by simp, ?_, ?_, ?_, ?_, ?_, ?_, ?_⟩
  · intro v hv
    simp at hv
    rw [hv]; exact H.root_lt
  · intro v _
    simp
  · intro x hx q hq
    simp at hx hq
    rw [hx, hq]; omega
  · intro v hv; simp at hv
  · intro v hv; simp at hv
  · intro v hv; simp at hv
  · intro v hv _
    obtain ⟨h1, h2, _, h4⟩ := hfresh v hv
    exact ⟨h1, h2, h4⟩
  · intro v hv
    exact (hfresh v hv).2.2.1
  · exact ⟨[], by rw [hleaves]; rfl, by simp⟩

/-! ## The sizes of the subtrees -/

theorem desc_trans {par : Nat → Nat} {root v c u : Nat} (h1 : Desc par root c u)
    (h2 : Desc par root v c) : Desc par root v u := by
  induction h1 with
  | self => exact h2
  | step hu _ ih => exact Desc.step hu ih

theorem desc_le {T : tree_t} {root : Nat} {d par : Nat → Nat} (H : Rooted T root d par)
    {c u : Nat} (h : Desc par root c u) : u < T.n.toNat → d c ≤ d u := by
  induction h with
  | self => intro _; exact le_refl _
  | step hu _ ih =>
    intro hlt
    have := ih (H.par_lt _ hlt hu)
    have := H.par_d _ hlt hu
    omega

/-- A vertex below `v` other than `v` lies below a child of `v`. -/
theorem desc_child {T : tree_t} {root : Nat} {d par : Nat → Nat} (H : Rooted T root d par)
    {v u : Nat} (h : Desc par root v u) : u < T.n.toNat →
      u = v ∨ ∃ c, (c < T.n.toNat ∧ c ≠ root ∧ par c = v) ∧ Desc par root c u := by
  induction h with
  | self => intro _; exact Or.inl rfl
  | @step u hu _ ih =>
    intro hlt
    rcases ih (H.par_lt _ hlt hu) with e | ⟨c, hc, hD⟩
    · exact Or.inr ⟨u, ⟨hlt, hu, e⟩, Desc.self⟩
    · exact Or.inr ⟨c, hc, Desc.step hu hD⟩

/-- A vertex has one ancestor at each depth. -/
theorem desc_unique {T : tree_t} {root : Nat} {d par : Nat → Nat} (H : Rooted T root d par)
    {c c1 u : Nat} (h : Desc par root c u) :
    u < T.n.toNat → Desc par root c1 u → d c = d c1 → c = c1 := by
  induction h with
  | self =>
    intro hlt h1 hd
    rcases desc_inv h1 with e | ⟨hu, h2⟩
    · exact e
    · have := desc_le H h2 (H.par_lt _ hlt hu)
      have := H.par_d _ hlt hu
      omega
  | @step u hu h0 ih =>
    intro hlt h1 hd
    rcases desc_inv h1 with e | ⟨_, h2⟩
    · have h3 := desc_le H h0 (H.par_lt _ hlt hu)
      have h4 := H.par_d _ hlt hu
      rw [← e] at hd
      omega
    · exact ih (H.par_lt _ hlt hu) h2 hd

theorem desc_root {T : tree_t} {root : Nat} {d par : Nat → Nat} (H : Rooted T root d par) :
    ∀ u, u < T.n.toNat → Desc par root root u := by
  have key : ∀ (k u : Nat), d u = k → u < T.n.toNat → Desc par root root u := by
    intro k
    induction k with
    | zero =>
      intro u hd hu
      have hr : u = root := by
        by_contra c
        have := H.par_d u hu c
        omega
      rw [hr]; exact Desc.self
    | succ k ih =>
      intro u hd hu
      have hr : u ≠ root := by
        intro c
        rw [c, H.d_root] at hd
        omega
      exact Desc.step hr (ih (par u) (by have := H.par_d u hu hr; omega) (H.par_lt u hu hr))
  exact fun u hu => key (d u) u rfl hu

/-- The number of vertices in the subtree of a vertex: it is one more than
the sum of the numbers for its children, and the subtree of the root has all
vertices. -/
theorem size_exists {T : tree_t} {root : Nat} {d par : Nat → Nat}
    (H : Rooted T root d par) :
    ∃ sz : Nat → Nat, (∀ v, sz v = Set.ncard {u | u < T.n.toNat ∧ Desc par root v u}) ∧
      (∀ v, v < T.n.toNat → ∀ cs : List Nat, cs.Nodup →
        (∀ u, u ∈ cs ↔ (u < T.n.toNat ∧ u ≠ root ∧ par u = v)) →
        sz v = 1 + (cs.map sz).sum) ∧
      sz root = T.n.toNat ∧ ∀ v, v < T.n.toNat → 1 ≤ sz v := by
  classical
  let F : Nat → Finset Nat := fun v =>
    (Finset.range T.n.toNat).filter (fun u => Desc par root v u)
  have hF : ∀ v u, u ∈ F v ↔ (u < T.n.toNat ∧ Desc par root v u) := by
    intro v u
    show u ∈ (Finset.range T.n.toNat).filter _ ↔ _
    rw [Finset.mem_filter, Finset.mem_range]
  have hset : ∀ v, {u | u < T.n.toNat ∧ Desc par root v u} = ((F v : Finset Nat) : Set Nat) := by
    intro v
    ext u
    rw [Finset.mem_coe, hF]
    rfl
  have hsz : ∀ v, Set.ncard {u | u < T.n.toNat ∧ Desc par root v u} = (F v).card := by
    intro v
    rw [hset, Set.ncard_coe_Finset]
  refine ⟨fun v => Set.ncard {u | u < T.n.toNat ∧ Desc par root v u}, fun _ => rfl, ?_, ?_, ?_⟩
  · intro v hv cs hnd hcs
    show Set.ncard _ = 1 + (cs.map (fun v => Set.ncard _)).sum
    simp only [hsz]
    have hdecomp : F v = insert v (cs.toFinset.biUnion F) := by
      ext u
      rw [hF, Finset.mem_insert, Finset.mem_biUnion]
      constructor
      · rintro ⟨hu, hD⟩
        rcases desc_child H hD hu with e | ⟨c, hc, hDc⟩
        · exact Or.inl e
        · exact Or.inr ⟨c, List.mem_toFinset.mpr ((hcs c).mpr hc), (hF c u).mpr ⟨hu, hDc⟩⟩
      · rintro (e | ⟨c, hc, hu⟩)
        · rw [e]; exact ⟨hv, Desc.self⟩
        · obtain ⟨h1, h2, h3⟩ := (hcs c).mp (List.mem_toFinset.mp hc)
          obtain ⟨hu1, hu2⟩ := (hF c u).mp hu
          refine ⟨hu1, desc_trans hu2 (Desc.step h2 ?_)⟩
          rw [h3]; exact Desc.self
    have hv_out : v ∉ cs.toFinset.biUnion F := by
      rw [Finset.mem_biUnion]
      rintro ⟨c, hc, hu⟩
      obtain ⟨h1, h2, h3⟩ := (hcs c).mp (List.mem_toFinset.mp hc)
      have := desc_le H ((hF c v).mp hu).2 hv
      have := H.par_d c h1 h2
      rw [h3] at this
      omega
    have hdisj : ∀ x ∈ cs.toFinset, ∀ y ∈ cs.toFinset, x ≠ y → Disjoint (F x) (F y) := by
      intro x hx y hy hne
      rw [Finset.disjoint_left]
      intro u hux huy
      obtain ⟨x1, x2, x3⟩ := (hcs x).mp (List.mem_toFinset.mp hx)
      obtain ⟨y1, y2, y3⟩ := (hcs y).mp (List.mem_toFinset.mp hy)
      obtain ⟨hu, hDx⟩ := (hF x u).mp hux
      obtain ⟨_, hDy⟩ := (hF y u).mp huy
      apply hne
      refine desc_unique H hDx hu hDy ?_
      rw [H.par_d x x1 x2, H.par_d y y1 y2, x3, y3]
    rw [hdecomp, Finset.card_insert_of_not_mem hv_out, Finset.card_biUnion hdisj,
      List.sum_toFinset _ hnd]
    omega
  · show Set.ncard _ = _
    rw [hsz]
    have : F root = Finset.range T.n.toNat := by
      ext u
      rw [hF, Finset.mem_range]
      exact ⟨fun h => h.1, fun h => ⟨h, desc_root H u h⟩⟩
    rw [this, Finset.card_range]
  · intro v hv
    show 1 ≤ Set.ncard _
    rw [hsz]
    exact Finset.card_pos.mpr ⟨v, (hF v v).mpr ⟨hv, Desc.self⟩⟩

theorem same_refl (R : Tree) : Same R R :=
  ⟨rfl, rfl, rfl, rfl, rfl, rfl, fun _ => rfl, fun _ => rfl, fun _ => rfl⟩

theorem same_trans {R0 R1 R2 : Tree} (h1 : Same R0 R1) (h2 : Same R1 R2) : Same R0 R2 :=
  ⟨h2.n_eq.trans h1.n_eq, h2.root_eq.trans h1.root_eq, h2.edges_eq.trans h1.edges_eq,
    h2.order_eq.trans h1.order_eq, h2.leaves_eq.trans h1.leaves_eq, h2.len.trans h1.len,
    fun v => (h2.childs v).trans (h1.childs v), fun v => (h2.dep v).trans (h1.dep v),
    fun v => (h2.parent v).trans (h1.parent v)⟩

/-- The loop over `nodes[a].childs`: it adds the members `subtree_n` of the
children `cs` of `a` to that of `a`. -/
theorem gather_loop {R0 : Tree} {a : Nat} {cs : List Nat} (ha : a < R0.nodes.length)
    (hcs : (nd R0 a).childs = cs.map Nat.cast)
    (hlt : ∀ c ∈ cs, c < R0.nodes.length ∧ c ≠ a) :
    ∃ R1, Util.Loop cs.length (gather a) R0 = .ok R1 ∧ Same R0 R1 ∧
      (∀ v, v ≠ a → nd R1 v = nd R0 v) ∧
      (nd R1 a).subtree_n = (nd R0 a).subtree_n + (cs.map (fun c => (nd R0 c).subtree_n)).sum := by
  obtain ⟨R1, r, S, ho, hs⟩ := Util.loop_inv
    (fun (j : Nat) (R : Tree) => Same R0 R ∧ (∀ v, v ≠ a → nd R v = nd R0 v) ∧
      (nd R a).subtree_n =
        (nd R0 a).subtree_n + ((cs.take j).map (fun c => (nd R0 c).subtree_n)).sum)
    (gather a) cs.length R0 ⟨same_refl R0, fun _ _ => rfl, by simp⟩
    (by
      intro j R hj ⟨S, ho, hs⟩
      have hal : a < R.nodes.length := by rw [S.len]; exact ha
      have hb : cs.getD j 0 ∈ cs := by
        rw [List.getD_eq_getElem _ _ hj]
        exact List.getElem_mem _
      obtain ⟨hbl, hba⟩ := hlt _ hb
      have hch : (nd R a).childs = cs.map Nat.cast := by rw [S.childs, hcs]
      have hrd : Util.rd (nd R a).childs (j : Int) = .ok ((cs.getD j 0 : Nat) : Int) := by
        rw [hch, Util.rd_getD _ j 0 (by rw [List.length_map]; exact hj)]
        exact congrArg Except.ok (List.getD_map cs 0 (n := j) Nat.cast)
      refine ⟨setNodes R (R.nodes.set a (withSub (nd R a) (nd R (cs.getD j 0)).subtree_n)),
        ?_, ?_, ?_, ?_⟩
      · unfold gather
        rw [rd_nd R a hal]
        simp only [Util.ok_bind, hrd]
        rw [rd_nd R _ (by rw [S.len]; exact hbl)]
        simp only [Util.ok_bind]
        have w := Util.wr_ok R.nodes a (withSub (nd R a) (nd R (cs.getD j 0)).subtree_n) hal
        simp only [withSub] at w ⊢
        rw [w]
        rfl
      · refine same_trans S ⟨rfl, rfl, rfl, rfl, rfl, ?_, ?_, ?_, ?_⟩
        · show (R.nodes.set a _).length = _
          rw [List.length_set]
        · intro v
          rw [nd_put R a v _ hal]
          by_cases c : v = a
          · rw [if_pos c, c]; rfl
          · rw [if_neg c]
        · intro v
          rw [nd_put R a v _ hal]
          by_cases c : v = a
          · rw [if_pos c, c]; rfl
          · rw [if_neg c]
        · intro v
          rw [nd_put R a v _ hal]
          by_cases c : v = a
          · rw [if_pos c, c]; rfl
          · rw [if_neg c]
      · intro v hv
        rw [nd_put R a v _ hal, if_neg hv]
        exact ho v hv
      · rw [nd_put R a a _ hal, if_pos rfl, take_snoc cs j hj]
        show (nd R a).subtree_n + (nd R (cs.getD j 0)).subtree_n = _
        rw [hs, ho _ hba]
        simp
        ring)
  rw [List.take_length] at hs
  exact ⟨R1, r, S, ho, hs⟩

theorem cast_sum (f : Nat → Nat) (cs : List Nat) :
    (((cs.map f).sum : Nat) : Int) = (cs.map (fun c => (f c : Int))).sum := by
  induction cs with
  | nil => rfl
  | cons x xs ih => simp only [List.map_cons, List.sum_cons, Nat.cast_add, ih]

theorem drop_cons (D : List Nat) (k : Nat) (h : k < D.length) :
    D.drop k = D.getD k 0 :: D.drop (k + 1) := by
  rw [List.getD_eq_getElem _ _ h]
  exact List.drop_eq_getElem_cons h

/-- After the traversal the vertices in `dep_order` are all vertices. -/
theorem order_length {T : tree_t} {root : Nat} {d par : Nat → Nat} (H : Rooted T root d par)
    {R : Tree} {D : List Nat} (I : BInv T root d par R D []) : D.length = T.n.toNat := by
  have h1 := length_le_of_lt I.nodup I.lt
  rw [List.append_nil] at h1
  have h2 := (List.subperm_of_subset (List.nodup_range T.n.toNat)
    (fun v hv => bfs_all H I v (List.mem_range.mp hv))).length_le
  rw [List.length_range] at h2
  omega

/-- The loop `Loopr(i, n)` of `tree_construction`: every vertex gets the size
of its subtree. -/
theorem collect_loop {T : tree_t} {root : Nat} {d par : Nat → Nat} (H : Rooted T root d par)
    {RB : Tree} {D : List Nat} (I : BInv T root d par RB D []) (sz : Nat → Nat)
    (hsz : ∀ v, v < T.n.toNat → ∀ cs : List Nat, cs.Nodup →
      (∀ u, u ∈ cs ↔ (u < T.n.toNat ∧ u ≠ root ∧ par u = v)) → sz v = 1 + (cs.map sz).sum) :
    ∃ R1, Util.Loopr RB.n.toNat collect RB = .ok R1 ∧ Same RB R1 ∧
      ∀ v, v < T.n.toNat → (nd R1 v).subtree_n = sz v := by
  have hlen := order_length H I
  have hnd : D.Nodup := by have := I.nodup; rw [List.append_nil] at this; exact this
  have hsorted : D.Pairwise (fun x y => d x ≤ d y) := by
    have := I.sorted; rw [List.append_nil] at this; exact this
  have hD : ∀ v ∈ D, v < T.n.toNat := fun v hv => I.lt v (List.mem_append_left _ hv)
  obtain ⟨R1, r, S, h1, _⟩ := Util.loopr_inv
    (fun (k : Nat) (R : Tree) => Same RB R ∧
      (∀ v ∈ D.drop k, (nd R v).subtree_n = sz v) ∧
      (∀ v ∈ D.take k, (nd R v).subtree_n = 1))
    collect RB.n.toNat RB
    ⟨same_refl RB, by
      intro v hv
      rw [I.n_eq, ← hlen, List.drop_length] at hv
      simp at hv, fun v hv => I.sub v (hD v (List.mem_of_mem_take hv))⟩
    (by
      intro k R hk ⟨S, hdone, htodo⟩
      rw [I.n_eq] at hk
      have hkl : k < D.length := by rw [hlen]; exact hk
      have ha : D.getD k 0 ∈ D := by
        rw [List.getD_eq_getElem _ _ hkl]
        exact List.getElem_mem _
      have haN := hD _ ha
      obtain ⟨cs, hcs, hcsnd, hcsm⟩ := I.childs _ ha
      have hsplit : D = D.take k ++ D.getD k 0 :: D.drop (k + 1) := by
        rw [← drop_cons D k hkl, List.take_append_drop]
      have hnd2 := hnd
      rw [hsplit] at hnd2
      have hsorted2 := hsorted
      rw [hsplit] at hsorted2
      have hnd3 := List.nodup_append.mp hnd2
      have hat : D.getD k 0 ∉ D.take k := fun c => hnd3.2.2 c (List.mem_cons_self _ _)
      have had : D.getD k 0 ∉ D.drop (k + 1) := (List.nodup_cons.mp hnd3.2.1).1
      have hcd : ∀ c ∈ cs, d c = d (D.getD k 0) + 1 := by
        intro c hc
        obtain ⟨c1, c2, c3⟩ := (hcsm c).mp hc
        rw [H.par_d c c1 c2, c3]
      have hcdrop : ∀ c ∈ cs, c ∈ D.drop (k + 1) := by
        intro c hc
        obtain ⟨c1, c2, c3⟩ := (hcsm c).mp hc
        have hcD := bfs_all H I c c1
        rw [hsplit, List.mem_append, List.mem_cons] at hcD
        rcases hcD with h | h | h
        · have := (List.pairwise_append.mp hsorted2).2.2 c h _ (List.mem_cons_self _ _)
          have := hcd c hc
          omega
        · have := hcd c hc
          rw [h] at this
          omega
        · exact h
      have hal : D.getD k 0 < R.nodes.length := by rw [S.len, I.len]; exact haN
      obtain ⟨R1, r1, S1, ho, hs⟩ := @gather_loop R (D.getD k 0) cs hal
        (by rw [S.childs, hcs]) (by
          intro c hc
          obtain ⟨c1, c2, c3⟩ := (hcsm c).mp hc
          refine ⟨by rw [S.len, I.len]; exact c1, fun e => ?_⟩
          have := hcd c hc
          rw [e] at this
          omega)
      refine ⟨R1, ?_, same_trans S S1, ?_, ?_⟩
      · unfold collect
        rw [S.order_eq, I.order, Util.rd_getD _ k 0 (by rw [List.length_map]; exact hkl)]
        have e : (List.map Nat.cast D).getD k (0 : Int) = ((D.getD k 0 : Nat) : Int) :=
          List.getD_map D 0 (n := k) Nat.cast
        simp only [Util.ok_bind, e]
        rw [rd_nd R _ hal]
        simp only [Util.ok_bind]
        rw [S.childs, hcs, List.length_map]
        exact r1
      · intro v hv
        rw [drop_cons D k hkl, List.mem_cons] at hv
        rcases hv with h | h
        · rw [h, hs, htodo _ (by rw [take_snoc D k hkl]; simp),
            hsz _ haN cs hcsnd hcsm]
          have : cs.map (fun c => (nd R c).subtree_n) = cs.map (fun c => ((sz c : Nat) : Int)) :=
            List.map_congr_left (fun c hc => hdone c (hcdrop c hc))
          rw [this, Nat.cast_add, Nat.cast_one, cast_sum]
        · rw [ho v (fun e => had (e ▸ h))]
          exact hdone v h
      · intro v hv
        rw [ho v (fun e => hat (e ▸ hv))]
        exact htodo v (by rw [take_snoc D k hkl]; exact List.mem_append_left _ hv))
  refine ⟨R1, r, S, fun v hv => h1 v ?_⟩
  rw [List.drop_zero]
  exact bfs_all H I v hv

/-! ## The constructor -/

/-- The constructor on a tree, in terms of a rooted form of the tree and of
the sizes `sz` of the subtrees: it returns an object whose `dep_order` lists
all vertices by depth, and whose nodes have their depths, parents, children
and subtree sizes. -/
theorem tree_new_spec {T : tree_t} (hi : IsTreeInput T) {root : Nat} {d par : Nat → Nat}
    (H : Rooted T root d par) (sz : Nat → Nat)
    (hsz : ∀ v, v < T.n.toNat → ∀ cs : List Nat, cs.Nodup →
      (∀ u, u ∈ cs ↔ (u < T.n.toNat ∧ u ≠ root ∧ par u = v)) → sz v = 1 + (cs.map sz).sum) :
    ∃ (R : Tree) (D : List Nat), Tree.new T root = .ok R ∧ R.dep_order = D.map Nat.cast ∧
      D.Perm (List.range T.n.toNat) ∧ D.Pairwise (fun x y => d x ≤ d y) ∧
      (∀ v, v < T.n.toNat → (nd R v).dep = d v ∧
        (nd R v).parent = (if v = root then -1 else (par v : Int)) ∧
        (nd R v).subtree_n = sz v ∧
        ∃ cs : List Nat, (nd R v).childs = cs.map Nat.cast ∧ cs.Nodup ∧
          ∀ u, u ∈ cs ↔ (u < T.n.toNat ∧ u ≠ root ∧ par u = v)) ∧
      ∃ lv : List Nat, R.leaves = lv.map Nat.cast ∧
        ∀ u, u ∈ lv ↔ (u < T.n.toNat ∧ (nd R u).childs = []) := by
  have hn0 : 0 ≤ T.n := by have := hi.n_pos; omega
  obtain ⟨ns0, ns, rn0, rn, ln, hns⟩ := fill_spec T hn0
  obtain ⟨es0, es, re0, re, le, hes⟩ := link_spec T hn0 hi.edges_len hi.ends
  have hadj := adj_ok hi le hes
  have I0 : BInv T root d par
      { n := T.n, edges := es, nodes := ns, dep_order := [], leaves := [], root := root }
      [] [root] :=
    bfs_start H rfl rfl hadj ln rfl rfl hns
  obtain ⟨RB, D, rb, IB⟩ := bfs_spec H (T.n.toNat + 1) _ [] [root] I0 (by simp)
  obtain ⟨R1, r1, S, hsub⟩ := collect_loop H IB sz hsz
  have hall := bfs_all H IB
  have hnd : D.Nodup := by have := IB.nodup; rw [List.append_nil] at this; exact this
  have hsorted : D.Pairwise (fun x y => d x ≤ d y) := by
    have := IB.sorted; rw [List.append_nil] at this; exact this
  have hD : ∀ v ∈ D, v < T.n.toNat := fun v hv => IB.lt v (List.mem_append_left _ hv)
  refine ⟨R1, D, ?_, by rw [S.order_eq, IB.order], ?_, hsorted, ?_, ?_⟩
  · unfold Tree.new
    simp only [rn0, Util.ok_bind, rn, re0, re]
    unfold tree_construction
    have rb2 : bfs (T.n.toNat + 1)
        { n := T.n, edges := es, nodes := ns, dep_order := [], leaves := [], root := root }
        [(root : Int)] = .ok RB := rb
    simp only [rb2, Util.ok_bind]
    exact r1
  · rw [List.perm_ext_iff_of_nodup hnd (List.nodup_range _)]
    intro v
    rw [List.mem_range]
    exact ⟨hD v, hall v⟩
  · intro v hv
    have hvD := hall v hv
    refine ⟨by rw [S.dep, IB.dep v hvD], by rw [S.parent, IB.parent v hvD], hsub v hv, ?_⟩
    obtain ⟨cs, h1, h2, h3⟩ := IB.childs v hvD
    exact ⟨cs, by rw [S.childs, h1], h2, h3⟩
  · obtain ⟨lv, h1, h2⟩ := IB.leaves
    refine ⟨lv, by rw [S.leaves_eq, h1], ?_⟩
    intro u
    rw [h2, S.childs]
    constructor
    · rintro ⟨a, b⟩
      exact ⟨hD u a, b⟩
    · rintro ⟨a, b⟩
      exact ⟨hall u a, b⟩

/-- C11: for an input `T` that is a tree on `n ≥ 1` nodes and every root `r`
in `[0, n)`, the constructor `Tree(T, r)` returns an object whose `dep_order`
is a permutation of `0, ..., n - 1` sorted by non-decreasing `nodes[v].dep`;
for every vertex `v`, `nodes[v].dep` is the number of edges of the path from
`v` to the root, and `nodes[v].parent` is the second vertex of that path, or
`-1` for the root. -/
theorem C11_traversal_order (T : tree_t) (hi : IsTreeInput T) (r : Fin T.n.toNat) :
    ∃ R, Tree.new T ((r : Nat) : Int) = .ok R ∧
      R.dep_order.Perm ((List.range T.n.toNat).map Nat.cast) ∧
      (R.dep_order.map (fun x => (nd R x.toNat).dep)).Sorted (fun x y => x ≤ y) ∧
      ∀ (v : Fin T.n.toNat) (p : (graphOf T).Walk v r), p.IsPath →
        (nd R v).dep = p.length ∧
        (nd R v).parent =
          if v = r then -1 else (((p.getVert 1 : Fin T.n.toNat) : Nat) : Int) := by
  obtain ⟨d, par, HR, hwalk⟩ := rooted_of_tree hi r.2
  obtain ⟨sz, _, hsz, _, _⟩ := size_exists HR
  obtain ⟨R, D, run, hord, hperm, hsorted, hnodes, _⟩ := tree_new_spec hi HR sz hsz
  have hD : ∀ v ∈ D, v < T.n.toNat := fun v hv => List.mem_range.mp (hperm.subset hv)
  refine ⟨R, run, ?_, ?_, ?_⟩
  · rw [hord]
    exact hperm.map _
  · rw [hord, List.map_map]
    show List.Pairwise _ _
    rw [List.pairwise_map]
    refine hsorted.imp_of_mem ?_
    intro x y hx hy hxy
    show (nd R ((x : Int)).toNat).dep ≤ (nd R ((y : Int)).toNat).dep
    rw [Int.toNat_ofNat, Int.toNat_ofNat, (hnodes x (hD x hx)).1, (hnodes y (hD y hy)).1]
    exact_mod_cast hxy
  · intro v p hp
    obtain ⟨h1, h2, _⟩ := hwalk v p hp
    obtain ⟨e1, e2, _⟩ := hnodes v v.2
    refine ⟨by rw [e1, h1], ?_⟩
    rw [e2]
    by_cases c : v = r
    · rw [if_pos c, if_pos (congrArg Fin.val c)]
    · have c2 : (v : Nat) ≠ r := fun e => c (Fin.ext e)
      rw [if_neg c, if_neg c2, h2 c2]

/-- C12: for an input `T` that is a tree on `n ≥ 1` nodes and every root `r`
in `[0, n)`, after `Tree(T, r)` the member `nodes[v].subtree_n` is the number
of vertices whose path to the root goes through `v` (the subtree of `v`), for
every vertex `v`; `nodes[r].subtree_n` is `n`, and `subtree_n` is `1` exactly
for the vertices listed in `leaves`. -/
theorem C12_subtree_sizes (T : tree_t) (hi : IsTreeInput T) (r : Fin T.n.toNat) :
    ∃ R, Tree.new T ((r : Nat) : Int) = .ok R ∧
      (∀ v : Fin T.n.toNat, (nd R v).subtree_n =
        Set.ncard {u : Fin T.n.toNat | ∃ p : (graphOf T).Walk u r, p.IsPath ∧ v ∈ p.support}) ∧
      (nd R r).subtree_n = T.n ∧
      ∀ v : Fin T.n.toNat, ((nd R v).subtree_n = 1 ↔ (((v : Nat) : Int)) ∈ R.leaves) := by
  obtain ⟨d, par, HR, hwalk⟩ := rooted_of_tree hi r.2
  obtain ⟨sz, hszdef, hsz, hszroot, hszpos⟩ := size_exists HR
  obtain ⟨R, D, run, _, _, _, hnodes, lv, hlv, hlvm⟩ := tree_new_spec hi HR sz hsz
  have hn := hi.n_pos
  refine ⟨R, run, ?_, ?_, ?_⟩
  · intro v
    rw [(hnodes v v.2).2.2.1, hszdef]
    congr 1
    have hset : {u : Fin T.n.toNat | ∃ p : (graphOf T).Walk u r, p.IsPath ∧ v ∈ p.support} =
        {u : Fin T.n.toNat | Desc par r v u} := by
      ext u
      constructor
      · rintro ⟨p, hp, hv⟩
        exact ((hwalk u p hp).2.2 v).mp hv
      · intro hD
        obtain ⟨p, hp, _⟩ := hi.tree.existsUnique_path u r
        exact ⟨p, hp, ((hwalk u p hp).2.2 v).mpr hD⟩
    rw [hset, ← Set.ncard_image_of_injective _ Fin.val_injective]
    congr 1
    ext u
    simp only [Set.mem_image, Set.mem_setOf_eq]
    constructor
    · rintro ⟨h1, h2⟩
      exact ⟨⟨u, h1⟩, h2, rfl⟩
    · rintro ⟨w, h1, rfl⟩
      exact ⟨w.2, h1⟩
  · rw [(hnodes r r.2).2.2.1, hszroot]
    omega
  · intro v
    obtain ⟨_, _, e3, cs, hcs, hcsnd, hcsm⟩ := hnodes v v.2
    have hmem : (((v : Nat) : Int)) ∈ R.leaves ↔ cs = [] := by
      rw [hlv, List.mem_map]
      constructor
      · rintro ⟨u, hu, e⟩
        have : u = v := by exact_mod_cast e
        rw [this, hlvm, hcs] at hu
        exact List.map_eq_nil_iff.mp hu.2
      · intro e
        refine ⟨v, (hlvm v).mpr ⟨v.2, ?_⟩, rfl⟩
        rw [hcs, e]; rfl
    rw [hmem, e3, hsz v v.2 cs hcsnd hcsm]
    constructor
    · intro h
      cases cs with
      | nil => rfl
      | cons c cs =>
        exfalso
        have hc := hszpos c ((hcsm c).mp (List.mem_cons_self _ _)).1
        rw [List.map_cons, List.sum_cons] at h
        have : (1 + (sz c + (cs.map sz).sum) : Nat) = 1 := by exact_mod_cast h
        omega
    · intro e
      rw [e]; rfl

/-- The input `path3` is a tree. -/
theorem path3_tree : IsTreeInput path3 := by
  have a10 : (graphOf path3).Adj ⟨1, by decide⟩ ⟨0, by decide⟩ :=
    ⟨by decide, Or.inl (by decide)⟩
  have a12 : (graphOf path3).Adj ⟨1, by decide⟩ ⟨2, by decide⟩ :=
    ⟨by decide, Or.inl (by decide)⟩
  refine ⟨by decide, by decide, by decide, ?_, ?_⟩
  · have hc : ∀ u : Fin path3.n.toNat, (graphOf path3).Reachable u ⟨1, by decide⟩ := by
      rintro ⟨i, hi⟩
      have hi3 : i < 3 := hi
      interval_cases i
      · exact a10.symm.reachable
      · exact SimpleGraph.Reachable.refl _
      · exact a12.symm.reachable
    exact { preconnected := fun u v => (hc u).trans (hc v).symm, nonempty := ⟨⟨0, by decide⟩⟩ }
  · intro v c hc
    have h3 := hc.three_le_length
    have hnd := hc.isCircuit.isTrail.edges_nodup
    have hsub : c.edges ⊆ [s(⟨1, by decide⟩, ⟨0, by decide⟩), s(⟨1, by decide⟩, ⟨2, by decide⟩)] := by
      intro e he
      have hE := c.edges_subset_edgeSet he
      induction e using Sym2.ind with
      | _ x y =>
        rw [SimpleGraph.mem_edgeSet] at hE
        obtain ⟨_, hm⟩ := hE
        have hx : ∀ (z : Fin path3.n.toNat) (k : Nat) (hk : k < path3.n.toNat),
            ((z : Nat) : Int) = (k : Int) → z = ⟨k, hk⟩ := by
          intro z k hk e
          exact Fin.ext (by exact_mod_cast e)
        simp only [path3, List.mem_cons, Prod.mk.injEq, List.mem_singleton, List.not_mem_nil,
          or_false] at hm
        rcases hm with (⟨h1, h2⟩ | ⟨h1, h2⟩) | (⟨h1, h2⟩ | ⟨h1, h2⟩)
        · rw [hx x 1 (by decide) h1, hx y 0 (by decide) h2]; simp
        · rw [hx x 1 (by decide) h1, hx y 2 (by decide) h2]; simp
        · rw [hx y 1 (by decide) h1, hx x 0 (by decide) h2, Sym2.eq_swap]; simp
        · rw [hx y 1 (by decide) h1, hx x 2 (by decide) h2, Sym2.eq_swap]; simp
    have := (List.subperm_of_subset hnd hsub).length_le
    rw [SimpleGraph.Walk.length_edges] at this
    simp at this
    omega

/-- The path `0 - 1 - 2` with the root `0`: the traversal visits `0, 1, 2`,
with depths `0, 1, 2` and parents `-1, 0, 1`. -/
theorem C11_witness :
    summary path3 0 = ([0, 1, 2], [2], [(0, -1, 3), (1, 0, 2), (2, 1, 1)]) ∧
    ∃ R, Tree.new path3 (((⟨0, by decide⟩ : Fin path3.n.toNat) : Nat) : Int) = .ok R ∧
      R.dep_order.Perm ((List.range path3.n.toNat).map Nat.cast) ∧
      (R.dep_order.map (fun x => (nd R x.toNat).dep)).Sorted (fun x y => x ≤ y) ∧
      ∀ (v : Fin path3.n.toNat) (p : (graphOf path3).Walk v ⟨0, by decide⟩), p.IsPath →
        (nd R v).dep = p.length ∧
        (nd R v).parent =
          if v = ⟨0, by decide⟩ then -1 else (((p.getVert 1 : Fin path3.n.toNat) : Nat) : Int) :=
  ⟨by decide, C11_traversal_order path3 path3_tree ⟨0, by decide⟩⟩

/-- The path `0 - 1 - 2` with the root `1`: the subtrees of `0` and `2` have
one vertex each and are the leaves, and the subtree of `1` has all three. -/
theorem C12_witness :
    summary path3 1 = ([1, 0, 2], [0, 2], [(1, 1, 1), (0, -1, 3), (1, 1, 1)]) ∧
    ∃ R, Tree.new path3 (((⟨1, by decide⟩ : Fin path3.n.toNat) : Nat) : Int) = .ok R ∧
      (∀ v : Fin path3.n.toNat, (nd R v).subtree_n =
        Set.ncard {u : Fin path3.n.toNat |
          ∃ p : (graphOf path3).Walk u ⟨1, by decide⟩, p.IsPath ∧ v ∈ p.support}) ∧
      (nd R ((⟨1, by decide⟩ : Fin path3.n.toNat) : Nat)).subtree_n = path3.n ∧
      ∀ v : Fin path3.n.toNat, ((nd R v).subtree_n = 1 ↔ (((v : Nat) : Int)) ∈ R.leaves) :=
  ⟨by decide, C12_subtree_sizes path3 path3_tree ⟨1, by decide⟩⟩

end TreeSimple

namespace SuffixTree26

/-- The function `split` is `splitMoved` followed by the assignment of line
41, `cur->parent = branch`. -/
theorem split_mid (T : SuffixTree26) (cur : Nat) (k : Int) :
    T.split cur k = (do
      let c ← T.deref (some cur)
      if k < c.r - c.l then do
        let (T4, branch) ← T.splitMoved cur k
        let T5 ← T4.modify cur (fun v => { v with parent := some branch })
        pure (T5, branch)
      else pure (T, cur)) := by
  unfold split splitMoved splitLinked
  cases h : T.deref (some cur) with
  | error e => rfl
  | ok c =>
    by_cases hk : k < c.r - c.l
    · simp only [Util.ok_bind, hk, if_true, bind_assoc, pure_bind]
      refine bind_congr (fun p => ?_)
      refine bind_congr (fun ch => ?_)
      refine bind_congr (fun x => ?_)
      refine bind_congr (fun T2 => ?_)
      refine bind_congr (fun b => ?_)
      cases b.parent with
      | none => rfl
      | some q => simp only [pure_bind, bind_assoc]
    · simp only [Util.ok_bind, hk, if_false]

theorem midAt_ok {α : Type} {s : List Char} {j : Nat} {f : SuffixTree26 → SuffixTree26 → α}
    {a : α} (h : midAt s j f = .ok a) :
    ∃ T3 T4, midAt s j Prod.mk = .ok (T3, T4) ∧ a = f T3 T4 := by
  unfold midAt at h ⊢
  repeat' split at h
  all_goals first
    | (cases h; exact ⟨_, _, rfl, rfl⟩)
    | cases h

/-- C19, the claim as stated fails inside `insert`: in the second iteration
for the text `aa`, after line 39 the leaf is reached from the root with the
string `aaa` while its `dep` is 2, and after line 40 its string is `aa` and
its `dep` is 2 while its parent is still the root, whose `dep` plus the length
`r - l` of the label is 1. -/
theorem C19_depth_fails_inside_insert :
    ∃ T3 T4, midAt ['a', 'a'] 1 Prod.mk = .ok (T3, T4) ∧
      (Reach T3 1 ['a', 'a', 'a'] ∧ (nd T3 1).dep = 2 ∧ ¬ DepOK T3) ∧
      (Reach T4 1 ['a', 'a'] ∧ (nd T4 1).dep = 2 ∧ (nd T4 1).parent = some T4.root ∧
        (nd T4 T4.root).dep + ((nd T4 1).r - (nd T4 1).l) = 1 ∧ ¬ DepOK T4) := by
  have h : midAt ['a', 'a'] 1 (fun T3 T4 => decide (
      (T3.root = 0 ∧ (nd T3 0).childs 0 = some 2 ∧ (nd T3 2).childs 0 = some 1 ∧
        label T3 2 = ['a'] ∧ label T3 1 = ['a', 'a'] ∧ (nd T3 1).dep = 2) ∧
      (T4.root = 0 ∧ (nd T4 0).childs 0 = some 2 ∧ (nd T4 2).childs 0 = some 1 ∧
        label T4 2 = ['a'] ∧ label T4 1 = ['a'] ∧ (nd T4 1).dep = 2 ∧
        (nd T4 1).parent = some 0 ∧ (nd T4 0).dep + ((nd T4 1).r - (nd T4 1).l) = 1))) =
      .ok true := by decide
  obtain ⟨T3, T4, hm, hd⟩ := midAt_ok h
  obtain ⟨⟨a1, a2, a3, a4, a5, a6⟩, b1, b2, b3, b4, b5, b6, b7, b8⟩ := of_decide_eq_true hd.symm
  have r3 : Reach T3 1 ['a', 'a', 'a'] := by
    have hr := Reach.root (T := T3)
    rw [a1] at hr
    have h2 := Reach.child hr (by decide : 0 < 26) a2
    have h1 := Reach.child h2 (by decide : 0 < 26) a3
    rw [a4, a5] at h1
    exact h1
  have r4 : Reach T4 1 ['a', 'a'] := by
    have hr := Reach.root (T := T4)
    rw [b1] at hr
    have h2 := Reach.child hr (by decide : 0 < 26) b2
    have h1 := Reach.child h2 (by decide : 0 < 26) b3
    rw [b4, b5] at h1
    exact h1
  refine ⟨T3, T4, hm, ⟨r3, a6, ?_⟩, r4, b6, by rw [b1]; exact b7, by rw [b1]; exact b8, ?_⟩
  · intro D
    have := (D.2 1 _ r3).1
    rw [a6] at this
    simp at this
  · intro D
    obtain ⟨p, hp, hd2⟩ := (D.2 1 _ r4).2.2 (by rw [b1]; decide)
    rw [b7] at hp
    injection hp with hp
    rw [← hp, b6] at hd2
    omega

end SuffixTree26
